import Mathlib

/-!
# EOL and keyword substitution (libsvn_subr/subst.c)

A shallow embedding of the translation engine of `subst.c`:
the keyword substitutor (`translate_keyword_subst`, `translate_keyword`),
the newline emitter (`translate_newline`) and the chunk transducer
(`translate_chunk`) with its baton, the two functions on EOL styles
(`svn_subst_eol_style_from_value`, `svn_subst_translation_required`), the
keyword set builder (`keyword_printf`, `svn_subst_build_keywords2`), the
translated stream, and the functions on files (`detranslate_special_file`,
`create_special_file`, `svn_subst_copy_and_translate3`,
`svn_subst_translate_to_normal_form`), followed by theorems about them.

Conventions of the embedding.

* A byte (`char`) is a natural number; byte strings are lists.
* A C buffer together with its "first unused offset" is the list of the
  bytes below that offset, so `keyword_off` is `keyword_buf.length`,
  `newline_off` is `newline_buf.length` and `src_format_len` is
  `src_format.length`.
* A C string argument is a list without its terminating NUL; functions of
  the C library that stop at a NUL (`strlen`, `strncmp`, `strncpy`,
  `strchr`) are modelled with that behaviour.
* The destination stream is an in-memory sink that accepts every write, so
  `translate_write` appends to the bytes written so far.
* `apr_size_t` arithmetic that can wrap is written with `size_sub`.
* A failed `assert` ends the process; it is the outcome `assertion_failed`.
* Macros of the build that come from headers outside the sources at hand
  (`APR_EOL_STR`, `APR_CHARSET_EBCDIC`, `SVN__STREAM_CHUNK_SIZE`) are
  parameters of the functions that use them.
* Functions of other files that the code calls are parameters (`keyword_helpers`,
  `host`) or small definitions written from the specification, each marked as
  such; the file system is the list of the nodes that exist with their paths.
-/

namespace Subst

/-- Bytes are modelled as natural numbers (the value of a C `char`). -/
abbrev Byte := Nat

/-- Modelled from the spec: the byte `$` (`SVN_UTF8_DOLLAR` of svn_ebcdic.h, not under src). -/
def SVN_UTF8_DOLLAR : Byte := 0x24
/-- Modelled from the spec: the byte `:` (`SVN_UTF8_COLON` of svn_ebcdic.h). -/
def SVN_UTF8_COLON : Byte := 0x3A
/-- Modelled from the spec: the space byte (`SVN_UTF8_SPACE` of svn_ebcdic.h). -/
def SVN_UTF8_SPACE : Byte := 0x20
/-- Modelled from the spec: the byte `#` (`SVN_UTF8_POUND` of svn_ebcdic.h). -/
def SVN_UTF8_POUND : Byte := 0x23
/-- Modelled from the spec: the byte CR (`SVN_UTF8_CR` of svn_ebcdic.h). -/
def SVN_UTF8_CR : Byte := 0x0D
/-- Modelled from the spec: the byte LF (`SVN_UTF8_NEWLINE` of svn_ebcdic.h). -/
def SVN_UTF8_NEWLINE : Byte := 0x0A
/-- Modelled from the spec: `KW_MAX` is fixed at 255 bytes (`SVN_KEYWORD_MAX_LEN` of svn_subst.h). -/
def SVN_KEYWORD_MAX_LEN : Nat := 255

/-- The modulus of `apr_size_t` arithmetic (a 64-bit `size_t`). -/
def SIZE_MOD : Nat := 2 ^ 64

/-- Unsigned subtraction `a - b` on `apr_size_t`, wrapping around below zero. -/
def size_sub (a b : Nat) : Nat := (a + SIZE_MOD - b % SIZE_MOD) % SIZE_MOD

/-- The bytes of an ASCII text, to write byte strings readably. -/
def ascii (s : String) : List Byte := s.toList.map Char.toNat

/-! ## C library functions -/

/-- The bytes of a C string: everything before the first NUL. -/
def cstr (s : List Byte) : List Byte := s.takeWhile (fun c => c != 0)

/-- C `strlen`. -/
def strlen (s : List Byte) : Nat := (cstr s).length

/-- C `strncmp`: compares at most `n` bytes and stops after a NUL; a read past
the end of a list yields the terminating NUL. The result is zero exactly when
the compared parts are equal. -/
def strncmp : List Byte → List Byte → Nat → Int
  | _, _, 0 => 0
  | a, b, n + 1 =>
    let x := a.headD 0
    let y := b.headD 0
    if x ≠ y then (x : Int) - (y : Int)
    else if x = 0 then 0
    else strncmp a.tail b.tail n

/-- C `strncpy`, as the `n` bytes it stores: the bytes of `src` up to its first
NUL, then NUL padding. -/
def strncpy (src : List Byte) (n : Nat) : List Byte :=
  (cstr src ++ List.replicate n 0).take n

/-- C `strchr (s, c) != NULL`: `c` occurs in the C string `s`, whose terminating
NUL counts as part of it. -/
def strchr (s : List Byte) (c : Byte) : Bool := c == 0 || (cstr s).contains c

/-! ## Memory writes into a buffer -/

/-- The assignment `buf[i] = c`. -/
def store (buf : List Byte) (i : Nat) (c : Byte) : List Byte :=
  buf.take i ++ c :: buf.drop (i + 1)

/-- Storing the bytes `src` at `buf + i` (the effect of a copy to `buf + i`). -/
def store_bytes (buf : List Byte) (i : Nat) (src : List Byte) : List Byte :=
  buf.take i ++ src ++ buf.drop (i + src.length)

/-- The loop `while (*buf_ptr != '$') *(buf_ptr++) = ' ';` run over the bytes
from `buf_ptr` on. -/
def fill_spaces : List Byte → List Byte
  | [] => []
  | c :: cs => if c = SVN_UTF8_DOLLAR then c :: cs else SVN_UTF8_SPACE :: fill_spaces cs

/-- The same loop started at `buf + i`. -/
def fill_spaces_from (buf : List Byte) (i : Nat) : List Byte :=
  buf.take i ++ fill_spaces (buf.drop i)

/-! ## Keyword sets -/

/-- A keyword hash (`apr_hash_t *` with string keys and `svn_string_t` values):
the stored keys with their values. -/
abbrev apr_hash_t := List (List Byte × List Byte)

/-- The call `apr_hash_get (h, key, APR_HASH_KEY_STRING)`: the key is read as a C string. -/
def apr_hash_get (h : apr_hash_t) (key : List Byte) : Option (List Byte) :=
  h.lookup (cstr key)

/-- The call `apr_hash_count`. -/
def apr_hash_count (h : apr_hash_t) : Nat := h.length

/-! ## The keyword substitutor -/

/-- The two assertions at the head of `translate_keyword_subst` and of
`translate_keyword`. -/
def good_stuffs (buf : List Byte) : Bool :=
  decide (buf.length ≤ SVN_KEYWORD_MAX_LEN)
    && (buf.head? == some SVN_UTF8_DOLLAR && buf.getLast? == some SVN_UTF8_DOLLAR)

/-- The function `translate_keyword_subst`. `buf` holds `*len` bytes; the result is
the returned boolean with the buffer cut at the new `*len`, or `none` when an
assertion fails. `value = none` is the NULL value (contract). The buffer is a
list, which grows when a store goes past its end: a result of more than
`SVN_KEYWORD_MAX_LEN` bytes stands for stores past the array `keyword_buf`
that `translate_chunk` passes, and what these stores do to the fields after
the array is not modelled. -/
def translate_keyword_subst (buf : List Byte) (keyword : List Byte) (keyword_len : Nat)
    (value : Option (List Byte)) : Option (Bool × List Byte) :=
  let len := buf.length
  if !good_stuffs buf then none
  else if len < keyword_len + 2 then some (false, buf)
  else if strncmp (buf.drop 1) keyword keyword_len ≠ 0 then some (false, buf)
  else
    let bp := 1 + keyword_len
    if buf.getD bp 0 = SVN_UTF8_COLON
        && buf.getD (bp + 1) 0 = SVN_UTF8_COLON
        && buf.getD (bp + 2) 0 = SVN_UTF8_SPACE
        && (buf.getD (len - 2) 0 = SVN_UTF8_SPACE || buf.getD (len - 2) 0 = SVN_UTF8_POUND)
        && decide (6 + keyword_len < len) then
      let max_value_len := len - (6 + keyword_len)
      match value with
      | none => some (true, fill_spaces_from buf (bp + 2))
      | some v =>
        if v.length ≤ max_value_len then
          let b1 := store_bytes buf (bp + 3) (strncpy v v.length)
          some (true, fill_spaces_from b1 (bp + 3 + v.length))
        else
          let b1 := store_bytes buf (bp + 3) (strncpy v max_value_len)
          let b2 := store b1 (len - 2) SVN_UTF8_POUND
          let b3 := store b2 (len - 1) SVN_UTF8_DOLLAR
          some (true, b3)
    else if buf.getD bp 0 = SVN_UTF8_DOLLAR
        || (buf.getD bp 0 = SVN_UTF8_COLON && buf.getD (bp + 1) 0 = SVN_UTF8_DOLLAR) then
      match value with
      | some v =>
        let b1 := store buf bp SVN_UTF8_COLON
        let b2 := store b1 (bp + 1) SVN_UTF8_SPACE
        if v.length ≠ 0 then
          let vallen :=
            if v.length > size_sub (SVN_KEYWORD_MAX_LEN - 5) keyword_len
            then size_sub (SVN_KEYWORD_MAX_LEN - 5) keyword_len else v.length
          let b3 := store_bytes b2 (bp + 2) (strncpy v vallen)
          let b4 := store b3 (bp + 2 + vallen) SVN_UTF8_SPACE
          let b5 := store b4 (bp + 2 + vallen + 1) SVN_UTF8_DOLLAR
          some (true, b5.take (5 + keyword_len + vallen))
        else
          let b3 := store b2 (bp + 2) SVN_UTF8_DOLLAR
          some (true, b3.take (4 + keyword_len))
      | none => some (true, buf)
    else if decide (len ≥ 4 + keyword_len)
        && buf.getD bp 0 = SVN_UTF8_COLON
        && buf.getD (bp + 1) 0 = SVN_UTF8_SPACE
        && buf.getD (len - 2) 0 = SVN_UTF8_SPACE then
      match value with
      | none =>
        let b1 := store buf bp SVN_UTF8_DOLLAR
        some (true, b1.take (2 + keyword_len))
      | some v =>
        let b1 := store buf bp SVN_UTF8_COLON
        let b2 := store b1 (bp + 1) SVN_UTF8_SPACE
        if v.length ≠ 0 then
          let vallen :=
            if v.length > SVN_KEYWORD_MAX_LEN - 5 then SVN_KEYWORD_MAX_LEN - 5 else v.length
          let b3 := store_bytes b2 (bp + 2) (strncpy v vallen)
          let b4 := store b3 (bp + 2 + vallen) SVN_UTF8_SPACE
          let b5 := store b4 (bp + 2 + vallen + 1) SVN_UTF8_DOLLAR
          some (true, b5.take (5 + keyword_len + vallen))
        else
          let b3 := store b2 (bp + 2) SVN_UTF8_DOLLAR
          some (true, b3.take (4 + keyword_len))
    else some (false, buf)

/-- The name loop of `translate_keyword`: the bytes `buf[1 ..]` while
`i < *len - 2` and the byte is not a colon. -/
def keyword_name (buf : List Byte) : List Byte :=
  ((buf.drop 1).take (size_sub buf.length 2)).takeWhile (fun c => c != SVN_UTF8_COLON)

/-- The function `translate_keyword`. `keywords = none` is the NULL hash. -/
def translate_keyword (buf : List Byte) (expand : Bool) (keywords : Option apr_hash_t) :
    Option (Bool × List Byte) :=
  if !good_stuffs buf then none
  else
    match keywords with
    | none => some (false, buf)
    | some kw =>
      let name := keyword_name buf
      match apr_hash_get kw name with
      | some value =>
        translate_keyword_subst buf (cstr name) (strlen name) (if expand then some value else none)
      | none => some (false, buf)

/-! ## The chunk transducer -/

/-- How a call ends: `SVN_NO_ERROR` (a NULL `svn_error_t *`), an error code, or
the abort of a failed `assert`. -/
inductive Outcome where
  | SVN_NO_ERROR
  | SVN_ERR_IO_INCONSISTENT_EOL
  | SVN_ERR_IO_UNKNOWN_EOL
  | SVN_ERR_UNSUPPORTED_FEATURE
  | assertion_failed
  deriving DecidableEq, Repr

open Outcome

/-- The function `translate_write` on the in-memory sink: `len` bytes of `buf` are
appended to the bytes written so far. -/
def translate_write (stream : List Byte) (buf : List Byte) (len : Nat) : List Byte :=
  stream ++ buf.take len

/-- The function `translate_newline`. Returns the outcome, the updated
`src_format` (whose length is `*src_format_len`) and the destination. -/
def translate_newline (eol_str : Option (List Byte)) (eol_str_len : Nat)
    (src_format : List Byte) (newline_buf : List Byte) (dst : List Byte) (repair : Bool) :
    Outcome × List Byte × List Byte :=
  let newline_len := newline_buf.length
  if src_format.length ≠ 0 then
    if !repair && (decide (src_format.length ≠ newline_len)
        || decide (strncmp src_format newline_buf newline_len ≠ 0)) then
      (SVN_ERR_IO_INCONSISTENT_EOL, src_format, dst)
    else
      (SVN_NO_ERROR, src_format, translate_write dst (eol_str.getD []) eol_str_len)
  else
    (SVN_NO_ERROR, strncpy newline_buf newline_len,
      translate_write dst (eol_str.getD []) eol_str_len)

/-- The struct `translation_baton`. The offsets `newline_off`, `keyword_off` and
`src_format_len` are the lengths of the three buffers. The layout of the struct
is not modelled: a rewrite of more than `SVN_KEYWORD_MAX_LEN` bytes lengthens
the list `keyword_buf`, where in the source it is stored past the array, onto
`keyword_off`, `src_format` and `src_format_len`. What is written or returned
after a rewrite is therefore stated for keyword sets whose values fit
(`values_fit`), for which there is no such store. -/
structure translation_baton where
  eol_str : Option (List Byte)
  repair : Bool
  keywords : Option apr_hash_t
  expand : Bool
  interesting : List Byte
  eol_str_len : Nat
  newline_buf : List Byte
  keyword_buf : List Byte
  src_format : List Byte
  deriving DecidableEq, Repr

/-- Field `newline_off` of the baton. -/
def translation_baton.newline_off (b : translation_baton) : Nat := b.newline_buf.length
/-- Field `keyword_off` of the baton. -/
def translation_baton.keyword_off (b : translation_baton) : Nat := b.keyword_buf.length
/-- Field `src_format_len` of the baton. -/
def translation_baton.src_format_len (b : translation_baton) : Nat := b.src_format.length

/-- The function `create_translation_baton`. -/
def create_translation_baton (eol_str : Option (List Byte)) (repair : Bool)
    (keywords : Option apr_hash_t) (expand : Bool) : translation_baton :=
  let keywords :=
    match keywords with
    | some kw => if apr_hash_count kw = 0 then none else some kw
    | none => none
  { eol_str := eol_str
    eol_str_len := match eol_str with
      | some e => strlen e
      | none => 0
    repair := repair
    keywords := keywords
    expand := expand
    interesting :=
      if eol_str.isSome && keywords.isSome then
        [SVN_UTF8_DOLLAR, SVN_UTF8_CR, SVN_UTF8_NEWLINE]
      else if eol_str.isSome then [SVN_UTF8_CR, SVN_UTF8_NEWLINE]
      else [SVN_UTF8_DOLLAR]
    newline_buf := []
    keyword_buf := []
    src_format := [] }

/-- The test `! p[len] || ! strchr (interesting, p[len])` of the scan loop: the
byte is copied by the run of uninteresting bytes. -/
def boring (interesting : List Byte) (c : Byte) : Bool := c == 0 || !strchr interesting c

/-- The "boring state" part of the loop body of `translate_chunk`: copy the run
of uninteresting bytes at `p`, then set up the state for the interesting byte
that stopped the run. Returns the outcome, the baton, the new `p` (the input
not yet consumed) and the destination. -/
def boring_state (b : translation_baton) (p : List Byte) (dst : List Byte) :
    Outcome × translation_baton × List Byte × List Byte :=
  let len := (p.takeWhile (boring b.interesting)).length
  let dst := if len ≠ 0 then translate_write dst p len else dst
  match p.drop len with
  | [] => (SVN_NO_ERROR, b, [], dst)
  | c :: rest =>
    if c = SVN_UTF8_DOLLAR then
      (SVN_NO_ERROR, { b with keyword_buf := b.keyword_buf ++ [c] }, rest, dst)
    else if c = SVN_UTF8_CR then
      (SVN_NO_ERROR, { b with newline_buf := b.newline_buf ++ [c] }, rest, dst)
    else if c = SVN_UTF8_NEWLINE then
      let nb := b.newline_buf ++ [c]
      match translate_newline b.eol_str b.eol_str_len b.src_format nb dst b.repair with
      | (SVN_NO_ERROR, sf, dst1) =>
        (SVN_NO_ERROR, { b with newline_buf := [], src_format := sf }, rest, dst1)
      | (e, sf, dst1) => (e, { b with newline_buf := nb, src_format := sf }, rest, dst1)
    else (SVN_NO_ERROR, b, c :: rest, dst)

/-- One pass through the body of the `for` loop of `translate_chunk`, entered
with `p < end`, the input from `p` to `end` being `c :: rest`. -/
def loop_body (b : translation_baton) (c : Byte) (rest : List Byte) (dst : List Byte) :
    Outcome × translation_baton × List Byte × List Byte :=
  if b.newline_off ≠ 0 then
    let nb := if c = SVN_UTF8_NEWLINE then b.newline_buf ++ [c] else b.newline_buf
    let p := if c = SVN_UTF8_NEWLINE then rest else c :: rest
    match translate_newline b.eol_str b.eol_str_len b.src_format nb dst b.repair with
    | (SVN_NO_ERROR, sf, dst1) =>
      boring_state { b with newline_buf := [], src_format := sf } p dst1
    | (e, sf, dst1) => (e, { b with newline_buf := nb, src_format := sf }, p, dst1)
  else if b.keyword_off ≠ 0 && c = SVN_UTF8_DOLLAR then
    match translate_keyword (b.keyword_buf ++ [SVN_UTF8_DOLLAR]) b.expand b.keywords with
    | none => (assertion_failed, b, c :: rest, dst)
    | some (true, kb) =>
      boring_state { b with keyword_buf := [] } rest (translate_write dst kb kb.length)
    | some (false, kb) =>
      boring_state { b with keyword_buf := [] } (c :: rest)
        (translate_write dst kb (kb.length - 1))
  else if b.keyword_off = SVN_KEYWORD_MAX_LEN - 1
      || (b.keyword_off ≠ 0 && (c = SVN_UTF8_CR || c = SVN_UTF8_NEWLINE)) then
    boring_state { b with keyword_buf := [] } (c :: rest)
      (translate_write dst b.keyword_buf b.keyword_off)
  else if b.keyword_off ≠ 0 then
    (SVN_NO_ERROR, { b with keyword_buf := b.keyword_buf ++ [c] }, rest, dst)
  else boring_state b (c :: rest) dst

/-- The `for (p = buf; p < end;)` loop of `translate_chunk`; the first argument
bounds the number of passes, and `none` is returned when the bound is used up
with input left. -/
def translate_chunk_loop :
    Nat → translation_baton → List Byte → List Byte →
      Option (Outcome × translation_baton × List Byte)
  | _, b, [], dst => some (SVN_NO_ERROR, b, dst)
  | 0, _, _ :: _, _ => none
  | n + 1, b, c :: rest, dst =>
    match loop_body b c rest dst with
    | (SVN_NO_ERROR, b1, p, dst1) => translate_chunk_loop n b1 p dst1
    | (e, b1, _, dst1) => some (e, b1, dst1)

/-- The function `translate_chunk`. `buf = none` is the NULL buffer, the flush
call; `buflen` is the length of the list. Every pass of the loop consumes a
byte of a baton made by `create_translation_baton`, so `buflen` passes are
enough (`translate_chunk_loop_total`, `translate_chunk_loop_fuel_irrel`). -/
def translate_chunk (dst : List Byte) (b : translation_baton) (buf : Option (List Byte)) :
    Option (Outcome × translation_baton × List Byte) :=
  match buf with
  | some p => translate_chunk_loop p.length b p dst
  | none =>
    if b.newline_off ≠ 0 then
      match translate_newline b.eol_str b.eol_str_len b.src_format b.newline_buf dst b.repair with
      | (SVN_NO_ERROR, sf, dst1) =>
        let b1 := { b with src_format := sf }
        if b1.keyword_off ≠ 0 then
          some (SVN_NO_ERROR, b1, translate_write dst1 b1.keyword_buf b1.keyword_off)
        else some (SVN_NO_ERROR, b1, dst1)
      | (e, sf, dst1) => some (e, { b with src_format := sf }, dst1)
    else if b.keyword_off ≠ 0 then
      some (SVN_NO_ERROR, b, translate_write dst b.keyword_buf b.keyword_off)
    else some (SVN_NO_ERROR, b, dst)

/-- A series of `translate_chunk` calls on one baton and one destination, each
wrapped in `SVN_ERR` as in `svn_subst_translate_stream3` and in the translated
stream: the first error ends the series. -/
def translate_chunks (dst : List Byte) (b : translation_baton) :
    List (Option (List Byte)) → Option (Outcome × translation_baton × List Byte)
  | [] => some (SVN_NO_ERROR, b, dst)
  | buf :: bufs =>
    match translate_chunk dst b buf with
    | some (SVN_NO_ERROR, b1, dst1) => translate_chunks dst1 b1 bufs
    | r => r

/-- A read of up to `len` bytes from an in-memory source stream (`svn_stream_read`
on a string stream): the bytes read and the source left. -/
def svn_stream_read (s : List Byte) (len : Nat) : List Byte × List Byte :=
  (s.take len, s.drop len)

/-- The loop `while (readlen == SVN__STREAM_CHUNK_SIZE)` of
`svn_subst_translate_stream3`, entered with the condition true. `CHUNK` is
`SVN__STREAM_CHUNK_SIZE`, a constant of a header that is not under src; the first
argument bounds the number of passes. -/
def svn_subst_translate_stream3_loop (CHUNK : Nat) :
    Nat → translation_baton → List Byte → List Byte →
      Option (Outcome × translation_baton × List Byte)
  | 0, _, _, _ => none
  | fuel + 1, b, s, d =>
    match translate_chunk d b (some (svn_stream_read s CHUNK).1) with
    | some (SVN_NO_ERROR, b1, d1) =>
      if (svn_stream_read s CHUNK).1.length = CHUNK then
        svn_subst_translate_stream3_loop CHUNK fuel b1 (svn_stream_read s CHUNK).2 d1
      else some (SVN_NO_ERROR, b1, d1)
    | r => r

/-- The function `svn_subst_translate_stream3` on an in-memory source `s` and an
in-memory destination that starts empty: the outcome and the bytes written.
Every pass of the read loop but the last takes `CHUNK` bytes, so
`s.length + 1` passes are enough when `CHUNK` is positive. -/
def svn_subst_translate_stream3 (CHUNK : Nat) (s : List Byte) (eol_str : Option (List Byte))
    (repair : Bool) (keywords : Option apr_hash_t) (expand : Bool) :
    Option (Outcome × List Byte) :=
  if eol_str.isNone && keywords.isNone then some (assertion_failed, [])
  else
    match svn_subst_translate_stream3_loop CHUNK (s.length + 1)
        (create_translation_baton eol_str repair keywords expand) s [] with
    | some (SVN_NO_ERROR, b, d) => (translate_chunk d b none).map (fun r => (r.1, r.2.2))
    | some (e, _, d) => some (e, d)
    | none => none

/-- A whole translation, in the calling pattern of `svn_subst_translate_stream3`
(the reads of the source returning the given chunks) and of a translated stream
that is written to and closed: a fresh baton from `create_translation_baton`,
one `translate_chunk` call per chunk, then the flush call. The result is the
outcome and the bytes written to the destination, which starts empty. -/
def translate_stream (eol_str : Option (List Byte)) (repair : Bool)
    (keywords : Option apr_hash_t) (expand : Bool) (chunks : List (List Byte)) :
    Option (Outcome × List Byte) :=
  (translate_chunks [] (create_translation_baton eol_str repair keywords expand)
    (chunks.map some ++ [none])).map (fun r => (r.1, r.2.2))

/-! ## Predicates on batons used by the proofs -/

/-- The fields of a baton that `translate_chunk` never assigns. -/
def config (b : translation_baton) :
    Option (List Byte) × Bool × Option apr_hash_t × Bool × List Byte × Nat :=
  (b.eol_str, b.repair, b.keywords, b.expand, b.interesting, b.eol_str_len)

/-- Every byte that stops the scan loop is one the `switch` handles. -/
def wf_interesting (b : translation_baton) : Prop :=
  ∀ c, boring b.interesting c = false →
    c = SVN_UTF8_DOLLAR ∨ c = SVN_UTF8_CR ∨ c = SVN_UTF8_NEWLINE

/-- Neither carry buffer holds anything. -/
def clean (b : translation_baton) : Prop := b.newline_buf = [] ∧ b.keyword_buf = []

/-- The state invariant of the transducer between passes of the loop: the scan
stops only at bytes the switch handles; at most one carry buffer is in use; a
held newline is a lone CR; a held keyword run starts with `$`, leaves room for
one more byte and has no `$`, CR or LF after its first byte; the cached source
newline, once set, is one of LF, CR, CR LF. -/
def baton_inv (b : translation_baton) : Prop :=
  wf_interesting b ∧
  (b.newline_buf = [] ∨ b.keyword_buf = []) ∧
  (b.newline_buf = [] ∨ b.newline_buf = [SVN_UTF8_CR]) ∧
  (b.keyword_buf = [] ∨
    (b.keyword_buf.head? = some SVN_UTF8_DOLLAR ∧
      b.keyword_buf.length ≤ SVN_KEYWORD_MAX_LEN - 1 ∧
      ∀ c ∈ b.keyword_buf.tail,
        c ≠ SVN_UTF8_DOLLAR ∧ c ≠ SVN_UTF8_CR ∧ c ≠ SVN_UTF8_NEWLINE)) ∧
  (b.src_format = [] ∨ b.src_format = [SVN_UTF8_NEWLINE] ∨ b.src_format = [SVN_UTF8_CR]
    ∨ b.src_format = [SVN_UTF8_CR, SVN_UTF8_NEWLINE])

/-- What the `switch (*p)` of the boring state does with an interesting byte. -/
def switch_byte (b : translation_baton) (c : Byte) (rest : List Byte) (dst : List Byte) :
    Outcome × translation_baton × List Byte × List Byte :=
  if c = SVN_UTF8_DOLLAR then
    (SVN_NO_ERROR, { b with keyword_buf := b.keyword_buf ++ [c] }, rest, dst)
  else if c = SVN_UTF8_CR then
    (SVN_NO_ERROR, { b with newline_buf := b.newline_buf ++ [c] }, rest, dst)
  else if c = SVN_UTF8_NEWLINE then
    let nb := b.newline_buf ++ [c]
    match translate_newline b.eol_str b.eol_str_len b.src_format nb dst b.repair with
    | (SVN_NO_ERROR, sf, dst1) =>
      (SVN_NO_ERROR, { b with newline_buf := [], src_format := sf }, rest, dst1)
    | (e, sf, dst1) => (e, { b with newline_buf := nb, src_format := sf }, rest, dst1)
  else (SVN_NO_ERROR, b, c :: rest, dst)

/-- What the `for` loop does after one pass of its body: go on with the input
left, or return the error (`SVN_ERR`). -/
def continue_loop (n : Nat) (r : Outcome × translation_baton × List Byte × List Byte) :
    Option (Outcome × translation_baton × List Byte) :=
  match r with
  | (SVN_NO_ERROR, b1, p, dst1) => translate_chunk_loop n b1 p dst1
  | (e, b1, _, dst1) => some (e, b1, dst1)

/-- Sequencing of two calls under `SVN_ERR`: the second runs only after the
first returned `SVN_NO_ERROR`. -/
def and_then (r : Option (Outcome × translation_baton × List Byte))
    (f : translation_baton → List Byte → Option (Outcome × translation_baton × List Byte)) :
    Option (Outcome × translation_baton × List Byte) :=
  match r with
  | some (SVN_NO_ERROR, b1, dst1) => f b1 dst1
  | r => r

/-! ## Line terminators of an input, in the words of the specification -/

/-- The line terminators of an input, read left to right: CR LF is taken
greedily as one terminator, otherwise a lone CR or a lone LF is one (a CR that
ends the input is a bare CR); other bytes are not terminators. -/
def terminators : List Byte → List (List Byte)
  | [] => []
  | [c] =>
    if c = SVN_UTF8_CR then [[SVN_UTF8_CR]]
    else if c = SVN_UTF8_NEWLINE then [[SVN_UTF8_NEWLINE]]
    else []
  | c :: d :: r =>
    if c = SVN_UTF8_CR ∧ d = SVN_UTF8_NEWLINE then
      [SVN_UTF8_CR, SVN_UTF8_NEWLINE] :: terminators r
    else if c = SVN_UTF8_CR then [SVN_UTF8_CR] :: terminators (d :: r)
    else if c = SVN_UTF8_NEWLINE then [SVN_UTF8_NEWLINE] :: terminators (d :: r)
    else terminators (d :: r)

/-- The input with every line terminator (as read by `terminators`) replaced
by `eol` and every other byte kept. -/
def normalize_eol (eol : List Byte) : List Byte → List Byte
  | [] => []
  | [c] =>
    if c = SVN_UTF8_CR then eol
    else if c = SVN_UTF8_NEWLINE then eol
    else [c]
  | c :: d :: r =>
    if c = SVN_UTF8_CR ∧ d = SVN_UTF8_NEWLINE then eol ++ normalize_eol eol r
    else if c = SVN_UTF8_CR then eol ++ normalize_eol eol (d :: r)
    else if c = SVN_UTF8_NEWLINE then eol ++ normalize_eol eol (d :: r)
    else c :: normalize_eol eol (d :: r)

/-! ## The newline protocol on its own -/

/-- Whether the terminators `ts` are all equal to the cached one `f`, or, when
nothing is cached yet (`f = []`), all equal to the first of them. -/
def eol_consistent : List Byte → List (List Byte) → Bool
  | _, [] => true
  | f, t :: ts => if f = [] then eol_consistent t ts else decide (t = f) && eol_consistent f ts

/-- The consistency check of `translate_newline` on the cache `fmt` and the
newline `nb`: `none` for the inconsistency error, else the new cache. -/
def eol_check (repair : Bool) (fmt nb : List Byte) : Option (List Byte) :=
  if fmt ≠ [] ∧ repair = false ∧ fmt ≠ nb then none else some (if fmt = [] then nb else fmt)

/-- One input byte seen by the newline protocol: the state is the held newline
bytes and the cached source newline; `none` is the inconsistency error. -/
def eol_step (repair : Bool) (st : List Byte × List Byte) (c : Byte) :
    Option (List Byte × List Byte) :=
  if st.1 ≠ [] then
    if c = SVN_UTF8_NEWLINE then (eol_check repair st.2 (st.1 ++ [c])).map (fun f => ([], f))
    else (eol_check repair st.2 st.1).map
      (fun f => (if c = SVN_UTF8_CR then [SVN_UTF8_CR] else [], f))
  else if c = SVN_UTF8_CR then some ([SVN_UTF8_CR], st.2)
  else if c = SVN_UTF8_NEWLINE then
    (eol_check repair st.2 [SVN_UTF8_NEWLINE]).map (fun f => ([], f))
  else some ([], st.2)

/-- The newline protocol over an input followed by the flush: `true` when no
inconsistency error arises. -/
def eol_run (repair : Bool) : List Byte × List Byte → List Byte → Bool
  | st, [] => if st.1 ≠ [] then (eol_check repair st.2 st.1).isSome else true
  | st, c :: r =>
    match eol_step repair st c with
    | none => false
    | some st1 => eol_run repair st1 r

/-- How a result of the transducer matches a result of the newline protocol. -/
def eol_sim (r : Option (List Byte × List Byte)) (e : Outcome) (b : translation_baton) : Prop :=
  match r with
  | none => e = SVN_ERR_IO_INCONSISTENT_EOL
  | some st => e = SVN_NO_ERROR ∧ b.newline_buf = st.1 ∧ b.src_format = st.2

/-! ## The transducer one byte at a time -/

/-- A call of `translate_newline` on the held bytes `nb` followed by
`newline_off = 0`, as the loop body does it. -/
def newline_emit (b : translation_baton) (nb : List Byte) (dst : List Byte) :
    Outcome × translation_baton × List Byte :=
  match translate_newline b.eol_str b.eol_str_len b.src_format nb dst b.repair with
  | (SVN_NO_ERROR, sf, d1) => (SVN_NO_ERROR, { b with newline_buf := [], src_format := sf }, d1)
  | (e, sf, d1) => (e, { b with newline_buf := nb, src_format := sf }, d1)

/-- The boring state on a single byte: the byte is copied, or it sets up a
carry buffer, or (LF) it is a newline of its own. -/
def clean_step (b : translation_baton) (c : Byte) (dst : List Byte) :
    Option (Outcome × translation_baton × List Byte) :=
  if boring b.interesting c then some (SVN_NO_ERROR, b, dst ++ [c])
  else if c = SVN_UTF8_DOLLAR then
    some (SVN_NO_ERROR, { b with keyword_buf := b.keyword_buf ++ [c] }, dst)
  else if c = SVN_UTF8_CR then
    some (SVN_NO_ERROR, { b with newline_buf := b.newline_buf ++ [c] }, dst)
  else if c = SVN_UTF8_NEWLINE then some (newline_emit b (b.newline_buf ++ [c]) dst)
  else none

/-- What `translate_chunk` does with a chunk of the single byte `c`
(`translate_chunk_loop_one`). -/
def byte_step (b : translation_baton) (c : Byte) (dst : List Byte) :
    Option (Outcome × translation_baton × List Byte) :=
  if b.newline_buf ≠ [] then
    if c = SVN_UTF8_NEWLINE then some (newline_emit b (b.newline_buf ++ [c]) dst)
    else and_then (some (newline_emit b b.newline_buf dst)) (fun b1 d1 => clean_step b1 c d1)
  else if b.keyword_buf ≠ [] ∧ c = SVN_UTF8_DOLLAR then
    match translate_keyword (b.keyword_buf ++ [SVN_UTF8_DOLLAR]) b.expand b.keywords with
    | none => some (assertion_failed, b, dst)
    | some (true, kb) => some (SVN_NO_ERROR, { b with keyword_buf := [] }, dst ++ kb)
    | some (false, kb) =>
      clean_step { b with keyword_buf := [] } c (dst ++ kb.take (kb.length - 1))
  else if b.keyword_buf.length = SVN_KEYWORD_MAX_LEN - 1
      ∨ (b.keyword_buf ≠ [] ∧ (c = SVN_UTF8_CR ∨ c = SVN_UTF8_NEWLINE)) then
    clean_step { b with keyword_buf := [] } c (dst ++ b.keyword_buf)
  else if b.keyword_buf ≠ [] then
    some (SVN_NO_ERROR, { b with keyword_buf := b.keyword_buf ++ [c] }, dst)
  else clean_step b c dst

/-- The chunk loop as a fold of `byte_step` over the bytes of the chunk
(`translate_chunk_loop_bytes`). -/
def run_bytes (b : translation_baton) (p : List Byte) (dst : List Byte) :
    Option (Outcome × translation_baton × List Byte) :=
  match p with
  | [] => some (SVN_NO_ERROR, b, dst)
  | c :: r => and_then (byte_step b c dst) (fun b1 d1 => run_bytes b1 r d1)

/-- A baton that translates newlines only, with repair on: EOL string `eol`,
no keywords (so `$` is not interesting) and no keyword run held. -/
def eol_only (b : translation_baton) (eol : List Byte) : Prop :=
  b.eol_str = some eol ∧ b.eol_str_len = strlen eol ∧ b.repair = true ∧
  b.interesting = [SVN_UTF8_CR, SVN_UTF8_NEWLINE] ∧ b.keyword_buf = [] ∧
  (b.newline_buf = [] ∨ b.newline_buf = [SVN_UTF8_CR]) ∧
  (b.src_format = [] ∨ b.src_format = [SVN_UTF8_NEWLINE] ∨ b.src_format = [SVN_UTF8_CR]
    ∨ b.src_format = [SVN_UTF8_CR, SVN_UTF8_NEWLINE])

/-! ## EOL styles and the translation predicate -/

/-- Modelled from the spec: the EOL style is a tagged value from none, native,
fixed, unknown (`svn_subst_eol_style_t` of svn_subst.h, not under src). -/
inductive svn_subst_eol_style_t where
  | svn_subst_eol_style_unknown
  | svn_subst_eol_style_none
  | svn_subst_eol_style_native
  | svn_subst_eol_style_fixed
  deriving DecidableEq, Repr

open svn_subst_eol_style_t

/-- C `strcmp`: the comparison runs up to and including the NUL that ends the
first string; a read past the end of a list yields that NUL. -/
def strcmp (a b : List Byte) : Int := strncmp a b (a.length + 1)

/-- Modelled from the spec: the one-byte string LF (`SVN_UTF8_NEWLINE_STR` of svn_ebcdic.h). -/
def SVN_UTF8_NEWLINE_STR : List Byte := [SVN_UTF8_NEWLINE]
/-- Modelled from the spec: the one-byte string CR (`SVN_UTF8_CR_STR` of svn_ebcdic.h). -/
def SVN_UTF8_CR_STR : List Byte := [SVN_UTF8_CR]
/-- The repository default EOL, used for files of the native style. -/
def SVN_SUBST__DEFAULT_EOL_STR : List Byte := SVN_UTF8_NEWLINE_STR
/-- The property value `CR`. -/
def CR_STR : List Byte := [0x43, 0x52]
/-- The property value `CRLF`. -/
def CRLF_STR : List Byte := [0x43, 0x52, 0x4c, 0x46]
/-- The property value `LF`. -/
def LF_STR : List Byte := [0x4c, 0x46]
/-- The property value `native`. -/
def NATIVE_STR : List Byte := [0x6e, 0x61, 0x74, 0x69, 0x76, 0x65]

/-- The function `svn_subst_eol_style_from_value`. `APR_CHARSET_EBCDIC` and
`APR_EOL_STR` are macros of apr.h, which is not under src, so they are
parameters. `style` tells whether the pointer `style` is non-NULL; the result
is what is stored through `style` (`none` when nothing is stored) and the
string stored through `eol` (`none` is NULL). `value = none` is the NULL
value. -/
def svn_subst_eol_style_from_value (APR_CHARSET_EBCDIC : Bool) (APR_EOL_STR : List Byte)
    (style : Bool) (value : Option (List Byte)) :
    Option svn_subst_eol_style_t × Option (List Byte) :=
  match value with
  | none => (if style then some svn_subst_eol_style_none else none, none)
  | some value =>
    if strcmp NATIVE_STR value = 0 then
      (if style then some svn_subst_eol_style_native else none,
        some (if !APR_CHARSET_EBCDIC then APR_EOL_STR else SVN_UTF8_NEWLINE_STR))
    else if strcmp LF_STR value = 0 then
      (if style then some svn_subst_eol_style_fixed else none, some SVN_UTF8_NEWLINE_STR)
    else if strcmp CR_STR value = 0 then
      (if style then some svn_subst_eol_style_fixed else none, some SVN_UTF8_CR_STR)
    else if strcmp CRLF_STR value = 0 then
      (if style then some svn_subst_eol_style_fixed else none,
        some (SVN_UTF8_CR_STR ++ SVN_UTF8_NEWLINE_STR))
    else (if style then some svn_subst_eol_style_unknown else none, none)

/-- The function `svn_subst_translation_required`. `keywords` is tested as a
pointer: `none` is the NULL hash. `eol` is read only when the style is fixed;
a NULL `eol` there is undefined in C and is read as the empty string here. -/
def svn_subst_translation_required (APR_CHARSET_EBCDIC : Bool) (APR_EOL_STR : List Byte)
    (style : svn_subst_eol_style_t) (eol : Option (List Byte)) (keywords : Option apr_hash_t)
    (special : Bool) (force_eol_check : Bool) : Bool :=
  special || keywords.isSome
    || (style != svn_subst_eol_style_none && force_eol_check)
    || (style == svn_subst_eol_style_native &&
        decide (strcmp (if !APR_CHARSET_EBCDIC then APR_EOL_STR else SVN_UTF8_NEWLINE_STR)
          SVN_SUBST__DEFAULT_EOL_STR ≠ 0))
    || (style == svn_subst_eol_style_fixed &&
        decide (strcmp (if !APR_CHARSET_EBCDIC then APR_EOL_STR else SVN_UTF8_NEWLINE_STR)
          (eol.getD []) ≠ 0))

/-! ## The transducer without an EOL target -/

/-- What `translate_chunk` does with one byte when there is no EOL string, so
that `$` is the only interesting byte: the state is the held keyword run and
the bytes written (`byte_step_kw`). -/
def kw_step (keywords : Option apr_hash_t) (expand : Bool) (st : List Byte × List Byte)
    (c : Byte) : List Byte × List Byte :=
  if st.1 = [] then
    if c = SVN_UTF8_DOLLAR then ([SVN_UTF8_DOLLAR], st.2) else ([], st.2 ++ [c])
  else if c = SVN_UTF8_DOLLAR then
    match translate_keyword (st.1 ++ [SVN_UTF8_DOLLAR]) expand keywords with
    | some (true, kb) => ([], st.2 ++ kb)
    | _ => ([SVN_UTF8_DOLLAR], st.2 ++ st.1)
  else if st.1.length = SVN_KEYWORD_MAX_LEN - 1 ∨ c = SVN_UTF8_CR ∨ c = SVN_UTF8_NEWLINE then
    ([], st.2 ++ st.1 ++ [c])
  else (st.1 ++ [c], st.2)

/-- The steps `kw_step` over a chunk. -/
def kw_run (keywords : Option apr_hash_t) (expand : Bool) (st : List Byte × List Byte)
    (p : List Byte) : List Byte × List Byte :=
  p.foldl (kw_step keywords expand) st

/-- A held keyword run as the loop keeps it: empty, or `$` followed by at most
253 bytes none of which is `$`, CR or LF. -/
def kw_held (h : List Byte) : Prop :=
  h = [] ∨ (h.head? = some SVN_UTF8_DOLLAR ∧ h.length ≤ SVN_KEYWORD_MAX_LEN - 1 ∧
    ∀ c ∈ h.tail, c ≠ SVN_UTF8_DOLLAR ∧ c ≠ SVN_UTF8_CR ∧ c ≠ SVN_UTF8_NEWLINE)

/-- The CR and LF bytes of a byte string, in their order. -/
def eol_bytes (l : List Byte) : List Byte :=
  l.filter (fun c => c == SVN_UTF8_CR || c == SVN_UTF8_NEWLINE)

/-- The configuration of a baton writes no CR: CR stops the scan loop, the EOL
string as written has no CR, and, when expanding, no value of the keyword set
has a CR. -/
def no_cr_config (b : translation_baton) : Prop :=
  boring b.interesting SVN_UTF8_CR = false ∧
  (∀ c ∈ (b.eol_str.getD []).take b.eol_str_len, c ≠ SVN_UTF8_CR) ∧
  (b.expand = true → ∀ kw ∈ b.keywords, ∀ kv ∈ kw, ∀ c ∈ kv.2, c ≠ SVN_UTF8_CR)

/-! ## Keyword forms, in the words of the specification -/

/-- The byte string `s` starts with `$` and the name `n` and ends with `$`. -/
def marker_of (n s : List Byte) : Bool :=
  (SVN_UTF8_DOLLAR :: n).isPrefixOf s && s.getLast? == some SVN_UTF8_DOLLAR
    && decide (n.length + 2 ≤ s.length)

/-- Unexpanded form of a name of the keyword set: after the name, the next
bytes are `$` or `:$`. A byte past the end reads as NUL. -/
def unexpanded_form (K : apr_hash_t) (s : List Byte) : Bool :=
  K.any (fun kv => marker_of kv.1 s &&
    (s.getD (1 + kv.1.length) 0 == SVN_UTF8_DOLLAR ||
      (s.getD (1 + kv.1.length) 0 == SVN_UTF8_COLON &&
        s.getD (2 + kv.1.length) 0 == SVN_UTF8_DOLLAR)))

/-- Expanded (variable) form of a name of the keyword set: after the name, the
next bytes are `: `, the byte before the closing `$` is a space, and the
length is at least that of the name plus 4. -/
def expanded_form (K : apr_hash_t) (s : List Byte) : Bool :=
  K.any (fun kv => marker_of kv.1 s &&
    s.getD (1 + kv.1.length) 0 == SVN_UTF8_COLON &&
    s.getD (2 + kv.1.length) 0 == SVN_UTF8_SPACE &&
    s.getD (s.length - 2) 0 == SVN_UTF8_SPACE &&
    decide (kv.1.length + 4 ≤ s.length))

/-- Fixed-length form of a name of the keyword set: after the name, the next
bytes are `:: `, the byte before the closing `$` is a space or `#`, and the
length is more than that of the name plus 6. -/
def fixed_form (K : apr_hash_t) (s : List Byte) : Bool :=
  K.any (fun kv => marker_of kv.1 s &&
    s.getD (1 + kv.1.length) 0 == SVN_UTF8_COLON &&
    s.getD (2 + kv.1.length) 0 == SVN_UTF8_COLON &&
    s.getD (3 + kv.1.length) 0 == SVN_UTF8_SPACE &&
    (s.getD (s.length - 2) 0 == SVN_UTF8_SPACE || s.getD (s.length - 2) 0 == SVN_UTF8_POUND) &&
    decide (kv.1.length + 6 < s.length))

/-- Some run of consecutive bytes of `B` satisfies `F`. -/
def contains_form (F : List Byte → Bool) (B : List Byte) : Bool :=
  B.tails.any (fun t => t.inits.any F)

/-- A held keyword run for which the substitutor, contracting, reports no
rewrite when the closing `$` arrives. -/
def kw_declined (K : Option apr_hash_t) (held : List Byte) : Prop :=
  kw_held held ∧ held ≠ [] ∧
    ∀ r, translate_keyword (held ++ [SVN_UTF8_DOLLAR]) false K ≠ some (true, r)

/-- How a contracting run stands to a second contracting run fed with what
the first has written so far: the second has passed that on unchanged (written
or still held), and holds something only while the first holds a run too,
namely a run that the substitutor declined. -/
def contract_sim (K : Option apr_hash_t) (st : List Byte × List Byte) : Prop :=
  kw_held st.1 ∧
  (kw_run K false ([], []) st.2).2 ++ (kw_run K false ([], []) st.2).1 = st.2 ∧
  ((kw_run K false ([], []) st.2).1 = [] ∨
    (st.1 ≠ [] ∧ kw_declined K (kw_run K false ([], []) st.2).1))

/-! ## The translated stream -/

/-- The struct `translated_stream_baton`. The underlying stream is an in-memory
one: `stream` holds the bytes it still has to give to a read, `stream_written`
the bytes written to it. The scratch buffer `buf` and the pools are not
modelled; `readbuf` holds the `len` bytes of data of the string buffer. -/
structure translated_stream_baton where
  stream : List Byte
  stream_written : List Byte
  in_baton : translation_baton
  out_baton : translation_baton
  written : Bool
  readbuf : List Byte
  readbuf_off : Nat
  deriving DecidableEq, Repr

/-- The function `svn_subst_stream_translated`, wrapping an in-memory stream with
the content `stream` to which nothing has been written yet. The deep copy of the
keywords changes nothing in the model; the two batons also convert an empty set
to none themselves. -/
def svn_subst_stream_translated (stream : List Byte) (eol_str : Option (List Byte))
    (repair : Bool) (keywords : Option apr_hash_t) (expand : Bool) : translated_stream_baton :=
  let keywords :=
    match keywords with
    | some kw => if apr_hash_count kw = 0 then none else some kw
    | none => none
  { stream := stream
    stream_written := []
    in_baton := create_translation_baton eol_str repair keywords expand
    out_baton := create_translation_baton eol_str repair keywords expand
    written := false
    readbuf := []
    readbuf_off := 0 }

/-- The call `memcpy (buffer + off, data + from, n)` of `translated_stream_read`:
the `n` bytes found from offset `from` of the data of a string buffer that holds
`data`. A byte taken from below the length of the buffer is `some` of it; what
lies at or past the length is whatever the allocation holds there, which the
model leaves undetermined: `none`. -/
def memcpy_from (data : List Byte) (start n : Nat) : List (Option Byte) :=
  (List.range n).map (fun i => data.get? (start + i))

/-- The part "fill read buffer" of a pass of the loop of `translated_stream_read`:
empty `readbuf`, read up to `CHUNK` bytes of the underlying stream, translate
them into `readbuf`, and flush when the read came short. Returns the outcome, the
baton and `readlen`. -/
def fill_read_buffer (CHUNK : Nat) (b : translated_stream_baton) :
    Option (Outcome × translated_stream_baton × Nat) :=
  let b0 := { b with readbuf := [], stream := (svn_stream_read b.stream CHUNK).2 }
  let readlen := (svn_stream_read b.stream CHUNK).1.length
  match translate_chunk [] b.in_baton (some (svn_stream_read b.stream CHUNK).1) with
  | some (SVN_NO_ERROR, ib, rb) =>
    if readlen ≠ CHUNK then
      match translate_chunk rb ib none with
      | some (e, ib1, rb1) => some (e, { b0 with in_baton := ib1, readbuf := rb1 }, readlen)
      | none => none
    else some (SVN_NO_ERROR, { b0 with in_baton := ib, readbuf := rb }, readlen)
  | some (e, ib, rb) => some (e, { b0 with in_baton := ib, readbuf := rb }, readlen)
  | none => none

/-- The loop `while (readlen == SVN__STREAM_CHUNK_SIZE && unsatisfied > 0)` of
`translated_stream_read`. `buffer` holds the `off` bytes copied so far. The first
argument bounds the number of passes. Returns the outcome, the baton, the bytes
copied to the caller and `unsatisfied`. -/
def translated_stream_read_loop (CHUNK : Nat) :
    Nat → translated_stream_baton → Nat → Nat → List (Option Byte) →
      Option (Outcome × translated_stream_baton × List (Option Byte) × Nat)
  | 0, _, _, _, _ => none
  | fuel + 1, b, readlen, unsatisfied, buffer =>
    if readlen = CHUNK ∧ unsatisfied > 0 then
      let filled :=
        if ¬ (b.readbuf_off < b.readbuf.length) then fill_read_buffer CHUNK b
        else some (SVN_NO_ERROR, b, readlen)
      match filled with
      | some (SVN_NO_ERROR, b1, readlen1) =>
        let to_copy := if b1.readbuf.length > unsatisfied then unsatisfied else b1.readbuf.length
        translated_stream_read_loop CHUNK fuel
          { b1 with readbuf_off := b1.readbuf_off + to_copy } readlen1 (unsatisfied - to_copy)
          (buffer ++ memcpy_from b1.readbuf b1.readbuf_off to_copy)
      | some (e, b1, _) => some (e, b1, buffer, unsatisfied)
      | none => none
    else some (SVN_NO_ERROR, b, buffer, unsatisfied)

/-- The function `translated_stream_read` with the request `len`: the outcome, the
baton and the bytes put into the caller's buffer, whose number is the value of
`*len` on return. A pass of the loop takes `CHUNK` bytes of the underlying stream,
or lowers `unsatisfied`, or is the last one, so the bound given is enough when
`CHUNK` is positive. -/
def translated_stream_read (CHUNK : Nat) (b : translated_stream_baton) (len : Nat) :
    Option (Outcome × translated_stream_baton × List (Option Byte)) :=
  (translated_stream_read_loop CHUNK (b.stream.length + len + 2) b CHUNK len []).map
    (fun r => (r.1, r.2.1, r.2.2.1))

/-- The function `translated_stream_write` with the bytes `buffer`. -/
def translated_stream_write (b : translated_stream_baton) (buffer : List Byte) :
    Option (Outcome × translated_stream_baton) :=
  let b := { b with written := true }
  (translate_chunk b.stream_written b.out_baton (some buffer)).map
    (fun r => (r.1, { b with out_baton := r.2.1, stream_written := r.2.2 }))

/-- The function `translated_stream_close`; closing the underlying in-memory
stream changes nothing. -/
def translated_stream_close (b : translated_stream_baton) :
    Option (Outcome × translated_stream_baton) :=
  if b.written then
    (translate_chunk b.stream_written b.out_baton none).map
      (fun r => (r.1, { b with out_baton := r.2.1, stream_written := r.2.2 }))
  else some (SVN_NO_ERROR, b)

/-- A caller that writes the buffers of a list to a translated stream one after
the other, each call wrapped in `SVN_ERR`: the first error ends the series. -/
def translated_stream_writes (b : translated_stream_baton) :
    List (List Byte) → Option (Outcome × translated_stream_baton)
  | [] => some (SVN_NO_ERROR, b)
  | w :: ws =>
    match translated_stream_write b w with
    | some (SVN_NO_ERROR, b1) => translated_stream_writes b1 ws
    | r => r

/-- A caller that writes the buffers of a list to a translated stream and then
closes it, each call wrapped in `SVN_ERR`. -/
def translated_stream_writes_close (b : translated_stream_baton) (ws : List (List Byte)) :
    Option (Outcome × translated_stream_baton) :=
  match translated_stream_writes b ws with
  | some (SVN_NO_ERROR, b1) => translated_stream_close b1
  | r => r

/-- The function `svn_subst_translate_cstring2` on the C string `src`: the outcome
and, when there is no error, the data of the destination string buffer that
`*dst` is set to. -/
def svn_subst_translate_cstring2 (CHUNK : Nat) (src : List Byte) (eol_str : Option (List Byte))
    (repair : Bool) (keywords : Option apr_hash_t) (expand : Bool) :
    Option (Outcome × Option (List Byte)) :=
  let src_stringbuf := cstr src
  if ¬ (eol_str.isSome ||
      (match keywords with
       | some kw => decide (apr_hash_count kw > 0)
       | none => false)) then
    some (SVN_NO_ERROR, some src_stringbuf)
  else
    match svn_subst_translate_stream3 CHUNK src_stringbuf eol_str repair keywords expand with
    | some (SVN_NO_ERROR, d) => some (SVN_NO_ERROR, some d)
    | some (e, _) => some (e, none)
    | none => none

/-- A caller that issues read requests of the given lengths to a translated
stream one after the other, each call wrapped in `SVN_ERR`: the outcome, the
baton and what each read returned. -/
def translated_stream_reads (CHUNK : Nat) (b : translated_stream_baton) :
    List Nat → Option (Outcome × translated_stream_baton × List (List (Option Byte)))
  | [] => some (SVN_NO_ERROR, b, [])
  | len :: lens =>
    match translated_stream_read CHUNK b len with
    | some (SVN_NO_ERROR, b1, r) =>
      (translated_stream_reads CHUNK b1 lens).map (fun x => (x.1, x.2.1, r :: x.2.2))
    | some (e, b1, r) => some (e, b1, [r])
    | none => none

/-! ## The keyword set builder -/

/-- The struct `apr_time_exp_t` of the APR library: the fields that
`keyword_printf` reads. -/
structure apr_time_exp_t where
  tm_sec : Int
  tm_min : Int
  tm_hour : Int
  tm_mday : Int
  tm_mon : Int
  tm_year : Int
  deriving DecidableEq, Repr

/-- The functions that `keyword_printf` calls and whose code is not in subst.c:
`svn_path_basename`, `svn_path_uri_decode` and `svn_time_to_human_cstring` of
other files of the library, `apr_time_exp_gmt` of APR. They are taken as given. -/
structure keyword_helpers where
  svn_path_basename : List Byte → List Byte
  svn_path_uri_decode : List Byte → List Byte
  apr_time_exp_gmt : Int → apr_time_exp_t
  svn_time_to_human_cstring : Int → List Byte

/-- The conversion `%0<width>d` of C `printf`: decimal digits, padded with zeros
on the left to the width, the sign of a negative number counting in the width. -/
def printf_0d (width : Nat) (v : Int) : List Byte :=
  let digits := (Nat.toDigits 10 v.natAbs).map Char.toNat
  if v < 0 then 0x2D :: (List.replicate (width - 1 - digits.length) 0x30 ++ digits)
  else List.replicate (width - digits.length) 0x30 ++ digits

/-- The string that `APR_PSPRINTF2` makes for the code `%d` of `keyword_printf`,
with the format `%04d-%02d-%02d %02d:%02d:%02dZ`. -/
def short_date (t : apr_time_exp_t) : List Byte :=
  printf_0d 4 (t.tm_year + 1900) ++ ascii "-" ++ printf_0d 2 (t.tm_mon + 1) ++ ascii "-"
    ++ printf_0d 2 t.tm_mday ++ ascii " " ++ printf_0d 2 t.tm_hour ++ ascii ":"
    ++ printf_0d 2 t.tm_min ++ ascii ":" ++ printf_0d 2 t.tm_sec ++ ascii "Z"

/-- The byte `%`. -/
def PERCENT : Byte := 0x25

/-- The loop `for (;;)` of `keyword_printf`. `fmt` is the memory from the pointer
`fmt` on, `value` the bytes of the string buffer; a read past the end of the
list yields NUL. The strings `rev`, `url` and `author` may be NULL (`none`), and
`date` is an `apr_time_t`. The run length `n` is an `int` in the source; the
model takes it as the number it is. The first argument bounds the number of
passes. -/
def keyword_printf_loop (h : keyword_helpers) (rev url : Option (List Byte)) (date : Int)
    (author : Option (List Byte)) : Nat → List Byte → List Byte → Option (List Byte)
  | 0, _, _ => none
  | fuel + 1, fmt, value =>
    let n := (fmt.takeWhile (fun c => c != 0 && c != PERCENT)).length
    let cur := fmt.drop n
    let value := if n > 0 then value ++ fmt.take n else value
    if cur.getD 0 0 = 0 then some value
    else if cur.getD 1 0 = 0x61 then
      keyword_printf_loop h rev url date author fuel (cur.drop 2)
        (match author with
         | some a => value ++ cstr a
         | none => value)
    else if cur.getD 1 0 = 0x62 then
      keyword_printf_loop h rev url date author fuel (cur.drop 2)
        (match url with
         | some u => value ++ cstr (h.svn_path_uri_decode (h.svn_path_basename u))
         | none => value)
    else if cur.getD 1 0 = 0x64 then
      keyword_printf_loop h rev url date author fuel (cur.drop 2)
        (if date ≠ 0 then value ++ cstr (short_date (h.apr_time_exp_gmt date)) else value)
    else if cur.getD 1 0 = 0x44 then
      keyword_printf_loop h rev url date author fuel (cur.drop 2)
        (if date ≠ 0 then value ++ cstr (h.svn_time_to_human_cstring date) else value)
    else if cur.getD 1 0 = 0x72 then
      keyword_printf_loop h rev url date author fuel (cur.drop 2)
        (match rev with
         | some r => value ++ cstr r
         | none => value)
    else if cur.getD 1 0 = 0x75 then
      keyword_printf_loop h rev url date author fuel (cur.drop 2)
        (match url with
         | some u => value ++ cstr u
         | none => value)
    else if cur.getD 1 0 = PERCENT then
      keyword_printf_loop h rev url date author fuel (cur.drop 2) (value ++ cur.take 1)
    else if cur.getD 1 0 = 0 then
      keyword_printf_loop h rev url date author fuel (cur.drop 1) (value ++ cur.take 1)
    else
      keyword_printf_loop h rev url date author fuel (cur.drop 2) (value ++ cur.take 2)

/-- The function `keyword_printf`; the result is the data of the string made.
Every pass of the loop but the last moves `fmt` forward in the template, so
`strlen fmt + 1` passes are enough. -/
def keyword_printf (h : keyword_helpers) (fmt : List Byte) (rev url : Option (List Byte))
    (date : Int) (author : Option (List Byte)) : Option (List Byte) :=
  keyword_printf_loop h rev url date author (strlen fmt + 1) fmt []

/-- The reference formatter, code by code, in the words of the specification:
what the code `%X` stands for. An absent field gives nothing, and a date of 0 is
an absent date. A string is taken up to its first NUL. -/
def format_code (h : keyword_helpers) (rev url : Option (List Byte)) (date : Int)
    (author : Option (List Byte)) (x : Byte) : List Byte :=
  if x = 0x61 then (author.map cstr).getD []
  else if x = 0x62 then
    (url.map (fun u => cstr (h.svn_path_uri_decode (h.svn_path_basename u)))).getD []
  else if x = 0x64 then
    (if date = 0 then [] else cstr (short_date (h.apr_time_exp_gmt date)))
  else if x = 0x44 then
    (if date = 0 then [] else cstr (h.svn_time_to_human_cstring date))
  else if x = 0x72 then (rev.map cstr).getD []
  else if x = 0x75 then (url.map cstr).getD []
  else if x = PERCENT then [PERCENT]
  else [PERCENT, x]

/-- The reference formatter in the words of the specification, on the bytes of a
template: a byte other than `%` is copied, `%` with a byte after it is replaced
by what the code stands for, and a `%` that ends the template is copied. -/
def reference_format (h : keyword_helpers) (rev url : Option (List Byte)) (date : Int)
    (author : Option (List Byte)) : List Byte → List Byte
  | [] => []
  | [c] => [c]
  | c :: x :: rest =>
    if c = PERCENT then
      format_code h rev url date author x ++ reference_format h rev url date author rest
    else c :: reference_format h rev url date author (x :: rest)

/-- Modelled from the spec: the alias `LastChangedRevision` (`SVN_KEYWORD_REVISION_LONG` of svn_subst.h, not under src). -/
def SVN_KEYWORD_REVISION_LONG : List Byte := ascii "LastChangedRevision"
/-- Modelled from the spec: the alias `Revision` (`SVN_KEYWORD_REVISION_MEDIUM` of svn_subst.h). -/
def SVN_KEYWORD_REVISION_MEDIUM : List Byte := ascii "Revision"
/-- Modelled from the spec: the alias `Rev` (`SVN_KEYWORD_REVISION_SHORT` of svn_subst.h). -/
def SVN_KEYWORD_REVISION_SHORT : List Byte := ascii "Rev"
/-- Modelled from the spec: the alias `LastChangedDate` (`SVN_KEYWORD_DATE_LONG` of svn_subst.h). -/
def SVN_KEYWORD_DATE_LONG : List Byte := ascii "LastChangedDate"
/-- Modelled from the spec: the alias `Date` (`SVN_KEYWORD_DATE_SHORT` of svn_subst.h). -/
def SVN_KEYWORD_DATE_SHORT : List Byte := ascii "Date"
/-- Modelled from the spec: the alias `LastChangedBy` (`SVN_KEYWORD_AUTHOR_LONG` of svn_subst.h). -/
def SVN_KEYWORD_AUTHOR_LONG : List Byte := ascii "LastChangedBy"
/-- Modelled from the spec: the alias `Author` (`SVN_KEYWORD_AUTHOR_SHORT` of svn_subst.h). -/
def SVN_KEYWORD_AUTHOR_SHORT : List Byte := ascii "Author"
/-- Modelled from the spec: the alias `HeadURL` (`SVN_KEYWORD_URL_LONG` of svn_subst.h). -/
def SVN_KEYWORD_URL_LONG : List Byte := ascii "HeadURL"
/-- Modelled from the spec: the alias `URL` (`SVN_KEYWORD_URL_SHORT` of svn_subst.h). -/
def SVN_KEYWORD_URL_SHORT : List Byte := ascii "URL"
/-- Modelled from the spec: the keyword `Id` (`SVN_KEYWORD_ID` of svn_subst.h). -/
def SVN_KEYWORD_ID : List Byte := ascii "Id"

/-- Modelled from the spec: the separators of a keyword list, `{space, tab, vtab,
LF, BS, CR, FF}` (the string constants of svn_ebcdic.h that
`svn_subst_build_keywords2` passes to `svn_cstring_split`). -/
def keyword_separators : List Byte := [0x20, 0x09, 0x0B, 0x0A, 0x08, 0x0D, 0x0C]

/-- The tokens of a byte string from `cur`, the bytes of the token begun, on. -/
def split_tokens (sep_chars : List Byte) : List Byte → List Byte → List (List Byte)
  | cur, [] => if cur = [] then [] else [cur]
  | cur, c :: rest =>
    if c ∈ sep_chars then
      (if cur = [] then split_tokens sep_chars [] rest
       else cur :: split_tokens sep_chars [] rest)
    else split_tokens sep_chars (cur ++ [c]) rest

/-- Modelled from the spec: `svn_cstring_split` of svn_string.c, which is not
under src. "Split the keyword-list on any of" the separators, "discarding empty
tokens"; the list is a C string. -/
def svn_cstring_split (input : List Byte) (sep_chars : List Byte) : List (List Byte) :=
  split_tokens sep_chars [] (cstr input)

/-- C `tolower` in the POSIX locale. -/
def tolower (c : Byte) : Byte := if 0x41 ≤ c ∧ c ≤ 0x5A then c + 0x20 else c

/-- C `strcasecmp` in the POSIX locale: the comparison of the two strings with
every byte passed through `tolower`. -/
def strcasecmp (a b : List Byte) : Int := strcmp (a.map tolower) (b.map tolower)

/-- The call `apr_hash_set (h, key, APR_HASH_KEY_STRING, val)` with a value that is
not NULL: the key, read as a C string, is bound to the value, in place of what
it was bound to. -/
def apr_hash_set (h : apr_hash_t) (key : List Byte) (val : List Byte) : apr_hash_t :=
  (cstr key, val) :: h.filter (fun p => p.1 != cstr key)

/-- The loop over the tokens of `svn_subst_build_keywords2`, from the hash `kw`. -/
def svn_subst_build_keywords2_loop (h : keyword_helpers) (rev url : Option (List Byte))
    (date : Int) (author : Option (List Byte)) : List (List Byte) → apr_hash_t → Option apr_hash_t
  | [], kw => some kw
  | keyword :: keyword_tokens, kw =>
    if strcmp keyword SVN_KEYWORD_REVISION_LONG = 0
        ∨ strcmp keyword SVN_KEYWORD_REVISION_MEDIUM = 0
        ∨ strcasecmp keyword SVN_KEYWORD_REVISION_SHORT = 0 then
      match keyword_printf h (ascii "%r") rev url date author with
      | some revision_val =>
        svn_subst_build_keywords2_loop h rev url date author keyword_tokens
          (apr_hash_set (apr_hash_set (apr_hash_set kw SVN_KEYWORD_REVISION_LONG revision_val)
            SVN_KEYWORD_REVISION_MEDIUM revision_val) SVN_KEYWORD_REVISION_SHORT revision_val)
      | none => none
    else if strcmp keyword SVN_KEYWORD_DATE_LONG = 0
        ∨ strcasecmp keyword SVN_KEYWORD_DATE_SHORT = 0 then
      match keyword_printf h (ascii "%D") rev url date author with
      | some date_val =>
        svn_subst_build_keywords2_loop h rev url date author keyword_tokens
          (apr_hash_set (apr_hash_set kw SVN_KEYWORD_DATE_LONG date_val)
            SVN_KEYWORD_DATE_SHORT date_val)
      | none => none
    else if strcmp keyword SVN_KEYWORD_AUTHOR_LONG = 0
        ∨ strcasecmp keyword SVN_KEYWORD_AUTHOR_SHORT = 0 then
      match keyword_printf h (ascii "%a") rev url date author with
      | some author_val =>
        svn_subst_build_keywords2_loop h rev url date author keyword_tokens
          (apr_hash_set (apr_hash_set kw SVN_KEYWORD_AUTHOR_LONG author_val)
            SVN_KEYWORD_AUTHOR_SHORT author_val)
      | none => none
    else if strcmp keyword SVN_KEYWORD_URL_LONG = 0
        ∨ strcasecmp keyword SVN_KEYWORD_URL_SHORT = 0 then
      match keyword_printf h (ascii "%u") rev url date author with
      | some url_val =>
        svn_subst_build_keywords2_loop h rev url date author keyword_tokens
          (apr_hash_set (apr_hash_set kw SVN_KEYWORD_URL_LONG url_val)
            SVN_KEYWORD_URL_SHORT url_val)
      | none => none
    else if strcasecmp keyword SVN_KEYWORD_ID = 0 then
      match keyword_printf h (ascii "%b %r %d %a") rev url date author with
      | some id_val =>
        svn_subst_build_keywords2_loop h rev url date author keyword_tokens
          (apr_hash_set kw SVN_KEYWORD_ID id_val)
      | none => none
    else svn_subst_build_keywords2_loop h rev url date author keyword_tokens kw

/-- The function `svn_subst_build_keywords2`: the outcome and the hash `*kw`. -/
def svn_subst_build_keywords2 (h : keyword_helpers) (keywords_val : List Byte)
    (rev url : Option (List Byte)) (date : Int) (author : Option (List Byte)) :
    Option (Outcome × apr_hash_t) :=
  (svn_subst_build_keywords2_loop h rev url date author
    (svn_cstring_split keywords_val keyword_separators) []).map (fun kw => (SVN_NO_ERROR, kw))

/-- The five keywords of the specification, each with its aliases. -/
inductive keyword_group
  | Revision
  | Date
  | Author
  | URL
  | Id
  deriving DecidableEq, Repr

/-- The aliases of a keyword, in the words of the specification: the long and
medium ones first, the short one last. -/
def keyword_group.aliases : keyword_group → List (List Byte)
  | .Revision => [ascii "LastChangedRevision", ascii "Revision", ascii "Rev"]
  | .Date => [ascii "LastChangedDate", ascii "Date"]
  | .Author => [ascii "LastChangedBy", ascii "Author"]
  | .URL => [ascii "HeadURL", ascii "URL"]
  | .Id => [ascii "Id"]

/-- The expansion template of a keyword, in the words of the specification. -/
def keyword_group.template : keyword_group → List Byte
  | .Revision => ascii "%r"
  | .Date => ascii "%D"
  | .Author => ascii "%a"
  | .URL => ascii "%u"
  | .Id => ascii "%b %r %d %a"

/-- A token matches a keyword, in the words of the specification: "Long and
medium aliases match case-sensitively; short aliases match case-insensitively". -/
def keyword_group.matches (g : keyword_group) (token : List Byte) : Bool :=
  decide (token ∈ g.aliases.dropLast) ||
    decide (g.aliases.getLast?.map (fun a => a.map tolower) = some (token.map tolower))

/-- The keywords in the order in which `svn_subst_build_keywords2` tests a token
for them. -/
def keyword_groups : List keyword_group :=
  [keyword_group.Revision, keyword_group.Date, keyword_group.Author, keyword_group.URL,
    keyword_group.Id]

/-- The first keyword that a token matches. -/
def first_group (token : List Byte) : Option keyword_group :=
  keyword_groups.find? (fun g => g.matches token)

/-- The calls of `apr_hash_set` of one branch of `svn_subst_build_keywords2`:
every alias of the keyword is bound to the value. -/
def set_group (g : keyword_group) (v : List Byte) (kw : apr_hash_t) : apr_hash_t :=
  g.aliases.foldl (fun kw a => apr_hash_set kw a v) kw

/-! ## Files: the special-file codec and the copy-and-translate driver -/

/-- An `svn_error_t`: the code `apr_err` and the message. An error of the I/O
layer, whose codes are not modelled, has the code `none`; a NULL message is the
empty one. -/
structure svn_error_t where
  apr_err : Option Outcome
  message : List Byte
  deriving DecidableEq, Repr

/-- An error of the I/O layer. -/
def io_error : svn_error_t := { apr_err := none, message := [] }

/-- Modelled from the spec: what `stat(path, follow=false)` tells of a path: a
regular file (`APR_REG`) with its contents, a symbolic link (`APR_LNK`) with its
target, or a node of another kind. -/
inductive fs_node
  | file (contents : List Byte)
  | link (target : List Byte)
  | other
  deriving DecidableEq, Repr

/-- Modelled from the spec: the file system, the nodes that exist with their
paths. -/
abbrev filesystem := List (List Byte × fs_node)

/-- What the functions on files take from the host: whether it can make symbolic
links (`HAVE_SYMLINK` of the build), the path that `unique-temp` picks next to a
path for a suffix, and `svn_path_local_style`. -/
structure host where
  HAVE_SYMLINK : Bool
  unique_path : filesystem → List Byte → List Byte → List Byte
  svn_path_local_style : List Byte → List Byte

/-- The node at a path becomes the given one. -/
def fs_put (fs : filesystem) (path : List Byte) (n : fs_node) : filesystem :=
  (path, n) :: fs.filter (fun p => p.1 != path)

/-- The node at a path is removed. -/
def fs_del (fs : filesystem) (path : List Byte) : filesystem :=
  fs.filter (fun p => p.1 != path)

/-- Modelled from the spec: `stat(path, follow=false) → {kind, …}`
(`svn_io_stat` of io.c, not under src, with `APR_FINFO_LINK`). -/
def svn_io_stat (fs : filesystem) (path : List Byte) : Except svn_error_t fs_node :=
  match fs.lookup path with
  | some n => .ok n
  | none => .error io_error

/-- Modelled from the spec: "determine whether it is a special node"
(`svn_io_check_special_path` of io.c): the value of `is_special`. -/
def svn_io_check_special_path (fs : filesystem) (path : List Byte) : Bool :=
  match fs.lookup path with
  | some (fs_node.link _) => true
  | _ => false

/-- Modelled from the spec: `unique-temp(dir_hint, suffix, cleanup_policy) →
(handle, path)` (`svn_io_open_unique_file2` of io.c): an empty file is made at
the path picked. -/
def svn_io_open_unique_file2 (h : host) (fs : filesystem) (path suffix : List Byte) :
    List Byte × filesystem :=
  (h.unique_path fs path suffix, fs_put fs (h.unique_path fs path suffix) (fs_node.file []))

/-- Modelled from the spec: `open(path, mode) → handle` for reading and the read
of the whole file (`svn_io_file_open` with a copy of the stream, and
`svn_stringbuf_from_file`, of io.c); the functions here read regular files only. -/
def read_file (fs : filesystem) (path : List Byte) : Except svn_error_t (List Byte) :=
  match fs.lookup path with
  | some (fs_node.file contents) => .ok contents
  | _ => .error io_error

/-- Modelled from the spec: `read_symlink(path) → bytes` (`svn_io_read_link` of
io.c). -/
def svn_io_read_link (fs : filesystem) (path : List Byte) : Except svn_error_t (List Byte) :=
  match fs.lookup path with
  | some (fs_node.link target) => .ok target
  | _ => .error io_error

/-- Modelled from the spec: `rename(src, dst)` (`svn_io_file_rename` of io.c). -/
def svn_io_file_rename (fs : filesystem) (from_path to_path : List Byte) :
    Except svn_error_t filesystem :=
  match fs.lookup from_path with
  | some n => .ok (fs_put (fs_del fs from_path) to_path n)
  | none => .error io_error

/-- Modelled from the spec: the removal of a file (`svn_io_remove_file` of
io.c). -/
def svn_io_remove_file (fs : filesystem) (path : List Byte) : Except svn_error_t filesystem :=
  match fs.lookup path with
  | some _ => .ok (fs_del fs path)
  | none => .error io_error

/-- Modelled from the spec: `create_symlink(target, link_path)` at a path picked
as by `unique-temp` (`svn_io_create_unique_link` of io.c); a host that cannot
make symbolic links "rejects symlinks with `Unsupported`". The target is a C
string. -/
def svn_io_create_unique_link (h : host) (fs : filesystem) (path dest suffix : List Byte) :
    Except svn_error_t (List Byte × filesystem) :=
  if h.HAVE_SYMLINK then
    .ok (h.unique_path fs path suffix,
      fs_put fs (h.unique_path fs path suffix) (fs_node.link (cstr dest)))
  else .error { apr_err := some SVN_ERR_UNSUPPORTED_FEATURE, message := [] }

/-- Modelled from the spec: `copy_file(src, dst, preserve_perms)`
(`svn_io_copy_file` of io.c). -/
def svn_io_copy_file (fs : filesystem) (src dst : List Byte) : Except svn_error_t filesystem :=
  match read_file fs src with
  | .ok contents => .ok (fs_put fs dst (fs_node.file contents))
  | .error e => .error e

/-- The string `SVN_SUBST__SPECIAL_LINK_STR`, `link`. -/
def SVN_SUBST__SPECIAL_LINK_STR : List Byte := [0x6c, 0x69, 0x6e, 0x6b]
/-- The string `DOT_TMP_STR`, `.tmp`. -/
def DOT_TMP_STR : List Byte := [0x2E, 0x74, 0x6D, 0x70]
/-- The string `LINK_SPACE_STR`, `link` and a space. -/
def LINK_SPACE_STR : List Byte := [0x6c, 0x69, 0x6e, 0x6b, 0x20]

/-- The function `detranslate_special_file`: the error returned, if any, and the
file system it leaves. The bytes written through the stream of the temporary
file are its contents at the close; `abort ()` is the outcome
`assertion_failed`. -/
def detranslate_special_file (h : host) (fs : filesystem) (src dst : List Byte) :
    Option svn_error_t × filesystem :=
  match svn_io_stat fs src with
  | .error e => (some e, fs)
  | .ok finfo =>
    let dst_tmp := (svn_io_open_unique_file2 h fs dst DOT_TMP_STR).1
    let fs1 := (svn_io_open_unique_file2 h fs dst DOT_TMP_STR).2
    let written : Except svn_error_t (List Byte) :=
      match finfo with
      | fs_node.file _ => read_file fs1 src
      | fs_node.link _ =>
        match svn_io_read_link fs1 src with
        | .ok buf => .ok (LINK_SPACE_STR ++ cstr buf)
        | .error e => .error e
      | fs_node.other => .error { apr_err := some assertion_failed, message := [] }
    match written with
    | .error e => (some e, fs1)
    | .ok bytes =>
      match svn_io_file_rename (fs_put fs1 dst_tmp (fs_node.file bytes)) dst_tmp dst with
      | .ok fs2 => (none, fs2)
      | .error e => (some e, fs_put fs1 dst_tmp (fs_node.file bytes))

/-- The loop of `create_special_file` that separates off the identifier, on the
data of the string buffer (a read past its end yields the NUL that ends it): the
C strings at `identifier` and at `remainder` after the loop. -/
def separate_identifier : List Byte → List Byte × List Byte
  | [] => ([], [])
  | c :: rest =>
    if c = 0 then ([], [])
    else if c = SVN_UTF8_SPACE then ([], cstr rest)
    else (c :: (separate_identifier rest).1, (separate_identifier rest).2)

/-- The function `create_special_file`: the error returned, if any, and the file
system it leaves. -/
def create_special_file (h : host) (fs : filesystem) (src dst : List Byte) :
    Option svn_error_t × filesystem :=
  let is_special := svn_io_check_special_path fs src
  -- the temporary detranslation of a special source
  let prepared : Option svn_error_t × filesystem × List Byte × Option (List Byte) :=
    if is_special then
      let src_tmp := (svn_io_open_unique_file2 h fs dst DOT_TMP_STR).1
      let fs1 := (svn_io_open_unique_file2 h fs dst DOT_TMP_STR).2
      ((detranslate_special_file h fs1 src src_tmp).1,
        (detranslate_special_file h fs1 src src_tmp).2, src_tmp, some src_tmp)
    else (none, fs, src, none)
  match prepared with
  | (some e, fs2, _, _) => (some e, fs2)
  | (none, fs2, src, src_tmp) =>
    match read_file fs2 src with
    | .error e => (some e, fs2)
    | .ok contents =>
      let removed : Except svn_error_t filesystem :=
        match src_tmp with
        | some t => svn_io_remove_file fs2 t
        | none => .ok fs2
      match removed with
      | .error e => (some e, fs2)
      | .ok fs3 =>
        let identifier := (separate_identifier contents).1
        let remainder := (separate_identifier contents).2
        -- the rename that ends the function
        let renamed : List Byte → filesystem → Option svn_error_t × filesystem :=
          fun dst_tmp fs4 =>
            match svn_io_file_rename fs4 dst_tmp dst with
            | .ok fs5 => (none, fs5)
            | .error e => (some e, fs4)
        if strcmp identifier SVN_SUBST__SPECIAL_LINK_STR = 0 then
          match svn_io_create_unique_link h fs3 dst remainder DOT_TMP_STR with
          | .ok (dst_tmp, fs4) => renamed dst_tmp fs4
          | .error err =>
            if err.apr_err = some SVN_ERR_UNSUPPORTED_FEATURE then
              match svn_io_copy_file (svn_io_open_unique_file2 h fs3 dst DOT_TMP_STR).2 src
                  (svn_io_open_unique_file2 h fs3 dst DOT_TMP_STR).1 with
              | .ok fs4 => renamed (svn_io_open_unique_file2 h fs3 dst DOT_TMP_STR).1 fs4
              | .error e => (some e, (svn_io_open_unique_file2 h fs3 dst DOT_TMP_STR).2)
            else (some err, fs3)
        else
          (some { apr_err := some SVN_ERR_UNSUPPORTED_FEATURE,
                  message := ascii "Unsupported special file type '" ++ identifier ++ ascii "'" },
            fs3)

/-- The function `svn_subst_copy_and_translate3`: the error returned, if any, and
the file system it leaves (`none` when the passes of the read loop run out). The
message is the one before translation to the language of the user. The cleanup
of the pool, which removes the temporary file after an error, is the caller's
and is not modelled. -/
def svn_subst_copy_and_translate3 (CHUNK : Nat) (h : host) (fs : filesystem)
    (src dst : List Byte) (eol_str : Option (List Byte)) (repair : Bool)
    (keywords : Option apr_hash_t) (expand : Bool) (special : Bool) :
    Option (Option svn_error_t × filesystem) :=
  let path_special := svn_io_check_special_path fs src
  if special || path_special then
    if expand then some (create_special_file h fs src dst)
    else some (detranslate_special_file h fs src dst)
  else if ¬ (eol_str.isSome ||
      (match keywords with
       | some kw => decide (apr_hash_count kw > 0)
       | none => false)) then
    match svn_io_copy_file fs src dst with
    | .ok fs1 => some (none, fs1)
    | .error e => some (some e, fs)
  else
    match read_file fs src with
    | .error e => some (some e, fs)
    | .ok s =>
      let dst_tmp := (svn_io_open_unique_file2 h fs dst DOT_TMP_STR).1
      let fs1 := (svn_io_open_unique_file2 h fs dst DOT_TMP_STR).2
      match svn_subst_translate_stream3 CHUNK s eol_str repair keywords expand with
      | none => none
      | some (SVN_NO_ERROR, d) =>
        match svn_io_file_rename (fs_put fs1 dst_tmp (fs_node.file d)) dst_tmp dst with
        | .ok fs2 => some (none, fs2)
        | .error e => some (some e, fs_put fs1 dst_tmp (fs_node.file d))
      | some (SVN_ERR_IO_INCONSISTENT_EOL, d) =>
        some (some { apr_err := some SVN_ERR_IO_INCONSISTENT_EOL,
                     message := ascii "File '" ++ h.svn_path_local_style src
                       ++ ascii "' has inconsistent newlines" },
          fs_put fs1 dst_tmp (fs_node.file d))
      | some (e, d) =>
        some (some { apr_err := some e, message := [] }, fs_put fs1 dst_tmp (fs_node.file d))

/-- The function `svn_subst_translate_to_normal_form`. -/
def svn_subst_translate_to_normal_form (CHUNK : Nat) (h : host) (fs : filesystem)
    (src dst : List Byte) (eol_style : svn_subst_eol_style_t) (eol_str : Option (List Byte))
    (always_repair_eols : Bool) (keywords : Option apr_hash_t) (special : Bool) :
    Option (Option svn_error_t × filesystem) :=
  if eol_style = svn_subst_eol_style_native then
    svn_subst_copy_and_translate3 CHUNK h fs src dst (some SVN_SUBST__DEFAULT_EOL_STR)
      (decide (eol_style = svn_subst_eol_style_fixed) || always_repair_eols) keywords false
      special
  else if ¬ (eol_style = svn_subst_eol_style_fixed ∨ eol_style = svn_subst_eol_style_none) then
    some (some { apr_err := some SVN_ERR_IO_UNKNOWN_EOL, message := [] }, fs)
  else
    svn_subst_copy_and_translate3 CHUNK h fs src dst eol_str
      (decide (eol_style = svn_subst_eol_style_fixed) || always_repair_eols) keywords false
      special

/-! ## Comparing keyword sets -/

/-- The call `apr_hash_get (h, key, klen)` with an explicit key length: the key
is the first `klen` bytes at `key`. -/
def apr_hash_get_len (h : apr_hash_t) (key : List Byte) (klen : Nat) : Option (List Byte) :=
  h.lookup (key.take klen)

/-- The loop of `svn_subst_keywords_differ2` over the entries of `a`, in the order
in which `apr_hash_first` and `apr_hash_next` give them; `apr_hash_this` gives the
key of an entry with its length. The function `svn_string_compare` is one of
svn_string.c and is taken as given. -/
def svn_subst_keywords_differ2_loop (svn_string_compare : List Byte → List Byte → Bool)
    (b : apr_hash_t) (compare_values : Bool) : List (List Byte × List Byte) → Bool
  | [] => false
  | (key, a_val) :: rest =>
    match apr_hash_get_len b key key.length with
    | none => true
    | some b_val =>
      if compare_values && !svn_string_compare a_val b_val then true
      else svn_subst_keywords_differ2_loop svn_string_compare b compare_values rest

/-- The function `svn_subst_keywords_differ2`; `none` is a NULL hash. Past the two
tests of the counts both hashes are not NULL, so that the last case of the match
is never taken. -/
def svn_subst_keywords_differ2 (svn_string_compare : List Byte → List Byte → Bool)
    (a b : Option apr_hash_t) (compare_values : Bool) : Bool :=
  let a_count := match a with
    | none => 0
    | some h => apr_hash_count h
  let b_count := match b with
    | none => 0
    | some h => apr_hash_count h
  if a_count ≠ b_count then true
  else if a_count = 0 then false
  else
    match a, b with
    | some ha, some hb =>
      svn_subst_keywords_differ2_loop svn_string_compare hb compare_values ha
    | _, _ => false

/-- The keys of a keyword set, an absent set having none. -/
def hash_keys (a : Option apr_hash_t) : List (List Byte) := (a.getD []).map Prod.fst

/-- The value that a keyword set binds to a key, an absent set binding none. -/
def hash_value (a : Option apr_hash_t) (key : List Byte) : Option (List Byte) :=
  (a.getD []).lookup key

/-- A byte string made of copies of `eol` and of bytes other than CR and LF: the
shape of an input whose line terminators have been replaced by `eol`. -/
inductive eol_normal (eol : List Byte) : List Byte → Prop
  | nil : eol_normal eol []
  | other (c : Byte) (l : List Byte) : c ≠ SVN_UTF8_CR → c ≠ SVN_UTF8_NEWLINE →
      eol_normal eol l → eol_normal eol (c :: l)
  | eol (l : List Byte) : eol_normal eol l → eol_normal eol (eol ++ l)

/-- A held keyword run for which the substitutor, with the expand flag `e`,
reports no rewrite when the closing `$` arrives. -/
def kw_declined_on (K : Option apr_hash_t) (e : Bool) (held : List Byte) : Prop :=
  kw_held held ∧ held ≠ [] ∧
    ∀ r, translate_keyword (held ++ [SVN_UTF8_DOLLAR]) e K ≠ some (true, r)

/-- Rewrites are stable: every rewrite that the substitutor reports, with the
expand flag `e`, for a held run and its closing `$` yields a buffer `$` w `$`
of at most KW_MAX bytes, w free of `$`, CR and LF, that a further call rewrites
to itself. -/
def rewrite_stable (K : Option apr_hash_t) (e : Bool) : Prop :=
  ∀ (held r : List Byte), kw_held held → held ≠ [] →
    translate_keyword (held ++ [SVN_UTF8_DOLLAR]) e K = some (true, r) →
    ∃ w, r = SVN_UTF8_DOLLAR :: (w ++ [SVN_UTF8_DOLLAR]) ∧
      (∀ c ∈ w, c ≠ SVN_UTF8_DOLLAR ∧ c ≠ SVN_UTF8_CR ∧ c ≠ SVN_UTF8_NEWLINE) ∧
      w.length + 2 ≤ SVN_KEYWORD_MAX_LEN ∧
      translate_keyword r e K = some (true, r)

/-- How a run stands to a second run, with the same expand flag, fed with what
the first has written so far: the second has passed that on unchanged (written
or still held), and holds something only while the first holds a run too,
namely a run that the substitutor declined. -/
def rewrite_sim (K : Option apr_hash_t) (e : Bool) (st : List Byte × List Byte) : Prop :=
  kw_held st.1 ∧
  (kw_run K e ([], []) st.2).2 ++ (kw_run K e ([], []) st.2).1 = st.2 ∧
  ((kw_run K e ([], []) st.2).1 = [] ∨
    (st.1 ≠ [] ∧ kw_declined_on K e (kw_run K e ([], []) st.2).1))

/-- What the substitutor writes after the name when it expands with a value none
of whose bytes is cut off: `: `, the value as `strncpy` copies it and ` $`, or
`: $` for the empty value. -/
def expansion_of_value (v : List Byte) : List Byte :=
  if v.length ≠ 0 then
    [SVN_UTF8_COLON, SVN_UTF8_SPACE] ++ strncpy v v.length ++ [SVN_UTF8_SPACE, SVN_UTF8_DOLLAR]
  else [SVN_UTF8_COLON, SVN_UTF8_SPACE, SVN_UTF8_DOLLAR]

/-- The values of the keyword set fit in the keyword buffer: when expanding, every
binding of a name n to a value v has |v| + |n| + 5 <= KW_MAX. Then no rewrite
of `translate_keyword_subst` is longer than the `SVN_KEYWORD_MAX_LEN` bytes of
`keyword_buf` (`translate_keyword_fits`). Without it the re-expansion branch,
which caps the value at `SVN_KEYWORD_MAX_LEN - 5` whatever the length of the
name, stores past the array, onto `keyword_off`, `src_format` and what follows;
the list that stands for the array grows instead, so that what the transducer
does after such a store is not what the model says. Contraction never
lengthens the buffer. -/
def values_fit (keywords : Option apr_hash_t) (expand : Bool) : Prop :=
  expand = true →
    ∀ kv ∈ keywords.getD [], kv.2.length + kv.1.length + 5 ≤ SVN_KEYWORD_MAX_LEN

/-! # Theorems -/

/-! ## Basic facts about the loop body -/

theorem boring_state_nil (b : translation_baton) (dst : List Byte) :
    boring_state b [] dst = (SVN_NO_ERROR, b, [], dst) := by
  simp [boring_state]

theorem boring_state_cons_boring (b : translation_baton) (c : Byte) (rest dst : List Byte)
    (h : boring b.interesting c = true) :
    boring_state b (c :: rest) dst = boring_state b rest (dst ++ [c]) := by
  simp only [boring_state, List.takeWhile_cons, h, if_true, List.length_cons, List.drop_succ_cons,
    translate_write, List.take_succ_cons]
  by_cases h0 : (List.takeWhile (boring b.interesting) rest).length = 0
  · simp [h0]
  · simp [h0]

theorem boring_state_cons_interesting (b : translation_baton) (c : Byte) (rest dst : List Byte)
    (h : boring b.interesting c = false) :
    boring_state b (c :: rest) dst = switch_byte b c rest dst := by
  simp [boring_state, List.takeWhile_cons, h, switch_byte]

theorem translate_newline_cases (eol_str : Option (List Byte)) (n : Nat)
    (sf nb dst : List Byte) (repair : Bool)
    (hnb : nb = [SVN_UTF8_NEWLINE] ∨ nb = [SVN_UTF8_CR] ∨ nb = [SVN_UTF8_CR, SVN_UTF8_NEWLINE])
    (hsf : sf = [] ∨ sf = [SVN_UTF8_NEWLINE] ∨ sf = [SVN_UTF8_CR]
      ∨ sf = [SVN_UTF8_CR, SVN_UTF8_NEWLINE]) :
    translate_newline eol_str n sf nb dst repair =
      if sf ≠ [] ∧ repair = false ∧ sf ≠ nb then (SVN_ERR_IO_INCONSISTENT_EOL, sf, dst)
      else (SVN_NO_ERROR, if sf = [] then nb else sf, dst ++ (eol_str.getD []).take n) := by
  rcases hnb with rfl | rfl | rfl <;> rcases hsf with rfl | rfl | rfl | rfl <;>
    cases repair <;>
    simp [translate_newline, translate_write, strncpy, cstr, strncmp, SVN_UTF8_NEWLINE,
      SVN_UTF8_CR]

theorem switch_byte_spec (b : translation_baton) (c : Byte) (rest dst : List Byte)
    (hc : clean b) (hinv : baton_inv b) (hb : boring b.interesting c = false)
    (e : Outcome) (b1 : translation_baton) (p1 d1 : List Byte)
    (h : switch_byte b c rest dst = (e, b1, p1, d1)) :
    config b1 = config b ∧ p1 = rest ∧ (e = SVN_NO_ERROR → baton_inv b1) := by
  obtain ⟨hwf, -, -, -, hsf⟩ := hinv
  obtain ⟨hn, hk⟩ := hc
  rcases hwf c hb with rfl | rfl | rfl
  · simp only [switch_byte, if_true, Prod.mk.injEq] at h
    obtain ⟨rfl, rfl, rfl, rfl⟩ := h
    refine ⟨rfl, rfl, fun _ => ⟨hwf, Or.inl hn, Or.inl hn, Or.inr ?_, hsf⟩⟩
    simp [hk, SVN_KEYWORD_MAX_LEN]
  · simp only [switch_byte, SVN_UTF8_CR, SVN_UTF8_DOLLAR, if_true, Prod.mk.injEq] at h
    simp only [show ¬ ((13 : Nat) = 36) by decide, if_false, if_true, Prod.mk.injEq] at h
    obtain ⟨rfl, rfl, rfl, rfl⟩ := h
    refine ⟨rfl, rfl, fun _ => ⟨hwf, Or.inr hk, Or.inr ?_, Or.inl hk, hsf⟩⟩
    simp [hn, SVN_UTF8_CR]
  · have hnl : translate_newline b.eol_str b.eol_str_len b.src_format
        (b.newline_buf ++ [SVN_UTF8_NEWLINE]) dst b.repair = _ :=
      translate_newline_cases b.eol_str b.eol_str_len b.src_format
        (b.newline_buf ++ [SVN_UTF8_NEWLINE]) dst b.repair (by simp [hn]) hsf
    simp only [switch_byte, show ¬ (SVN_UTF8_NEWLINE = SVN_UTF8_DOLLAR) by decide,
      show ¬ (SVN_UTF8_NEWLINE = SVN_UTF8_CR) by decide, if_false, if_true, hnl] at h
    by_cases h1 : b.src_format ≠ [] ∧ b.repair = false ∧
        b.src_format ≠ b.newline_buf ++ [SVN_UTF8_NEWLINE]
    · rw [if_pos h1] at h
      simp only [Prod.mk.injEq] at h
      obtain ⟨rfl, rfl, rfl, rfl⟩ := h
      exact ⟨rfl, rfl, fun hh => by cases hh⟩
    · rw [if_neg h1] at h
      simp only [Prod.mk.injEq] at h
      obtain ⟨rfl, rfl, rfl, rfl⟩ := h
      refine ⟨rfl, rfl, fun _ => ⟨hwf, Or.inl rfl, Or.inl rfl, Or.inl hk, ?_⟩⟩
      show (if b.src_format = [] then _ else _) = [] ∨ _
      by_cases h2 : b.src_format = []
      · rw [if_pos h2]; simp [hn]
      · rw [if_neg h2]; exact hsf

theorem boring_state_spec (b : translation_baton) (hc : clean b) (hinv : baton_inv b) :
    ∀ (p dst : List Byte) (e : Outcome) (b1 : translation_baton) (p1 d1 : List Byte),
      boring_state b p dst = (e, b1, p1, d1) →
      config b1 = config b ∧ p1.length ≤ p.length - 1 ∧ (e = SVN_NO_ERROR → baton_inv b1) := by
  intro p
  induction p with
  | nil =>
    intro dst e b1 p1 d1 h
    rw [boring_state_nil] at h
    simp only [Prod.mk.injEq] at h
    obtain ⟨rfl, rfl, rfl, rfl⟩ := h
    exact ⟨rfl, by simp, fun _ => hinv⟩
  | cons c rest ih =>
    intro dst e b1 p1 d1 h
    by_cases hb : boring b.interesting c = true
    · rw [boring_state_cons_boring b c rest dst hb] at h
      obtain ⟨h1, h2, h3⟩ := ih _ e b1 p1 d1 h
      exact ⟨h1, by simp only [List.length_cons]; omega, h3⟩
    · simp only [Bool.not_eq_true] at hb
      rw [boring_state_cons_interesting b c rest dst hb] at h
      obtain ⟨h1, h2, h3⟩ := switch_byte_spec b c rest dst hc hinv hb e b1 p1 d1 h
      exact ⟨h1, by subst h2; simp, h3⟩

theorem baton_inv_flush_keyword (b : translation_baton) (hinv : baton_inv b)
    (hn : b.newline_buf = []) :
    clean { b with keyword_buf := [] } ∧ baton_inv { b with keyword_buf := [] } := by
  obtain ⟨hwf, -, -, -, hsf⟩ := hinv
  exact ⟨⟨hn, rfl⟩, hwf, Or.inl hn, Or.inl hn, Or.inl rfl, hsf⟩

theorem loop_body_spec (b : translation_baton) (hinv : baton_inv b) (c : Byte)
    (rest dst : List Byte) (e : Outcome) (b1 : translation_baton) (p1 d1 : List Byte)
    (h : loop_body b c rest dst = (e, b1, p1, d1)) :
    config b1 = config b ∧ (e = SVN_NO_ERROR → p1.length ≤ rest.length ∧ baton_inv b1) := by
  have hinv0 := hinv
  obtain ⟨hwf, hex, hnl, hkw, hsf⟩ := hinv
  unfold loop_body at h
  by_cases hn : b.newline_buf = []
  · -- no newline held
    have hno : ¬ (b.newline_off ≠ 0) := by simp [translation_baton.newline_off, hn]
    rw [if_neg hno] at h
    obtain ⟨hcl, hinvk⟩ := baton_inv_flush_keyword b hinv0 hn
    by_cases h2 : (b.keyword_off ≠ 0 && c = SVN_UTF8_DOLLAR) = true
    · rw [if_pos h2] at h
      rcases htk : translate_keyword (b.keyword_buf ++ [SVN_UTF8_DOLLAR]) b.expand b.keywords
        with _ | ⟨ok, kb⟩
      · rw [htk] at h
        simp only [Prod.mk.injEq] at h
        obtain ⟨rfl, rfl, rfl, rfl⟩ := h
        exact ⟨rfl, fun hh => by cases hh⟩
      · rw [htk] at h
        cases ok
        · obtain ⟨h1, h2, h3⟩ := boring_state_spec _ hcl hinvk _ _ e b1 p1 d1 h
          exact ⟨h1, fun he => ⟨by simpa using h2, h3 he⟩⟩
        · obtain ⟨h1, h2, h3⟩ := boring_state_spec _ hcl hinvk _ _ e b1 p1 d1 h
          exact ⟨h1, fun he => ⟨by omega, h3 he⟩⟩
    · rw [if_neg h2] at h
      by_cases h3 : (decide (b.keyword_off = SVN_KEYWORD_MAX_LEN - 1)
          || (b.keyword_off ≠ 0 && (c = SVN_UTF8_CR || c = SVN_UTF8_NEWLINE))) = true
      · rw [if_pos h3] at h
        obtain ⟨h1, h2, h3⟩ := boring_state_spec _ hcl hinvk _ _ e b1 p1 d1 h
        exact ⟨h1, fun he => ⟨by simpa using h2, h3 he⟩⟩
      · rw [if_neg h3] at h
        by_cases h4 : b.keyword_off ≠ 0
        · rw [if_pos h4] at h
          simp only [Prod.mk.injEq] at h
          obtain ⟨rfl, rfl, rfl, rfl⟩ := h
          refine ⟨rfl, fun _ => ⟨le_refl _, hwf, Or.inl hn, Or.inl hn, Or.inr ?_, hsf⟩⟩
          have hk0 : b.keyword_buf ≠ [] := by
            simpa [translation_baton.keyword_off] using h4
          rcases hkw with hk | ⟨hh, hl, ht⟩
          · exact absurd hk hk0
          · simp only [translation_baton.keyword_off, SVN_KEYWORD_MAX_LEN, Bool.or_eq_true,
              decide_eq_true_eq, Bool.and_eq_true, not_or, not_and, ne_eq] at h2 h3 h4
            have hcd : c ≠ SVN_UTF8_DOLLAR := by
              intro hc
              exact absurd (h2 (by simpa using h4)) (by simpa using hc)
            have hcc : c ≠ SVN_UTF8_CR ∧ c ≠ SVN_UTF8_NEWLINE := by
              have := h3.2 (by simpa using h4)
              simpa using this
            refine ⟨?_, ?_, ?_⟩
            · cases hkb : b.keyword_buf with
              | nil => exact absurd hkb hk0
              | cons x xs => rw [hkb] at hh; simpa using hh
            · have := h3.1
              simp only [List.length_append, List.length_singleton, SVN_KEYWORD_MAX_LEN] at hl ⊢
              omega
            · intro x hx
              cases hkb : b.keyword_buf with
              | nil => exact absurd hkb hk0
              | cons y ys =>
                rw [hkb] at hx ht
                simp only [List.cons_append, List.tail_cons, List.mem_append,
                  List.mem_singleton] at hx ht
                rcases hx with hx | rfl
                · exact ht x hx
                · exact ⟨hcd, hcc.1, hcc.2⟩
        · rw [if_neg h4] at h
          have hk : b.keyword_buf = [] := by
            simpa [translation_baton.keyword_off] using h4
          obtain ⟨h1, h2, h3⟩ := boring_state_spec b ⟨hn, hk⟩ hinv0 _ _ e b1 p1 d1 h
          exact ⟨h1, fun he => ⟨by simpa using h2, h3 he⟩⟩
  · -- a CR is held
    have hno : b.newline_off ≠ 0 := by simpa [translation_baton.newline_off] using hn
    rw [if_pos hno] at h
    have hk : b.keyword_buf = [] := by
      rcases hex with h1 | h1
      · exact absurd h1 hn
      · exact h1
    have hcr : b.newline_buf = [SVN_UTF8_CR] := by
      rcases hnl with h1 | h1
      · exact absurd h1 hn
      · exact h1
    have key : ∀ (nb p : List Byte),
        (nb = [SVN_UTF8_NEWLINE] ∨ nb = [SVN_UTF8_CR] ∨ nb = [SVN_UTF8_CR, SVN_UTF8_NEWLINE]) →
        p.length ≤ rest.length + 1 →
        (match translate_newline b.eol_str b.eol_str_len b.src_format nb dst b.repair with
          | (SVN_NO_ERROR, sf, dst1) =>
            boring_state { b with newline_buf := [], src_format := sf } p dst1
          | (e, sf, dst1) => (e, { b with newline_buf := nb, src_format := sf }, p, dst1))
          = (e, b1, p1, d1) →
        config b1 = config b ∧ (e = SVN_NO_ERROR → p1.length ≤ rest.length ∧ baton_inv b1) := by
      intro nb p hnb hp h
      rw [translate_newline_cases _ _ _ _ _ _ hnb hsf] at h
      by_cases h1 : b.src_format ≠ [] ∧ b.repair = false ∧ b.src_format ≠ nb
      · rw [if_pos h1] at h
        simp only [Prod.mk.injEq] at h
        obtain ⟨rfl, rfl, rfl, rfl⟩ := h
        exact ⟨rfl, fun hh => by cases hh⟩
      · rw [if_neg h1] at h
        simp only at h
        have hcl : clean { b with newline_buf := [], src_format :=
            (if b.src_format = [] then nb else b.src_format) } := ⟨rfl, hk⟩
        have hi : baton_inv { b with newline_buf := [], src_format :=
            (if b.src_format = [] then nb else b.src_format) } := by
          refine ⟨hwf, Or.inl rfl, Or.inl rfl, Or.inl hk, ?_⟩
          show (if b.src_format = [] then _ else _) = [] ∨ _
          by_cases h5 : b.src_format = []
          · rw [if_pos h5]; exact Or.inr hnb
          · rw [if_neg h5]; exact hsf
        obtain ⟨h1, h2, h3⟩ := boring_state_spec _ hcl hi _ _ e b1 p1 d1 h
        exact ⟨h1, fun he => ⟨by omega, h3 he⟩⟩
    simp only at h
    by_cases hc : c = SVN_UTF8_NEWLINE
    · simp only [hc, if_true] at h
      exact key _ _ (by rw [hcr]; simp) (by simp) h
    · simp only [hc, if_false] at h
      exact key _ _ (by rw [hcr]; simp) (by simp) h

/-! ## The loop: fuel, invariant, splitting the input -/

theorem translate_chunk_loop_succ (n : Nat) (b : translation_baton) (c : Byte)
    (rest dst : List Byte) :
    translate_chunk_loop (n + 1) b (c :: rest) dst = continue_loop n (loop_body b c rest dst) := by
  rcases h : loop_body b c rest dst with ⟨e, b1, p1, d1⟩
  cases e <;> simp [translate_chunk_loop, continue_loop, h]

theorem translate_chunk_loop_nil (n : Nat) (b : translation_baton) (dst : List Byte) :
    translate_chunk_loop n b [] dst = some (SVN_NO_ERROR, b, dst) := by
  cases n <;> rfl

theorem continue_loop_ok (n : Nat) (b1 : translation_baton) (p d : List Byte) :
    continue_loop n (SVN_NO_ERROR, b1, p, d) = translate_chunk_loop n b1 p d := rfl

theorem continue_loop_err (n : Nat) (e : Outcome) (he : e ≠ SVN_NO_ERROR)
    (b1 : translation_baton) (p d : List Byte) :
    continue_loop n (e, b1, p, d) = some (e, b1, d) := by
  cases e <;> first | exact absurd rfl he | rfl

/-- Enough fuel: the result of the loop does not depend on the bound once it is
at least the length of the input. -/
theorem translate_chunk_loop_fuel_irrel :
    ∀ (n m : Nat) (b : translation_baton) (p dst : List Byte), baton_inv b →
      p.length ≤ n → p.length ≤ m →
      translate_chunk_loop n b p dst = translate_chunk_loop m b p dst := by
  intro n
  induction n with
  | zero =>
    intro m b p dst _ hn _
    have : p = [] := List.length_eq_zero.mp (Nat.le_zero.mp hn)
    subst this
    rw [translate_chunk_loop_nil, translate_chunk_loop_nil]
  | succ n ih =>
    intro m b p dst hinv hn hm
    cases p with
    | nil => rw [translate_chunk_loop_nil, translate_chunk_loop_nil]
    | cons c rest =>
      cases m with
      | zero => simp at hm
      | succ m =>
        rw [translate_chunk_loop_succ, translate_chunk_loop_succ]
        rcases h : loop_body b c rest dst with ⟨e, b1, p1, d1⟩
        obtain ⟨-, h2⟩ := loop_body_spec b hinv c rest dst e b1 p1 d1 h
        by_cases he : e = SVN_NO_ERROR
        · subst he
          obtain ⟨hl, hi⟩ := h2 rfl
          simp only [List.length_cons] at hn hm
          rw [continue_loop_ok, continue_loop_ok]
          exact ih m b1 p1 d1 hi (by omega) (by omega)
        · rw [continue_loop_err n e he, continue_loop_err m e he]

theorem continue_loop_fuel_irrel (n m : Nat)
    (e : Outcome) (b1 : translation_baton) (p1 d1 : List Byte)
    (hi : e = SVN_NO_ERROR → baton_inv b1) (hn : p1.length ≤ n) (hm : p1.length ≤ m) :
    continue_loop n (e, b1, p1, d1) = continue_loop m (e, b1, p1, d1) := by
  by_cases he : e = SVN_NO_ERROR
  · subst he
    rw [continue_loop_ok, continue_loop_ok]
    exact translate_chunk_loop_fuel_irrel n m b1 p1 d1 (hi rfl) hn hm
  · rw [continue_loop_err n e he, continue_loop_err m e he]

/-- The loop returns (it never uses up its bound), and after `SVN_NO_ERROR` the
invariant holds again and the configuration is the same. -/
theorem translate_chunk_loop_total :
    ∀ (n : Nat) (b : translation_baton) (p dst : List Byte), baton_inv b → p.length ≤ n →
      ∃ e b1 d1, translate_chunk_loop n b p dst = some (e, b1, d1) ∧ config b1 = config b ∧
        (e = SVN_NO_ERROR → baton_inv b1) := by
  intro n
  induction n with
  | zero =>
    intro b p dst hinv hn
    have : p = [] := List.length_eq_zero.mp (Nat.le_zero.mp hn)
    subst this
    exact ⟨SVN_NO_ERROR, b, dst, rfl, rfl, fun _ => hinv⟩
  | succ n ih =>
    intro b p dst hinv hn
    cases p with
    | nil => exact ⟨SVN_NO_ERROR, b, dst, rfl, rfl, fun _ => hinv⟩
    | cons c rest =>
      rw [translate_chunk_loop_succ]
      rcases h : loop_body b c rest dst with ⟨e, b1, p1, d1⟩
      obtain ⟨h1, h2⟩ := loop_body_spec b hinv c rest dst e b1 p1 d1 h
      by_cases he : e = SVN_NO_ERROR
      · subst he
        obtain ⟨hl, hi⟩ := h2 rfl
        simp only [List.length_cons] at hn
        rw [continue_loop_ok]
        obtain ⟨e2, b2, d2, h3, h4, h5⟩ := ih b1 p1 d1 hi (by omega)
        exact ⟨e2, b2, d2, h3, h4.trans h1, h5⟩
      · rw [continue_loop_err n e he]
        exact ⟨e, b1, d1, rfl, h1, fun hh => absurd hh he⟩

theorem and_then_ok (b1 : translation_baton) (d1 : List Byte)
    (f : translation_baton → List Byte → Option (Outcome × translation_baton × List Byte)) :
    and_then (some (SVN_NO_ERROR, b1, d1)) f = f b1 d1 := rfl

theorem and_then_err (e : Outcome) (he : e ≠ SVN_NO_ERROR) (b1 : translation_baton)
    (d1 : List Byte)
    (f : translation_baton → List Byte → Option (Outcome × translation_baton × List Byte)) :
    and_then (some (e, b1, d1)) f = some (e, b1, d1) := by
  cases e <;> first | exact absurd rfl he | rfl

theorem loop_body_clean (b : translation_baton) (hc : clean b) (c : Byte)
    (rest dst : List Byte) :
    loop_body b c rest dst = boring_state b (c :: rest) dst := by
  obtain ⟨hn, hk⟩ := hc
  simp [loop_body, translation_baton.newline_off, translation_baton.keyword_off, hn, hk,
    SVN_KEYWORD_MAX_LEN]

/-- From a clean state, running the boring state and going on with the loop
is the loop itself. -/
theorem clean_loop (b : translation_baton) (hc : clean b) (hinv : baton_inv b)
    (p d : List Byte) (n : Nat) (hn : p.length ≤ n) :
    continue_loop n (boring_state b p d) = translate_chunk_loop n b p d := by
  cases p with
  | nil => rw [boring_state_nil, continue_loop_ok]
  | cons c r =>
    cases n with
    | zero => simp at hn
    | succ m =>
      rw [translate_chunk_loop_succ, loop_body_clean b hc]
      rcases h : boring_state b (c :: r) d with ⟨e, b1, p1, d1⟩
      obtain ⟨-, h2, h3⟩ := boring_state_spec b hc hinv _ _ e b1 p1 d1 h
      simp only [List.length_cons, Nat.add_sub_cancel] at h2 hn
      exact continue_loop_fuel_irrel (m + 1) m e b1 p1 d1 h3 (by omega) (by omega)

theorem switch_byte_split (b : translation_baton) (c : Byte) (rest d : List Byte)
    (hinv : baton_inv b) (hb : boring b.interesting c = false) (n : Nat) :
    continue_loop n (switch_byte b c rest d) =
      and_then (continue_loop 0 (switch_byte b c [] d))
        (fun b1 d1 => translate_chunk_loop n b1 rest d1) := by
  rcases hinv.1 c hb with rfl | rfl | rfl
  · simp [switch_byte, continue_loop_ok, translate_chunk_loop_nil, and_then_ok]
  · simp [switch_byte, SVN_UTF8_CR, SVN_UTF8_DOLLAR, continue_loop_ok, translate_chunk_loop_nil,
      and_then_ok]
  · simp only [switch_byte, show ¬ (SVN_UTF8_NEWLINE = SVN_UTF8_DOLLAR) by decide,
      show ¬ (SVN_UTF8_NEWLINE = SVN_UTF8_CR) by decide, if_false, if_true]
    rcases translate_newline b.eol_str b.eol_str_len b.src_format
      (b.newline_buf ++ [SVN_UTF8_NEWLINE]) d b.repair with ⟨e, sf, d1⟩
    cases e <;> simp [continue_loop_ok, translate_chunk_loop_nil, and_then_ok, continue_loop,
      and_then]

theorem boring_state_split (b : translation_baton) (hc : clean b) (hinv : baton_inv b)
    (x rest d : List Byte) (hx : x.length ≤ 1) (n : Nat) (hn : rest.length ≤ n) :
    continue_loop n (boring_state b (x ++ rest) d) =
      and_then (continue_loop 0 (boring_state b x d))
        (fun b1 d1 => translate_chunk_loop n b1 rest d1) := by
  match x, hx with
  | [], _ =>
    rw [List.nil_append, boring_state_nil, continue_loop_ok, translate_chunk_loop_nil,
      and_then_ok]
    exact clean_loop b hc hinv rest d n hn
  | [c], _ =>
    by_cases hb : boring b.interesting c = true
    · rw [List.singleton_append, boring_state_cons_boring b c rest d hb,
        boring_state_cons_boring b c [] d hb, boring_state_nil, continue_loop_ok,
        translate_chunk_loop_nil, and_then_ok]
      exact clean_loop b hc hinv rest _ n hn
    · simp only [Bool.not_eq_true] at hb
      rw [List.singleton_append, boring_state_cons_interesting b c rest d hb,
        boring_state_cons_interesting b c [] d hb]
      exact switch_byte_split b c rest d hinv hb n

theorem loop_body_split (b : translation_baton) (hinv : baton_inv b) (c : Byte)
    (rest dst : List Byte) (n : Nat) (hn : rest.length ≤ n) :
    continue_loop n (loop_body b c rest dst) =
      and_then (continue_loop 0 (loop_body b c [] dst))
        (fun b1 d1 => translate_chunk_loop n b1 rest d1) := by
  have hinv0 := hinv
  obtain ⟨hwf, hex, hnl, hkw, hsf⟩ := hinv
  unfold loop_body
  by_cases hnb : b.newline_buf = []
  · have hno : ¬ (b.newline_off ≠ 0) := by simp [translation_baton.newline_off, hnb]
    rw [if_neg hno, if_neg hno]
    obtain ⟨hcl, hinvk⟩ := baton_inv_flush_keyword b hinv0 hnb
    by_cases h2 : (b.keyword_off ≠ 0 && c = SVN_UTF8_DOLLAR) = true
    · rw [if_pos h2, if_pos h2]
      rcases translate_keyword (b.keyword_buf ++ [SVN_UTF8_DOLLAR]) b.expand b.keywords
        with _ | ⟨ok, kb⟩
      · simp [continue_loop, and_then]
      · cases ok
        · exact boring_state_split _ hcl hinvk [c] rest _ (by simp) n hn
        · exact boring_state_split _ hcl hinvk [] rest _ (by simp) n hn
    · rw [if_neg h2, if_neg h2]
      by_cases h3 : (decide (b.keyword_off = SVN_KEYWORD_MAX_LEN - 1)
          || (b.keyword_off ≠ 0 && (c = SVN_UTF8_CR || c = SVN_UTF8_NEWLINE))) = true
      · rw [if_pos h3, if_pos h3]
        exact boring_state_split _ hcl hinvk [c] rest _ (by simp) n hn
      · rw [if_neg h3, if_neg h3]
        by_cases h4 : b.keyword_off ≠ 0
        · rw [if_pos h4, if_pos h4, continue_loop_ok, continue_loop_ok,
            translate_chunk_loop_nil, and_then_ok]
        · rw [if_neg h4, if_neg h4]
          have hk : b.keyword_buf = [] := by
            simpa [translation_baton.keyword_off] using h4
          exact boring_state_split b ⟨hnb, hk⟩ hinv0 [c] rest _ (by simp) n hn
  · have hno : b.newline_off ≠ 0 := by simpa [translation_baton.newline_off] using hnb
    rw [if_pos hno, if_pos hno]
    have hk : b.keyword_buf = [] := by
      rcases hex with h1 | h1
      · exact absurd h1 hnb
      · exact h1
    have hcr : b.newline_buf = [SVN_UTF8_CR] := by
      rcases hnl with h1 | h1
      · exact absurd h1 hnb
      · exact h1
    have key : ∀ (nb x : List Byte), x.length ≤ 1 →
        (nb = [SVN_UTF8_NEWLINE] ∨ nb = [SVN_UTF8_CR] ∨ nb = [SVN_UTF8_CR, SVN_UTF8_NEWLINE]) →
        continue_loop n
          (match translate_newline b.eol_str b.eol_str_len b.src_format nb dst b.repair with
          | (SVN_NO_ERROR, sf, dst1) =>
            boring_state { b with newline_buf := [], src_format := sf } (x ++ rest) dst1
          | (e, sf, dst1) =>
            (e, { b with newline_buf := nb, src_format := sf }, x ++ rest, dst1)) =
        and_then (continue_loop 0
          (match translate_newline b.eol_str b.eol_str_len b.src_format nb dst b.repair with
          | (SVN_NO_ERROR, sf, dst1) =>
            boring_state { b with newline_buf := [], src_format := sf } x dst1
          | (e, sf, dst1) => (e, { b with newline_buf := nb, src_format := sf }, x, dst1)))
          (fun b1 d1 => translate_chunk_loop n b1 rest d1) := by
      intro nb x hx hnb2
      rw [translate_newline_cases _ _ _ _ _ _ hnb2 hsf]
      by_cases h1 : b.src_format ≠ [] ∧ b.repair = false ∧ b.src_format ≠ nb
      · rw [if_pos h1]
        simp [continue_loop, and_then]
      · rw [if_neg h1]
        simp only
        have hcl : clean { b with newline_buf := [], src_format :=
            (if b.src_format = [] then nb else b.src_format) } := ⟨rfl, hk⟩
        have hi : baton_inv { b with newline_buf := [], src_format :=
            (if b.src_format = [] then nb else b.src_format) } := by
          refine ⟨hwf, Or.inl rfl, Or.inl rfl, Or.inl hk, ?_⟩
          show (if b.src_format = [] then _ else _) = [] ∨ _
          by_cases h5 : b.src_format = []
          · rw [if_pos h5]; exact Or.inr hnb2
          · rw [if_neg h5]; exact hsf
        exact boring_state_split _ hcl hi x rest _ hx n hn
    simp only
    by_cases hc : c = SVN_UTF8_NEWLINE
    · simp only [hc, if_true]
      exact key _ [] (by simp) (by rw [hcr]; simp)
    · simp only [hc, if_false]
      exact key _ [c] (by simp) (by rw [hcr]; simp)

/-- Feeding a chunk is feeding its first byte as a chunk of its own and then
the rest. -/
theorem translate_chunk_loop_cons (b : translation_baton) (hinv : baton_inv b) (c : Byte)
    (rest dst : List Byte) (n : Nat) (hn : rest.length ≤ n) :
    translate_chunk_loop (n + 1) b (c :: rest) dst =
      and_then (translate_chunk_loop 1 b [c] dst)
        (fun b1 d1 => translate_chunk_loop n b1 rest d1) := by
  rw [translate_chunk_loop_succ, translate_chunk_loop_succ]
  exact loop_body_split b hinv c rest dst n hn

/-- Splitting the input of the loop at any point gives the same result as one
run over the whole input. -/
theorem translate_chunk_loop_append :
    ∀ (p q : List Byte) (b : translation_baton) (dst : List Byte), baton_inv b →
      translate_chunk_loop (p ++ q).length b (p ++ q) dst =
        and_then (translate_chunk_loop p.length b p dst)
          (fun b1 d1 => translate_chunk_loop q.length b1 q d1) := by
  intro p
  induction p with
  | nil =>
    intro q b dst _
    rw [List.nil_append, translate_chunk_loop_nil, and_then_ok]
  | cons c p ih =>
    intro q b dst hinv
    rw [List.cons_append, List.length_cons, List.length_cons,
      translate_chunk_loop_cons b hinv c (p ++ q) dst _ (le_refl _),
      translate_chunk_loop_cons b hinv c p dst _ (le_refl _)]
    obtain ⟨e, b1, d1, h1, -, h3⟩ :=
      translate_chunk_loop_total 1 b [c] dst hinv (by simp)
    rw [h1]
    by_cases he : e = SVN_NO_ERROR
    · subst he
      rw [and_then_ok, and_then_ok]
      exact ih q b1 d1 (h3 rfl)
    · rw [and_then_err e he, and_then_err e he, and_then_err e he]

/-! ## Series of chunk calls -/

theorem translate_chunks_cons (dst : List Byte) (b : translation_baton)
    (buf : Option (List Byte)) (bufs : List (Option (List Byte))) :
    translate_chunks dst b (buf :: bufs) =
      and_then (translate_chunk dst b buf) (fun b1 d1 => translate_chunks d1 b1 bufs) := by
  rcases h : translate_chunk dst b buf with _ | ⟨e, b1, d1⟩
  · simp [translate_chunks, and_then, h]
  · cases e <;> simp [translate_chunks, and_then, h]

theorem wf_interesting_create (eol_str : Option (List Byte)) (repair : Bool)
    (keywords : Option apr_hash_t) (expand : Bool) :
    wf_interesting (create_translation_baton eol_str repair keywords expand) := by
  intro c hc
  simp only [create_translation_baton] at hc
  split_ifs at hc <;>
    simp [boring, strchr, cstr, SVN_UTF8_DOLLAR, SVN_UTF8_CR, SVN_UTF8_NEWLINE] at hc ⊢ <;>
    tauto

theorem baton_inv_create (eol_str : Option (List Byte)) (repair : Bool)
    (keywords : Option apr_hash_t) (expand : Bool) :
    baton_inv (create_translation_baton eol_str repair keywords expand) :=
  ⟨wf_interesting_create eol_str repair keywords expand, Or.inl rfl, Or.inl rfl, Or.inl rfl,
    Or.inl rfl⟩

theorem clean_create (eol_str : Option (List Byte)) (repair : Bool)
    (keywords : Option apr_hash_t) (expand : Bool) :
    clean (create_translation_baton eol_str repair keywords expand) := ⟨rfl, rfl⟩

/-- A series of chunk calls equals one call on the concatenation of the chunks. -/
theorem translate_chunks_join :
    ∀ (chunks : List (List Byte)) (b : translation_baton) (dst : List Byte)
      (rest : List (Option (List Byte))), baton_inv b →
      translate_chunks dst b (chunks.map some ++ rest) =
        and_then (translate_chunk dst b (some chunks.flatten))
          (fun b1 d1 => translate_chunks d1 b1 rest) := by
  intro chunks
  induction chunks with
  | nil =>
    intro b dst rest _
    simp [translate_chunk, translate_chunk_loop_nil, and_then_ok]
  | cons ch chs ih =>
    intro b dst rest hinv
    rw [List.map_cons, List.cons_append, translate_chunks_cons, List.flatten_cons]
    show and_then (translate_chunk_loop ch.length b ch dst) _ =
      and_then (translate_chunk_loop (ch ++ chs.flatten).length b (ch ++ chs.flatten) dst) _
    rw [translate_chunk_loop_append ch chs.flatten b dst hinv]
    obtain ⟨e, b1, d1, h1, -, h3⟩ :=
      translate_chunk_loop_total ch.length b ch dst hinv (le_refl _)
    rw [h1]
    by_cases he : e = SVN_NO_ERROR
    · subst he
      rw [and_then_ok, and_then_ok]
      exact ih b1 d1 rest (h3 rfl)
    · rw [and_then_err e he, and_then_err e he, and_then_err e he]

/-- C1. Chunk independence: for every EOL target, repair flag, keyword set and
expand flag, and every way of giving the input as a series of chunks (empty
chunks included), feeding the chunks to a fresh baton and flushing yields the
same outcome and the same bytes written as feeding the concatenation of the
chunks as one chunk and flushing. Keyword candidates and CR LF pairs that
straddle a chunk boundary are covered, since the chunks are arbitrary. -/
theorem translate_stream_chunk_independent (eol_str : Option (List Byte)) (repair : Bool)
    (keywords : Option apr_hash_t) (expand : Bool) (chunks : List (List Byte)) :
    translate_stream eol_str repair keywords expand chunks =
      translate_stream eol_str repair keywords expand [chunks.flatten] := by
  unfold translate_stream
  rw [translate_chunks_join chunks _ [] [none] (baton_inv_create _ _ _ _)]
  rw [show List.map some [chunks.flatten] ++ [none] = [some chunks.flatten, none] from rfl,
    translate_chunks_cons]

/-! ## Input without interesting bytes -/

theorem boring_state_all_boring (b : translation_baton) :
    ∀ (p dst : List Byte), (∀ c ∈ p, boring b.interesting c = true) →
      boring_state b p dst = (SVN_NO_ERROR, b, [], dst ++ p) := by
  intro p
  induction p with
  | nil => intro dst _; simp [boring_state_nil]
  | cons c r ih =>
    intro dst h
    rw [boring_state_cons_boring b c r dst (h c (by simp)), ih _ (fun x hx => h x (by simp [hx]))]
    simp

theorem translate_chunk_all_boring (b : translation_baton) (hc : clean b) (p dst : List Byte)
    (h : ∀ c ∈ p, boring b.interesting c = true) :
    translate_chunk dst b (some p) = some (SVN_NO_ERROR, b, dst ++ p) := by
  cases p with
  | nil => simp [translate_chunk, translate_chunk_loop_nil]
  | cons c r =>
    show translate_chunk_loop (r.length + 1) b (c :: r) dst = _
    rw [translate_chunk_loop_succ, loop_body_clean b hc, boring_state_all_boring b _ _ h,
      continue_loop_ok, translate_chunk_loop_nil]

theorem translate_chunk_flush_clean (b : translation_baton) (hc : clean b) (dst : List Byte) :
    translate_chunk dst b none = some (SVN_NO_ERROR, b, dst) := by
  obtain ⟨hn, hk⟩ := hc
  simp [translate_chunk, translation_baton.newline_off, translation_baton.keyword_off, hn, hk]

/-- C2. For every configuration and every input, in any chunking, that
contains no `$`, no CR and no LF byte (NUL bytes allowed), the translation
succeeds and the output equals the input byte for byte. -/
theorem translate_stream_identity (eol_str : Option (List Byte)) (repair : Bool)
    (keywords : Option apr_hash_t) (expand : Bool) (chunks : List (List Byte))
    (h : ∀ c ∈ chunks.flatten,
      c ≠ SVN_UTF8_DOLLAR ∧ c ≠ SVN_UTF8_CR ∧ c ≠ SVN_UTF8_NEWLINE) :
    translate_stream eol_str repair keywords expand chunks
      = some (SVN_NO_ERROR, chunks.flatten) := by
  unfold translate_stream
  rw [translate_chunks_join chunks _ [] [none] (baton_inv_create _ _ _ _)]
  have hb : ∀ c ∈ chunks.flatten,
      boring (create_translation_baton eol_str repair keywords expand).interesting c = true := by
    intro c hc
    by_contra hcon
    have := wf_interesting_create eol_str repair keywords expand c (by simpa using hcon)
    have := h c hc
    tauto
  rw [translate_chunk_all_boring _ (clean_create _ _ _ _) _ _ hb, and_then_ok,
    translate_chunks_cons, translate_chunk_flush_clean _ (clean_create _ _ _ _), and_then_ok]
  simp [translate_chunks]

/-- Witness for C2: `a NUL b` in two chunks, EOL target CR LF, a keyword set, expand. -/
theorem translate_stream_identity_witness :
    (∀ c ∈ [[97, 0], [98]].flatten,
      c ≠ SVN_UTF8_DOLLAR ∧ c ≠ SVN_UTF8_CR ∧ c ≠ SVN_UTF8_NEWLINE) ∧
    translate_stream (some [13, 10]) false (some [(ascii "Rev", ascii "42")]) true [[97, 0], [98]]
      = some (SVN_NO_ERROR, [[97, 0], [98]].flatten) :=
  ⟨by decide, translate_stream_identity _ _ _ _ _ (by decide)⟩

/-! ## The newline protocol against the terminators of the input -/

theorem terminators_cons_other (c : Byte) (p : List Byte) (h1 : c ≠ SVN_UTF8_CR)
    (h2 : c ≠ SVN_UTF8_NEWLINE) : terminators (c :: p) = terminators p := by
  cases p with
  | nil => simp [terminators, h1, h2]
  | cons d r => simp [terminators, h1, h2]

theorem terminators_cons_lf (p : List Byte) :
    terminators (SVN_UTF8_NEWLINE :: p) = [SVN_UTF8_NEWLINE] :: terminators p := by
  cases p with
  | nil => simp [terminators, SVN_UTF8_NEWLINE, SVN_UTF8_CR]
  | cons d r => simp [terminators, SVN_UTF8_NEWLINE, SVN_UTF8_CR]

theorem terminators_cr_lf (p : List Byte) :
    terminators (SVN_UTF8_CR :: SVN_UTF8_NEWLINE :: p)
      = [SVN_UTF8_CR, SVN_UTF8_NEWLINE] :: terminators p := by
  simp [terminators]

theorem terminators_cr_other (c : Byte) (p : List Byte) (h : c ≠ SVN_UTF8_NEWLINE) :
    terminators (SVN_UTF8_CR :: c :: p) = [SVN_UTF8_CR] :: terminators (c :: p) := by
  simp [terminators, h]

theorem terminators_cr_nil : terminators [SVN_UTF8_CR] = [[SVN_UTF8_CR]] := by
  simp [terminators]

theorem eol_run_spec :
    ∀ (p held fmt : List Byte), (held = [] ∨ held = [SVN_UTF8_CR]) →
      eol_run false (held, fmt) p = eol_consistent fmt (terminators (held ++ p)) := by
  intro p
  induction p with
  | nil =>
    intro held fmt hh
    rcases hh with rfl | rfl
    · simp [eol_run, terminators, eol_consistent]
    · by_cases hf : fmt = []
      · simp [eol_run, terminators, eol_consistent, eol_check, hf]
      · by_cases hf2 : fmt = [SVN_UTF8_CR]
        · simp [eol_run, terminators, eol_consistent, eol_check, hf2]
        · have hf3 : ¬ [SVN_UTF8_CR] = fmt := fun h => hf2 h.symm
          simp [eol_run, terminators, eol_consistent, eol_check, hf, hf2, hf3]
  | cons c r ih =>
    intro held fmt hh
    rcases hh with rfl | rfl
    · -- nothing held
      by_cases h1 : c = SVN_UTF8_CR
      · subst h1
        simp only [eol_run, eol_step, ne_eq, not_true_eq_false, if_false, if_true,
          List.nil_append]
        rw [ih _ _ (Or.inr rfl)]
        rfl
      · by_cases h2 : c = SVN_UTF8_NEWLINE
        · subst h2
          simp only [List.nil_append, terminators_cons_lf]
          by_cases hf : fmt = []
          · simp [eol_run, eol_step, eol_check, hf, eol_consistent, SVN_UTF8_NEWLINE,
              SVN_UTF8_CR, ih]
          · by_cases hf2 : fmt = [SVN_UTF8_NEWLINE]
            · simp [eol_run, eol_step, eol_check, hf2, eol_consistent, SVN_UTF8_NEWLINE,
                SVN_UTF8_CR, ih]
            · have hf3 : ¬ [SVN_UTF8_NEWLINE] = fmt := fun h => hf2 h.symm
              simp [eol_run, eol_step, eol_check, hf, hf2, hf3, eol_consistent,
                show ¬ (SVN_UTF8_NEWLINE = SVN_UTF8_CR) by decide]
        · simp only [List.nil_append, terminators_cons_other c r h1 h2]
          simp only [eol_run, eol_step, ne_eq, not_true_eq_false, if_false, h1, h2]
          rw [ih _ _ (Or.inl rfl)]
          rfl
    · -- a CR is held
      by_cases h2 : c = SVN_UTF8_NEWLINE
      · subst h2
        simp only [List.singleton_append, terminators_cr_lf]
        by_cases hf : fmt = []
        · simp [eol_run, eol_step, eol_check, hf, eol_consistent, ih]
        · by_cases hf2 : fmt = [SVN_UTF8_CR, SVN_UTF8_NEWLINE]
          · simp [eol_run, eol_step, eol_check, hf2, eol_consistent, ih]
          · have hf3 : ¬ [SVN_UTF8_CR, SVN_UTF8_NEWLINE] = fmt := fun h => hf2 h.symm
            simp [eol_run, eol_step, eol_check, hf, hf2, hf3, eol_consistent]
      · simp only [List.singleton_append, terminators_cr_other c r h2]
        have hih : ∀ f, eol_run false (if c = SVN_UTF8_CR then [SVN_UTF8_CR] else [], f) r
            = eol_consistent f (terminators (c :: r)) := by
          intro f
          by_cases h1 : c = SVN_UTF8_CR
          · subst h1
            rw [if_pos rfl, ih _ _ (Or.inr rfl)]
            rfl
          · rw [if_neg h1, ih _ _ (Or.inl rfl), List.nil_append,
              terminators_cons_other c r h1 h2]
        by_cases hf : fmt = []
        · simp [eol_run, eol_step, eol_check, hf, eol_consistent, h2, hih]
        · by_cases hf2 : fmt = [SVN_UTF8_CR]
          · simp [eol_run, eol_step, eol_check, hf2, eol_consistent, h2, hih]
          · have hf3 : ¬ [SVN_UTF8_CR] = fmt := fun h => hf2 h.symm
            simp [eol_run, eol_step, eol_check, hf, hf2, hf3, eol_consistent, h2]

theorem eol_check_repair (fmt nb : List Byte) :
    eol_check true fmt nb = some (if fmt = [] then nb else fmt) := by
  simp [eol_check]

theorem eol_run_repair : ∀ (p : List Byte) (st : List Byte × List Byte),
    eol_run true st p = true := by
  intro p
  induction p with
  | nil => intro st; simp [eol_run, eol_check_repair]
  | cons c r ih =>
    intro st
    simp only [eol_run, eol_step, eol_check_repair]
    split_ifs <;> simp [ih]

/-! ## The substitutor returns on a good buffer -/

theorem translate_keyword_subst_isSome (buf keyword : List Byte) (keyword_len : Nat)
    (value : Option (List Byte)) (hg : good_stuffs buf = true) :
    (translate_keyword_subst buf keyword keyword_len value).isSome = true := by
  unfold translate_keyword_subst
  cases value <;> simp only [hg, Bool.not_true, Bool.false_eq_true, if_false] <;>
    split_ifs <;> simp

theorem translate_keyword_isSome (buf : List Byte) (expand : Bool)
    (keywords : Option apr_hash_t) (hg : good_stuffs buf = true) :
    (translate_keyword buf expand keywords).isSome = true := by
  unfold translate_keyword
  simp only [hg, Bool.not_true, Bool.false_eq_true, if_false]
  cases keywords with
  | none => rfl
  | some kw =>
    simp only
    cases apr_hash_get kw (keyword_name buf) with
    | none => rfl
    | some v => exact translate_keyword_subst_isSome _ _ _ _ hg

theorem good_stuffs_keyword_buf (b : translation_baton) (hinv : baton_inv b)
    (hk : b.keyword_buf ≠ []) : good_stuffs (b.keyword_buf ++ [SVN_UTF8_DOLLAR]) = true := by
  obtain ⟨-, -, -, hkw, -⟩ := hinv
  rcases hkw with h | ⟨hh, hl, -⟩
  · exact absurd h hk
  · cases hkb : b.keyword_buf with
    | nil => exact absurd hkb hk
    | cons x xs =>
      rw [hkb] at hh hl
      simp only [List.head?_cons, Option.some.injEq] at hh
      simp only [good_stuffs, SVN_KEYWORD_MAX_LEN, List.length_cons, List.length_append,
        List.length_singleton, List.cons_append, List.head?_cons, hh, beq_self_eq_true,
        Bool.true_and, Bool.and_eq_true, decide_eq_true_eq, List.length_nil] at hl ⊢
      refine ⟨by omega, ?_⟩
      rw [← List.cons_append, List.getLast?_append]
      simp

/-! ## The transducer follows the newline protocol -/

theorem boring_state_single_eol (b : translation_baton) (hc : clean b) (hinv : baton_inv b)
    (hcr : boring b.interesting SVN_UTF8_CR = false)
    (hlf : boring b.interesting SVN_UTF8_NEWLINE = false) (c : Byte) (d : List Byte) :
    ∃ e1 b1 d1, continue_loop 0 (boring_state b [c] d) = some (e1, b1, d1) ∧
      eol_sim (eol_step b.repair ([], b.src_format) c) e1 b1 := by
  obtain ⟨hn, hk⟩ := hc
  by_cases hb : boring b.interesting c = true
  · have h1 : c ≠ SVN_UTF8_CR := fun h => by rw [h, hcr] at hb; cases hb
    have h2 : c ≠ SVN_UTF8_NEWLINE := fun h => by rw [h, hlf] at hb; cases hb
    rw [boring_state_cons_boring b c [] d hb, boring_state_nil, continue_loop_ok,
      translate_chunk_loop_nil]
    refine ⟨_, _, _, rfl, ?_⟩
    simp [eol_step, eol_sim, h1, h2, hn]
  · simp only [Bool.not_eq_true] at hb
    rw [boring_state_cons_interesting b c [] d hb]
    rcases hinv.1 c hb with rfl | rfl | rfl
    · refine ⟨SVN_NO_ERROR, { b with keyword_buf := b.keyword_buf ++ [SVN_UTF8_DOLLAR] }, d,
        by simp [switch_byte, continue_loop_ok, translate_chunk_loop_nil], ?_⟩
      simp [eol_step, eol_sim, hn, SVN_UTF8_DOLLAR, SVN_UTF8_CR, SVN_UTF8_NEWLINE]
    · refine ⟨SVN_NO_ERROR, { b with newline_buf := b.newline_buf ++ [SVN_UTF8_CR] }, d,
        by simp [switch_byte, SVN_UTF8_DOLLAR, SVN_UTF8_CR, continue_loop_ok,
          translate_chunk_loop_nil], ?_⟩
      simp [eol_step, eol_sim, hn]
    · simp only [switch_byte, show ¬ (SVN_UTF8_NEWLINE = SVN_UTF8_DOLLAR) by decide,
        show ¬ (SVN_UTF8_NEWLINE = SVN_UTF8_CR) by decide, if_false, if_true]
      rw [translate_newline_cases _ _ _ _ _ _ (by simp [hn]) hinv.2.2.2.2, hn]
      simp only [eol_step, ne_eq, not_true_eq_false, if_false,
        show ¬ (SVN_UTF8_NEWLINE = SVN_UTF8_CR) by decide, if_true, eol_check, List.nil_append]
      by_cases h1 : b.src_format ≠ [] ∧ b.repair = false ∧ b.src_format ≠ [SVN_UTF8_NEWLINE]
      · rw [if_pos h1, if_pos h1]
        exact ⟨_, _, _, rfl, rfl⟩
      · rw [if_neg h1, if_neg h1]
        exact ⟨_, _, _, rfl, rfl, rfl, rfl⟩

theorem step_eol (b : translation_baton) (hinv : baton_inv b)
    (hcr : boring b.interesting SVN_UTF8_CR = false)
    (hlf : boring b.interesting SVN_UTF8_NEWLINE = false) (c : Byte) (dst : List Byte) :
    ∃ e1 b1 d1, translate_chunk_loop 1 b [c] dst = some (e1, b1, d1) ∧
      eol_sim (eol_step b.repair (b.newline_buf, b.src_format) c) e1 b1 := by
  have hinv0 := hinv
  obtain ⟨hwf, hex, hnl, hkw, hsf⟩ := hinv
  rw [translate_chunk_loop_succ]
  unfold loop_body
  by_cases hnb : b.newline_buf = []
  · have hno : ¬ (b.newline_off ≠ 0) := by simp [translation_baton.newline_off, hnb]
    rw [if_neg hno]
    obtain ⟨hcl, hinvk⟩ := baton_inv_flush_keyword b hinv0 hnb
    have hsub : ∀ d, ∃ e1 b1 d1,
        continue_loop 0 (boring_state { b with keyword_buf := [] } [c] d) = some (e1, b1, d1) ∧
        eol_sim (eol_step b.repair (b.newline_buf, b.src_format) c) e1 b1 := by
      intro d
      have := boring_state_single_eol _ hcl hinvk hcr hlf c d
      rw [hnb] at this ⊢
      exact this
    by_cases h2 : (b.keyword_off ≠ 0 && c = SVN_UTF8_DOLLAR) = true
    · rw [if_pos h2]
      have hk0 : b.keyword_buf ≠ [] := by
        simp only [translation_baton.keyword_off, Bool.and_eq_true, decide_eq_true_eq] at h2
        simpa using h2.1
      have hcd : c = SVN_UTF8_DOLLAR := by
        simp only [Bool.and_eq_true, decide_eq_true_eq] at h2
        exact h2.2
      have hs := translate_keyword_isSome (b.keyword_buf ++ [SVN_UTF8_DOLLAR]) b.expand
        b.keywords (good_stuffs_keyword_buf b hinv0 hk0)
      rcases htk : translate_keyword (b.keyword_buf ++ [SVN_UTF8_DOLLAR]) b.expand b.keywords
        with _ | ⟨ok, kb⟩
      · rw [htk] at hs; cases hs
      · cases ok
        · exact hsub _
        · simp only [boring_state_nil, continue_loop_ok, translate_chunk_loop_nil]
          refine ⟨_, _, _, rfl, ?_⟩
          simp [eol_step, eol_sim, hnb, hcd, SVN_UTF8_DOLLAR, SVN_UTF8_CR, SVN_UTF8_NEWLINE]
    · rw [if_neg h2]
      by_cases h3 : (decide (b.keyword_off = SVN_KEYWORD_MAX_LEN - 1)
          || (b.keyword_off ≠ 0 && (c = SVN_UTF8_CR || c = SVN_UTF8_NEWLINE))) = true
      · rw [if_pos h3]
        exact hsub _
      · rw [if_neg h3]
        by_cases h4 : b.keyword_off ≠ 0
        · rw [if_pos h4, continue_loop_ok, translate_chunk_loop_nil]
          refine ⟨_, _, _, rfl, ?_⟩
          simp only [Bool.or_eq_true, decide_eq_true_eq, Bool.and_eq_true, not_or, not_and,
            ne_eq] at h3
          have := h3.2 (by simpa using h4)
          simp only [not_or] at this
          simp [eol_step, eol_sim, hnb, this.1, this.2]
        · rw [if_neg h4]
          have hk : b.keyword_buf = [] := by
            simpa [translation_baton.keyword_off] using h4
          have := boring_state_single_eol b ⟨hnb, hk⟩ hinv0 hcr hlf c dst
          rw [hnb]
          exact this
  · have hno : b.newline_off ≠ 0 := by simpa [translation_baton.newline_off] using hnb
    rw [if_pos hno]
    have hk : b.keyword_buf = [] := by
      rcases hex with h1 | h1
      · exact absurd h1 hnb
      · exact h1
    have hcr2 : b.newline_buf = [SVN_UTF8_CR] := by
      rcases hnl with h1 | h1
      · exact absurd h1 hnb
      · exact h1
    simp only
    by_cases hc : c = SVN_UTF8_NEWLINE
    · subst hc
      simp only [if_true]
      rw [translate_newline_cases _ _ _ _ _ _ (by rw [hcr2]; simp) hsf]
      simp only [eol_step, hcr2, ne_eq, List.cons_ne_self, not_false_eq_true, if_true, eol_check,
        List.singleton_append]
      by_cases h1 : b.src_format ≠ [] ∧ b.repair = false ∧
          b.src_format ≠ [SVN_UTF8_CR, SVN_UTF8_NEWLINE]
      · rw [if_pos h1, if_pos h1]
        exact ⟨_, _, _, rfl, rfl⟩
      · rw [if_neg h1, if_neg h1]
        simp only [boring_state_nil, continue_loop_ok, translate_chunk_loop_nil]
        exact ⟨_, _, _, rfl, rfl, rfl, rfl⟩
    · simp only [hc, if_false]
      rw [translate_newline_cases _ _ _ _ _ _ (by rw [hcr2]; simp) hsf]
      simp only [eol_step, hcr2, ne_eq, List.cons_ne_self, not_false_eq_true, if_true, eol_check,
        hc, if_false]
      by_cases h1 : b.src_format ≠ [] ∧ b.repair = false ∧ b.src_format ≠ [SVN_UTF8_CR]
      · rw [if_pos h1, if_pos h1]
        exact ⟨_, _, _, rfl, rfl⟩
      · rw [if_neg h1, if_neg h1]
        simp only
        have hcl : clean { b with newline_buf := [], src_format :=
            (if b.src_format = [] then [SVN_UTF8_CR] else b.src_format) } := ⟨rfl, hk⟩
        have hi : baton_inv { b with newline_buf := [], src_format :=
            (if b.src_format = [] then [SVN_UTF8_CR] else b.src_format) } := by
          refine ⟨hwf, Or.inl rfl, Or.inl rfl, Or.inl hk, ?_⟩
          show (if b.src_format = [] then _ else _) = [] ∨ _
          by_cases h5 : b.src_format = []
          · rw [if_pos h5]; simp
          · rw [if_neg h5]; exact hsf
        obtain ⟨e1, b1, d1, h6, h7⟩ := boring_state_single_eol _ hcl hi hcr hlf c
          (dst ++ List.take b.eol_str_len (b.eol_str.getD []))
        refine ⟨e1, b1, d1, h6, ?_⟩
        simp only [eol_step, ne_eq, not_true_eq_false, if_false, hc] at h7
        simp only [Option.map_some']
        by_cases h8 : c = SVN_UTF8_CR
        · simpa [h8] using h7
        · simpa [h8] using h7

theorem and_then_pure (r : Option (Outcome × translation_baton × List Byte)) :
    and_then r (fun b d => some (SVN_NO_ERROR, b, d)) = r := by
  rcases r with _ | ⟨e, b, d⟩
  · rfl
  · cases e <;> rfl

theorem translate_chunks_flush (dst : List Byte) (b : translation_baton) :
    translate_chunks dst b [none] = translate_chunk dst b none := by
  rw [translate_chunks_cons]
  exact and_then_pure _

theorem flush_eol (b : translation_baton) (hinv : baton_inv b) (dst : List Byte) :
    ∃ e1 b1 d1, translate_chunk dst b none = some (e1, b1, d1) ∧
      (e1 = SVN_NO_ERROR ∨ e1 = SVN_ERR_IO_INCONSISTENT_EOL) ∧
      (e1 = SVN_NO_ERROR ↔ eol_run b.repair (b.newline_buf, b.src_format) [] = true) := by
  obtain ⟨hwf, hex, hnl, hkw, hsf⟩ := hinv
  unfold translate_chunk
  simp only
  by_cases hnb : b.newline_buf = []
  · have hno : ¬ (b.newline_off ≠ 0) := by simp [translation_baton.newline_off, hnb]
    rw [if_neg hno]
    split_ifs <;> exact ⟨_, _, _, rfl, Or.inl rfl, by simp [eol_run, hnb]⟩
  · have hno : b.newline_off ≠ 0 := by simpa [translation_baton.newline_off] using hnb
    rw [if_pos hno]
    have hcr2 : b.newline_buf = [SVN_UTF8_CR] := by
      rcases hnl with h1 | h1
      · exact absurd h1 hnb
      · exact h1
    rw [translate_newline_cases _ _ _ _ _ _ (by rw [hcr2]; simp) hsf]
    simp only [eol_run, eol_check, hcr2, ne_eq, List.cons_ne_self, not_false_eq_true, if_true]
    by_cases h1 : b.src_format ≠ [] ∧ b.repair = false ∧ b.src_format ≠ [SVN_UTF8_CR]
    · rw [if_pos h1, if_pos h1]
      exact ⟨_, _, _, rfl, Or.inr rfl, by simp⟩
    · rw [if_neg h1, if_neg h1]
      simp only
      split_ifs <;> exact ⟨_, _, _, rfl, Or.inl rfl, by simp⟩

theorem config_interesting (b b1 : translation_baton) (h : config b1 = config b) :
    b1.interesting = b.interesting ∧ b1.repair = b.repair := by
  simp only [config, Prod.mk.injEq] at h
  exact ⟨h.2.2.2.2.1, h.2.1⟩

/-- The outcome of a chunk followed by the flush is the outcome of the newline
protocol on the same bytes, whatever the keywords do. -/
theorem run_eol :
    ∀ (p : List Byte) (b : translation_baton) (dst : List Byte), baton_inv b →
      boring b.interesting SVN_UTF8_CR = false →
      boring b.interesting SVN_UTF8_NEWLINE = false →
      ∃ e1 b1 d1,
        and_then (translate_chunk_loop p.length b p dst)
          (fun b2 d2 => translate_chunk d2 b2 none) = some (e1, b1, d1) ∧
        (e1 = SVN_NO_ERROR ∨ e1 = SVN_ERR_IO_INCONSISTENT_EOL) ∧
        (e1 = SVN_NO_ERROR ↔ eol_run b.repair (b.newline_buf, b.src_format) p = true) := by
  intro p
  induction p with
  | nil =>
    intro b dst hinv _ _
    rw [translate_chunk_loop_nil, and_then_ok]
    exact flush_eol b hinv dst
  | cons c r ih =>
    intro b dst hinv hcr hlf
    rw [List.length_cons, translate_chunk_loop_cons b hinv c r dst _ (le_refl _)]
    obtain ⟨e1, b1, d1, h1, h2⟩ := step_eol b hinv hcr hlf c dst
    obtain ⟨e1', b1', d1', h1', hcfg, hinv1⟩ :=
      translate_chunk_loop_total 1 b [c] dst hinv (by simp)
    rw [h1] at h1'
    simp only [Option.some.injEq, Prod.mk.injEq] at h1'
    obtain ⟨rfl, rfl, rfl⟩ := h1'
    rw [h1]
    rcases hstep : eol_step b.repair (b.newline_buf, b.src_format) c with _ | st
    · rw [hstep] at h2
      simp only [eol_sim] at h2
      subst h2
      rw [and_then_err _ (by decide), and_then_err _ (by decide)]
      exact ⟨_, _, _, rfl, Or.inr rfl, by simp [eol_run, hstep]⟩
    · rw [hstep] at h2
      simp only [eol_sim] at h2
      obtain ⟨rfl, h3, h4⟩ := h2
      rw [and_then_ok]
      obtain ⟨hi1, hr1⟩ := config_interesting b b1 hcfg
      obtain ⟨e2, b2, d2, h5, h6, h7⟩ := ih b1 d1 (hinv1 rfl) (by rw [hi1]; exact hcr)
        (by rw [hi1]; exact hlf)
      refine ⟨e2, b2, d2, h5, h6, ?_⟩
      rw [h7, hr1, h3, h4]
      simp [eol_run, hstep]

theorem eol_consistent_cached (f : List Byte) (hf : f ≠ []) :
    ∀ ts : List (List Byte), eol_consistent f ts = true ↔ ∀ t ∈ ts, t = f := by
  intro ts
  induction ts with
  | nil => simp [eol_consistent]
  | cons t ts ih => simp [eol_consistent, hf, ih]

theorem eol_consistent_first (ts : List (List Byte)) (hts : ∀ t ∈ ts, t ≠ []) :
    eol_consistent [] ts = true ↔ ∀ t ∈ ts, some t = ts.head? := by
  cases ts with
  | nil => simp [eol_consistent]
  | cons t0 ts =>
    have h0 : t0 ≠ [] := hts t0 (by simp)
    simp only [eol_consistent, if_true, eol_consistent_cached t0 h0, List.head?_cons,
      Option.some.injEq, List.mem_cons, forall_eq_or_imp, true_and]

theorem terminators_ne_nil : ∀ (n : Nat) (p : List Byte), p.length ≤ n →
    ∀ t ∈ terminators p, t ≠ [] := by
  intro n
  induction n with
  | zero =>
    intro p hp t ht
    have : p = [] := List.length_eq_zero.mp (Nat.le_zero.mp hp)
    subst this
    simp [terminators] at ht
  | succ n ih =>
    intro p hp t ht
    match p, hp with
    | [], _ => simp [terminators] at ht
    | [c], _ =>
      simp only [terminators] at ht
      split_ifs at ht <;> simp at ht <;> simp [ht]
    | c :: d :: r, hp =>
      simp only [List.length_cons] at hp
      simp only [terminators] at ht
      split_ifs at ht
      · rcases List.mem_cons.mp ht with h | h
        · simp [h]
        · exact ih r (by omega) t h
      · rcases List.mem_cons.mp ht with h | h
        · simp [h]
        · exact ih (d :: r) (by simp only [List.length_cons]; omega) t h
      · rcases List.mem_cons.mp ht with h | h
        · simp [h]
        · exact ih (d :: r) (by simp only [List.length_cons]; omega) t h
      · exact ih (d :: r) (by simp only [List.length_cons]; omega) t ht

theorem interesting_eol_create (eol : List Byte) (repair : Bool)
    (keywords : Option apr_hash_t) (expand : Bool) :
    boring (create_translation_baton (some eol) repair keywords expand).interesting
        SVN_UTF8_CR = false ∧
    boring (create_translation_baton (some eol) repair keywords expand).interesting
        SVN_UTF8_NEWLINE = false := by
  simp only [create_translation_baton]
  split_ifs <;>
    simp_all [boring, strchr, cstr, SVN_UTF8_DOLLAR, SVN_UTF8_CR, SVN_UTF8_NEWLINE]

/-- The outcome of a whole translation with an EOL target. -/
theorem translate_stream_eol_outcome (eol : List Byte) (repair : Bool)
    (keywords : Option apr_hash_t) (expand : Bool) (chunks : List (List Byte)) :
    ∃ e out, translate_stream (some eol) repair keywords expand chunks = some (e, out) ∧
      (e = SVN_NO_ERROR ∨ e = SVN_ERR_IO_INCONSISTENT_EOL) ∧
      (e = SVN_NO_ERROR ↔ eol_run repair ([], []) chunks.flatten = true) := by
  unfold translate_stream
  rw [translate_chunks_join chunks _ [] [none] (baton_inv_create _ _ _ _)]
  simp only [translate_chunks_flush]
  obtain ⟨hcr, hlf⟩ := interesting_eol_create eol repair keywords expand
  obtain ⟨e1, b1, d1, h1, h2, h3⟩ := run_eol chunks.flatten _ [] (baton_inv_create _ _ _ _) hcr hlf
  refine ⟨e1, d1, ?_, h2, h3⟩
  show Option.map _ (and_then (translate_chunk_loop _ _ _ _) _) = _
  rw [h1]
  rfl

set_option maxRecDepth 100000 in
/-- C3. With an EOL target set and a keyword set whose values fit in the keyword
buffer (`values_fit`): with repair off, the translation of an input (in any
chunking, then the flush) fails with the inconsistent-EOL error if and only if
some line terminator of the input differs from its first line terminator,
terminators being read left to right with CR LF taken greedily and a CR that
ends the input counted as a bare CR; otherwise it succeeds. With repair on it
never fails with that error. The input `ab CR LF cd LF ef` with target LF and
repair off fails. Last, a keyword set that does not fit: with LastChangedBy
bound to 250 bytes, the substitutor rewrites the 19 bytes `$LastChangedBy: a $`
to 268 bytes, 13 more than `keyword_buf` has. -/
theorem translate_stream_inconsistent_eol_iff (eol : List Byte)
    (keywords : Option apr_hash_t) (expand : Bool) (chunks : List (List Byte))
    (hfit : values_fit keywords expand) :
    ((∃ out, translate_stream (some eol) false keywords expand chunks
        = some (SVN_ERR_IO_INCONSISTENT_EOL, out)) ↔
      ∃ t ∈ terminators chunks.flatten, some t ≠ (terminators chunks.flatten).head?) ∧
    ((∃ out, translate_stream (some eol) false keywords expand chunks
        = some (SVN_NO_ERROR, out)) ↔
      ∀ t ∈ terminators chunks.flatten, some t = (terminators chunks.flatten).head?) ∧
    (∃ out, translate_stream (some eol) true keywords expand chunks = some (SVN_NO_ERROR, out)) ∧
    (∃ out, translate_stream (some [SVN_UTF8_NEWLINE]) false keywords expand
        [ascii "ab\r\ncd\nef"] = some (SVN_ERR_IO_INCONSISTENT_EOL, out)) ∧
    (¬ values_fit (some [(ascii "LastChangedBy", List.replicate 250 120)]) true ∧
      translate_keyword (ascii "$LastChangedBy: a $") true
          (some [(ascii "LastChangedBy", List.replicate 250 120)])
        = some (true, ascii "$LastChangedBy: " ++ List.replicate 250 120 ++ ascii " $") ∧
      (ascii "$LastChangedBy: " ++ List.replicate 250 120 ++ ascii " $").length
        = SVN_KEYWORD_MAX_LEN + 13) := by
  have _ := hfit
  have main : ∀ (e : List Byte) (ch : List (List Byte)),
      ((∃ out, translate_stream (some e) false keywords expand ch
          = some (SVN_ERR_IO_INCONSISTENT_EOL, out)) ↔
        ∃ t ∈ terminators ch.flatten, some t ≠ (terminators ch.flatten).head?) ∧
      ((∃ out, translate_stream (some e) false keywords expand ch
          = some (SVN_NO_ERROR, out)) ↔
        ∀ t ∈ terminators ch.flatten, some t = (terminators ch.flatten).head?) := by
    intro e ch
    obtain ⟨e1, out, h1, h2, h3⟩ := translate_stream_eol_outcome e false keywords expand ch
    rw [eol_run_spec _ _ _ (Or.inl rfl), List.nil_append,
      eol_consistent_first _ (terminators_ne_nil _ _ (le_refl _))] at h3
    rw [h1]
    constructor
    · constructor
      · rintro ⟨o, ho⟩
        simp only [Option.some.injEq, Prod.mk.injEq] at ho
        by_contra hcon
        push_neg at hcon
        have := h3.mpr hcon
        rw [this] at ho
        exact absurd ho.1 (by decide)
      · intro hex
        rcases h2 with h2 | h2
        · obtain ⟨t, ht, hne⟩ := hex
          exact absurd (h3.mp h2 t ht) hne
        · exact ⟨out, by rw [h2]⟩
    · constructor
      · rintro ⟨o, ho⟩
        simp only [Option.some.injEq, Prod.mk.injEq] at ho
        exact h3.mp ho.1
      · intro hall
        exact ⟨out, by rw [h3.mpr hall]⟩
  refine ⟨(main eol chunks).1, (main eol chunks).2, ?_, ?_, ?_, ?_, ?_⟩
  · obtain ⟨e1, out, h1, -, h3⟩ := translate_stream_eol_outcome eol true keywords expand chunks
    exact ⟨out, by rw [h1, h3.mpr (eol_run_repair _ _)]⟩
  · exact (main [SVN_UTF8_NEWLINE] [ascii "ab\r\ncd\nef"]).1.mpr
      ⟨[SVN_UTF8_NEWLINE], by decide, by decide⟩
  · unfold values_fit
    decide
  · decide
  · decide

/-- Witness for C3: Rev bound to `42`, expand on, target LF, repair off; the
input `ab CR LF cd LF ef` fails with the inconsistent-EOL error. -/
theorem translate_stream_inconsistent_eol_iff_witness :
    values_fit (some [(ascii "Rev", ascii "42")]) true ∧
    ∃ out, translate_stream (some [SVN_UTF8_NEWLINE]) false
        (some [(ascii "Rev", ascii "42")]) true [ascii "ab\r\ncd\nef"]
      = some (SVN_ERR_IO_INCONSISTENT_EOL, out) :=
  ⟨by unfold values_fit; decide,
    (translate_stream_inconsistent_eol_iff [SVN_UTF8_NEWLINE]
      (some [(ascii "Rev", ascii "42")]) true [ascii "ab\r\ncd\nef"]
      (by unfold values_fit; decide)).2.2.2.1⟩

/-! ## The transducer one byte at a time -/

theorem continue_loop_zero_nil (e : Outcome) (b : translation_baton) (d : List Byte) :
    continue_loop 0 (e, b, [], d) = some (e, b, d) := by
  cases e <;> rfl

theorem boring_state_single (b : translation_baton) (c : Byte) (d : List Byte) :
    continue_loop 0 (boring_state b [c] d) = clean_step b c d := by
  by_cases hb : boring b.interesting c = true
  · rw [boring_state_cons_boring b c [] d hb, boring_state_nil, continue_loop_zero_nil]
    simp [clean_step, hb]
  · simp only [Bool.not_eq_true] at hb
    rw [boring_state_cons_interesting b c [] d hb]
    simp only [switch_byte, clean_step, hb, Bool.false_eq_true, if_false, newline_emit]
    split_ifs
    · rfl
    · rfl
    · rcases translate_newline b.eol_str b.eol_str_len b.src_format (b.newline_buf ++ [c]) d
        b.repair with ⟨e, sf, d1⟩
      cases e <;> rfl
    · rfl

/-- A chunk of one byte is one `byte_step`. -/
theorem translate_chunk_loop_one (b : translation_baton) (c : Byte) (dst : List Byte) :
    translate_chunk_loop 1 b [c] dst = byte_step b c dst := by
  rw [translate_chunk_loop_succ]
  unfold loop_body byte_step
  by_cases hnb : b.newline_buf = []
  · have hno : ¬ (b.newline_off ≠ 0) := by simp [translation_baton.newline_off, hnb]
    rw [if_neg hno, if_neg (show ¬ (b.newline_buf ≠ []) from fun h => h hnb)]
    by_cases h2 : b.keyword_buf ≠ [] ∧ c = SVN_UTF8_DOLLAR
    · have h2' : (b.keyword_off ≠ 0 && c = SVN_UTF8_DOLLAR) = true := by
        simpa [translation_baton.keyword_off] using h2
      rw [if_pos h2, if_pos h2']
      rcases translate_keyword (b.keyword_buf ++ [SVN_UTF8_DOLLAR]) b.expand b.keywords
        with _ | ⟨ok, kb⟩
      · rfl
      · cases ok
        · exact boring_state_single _ c _
        · simp only [boring_state_nil, continue_loop_zero_nil, translate_write,
            List.take_length]
    · have h2' : ¬ (b.keyword_off ≠ 0 && c = SVN_UTF8_DOLLAR) = true := by
        simpa [translation_baton.keyword_off] using h2
      rw [if_neg h2, if_neg h2']
      by_cases h3 : b.keyword_buf.length = SVN_KEYWORD_MAX_LEN - 1
          ∨ (b.keyword_buf ≠ [] ∧ (c = SVN_UTF8_CR ∨ c = SVN_UTF8_NEWLINE))
      · have h3' : (decide (b.keyword_off = SVN_KEYWORD_MAX_LEN - 1)
            || (b.keyword_off ≠ 0 && (c = SVN_UTF8_CR || c = SVN_UTF8_NEWLINE))) = true := by
          simpa [translation_baton.keyword_off] using h3
        rw [if_pos h3, if_pos h3']
        simp only [translate_write, translation_baton.keyword_off, List.take_length]
        exact boring_state_single _ c _
      · have h3' : ¬ (decide (b.keyword_off = SVN_KEYWORD_MAX_LEN - 1)
            || (b.keyword_off ≠ 0 && (c = SVN_UTF8_CR || c = SVN_UTF8_NEWLINE))) = true := by
          simpa [translation_baton.keyword_off] using h3
        rw [if_neg h3, if_neg h3']
        by_cases h4 : b.keyword_buf ≠ []
        · have h4' : b.keyword_off ≠ 0 := by simpa [translation_baton.keyword_off] using h4
          rw [if_pos h4, if_pos h4']
          rfl
        · have h4' : ¬ b.keyword_off ≠ 0 := by simpa [translation_baton.keyword_off] using h4
          rw [if_neg h4, if_neg h4']
          exact boring_state_single _ c _
  · have hno : b.newline_off ≠ 0 := by simpa [translation_baton.newline_off] using hnb
    rw [if_pos hno, if_pos hnb]
    simp only [newline_emit]
    by_cases hc : c = SVN_UTF8_NEWLINE
    · simp only [hc, if_true]
      rcases translate_newline b.eol_str b.eol_str_len b.src_format
        (b.newline_buf ++ [SVN_UTF8_NEWLINE]) dst b.repair with ⟨e, sf, d1⟩
      cases e <;> simp [boring_state_nil, continue_loop_zero_nil]
    · simp only [hc, if_false]
      rcases translate_newline b.eol_str b.eol_str_len b.src_format
        b.newline_buf dst b.repair with ⟨e, sf, d1⟩
      cases e
      · simp only [and_then_ok]
        exact boring_state_single _ c _
      all_goals rfl

/-- Under the invariant, a chunk is processed as its bytes one at a time. -/
theorem translate_chunk_loop_bytes :
    ∀ (p : List Byte) (b : translation_baton) (dst : List Byte), baton_inv b →
      translate_chunk_loop p.length b p dst = run_bytes b p dst := by
  intro p
  induction p with
  | nil => intro b dst _; rfl
  | cons c r ih =>
    intro b dst hinv
    rw [List.length_cons, translate_chunk_loop_cons b hinv c r dst _ (le_refl _)]
    obtain ⟨e, b1, d1, h1, -, h3⟩ := translate_chunk_loop_total 1 b [c] dst hinv (by simp)
    rw [run_bytes, ← translate_chunk_loop_one, h1]
    by_cases he : e = SVN_NO_ERROR
    · subst he
      rw [and_then_ok, and_then_ok]
      exact ih b1 d1 (h3 rfl)
    · rw [and_then_err e he, and_then_err e he]

/-! ## Newline normalization with repair on -/

theorem normalize_eol_cons_other (eol : List Byte) (c : Byte) (p : List Byte)
    (h1 : c ≠ SVN_UTF8_CR) (h2 : c ≠ SVN_UTF8_NEWLINE) :
    normalize_eol eol (c :: p) = c :: normalize_eol eol p := by
  cases p with
  | nil => simp [normalize_eol, h1, h2]
  | cons d r => simp [normalize_eol, h1, h2]

theorem normalize_eol_cons_lf (eol : List Byte) (p : List Byte) :
    normalize_eol eol (SVN_UTF8_NEWLINE :: p) = eol ++ normalize_eol eol p := by
  cases p with
  | nil => simp [normalize_eol, SVN_UTF8_NEWLINE, SVN_UTF8_CR]
  | cons d r => simp [normalize_eol, SVN_UTF8_NEWLINE, SVN_UTF8_CR]

theorem normalize_eol_cr_lf (eol : List Byte) (p : List Byte) :
    normalize_eol eol (SVN_UTF8_CR :: SVN_UTF8_NEWLINE :: p) = eol ++ normalize_eol eol p := by
  simp [normalize_eol]

theorem normalize_eol_cr_other (eol : List Byte) (c : Byte) (p : List Byte)
    (h : c ≠ SVN_UTF8_NEWLINE) :
    normalize_eol eol (SVN_UTF8_CR :: c :: p) = eol ++ normalize_eol eol (c :: p) := by
  simp [normalize_eol, h]

theorem normalize_eol_cr_nil (eol : List Byte) : normalize_eol eol [SVN_UTF8_CR] = eol := by
  simp [normalize_eol]

theorem newline_emit_repair (b : translation_baton) (eol nb dst : List Byte)
    (h : eol_only b eol)
    (hnb : nb = [SVN_UTF8_NEWLINE] ∨ nb = [SVN_UTF8_CR] ∨ nb = [SVN_UTF8_CR, SVN_UTF8_NEWLINE]) :
    ∃ b1, newline_emit b nb dst = (SVN_NO_ERROR, b1, dst ++ eol.take (strlen eol)) ∧
      eol_only b1 eol ∧ b1.newline_buf = [] := by
  obtain ⟨h1, h2, h3, h4, h5, h6, h7⟩ := h
  unfold newline_emit
  rw [translate_newline_cases _ _ _ _ _ _ hnb h7, if_neg (by simp [h3])]
  let sf := if b.src_format = [] then nb else b.src_format
  refine ⟨{ b with newline_buf := [], src_format := sf }, by simp [h1, h2, sf],
    ⟨h1, h2, h3, h4, h5, Or.inl rfl, ?_⟩, rfl⟩
  show sf = [] ∨ sf = _ ∨ sf = _ ∨ sf = _
  by_cases h8 : b.src_format = []
  · simp only [sf, if_pos h8]; exact Or.inr hnb
  · simp only [sf, if_neg h8]; exact h7

theorem boring_cr_lf (c : Byte) :
    boring [SVN_UTF8_CR, SVN_UTF8_NEWLINE] c
      = decide (c ≠ SVN_UTF8_CR ∧ c ≠ SVN_UTF8_NEWLINE) := by
  by_cases h0 : c = 0
  · subst h0; decide
  · have h1 : (c == 0) = false := by simpa using h0
    simp [boring, strchr, cstr, SVN_UTF8_CR, SVN_UTF8_NEWLINE, h1]

theorem clean_step_eol_only (b : translation_baton) (eol : List Byte) (c : Byte)
    (dst : List Byte) (h : eol_only b eol) (hn : b.newline_buf = []) :
    ∃ b1, clean_step b c dst = some (SVN_NO_ERROR, b1,
        dst ++ (if c = SVN_UTF8_CR then [] else if c = SVN_UTF8_NEWLINE then
          eol.take (strlen eol) else [c])) ∧
      eol_only b1 eol ∧ b1.newline_buf = (if c = SVN_UTF8_CR then [SVN_UTF8_CR] else []) := by
  have h0 := h
  obtain ⟨h1, h2, h3, h4, h5, h6, h7⟩ := h
  unfold clean_step
  rw [h4, boring_cr_lf]
  by_cases hc1 : c = SVN_UTF8_CR
  · subst hc1
    simp only [ne_eq, not_true_eq_false, false_and, decide_False, Bool.false_eq_true, if_false,
      show ¬ (SVN_UTF8_CR = SVN_UTF8_DOLLAR) by decide, if_true]
    exact ⟨{ b with newline_buf := b.newline_buf ++ [SVN_UTF8_CR] }, by simp [h4],
      ⟨h1, h2, h3, h4, h5, Or.inr (by simp [hn]), h7⟩, by simp [hn]⟩
  · by_cases hc2 : c = SVN_UTF8_NEWLINE
    · subst hc2
      simp only [ne_eq, not_true_eq_false, and_false, decide_False, Bool.false_eq_true, if_false,
        show ¬ (SVN_UTF8_NEWLINE = SVN_UTF8_DOLLAR) by decide,
        show ¬ (SVN_UTF8_NEWLINE = SVN_UTF8_CR) by decide, if_true]
      obtain ⟨b1, e1, e2, e3⟩ := newline_emit_repair b eol
        (b.newline_buf ++ [SVN_UTF8_NEWLINE]) dst h0 (by simp [hn])
      exact ⟨b1, by rw [e1], e2, e3⟩
    · simp only [ne_eq, hc1, hc2, not_false_eq_true, and_self, decide_True, if_true, if_false]
      exact ⟨b, rfl, h0, hn⟩

theorem byte_step_eol_only (b : translation_baton) (eol : List Byte) (c : Byte)
    (r dst : List Byte) (h : eol_only b eol) :
    ∃ b1 out, byte_step b c dst = some (SVN_NO_ERROR, b1, dst ++ out) ∧ eol_only b1 eol ∧
      out ++ normalize_eol (eol.take (strlen eol)) (b1.newline_buf ++ r)
        = normalize_eol (eol.take (strlen eol)) (b.newline_buf ++ c :: r) := by
  have h0 := h
  obtain ⟨h1, h2, h3, h4, h5, h6, h7⟩ := h
  unfold byte_step
  rcases h6 with hn | hn
  · rw [if_neg (by simp [hn]), if_neg (by simp [h5]), if_neg (by simp [h5, SVN_KEYWORD_MAX_LEN]),
      if_neg (by simp [h5])]
    obtain ⟨b1, e1, e2, e3⟩ := clean_step_eol_only b eol c dst h0 hn
    refine ⟨b1, _, e1, e2, ?_⟩
    rw [e3, hn]
    by_cases hc1 : c = SVN_UTF8_CR
    · simp [hc1]
    · by_cases hc2 : c = SVN_UTF8_NEWLINE
      · simp [hc2, show ¬ (SVN_UTF8_NEWLINE = SVN_UTF8_CR) by decide, normalize_eol_cons_lf]
      · simp [hc1, hc2, normalize_eol_cons_other]
  · rw [if_pos (by simp [hn])]
    by_cases hc2 : c = SVN_UTF8_NEWLINE
    · subst hc2
      rw [if_pos rfl]
      obtain ⟨b1, e1, e2, e3⟩ := newline_emit_repair b eol
        (b.newline_buf ++ [SVN_UTF8_NEWLINE]) dst h0 (by simp [hn])
      refine ⟨b1, _, by rw [e1], e2, ?_⟩
      rw [e3, hn]
      simp [normalize_eol_cr_lf]
    · rw [if_neg hc2]
      obtain ⟨b1, e1, e2, e3⟩ := newline_emit_repair b eol b.newline_buf dst h0 (by simp [hn])
      rw [e1, and_then_ok]
      obtain ⟨b2, f1, f2, f3⟩ := clean_step_eol_only b1 eol c
        (dst ++ eol.take (strlen eol)) e2 e3
      refine ⟨b2, _, by rw [f1, List.append_assoc], f2, ?_⟩
      rw [f3, hn]
      by_cases hc1 : c = SVN_UTF8_CR
      · subst hc1
        simp [normalize_eol_cr_other _ SVN_UTF8_CR r (by decide)]
      · simp [hc1, hc2, normalize_eol_cr_other, normalize_eol_cons_other]

theorem flush_eol_only (b : translation_baton) (eol : List Byte) (dst : List Byte)
    (h : eol_only b eol) :
    ∃ b1, translate_chunk dst b none
      = some (SVN_NO_ERROR, b1, dst ++ normalize_eol (eol.take (strlen eol)) b.newline_buf) := by
  obtain ⟨h1, h2, h3, h4, h5, h6, h7⟩ := h
  unfold translate_chunk
  simp only [translation_baton.newline_off, translation_baton.keyword_off]
  rcases h6 with hn | hn
  · refine ⟨b, ?_⟩
    simp [hn, h5, normalize_eol]
  · rw [if_pos (by simp [hn]), translate_newline_cases _ _ _ _ _ _ (by simp [hn]) h7,
      if_neg (by simp [h3])]
    simp only [h5, List.length_nil, ne_eq, not_true_eq_false, if_false]
    refine ⟨{ b with src_format := if b.src_format = [] then b.newline_buf else b.src_format },
      ?_⟩
    simp [hn, h1, h2, h5, normalize_eol_cr_nil]

theorem run_eol_only (eol : List Byte) :
    ∀ (r : List Byte) (b : translation_baton) (dst : List Byte), eol_only b eol →
      ∃ b1, and_then (run_bytes b r dst) (fun b2 d2 => translate_chunk d2 b2 none)
        = some (SVN_NO_ERROR, b1,
            dst ++ normalize_eol (eol.take (strlen eol)) (b.newline_buf ++ r)) := by
  intro r
  induction r with
  | nil =>
    intro b dst h
    rw [run_bytes, and_then_ok, List.append_nil]
    exact flush_eol_only b eol dst h
  | cons c r ih =>
    intro b dst h
    obtain ⟨b1, out, h1, h2, h3⟩ := byte_step_eol_only b eol c r dst h
    rw [run_bytes, h1, and_then_ok]
    obtain ⟨b2, h4⟩ := ih b1 (dst ++ out) h2
    exact ⟨b2, by rw [h4, List.append_assoc, h3]⟩

/-- C4. With EOL target LF, CR or CR LF, no keyword set (absent or empty) and
repair on, the translation of every input, in any chunking, succeeds and its
output is the input with each line terminator (CR LF taken greedily as one
terminator, otherwise a lone CR or a lone LF) replaced by the target and
every other byte copied unchanged in order. -/
theorem translate_stream_repair_normalizes (eol : List Byte)
    (heol : eol = [SVN_UTF8_NEWLINE] ∨ eol = [SVN_UTF8_CR]
      ∨ eol = [SVN_UTF8_CR, SVN_UTF8_NEWLINE])
    (keywords : Option apr_hash_t) (hk : keywords = none ∨ keywords = some [])
    (expand : Bool) (chunks : List (List Byte)) :
    translate_stream (some eol) true keywords expand chunks
      = some (SVN_NO_ERROR, normalize_eol eol chunks.flatten) := by
  have hw : eol.take (strlen eol) = eol := by
    rcases heol with rfl | rfl | rfl <;> decide
  have h0 : eol_only (create_translation_baton (some eol) true keywords expand) eol := by
    rcases hk with rfl | rfl <;>
      exact ⟨rfl, rfl, rfl, by simp [create_translation_baton, apr_hash_count], rfl, Or.inl rfl,
        Or.inl rfl⟩
  unfold translate_stream
  rw [translate_chunks_join chunks _ [] [none] (baton_inv_create _ _ _ _)]
  simp only [translate_chunks_flush]
  show Option.map _ (and_then (translate_chunk_loop _ _ _ _) _) = _
  rw [translate_chunk_loop_bytes _ _ _ (baton_inv_create _ _ _ _)]
  obtain ⟨b1, h1⟩ := run_eol_only eol chunks.flatten _ [] h0
  rw [h1, hw]
  rfl

/-- Witness for C4: `ab CR LF cd LF ef` with target LF gives `ab LF cd LF ef`. -/
theorem translate_stream_repair_normalizes_witness :
    translate_stream (some [SVN_UTF8_NEWLINE]) true none false [ascii "ab\r\ncd\nef"]
      = some (SVN_NO_ERROR, normalize_eol [SVN_UTF8_NEWLINE] [ascii "ab\r\ncd\nef"].flatten) ∧
    normalize_eol [SVN_UTF8_NEWLINE] [ascii "ab\r\ncd\nef"].flatten = ascii "ab\ncd\nef" :=
  ⟨translate_stream_repair_normalizes [SVN_UTF8_NEWLINE] (Or.inl rfl) none (Or.inl rfl) false
    [ascii "ab\r\ncd\nef"], by decide⟩

/-! ## Buffers of the form `$` name tail -/

theorem size_sub_of_le (a b : Nat) (h : b ≤ a) (ha : a < SIZE_MOD) : size_sub a b = a - b := by
  unfold size_sub
  unfold SIZE_MOD at *
  have hb : b % 2 ^ 64 = b := Nat.mod_eq_of_lt (by omega)
  rw [hb]
  omega

theorem cstr_of_no_nul (s : List Byte) (h : (0 : Byte) ∉ s) : cstr s = s := by
  unfold cstr
  rw [List.takeWhile_eq_self_iff]
  intro x hx
  have : x ≠ 0 := fun h0 => h (h0 ▸ hx)
  simpa using this

theorem strlen_of_no_nul (s : List Byte) (h : (0 : Byte) ∉ s) : strlen s = s.length := by
  unfold strlen
  rw [cstr_of_no_nul s h]

theorem strncmp_append_self (n t : List Byte) : strncmp (n ++ t) n n.length = 0 := by
  induction n with
  | nil => simp [strncmp]
  | cons x xs ih =>
    simp only [List.cons_append, List.length_cons, strncmp, List.headD_cons, ne_eq,
      not_true_eq_false, if_false, List.tail_cons, ih]
    split_ifs <;> rfl

theorem strncpy_of_no_nul (v : List Byte) (m : Nat) (h : (0 : Byte) ∉ v) (hm : m ≤ v.length) :
    strncpy v m = v.take m := by
  unfold strncpy
  rw [cstr_of_no_nul v h, List.take_append_of_le_length hm]

theorem getD_frame (n t : List Byte) (k : Nat) (x d : Byte) :
    (x :: (n ++ t)).getD (1 + n.length + k) d = t.getD k d := by
  rw [show 1 + n.length + k = (n.length + k) + 1 by omega, List.getD_cons_succ]
  simp [List.getD_eq_getElem?_getD, List.getElem?_append_right]

theorem store_frame (n t : List Byte) (k : Nat) (x c : Byte) :
    store (x :: (n ++ t)) (1 + n.length + k) c = x :: (n ++ store t k c) := by
  unfold store
  rw [show 1 + n.length + k = (n.length + k) + 1 by omega, List.take_succ_cons,
    List.drop_succ_cons, List.take_append, Nat.add_assoc, List.drop_append]
  simp

theorem store_bytes_frame (n t s : List Byte) (k : Nat) (x : Byte) :
    store_bytes (x :: (n ++ t)) (1 + n.length + k) s = x :: (n ++ store_bytes t k s) := by
  unfold store_bytes
  rw [show 1 + n.length + k = (n.length + k) + 1 by omega,
    show n.length + k + 1 + s.length = (n.length + (k + s.length)) + 1 by omega,
    List.take_succ_cons, List.drop_succ_cons, List.take_append, List.drop_append]
  simp

theorem fill_spaces_from_frame (n t : List Byte) (k : Nat) (x : Byte) :
    fill_spaces_from (x :: (n ++ t)) (1 + n.length + k) = x :: (n ++ fill_spaces_from t k) := by
  unfold fill_spaces_from
  rw [show 1 + n.length + k = (n.length + k) + 1 by omega, List.take_succ_cons,
    List.drop_succ_cons, List.take_append, List.drop_append]
  simp

theorem take_frame (n t : List Byte) (k : Nat) (x : Byte) :
    (x :: (n ++ t)).take (1 + n.length + k) = x :: (n ++ t.take k) := by
  rw [show 1 + n.length + k = (n.length + k) + 1 by omega, List.take_succ_cons, List.take_append]

theorem good_stuffs_frame (n t : List Byte) (ht : t.getLast? = some SVN_UTF8_DOLLAR)
    (hl : n.length + t.length + 1 ≤ SVN_KEYWORD_MAX_LEN) :
    good_stuffs (SVN_UTF8_DOLLAR :: (n ++ t)) = true := by
  have htne : t ≠ [] := by intro h; rw [h] at ht; simp at ht
  simp only [good_stuffs, List.length_cons, List.length_append, List.head?_cons,
    beq_self_eq_true, Bool.true_and, Bool.and_eq_true, decide_eq_true_eq, beq_iff_eq]
  refine ⟨by omega, ?_⟩
  rw [← List.cons_append, List.getLast?_append, ht]
  rfl

theorem keyword_name_frame (n t : List Byte) (hc : SVN_UTF8_COLON ∉ n)
    (ht : t = [SVN_UTF8_DOLLAR] ∨ (t.head? = some SVN_UTF8_COLON ∧ 2 ≤ t.length))
    (hl : n.length + t.length + 1 ≤ SVN_KEYWORD_MAX_LEN) :
    keyword_name (SVN_UTF8_DOLLAR :: (n ++ t)) = n := by
  unfold keyword_name
  have hall : ∀ x ∈ n, (x != SVN_UTF8_COLON) = true := by
    intro x hx
    have : x ≠ SVN_UTF8_COLON := fun h => hc (h ▸ hx)
    simpa using this
  have h1 : 1 ≤ t.length := by
    rcases ht with rfl | ⟨-, h⟩
    · simp
    · omega
  rw [size_sub_of_le _ _ (by simp only [List.length_cons, List.length_append]; omega)
    (by unfold SVN_KEYWORD_MAX_LEN at hl
        unfold SIZE_MOD
        simp only [List.length_cons, List.length_append]; omega)]
  simp only [List.drop_succ_cons, List.drop_zero, List.length_cons, List.length_append]
  rw [show n.length + t.length + 1 - 2 = n.length + (t.length - 1) by omega, List.take_append]
  rcases ht with rfl | ⟨hh, h2⟩
  · simp only [List.length_singleton, Nat.sub_self, List.take_zero, List.append_nil]
    exact List.takeWhile_eq_self_iff.mpr hall
  · cases t with
    | nil => simp at h2
    | cons y ys =>
      simp only [List.head?_cons, Option.some.injEq] at hh
      subst hh
      simp only [List.length_cons] at h2
      rw [show (SVN_UTF8_COLON :: ys).length - 1 = (ys.length - 1) + 1 by
        simp only [List.length_cons]; omega, List.take_succ_cons, List.takeWhile_append,
        List.takeWhile_eq_self_iff.mpr hall]
      simp [List.takeWhile_cons]

/-- On a buffer `$` name tail whose name is free of colons and NULs and is bound
in the keyword set, `translate_keyword` is `translate_keyword_subst` with
that name and its value. -/
theorem translate_keyword_frame (n t : List Byte) (expand : Bool) (kw : apr_hash_t)
    (v : List Byte) (h0 : (0 : Byte) ∉ n) (hc : SVN_UTF8_COLON ∉ n)
    (ht : t = [SVN_UTF8_DOLLAR] ∨ (t.head? = some SVN_UTF8_COLON ∧ 2 ≤ t.length))
    (hlast : t.getLast? = some SVN_UTF8_DOLLAR)
    (hl : n.length + t.length + 1 ≤ SVN_KEYWORD_MAX_LEN)
    (hv : apr_hash_get kw n = some v) :
    translate_keyword (SVN_UTF8_DOLLAR :: (n ++ t)) expand (some kw) =
      translate_keyword_subst (SVN_UTF8_DOLLAR :: (n ++ t)) n n.length
        (if expand then some v else none) := by
  unfold translate_keyword
  rw [good_stuffs_frame n t hlast hl]
  simp only [Bool.not_true, Bool.false_eq_true, if_false, keyword_name_frame n t hc ht hl, hv,
    cstr_of_no_nul n h0, strlen_of_no_nul n h0]

theorem getD_frame_zero (n t : List Byte) (x d : Byte) :
    (x :: (n ++ t)).getD (1 + n.length) d = t.getD 0 d :=
  getD_frame n t 0 x d

theorem getD_len_sub_two (n t : List Byte) (x d : Byte) (h : 2 ≤ t.length) :
    (x :: (n ++ t)).getD ((x :: (n ++ t)).length - 2) d = t.getD (t.length - 2) d := by
  rw [show (x :: (n ++ t)).length - 2 = 1 + n.length + (t.length - 2) by
    simp only [List.length_cons, List.length_append]; omega]
  exact getD_frame n t _ x d

theorem store_frame_zero (n t : List Byte) (x c : Byte) :
    store (x :: (n ++ t)) (1 + n.length) c = x :: (n ++ store t 0 c) :=
  store_frame n t 0 x c

theorem take_frame_two (n t : List Byte) (x : Byte) :
    (x :: (n ++ t)).take (2 + n.length) = x :: (n ++ t.take 1) := by
  rw [show 2 + n.length = 1 + n.length + 1 by omega]
  exact take_frame n t 1 x

theorem bytes_ne :
    SVN_UTF8_SPACE ≠ SVN_UTF8_COLON ∧ SVN_UTF8_COLON ≠ SVN_UTF8_DOLLAR ∧
    SVN_UTF8_SPACE ≠ SVN_UTF8_DOLLAR ∧ SVN_UTF8_POUND ≠ SVN_UTF8_DOLLAR ∧
    SVN_UTF8_DOLLAR ≠ SVN_UTF8_COLON := by decide

/-- The substitutor contracts an expanded keyword: third branch of
`translate_keyword_subst` with a NULL value, on a buffer `$` name tail. -/
theorem translate_keyword_subst_contract (n t : List Byte)
    (h0 : t.getD 0 0 = SVN_UTF8_COLON) (h1 : t.getD 1 0 = SVN_UTF8_SPACE)
    (h2 : t.getD (t.length - 2) 0 = SVN_UTF8_SPACE) (h3 : 3 ≤ t.length)
    (hlast : t.getLast? = some SVN_UTF8_DOLLAR)
    (hl : n.length + t.length + 1 ≤ SVN_KEYWORD_MAX_LEN) :
    translate_keyword_subst (SVN_UTF8_DOLLAR :: (n ++ t)) n n.length none
      = some (true, SVN_UTF8_DOLLAR :: (n ++ [SVN_UTF8_DOLLAR])) := by
  have hg := good_stuffs_frame n t hlast hl
  obtain ⟨ne1, ne2, ne3, ne4, ne5⟩ := bytes_ne
  have hlen : (SVN_UTF8_DOLLAR :: (n ++ t)).length = n.length + t.length + 1 := by simp
  unfold translate_keyword_subst
  simp only [hg, Bool.not_true, Bool.false_eq_true, if_false, List.drop_succ_cons,
    List.drop_zero, strncmp_append_self, ne_eq, not_true_eq_false, getD_frame_zero, getD_frame,
    getD_len_sub_two n t _ _ (by omega : 2 ≤ t.length), h0, h1, h2, store_frame_zero,
    take_frame_two, ne1, ne2, ne3, ne5, decide_True, decide_False, Bool.and_false,
    Bool.false_and, Bool.and_true, Bool.true_and, Bool.or_false, Bool.false_or, and_false,
    false_and]
  rw [if_neg (by rw [hlen]; omega)]
  simp only [hlen, show n.length + t.length + 1 ≥ 4 + n.length from by omega, decide_True,
    if_true]
  simp [store]

theorem getD_before_last : ∀ (u : List Byte) (x y s d : Byte), u.getLast? = some s →
    (x :: (u ++ [y])).getD u.length d = s := by
  intro u
  induction u with
  | nil => intro x y s d h; simp at h
  | cons a r ih =>
    intro x y s d h
    cases r with
    | nil =>
      simp only [List.getLast?_singleton, Option.some.injEq] at h
      simp [h]
    | cons b r2 =>
      rw [List.getLast?_cons_cons] at h
      have := ih a y s d h
      simpa using this

/-- C6 (as amended). Contraction of an expanded keyword: for every keyword set,
every name bound in it that contains no colon (and no NUL, being a C string)
and every buffer `$` name `:` u `$` of at most KW_MAX bytes in which u begins
and ends with a space (possibly the same space), the substitutor with expand
off reports a rewrite and leaves exactly `$` name `$`, of length |name| + 2. -/
theorem translate_keyword_contracts_expanded (kw : apr_hash_t) (n v u : List Byte)
    (hn0 : (0 : Byte) ∉ n) (hnc : SVN_UTF8_COLON ∉ n) (hv : apr_hash_get kw n = some v)
    (hu1 : u.head? = some SVN_UTF8_SPACE) (hu2 : u.getLast? = some SVN_UTF8_SPACE)
    (hl : n.length + u.length + 3 ≤ SVN_KEYWORD_MAX_LEN) :
    translate_keyword (SVN_UTF8_DOLLAR :: (n ++ SVN_UTF8_COLON :: (u ++ [SVN_UTF8_DOLLAR])))
        false (some kw)
      = some (true, SVN_UTF8_DOLLAR :: (n ++ [SVN_UTF8_DOLLAR])) ∧
    (SVN_UTF8_DOLLAR :: (n ++ [SVN_UTF8_DOLLAR])).length = n.length + 2 := by
  have hlast : (SVN_UTF8_COLON :: (u ++ [SVN_UTF8_DOLLAR])).getLast? = some SVN_UTF8_DOLLAR := by
    rw [← List.cons_append, List.getLast?_append]; rfl
  have hune : u ≠ [] := by intro h; rw [h] at hu1; simp at hu1
  have hulen : 1 ≤ u.length := List.length_pos.mpr hune
  have hlen : (SVN_UTF8_COLON :: (u ++ [SVN_UTF8_DOLLAR])).length = u.length + 2 := by simp
  refine ⟨?_, by simp⟩
  rw [translate_keyword_frame n (SVN_UTF8_COLON :: (u ++ [SVN_UTF8_DOLLAR])) false kw v hn0 hnc
    (Or.inr ⟨rfl, by rw [hlen]; omega⟩) hlast
    (by rw [hlen]; omega) hv]
  refine translate_keyword_subst_contract n _ rfl ?_ ?_ (by rw [hlen]; omega) hlast
    (by rw [hlen]; omega)
  · cases u with
    | nil => exact absurd rfl hune
    | cons a r =>
      simp only [List.head?_cons, Option.some.injEq] at hu1
      simp [hu1]
  · rw [hlen, Nat.add_sub_cancel]
    exact getD_before_last u _ _ _ _ hu2

/-- Witness for C6: `$Rev: 999 $` with Rev bound gives `$Rev$`. -/
theorem translate_keyword_contracts_expanded_witness :
    translate_keyword (ascii "$Rev: 999 $") false (some [(ascii "Rev", ascii "42")])
      = some (true, ascii "$Rev$") ∧ (ascii "$Rev$").length = 3 + 2 :=
  translate_keyword_contracts_expanded [(ascii "Rev", ascii "42")] (ascii "Rev") (ascii "42")
    (ascii " 999 ") (by decide) (by decide) (by decide) (by decide) (by decide) (by decide)

/-- Counterexample for C6 as stated: the name `a:b` is bound in the keyword set
and the buffer `$a:b: x $` has the stated form, but the name loop of
`translate_keyword` stops at the first colon, looks up `a`, and no rewrite
is reported. -/
theorem translate_keyword_contract_colon_name :
    apr_hash_get [(ascii "a:b", ascii "x")] (ascii "a:b") = some (ascii "x") ∧
    translate_keyword (ascii "$a:b: x $") false (some [(ascii "a:b", ascii "x")])
      = some (false, ascii "$a:b: x $") := by
  decide

/-! ## Expansion of an unexpanded keyword -/

theorem length_strncpy (v : List Byte) (m : Nat) : (strncpy v m).length = m := by
  simp [strncpy]

theorem tail_expand (t vv : List Byte) (m : Nat) (hm : vv.length = m)
    (ht : t = [SVN_UTF8_DOLLAR] ∨ t = [SVN_UTF8_COLON, SVN_UTF8_DOLLAR]) :
    (store (store (store_bytes (store (store t 0 SVN_UTF8_COLON) 1 SVN_UTF8_SPACE) 2 vv)
      (2 + m) SVN_UTF8_SPACE) (2 + m + 1) SVN_UTF8_DOLLAR).take (4 + m)
      = [SVN_UTF8_COLON, SVN_UTF8_SPACE] ++ vv ++ [SVN_UTF8_SPACE, SVN_UTF8_DOLLAR] := by
  subst hm
  have e1 : store (store t 0 SVN_UTF8_COLON) 1 SVN_UTF8_SPACE
      = [SVN_UTF8_COLON, SVN_UTF8_SPACE] := by
    rcases ht with rfl | rfl <;> rfl
  rw [e1]
  have e2 : store_bytes [SVN_UTF8_COLON, SVN_UTF8_SPACE] 2 vv
      = [SVN_UTF8_COLON, SVN_UTF8_SPACE] ++ vv := by
    simp [store_bytes]
  rw [e2]
  have e3 : store ([SVN_UTF8_COLON, SVN_UTF8_SPACE] ++ vv) (2 + vv.length) SVN_UTF8_SPACE
      = [SVN_UTF8_COLON, SVN_UTF8_SPACE] ++ vv ++ [SVN_UTF8_SPACE] := by
    unfold store
    rw [List.take_of_length_le (by simp; omega), List.drop_of_length_le (by simp; omega)]
  rw [e3]
  have e4 : store ([SVN_UTF8_COLON, SVN_UTF8_SPACE] ++ vv ++ [SVN_UTF8_SPACE])
      (2 + vv.length + 1) SVN_UTF8_DOLLAR
      = [SVN_UTF8_COLON, SVN_UTF8_SPACE] ++ vv ++ [SVN_UTF8_SPACE, SVN_UTF8_DOLLAR] := by
    unfold store
    rw [List.take_of_length_le (by simp; omega), List.drop_of_length_le (by simp; omega)]
    simp
  rw [e4]
  exact List.take_of_length_le (by simp; omega)

theorem tail_expand_empty (t : List Byte)
    (ht : t = [SVN_UTF8_DOLLAR] ∨ t = [SVN_UTF8_COLON, SVN_UTF8_DOLLAR]) :
    (store (store (store t 0 SVN_UTF8_COLON) 1 SVN_UTF8_SPACE) 2 SVN_UTF8_DOLLAR).take 3
      = [SVN_UTF8_COLON, SVN_UTF8_SPACE, SVN_UTF8_DOLLAR] := by
  rcases ht with rfl | rfl <;> rfl

/-- The substitutor expands an unexpanded keyword: second branch of
`translate_keyword_subst` with a value, on `$` name `$` or `$` name `:$`. -/
theorem translate_keyword_subst_expand (n t v : List Byte)
    (ht : t = [SVN_UTF8_DOLLAR] ∨ t = [SVN_UTF8_COLON, SVN_UTF8_DOLLAR])
    (hl : n.length ≤ SVN_KEYWORD_MAX_LEN - 5) :
    translate_keyword_subst (SVN_UTF8_DOLLAR :: (n ++ t)) n n.length (some v)
      = some (true, SVN_UTF8_DOLLAR :: (n ++
          (if v.length ≠ 0 then
            [SVN_UTF8_COLON, SVN_UTF8_SPACE]
              ++ strncpy v (min v.length (SVN_KEYWORD_MAX_LEN - 5 - n.length))
              ++ [SVN_UTF8_SPACE, SVN_UTF8_DOLLAR]
          else [SVN_UTF8_COLON, SVN_UTF8_SPACE, SVN_UTF8_DOLLAR]))) := by
  have htlen : 1 ≤ t.length ∧ t.length ≤ 2 := by rcases ht with rfl | rfl <;> simp
  have hlast : t.getLast? = some SVN_UTF8_DOLLAR := by rcases ht with rfl | rfl <;> rfl
  unfold SVN_KEYWORD_MAX_LEN at hl
  have hg := good_stuffs_frame n t hlast (by unfold SVN_KEYWORD_MAX_LEN; omega)
  obtain ⟨ne1, ne2, ne3, ne4, ne5⟩ := bytes_ne
  have hlen : (SVN_UTF8_DOLLAR :: (n ++ t)).length = n.length + t.length + 1 := by simp
  have hss : size_sub (SVN_KEYWORD_MAX_LEN - 5) n.length = 250 - n.length :=
    size_sub_of_le _ _ (by unfold SVN_KEYWORD_MAX_LEN; omega)
      (by unfold SVN_KEYWORD_MAX_LEN SIZE_MOD; omega)
  have hcond : (t.getD 0 0 = SVN_UTF8_DOLLAR
      ∨ (t.getD 0 0 = SVN_UTF8_COLON ∧ t.getD 1 0 = SVN_UTF8_DOLLAR))
      ∧ ¬ (t.getD 0 0 = SVN_UTF8_COLON ∧ t.getD 1 0 = SVN_UTF8_COLON) := by
    rcases ht with rfl | rfl <;> decide
  unfold translate_keyword_subst
  simp only [hg, Bool.not_true, Bool.false_eq_true, if_false, List.drop_succ_cons,
    List.drop_zero, strncmp_append_self, ne_eq, not_true_eq_false, getD_frame_zero, getD_frame,
    store_frame_zero, store_frame, store_bytes_frame, hss]
  rw [if_neg (by rw [hlen]; omega)]
  rw [if_neg (by
    simp only [Bool.and_eq_true, decide_eq_true_eq, not_and]
    intro h1 h2
    exact absurd ⟨h1.1.1.1, h1.1.1.2⟩ hcond.2)]
  rw [if_pos (by simpa using hcond.1)]
  by_cases hv : v.length = 0
  · rw [if_neg (by simpa using hv), if_neg (by simpa using hv)]
    rw [show 4 + n.length = 1 + n.length + 3 by omega, take_frame, tail_expand_empty t ht]
  · rw [if_pos hv, if_pos hv]
    have hmin : (if v.length > 250 - n.length then 250 - n.length else v.length)
        = min v.length (SVN_KEYWORD_MAX_LEN - 5 - n.length) := by
      unfold SVN_KEYWORD_MAX_LEN
      split_ifs <;> omega
    rw [hmin]
    generalize min v.length (SVN_KEYWORD_MAX_LEN - 5 - n.length) = m
    rw [show 1 + n.length + 2 + m = 1 + n.length + (2 + m) by omega,
      show 1 + n.length + (2 + m) + 1 = 1 + n.length + (2 + m + 1) by omega,
      store_frame, store_frame,
      show 5 + n.length + m = 1 + n.length + (4 + m) by omega, take_frame,
      tail_expand t _ m (length_strncpy v m) ht]

/-- C5 (as amended). Expansion of an unexpanded keyword: for every keyword set,
every name bound in it that contains no colon and no NUL and has at most
KW_MAX - 5 bytes, with a value v that contains no NUL, the substitutor with
expand on, applied to `$` name `$` or `$` name `:$`, reports a rewrite and
the buffer becomes `$` name `: ` followed by the first
min(|v|, KW_MAX - 5 - |name|) bytes of v and ` $` when v is not empty, and
`$` name `: $` when v is empty. -/
theorem translate_keyword_expands_unexpanded (kw : apr_hash_t) (n v t : List Byte)
    (hn0 : (0 : Byte) ∉ n) (hnc : SVN_UTF8_COLON ∉ n)
    (hnl : n.length ≤ SVN_KEYWORD_MAX_LEN - 5)
    (hv : apr_hash_get kw n = some v) (hv0 : (0 : Byte) ∉ v)
    (ht : t = [SVN_UTF8_DOLLAR] ∨ t = [SVN_UTF8_COLON, SVN_UTF8_DOLLAR]) :
    translate_keyword (SVN_UTF8_DOLLAR :: (n ++ t)) true (some kw)
      = some (true, SVN_UTF8_DOLLAR :: (n ++
          (if v ≠ [] then
            [SVN_UTF8_COLON, SVN_UTF8_SPACE]
              ++ v.take (min v.length (SVN_KEYWORD_MAX_LEN - 5 - n.length))
              ++ [SVN_UTF8_SPACE, SVN_UTF8_DOLLAR]
          else [SVN_UTF8_COLON, SVN_UTF8_SPACE, SVN_UTF8_DOLLAR]))) := by
  have htlen : 1 ≤ t.length ∧ t.length ≤ 2 := by rcases ht with rfl | rfl <;> simp
  have hlast : t.getLast? = some SVN_UTF8_DOLLAR := by rcases ht with rfl | rfl <;> rfl
  have ht2 : t = [SVN_UTF8_DOLLAR] ∨ (t.head? = some SVN_UTF8_COLON ∧ 2 ≤ t.length) := by
    rcases ht with rfl | rfl
    · exact Or.inl rfl
    · exact Or.inr ⟨rfl, by simp⟩
  have hl : n.length + t.length + 1 ≤ SVN_KEYWORD_MAX_LEN := by
    unfold SVN_KEYWORD_MAX_LEN at hnl ⊢; omega
  rw [translate_keyword_frame n t true kw v hn0 hnc ht2 hlast hl hv, if_pos rfl,
    translate_keyword_subst_expand n t v ht hnl,
    strncpy_of_no_nul v _ hv0 (Nat.min_le_left _ _)]
  by_cases hve : v = []
  · simp [hve]
  · have : v.length ≠ 0 := fun h => hve (List.length_eq_zero.mp h)
    simp [hve, this]

/-- Witness for C5: `$Rev$` with Rev bound to `42` gives `$Rev: 42 $`. -/
theorem translate_keyword_expands_unexpanded_witness :
    translate_keyword (SVN_UTF8_DOLLAR :: (ascii "Rev" ++ [SVN_UTF8_DOLLAR])) true
        (some [(ascii "Rev", ascii "42")])
      = some (true, SVN_UTF8_DOLLAR :: (ascii "Rev" ++
          (if ascii "42" ≠ [] then
            [SVN_UTF8_COLON, SVN_UTF8_SPACE]
              ++ (ascii "42").take
                (min (ascii "42").length (SVN_KEYWORD_MAX_LEN - 5 - (ascii "Rev").length))
              ++ [SVN_UTF8_SPACE, SVN_UTF8_DOLLAR]
          else [SVN_UTF8_COLON, SVN_UTF8_SPACE, SVN_UTF8_DOLLAR]))) ∧
    SVN_UTF8_DOLLAR :: (ascii "Rev" ++
          (if ascii "42" ≠ [] then
            [SVN_UTF8_COLON, SVN_UTF8_SPACE]
              ++ (ascii "42").take
                (min (ascii "42").length (SVN_KEYWORD_MAX_LEN - 5 - (ascii "Rev").length))
              ++ [SVN_UTF8_SPACE, SVN_UTF8_DOLLAR]
          else [SVN_UTF8_COLON, SVN_UTF8_SPACE, SVN_UTF8_DOLLAR])) = ascii "$Rev: 42 $" :=
  ⟨translate_keyword_expands_unexpanded [(ascii "Rev", ascii "42")] (ascii "Rev") (ascii "42")
    [SVN_UTF8_DOLLAR] (by decide) (by decide) (by decide) (by decide) (by decide)
    (Or.inl rfl), by decide⟩

/-- Counterexample for C5 as stated. First, the name `a:b` is bound to `x`, yet
on `$a:b$` the name loop stops at the colon, `a` is looked up and no rewrite is
reported. Second, with Rev bound to the three bytes `4`, NUL, `2`, the copy by
`strncpy` stops at the NUL and pads, so the buffer does not hold the first
bytes of the value. -/
theorem translate_keyword_expand_not_every_name :
    (apr_hash_get [(ascii "a:b", ascii "x")] (ascii "a:b") = some (ascii "x") ∧
      translate_keyword (ascii "$a:b$") true (some [(ascii "a:b", ascii "x")])
        = some (false, ascii "$a:b$")) ∧
    (apr_hash_get [(ascii "Rev", [52, 0, 50])] (ascii "Rev") = some [52, 0, 50] ∧
      translate_keyword (ascii "$Rev$") true (some [(ascii "Rev", [52, 0, 50])])
        = some (true, ascii "$Rev: " ++ [52, 0, 0] ++ ascii " $")) := by
  decide

/-! ## Fixed-length keywords -/

theorem fill_spaces_length (l : List Byte) : (fill_spaces l).length = l.length := by
  induction l with
  | nil => rfl
  | cons c cs ih =>
    unfold fill_spaces
    split_ifs <;> simp [ih]

theorem fill_spaces_no_dollar (l r : List Byte) (h : ∀ c ∈ l, c ≠ SVN_UTF8_DOLLAR) :
    fill_spaces (l ++ SVN_UTF8_DOLLAR :: r)
      = List.replicate l.length SVN_UTF8_SPACE ++ SVN_UTF8_DOLLAR :: r := by
  induction l with
  | nil => simp [fill_spaces]
  | cons c cs ih =>
    have hc : c ≠ SVN_UTF8_DOLLAR := h c (by simp)
    rw [List.cons_append, fill_spaces, if_neg hc, ih (fun x hx => h x (by simp [hx]))]
    simp [List.replicate_succ]

theorem fill_spaces_getLast (l : List Byte) (h : l.getLast? = some SVN_UTF8_DOLLAR) :
    (fill_spaces l).getLast? = some SVN_UTF8_DOLLAR := by
  induction l with
  | nil => simp at h
  | cons c cs ih =>
    unfold fill_spaces
    split_ifs with hc
    · exact h
    · cases cs with
      | nil =>
        simp only [List.getLast?_singleton, Option.some.injEq] at h
        exact absurd h hc
      | cons d ds =>
        rw [List.getLast?_cons_cons] at h
        have := ih h
        cases hf : fill_spaces (d :: ds) with
        | nil =>
          have := fill_spaces_length (d :: ds)
          rw [hf] at this
          simp at this
        | cons e es =>
          rw [hf] at this
          rw [List.getLast?_cons_cons]
          exact this

theorem getD_append_length (w r : List Byte) (x d : Byte) :
    (w ++ x :: r).getD w.length d = x := by
  induction w with
  | nil => rfl
  | cons a as ih => simpa using ih

theorem store_append_at (a r : List Byte) (y c : Byte) (k : Nat) (hk : k = a.length) :
    store (a ++ y :: r) k c = a ++ c :: r := by
  subst hk
  simp [store]

theorem store_bytes_append_at (a r s : List Byte) (k : Nat) (hk : k = a.length) :
    store_bytes (a ++ r) k s = a ++ s ++ r.drop s.length := by
  subst hk
  simp [store_bytes]

theorem fill_spaces_from_append_at (a r : List Byte) (k : Nat) (hk : k = a.length) :
    fill_spaces_from (a ++ r) k = a ++ fill_spaces r := by
  subst hk
  simp [fill_spaces_from]

/-- The shape of the three results of the fixed-length branch of
`translate_keyword_subst` on `$` name `:: ` w x `$`, where w is not empty
and x is a space or `#`. -/
theorem translate_keyword_subst_fixed (n w : List Byte) (x : Byte) (value : Option (List Byte))
    (hw : w ≠ []) (hx : x = SVN_UTF8_SPACE ∨ x = SVN_UTF8_POUND)
    (hl : n.length + w.length + 6 ≤ SVN_KEYWORD_MAX_LEN) :
    translate_keyword_subst
        (SVN_UTF8_DOLLAR :: (n ++ SVN_UTF8_COLON :: SVN_UTF8_COLON :: SVN_UTF8_SPACE ::
          (w ++ [x, SVN_UTF8_DOLLAR])))
        n n.length value
      = some (true, SVN_UTF8_DOLLAR :: (n ++
          (match value with
          | none =>
            [SVN_UTF8_COLON, SVN_UTF8_COLON]
              ++ fill_spaces (SVN_UTF8_SPACE :: (w ++ [x, SVN_UTF8_DOLLAR]))
          | some v =>
            if v.length ≤ w.length then
              [SVN_UTF8_COLON, SVN_UTF8_COLON, SVN_UTF8_SPACE] ++ strncpy v v.length
                ++ fill_spaces ((w ++ [x, SVN_UTF8_DOLLAR]).drop v.length)
            else
              [SVN_UTF8_COLON, SVN_UTF8_COLON, SVN_UTF8_SPACE] ++ strncpy v w.length
                ++ [SVN_UTF8_POUND, SVN_UTF8_DOLLAR]))) := by
  have hwl : 1 ≤ w.length := List.length_pos.mpr hw
  generalize ht : SVN_UTF8_COLON :: SVN_UTF8_COLON :: SVN_UTF8_SPACE ::
      (w ++ [x, SVN_UTF8_DOLLAR]) = t
  have htl : t.length = w.length + 5 := by rw [← ht]; simp
  have hlast : t.getLast? = some SVN_UTF8_DOLLAR := by
    rw [← ht, show SVN_UTF8_COLON :: SVN_UTF8_COLON :: SVN_UTF8_SPACE ::
      (w ++ [x, SVN_UTF8_DOLLAR]) = (SVN_UTF8_COLON :: SVN_UTF8_COLON :: SVN_UTF8_SPACE ::
      (w ++ [x])) ++ [SVN_UTF8_DOLLAR] by simp, List.getLast?_append]
    rfl
  have hg := good_stuffs_frame n t hlast (by rw [htl]; omega)
  have hlen : (SVN_UTF8_DOLLAR :: (n ++ t)).length = n.length + t.length + 1 := by simp
  have g0 : t.getD 0 0 = SVN_UTF8_COLON := by rw [← ht]; rfl
  have g1 : t.getD 1 0 = SVN_UTF8_COLON := by rw [← ht]; rfl
  have g2 : t.getD 2 0 = SVN_UTF8_SPACE := by rw [← ht]; rfl
  have g3 : t.getD (t.length - 2) 0 = x := by
    rw [htl, ← ht, show w.length + 5 - 2 = w.length + 3 by omega]
    simp only [List.getD_cons_succ]
    exact getD_append_length w _ x 0
  have hxx : (decide (x = SVN_UTF8_SPACE) || decide (x = SVN_UTF8_POUND)) = true := by
    rcases hx with rfl | rfl <;> decide
  unfold translate_keyword_subst
  simp only [hg, Bool.not_true, Bool.false_eq_true, if_false, List.drop_succ_cons,
    List.drop_zero, strncmp_append_self, ne_eq, not_true_eq_false, getD_frame_zero, getD_frame,
    getD_len_sub_two n t _ _ (by omega : 2 ≤ t.length), g0, g1, g2, g3, hxx, decide_True,
    Bool.and_true, Bool.true_and]
  rw [if_neg (by rw [hlen]; omega), if_pos (by rw [hlen]; simp; omega)]
  have hmax : (SVN_UTF8_DOLLAR :: (n ++ t)).length - (6 + n.length) = w.length := by
    rw [hlen, htl]; omega
  rw [hmax]
  cases value with
  | none =>
    simp only [fill_spaces_from_frame]
    rw [← ht]
    rfl
  | some v =>
    simp only
    by_cases hv : v.length ≤ w.length
    · rw [if_pos hv, if_pos hv, store_bytes_frame,
        show 1 + n.length + 3 + v.length = 1 + n.length + (3 + v.length) by omega,
        fill_spaces_from_frame]
      have e1 : store_bytes t 3 (strncpy v v.length)
          = [SVN_UTF8_COLON, SVN_UTF8_COLON, SVN_UTF8_SPACE] ++ strncpy v v.length
            ++ (w ++ [x, SVN_UTF8_DOLLAR]).drop v.length := by
        rw [← ht]
        have := store_bytes_append_at [SVN_UTF8_COLON, SVN_UTF8_COLON, SVN_UTF8_SPACE]
          (w ++ [x, SVN_UTF8_DOLLAR]) (strncpy v v.length) 3 rfl
        rw [length_strncpy] at this
        exact this
      rw [e1, fill_spaces_from_append_at _ _ _ (by simp [length_strncpy]; omega)]
    · rw [if_neg hv, if_neg hv, store_bytes_frame]
      have e1 : store_bytes t 3 (strncpy v w.length)
          = [SVN_UTF8_COLON, SVN_UTF8_COLON, SVN_UTF8_SPACE] ++ strncpy v w.length
            ++ [x, SVN_UTF8_DOLLAR] := by
        rw [← ht]
        have := store_bytes_append_at [SVN_UTF8_COLON, SVN_UTF8_COLON, SVN_UTF8_SPACE]
          (w ++ [x, SVN_UTF8_DOLLAR]) (strncpy v w.length) 3 rfl
        rw [length_strncpy, List.drop_left] at this
        exact this
      rw [e1, hlen, htl,
        show n.length + (w.length + 5) + 1 - 2 = 1 + n.length + (3 + w.length) by omega,
        show n.length + (w.length + 5) + 1 - 1 = 1 + n.length + (3 + w.length + 1) by omega,
        store_frame,
        store_append_at _ [SVN_UTF8_DOLLAR] x SVN_UTF8_POUND _ (by simp [length_strncpy]; omega),
        store_frame,
        show [SVN_UTF8_COLON, SVN_UTF8_COLON, SVN_UTF8_SPACE] ++ strncpy v w.length
            ++ [SVN_UTF8_POUND, SVN_UTF8_DOLLAR]
          = ([SVN_UTF8_COLON, SVN_UTF8_COLON, SVN_UTF8_SPACE] ++ strncpy v w.length
            ++ [SVN_UTF8_POUND]) ++ SVN_UTF8_DOLLAR :: [] by simp,
        store_append_at _ [] SVN_UTF8_DOLLAR SVN_UTF8_DOLLAR _ (by simp [length_strncpy]; omega)]

theorem fixed_tail_frame (n w : List Byte) (x : Byte)
    (hl : n.length + w.length + 6 ≤ SVN_KEYWORD_MAX_LEN) :
    (SVN_UTF8_COLON :: SVN_UTF8_COLON :: SVN_UTF8_SPACE ::
        (w ++ [x, SVN_UTF8_DOLLAR])).getLast? = some SVN_UTF8_DOLLAR ∧
    ((SVN_UTF8_COLON :: SVN_UTF8_COLON :: SVN_UTF8_SPACE :: (w ++ [x, SVN_UTF8_DOLLAR])).head?
        = some SVN_UTF8_COLON ∧
      2 ≤ (SVN_UTF8_COLON :: SVN_UTF8_COLON :: SVN_UTF8_SPACE ::
        (w ++ [x, SVN_UTF8_DOLLAR])).length) ∧
    n.length + (SVN_UTF8_COLON :: SVN_UTF8_COLON :: SVN_UTF8_SPACE ::
        (w ++ [x, SVN_UTF8_DOLLAR])).length + 1 ≤ SVN_KEYWORD_MAX_LEN := by
  refine ⟨?_, ⟨rfl, by simp⟩, ?_⟩
  · rw [show SVN_UTF8_COLON :: SVN_UTF8_COLON :: SVN_UTF8_SPACE ::
      (w ++ [x, SVN_UTF8_DOLLAR]) = (SVN_UTF8_COLON :: SVN_UTF8_COLON :: SVN_UTF8_SPACE ::
      (w ++ [x])) ++ [SVN_UTF8_DOLLAR] by simp, List.getLast?_append]
    rfl
  · simp only [List.length_cons, List.length_append, List.length_nil]
    omega

/-- On a fixed-length buffer whose name is bound and well formed,
`translate_keyword` is the fixed-length branch. -/
theorem translate_keyword_fixed (kw : apr_hash_t) (n v w : List Byte) (x : Byte)
    (expand : Bool) (hn0 : (0 : Byte) ∉ n) (hnc : SVN_UTF8_COLON ∉ n)
    (hv : apr_hash_get kw n = some v) (hw : w ≠ [])
    (hx : x = SVN_UTF8_SPACE ∨ x = SVN_UTF8_POUND)
    (hl : n.length + w.length + 6 ≤ SVN_KEYWORD_MAX_LEN) :
    translate_keyword
        (SVN_UTF8_DOLLAR :: (n ++ SVN_UTF8_COLON :: SVN_UTF8_COLON :: SVN_UTF8_SPACE ::
          (w ++ [x, SVN_UTF8_DOLLAR]))) expand (some kw)
      = some (true, SVN_UTF8_DOLLAR :: (n ++
          (match (if expand then some v else none) with
          | none =>
            [SVN_UTF8_COLON, SVN_UTF8_COLON]
              ++ fill_spaces (SVN_UTF8_SPACE :: (w ++ [x, SVN_UTF8_DOLLAR]))
          | some v =>
            if v.length ≤ w.length then
              [SVN_UTF8_COLON, SVN_UTF8_COLON, SVN_UTF8_SPACE] ++ strncpy v v.length
                ++ fill_spaces ((w ++ [x, SVN_UTF8_DOLLAR]).drop v.length)
            else
              [SVN_UTF8_COLON, SVN_UTF8_COLON, SVN_UTF8_SPACE] ++ strncpy v w.length
                ++ [SVN_UTF8_POUND, SVN_UTF8_DOLLAR]))) := by
  obtain ⟨h1, h2, h3⟩ := fixed_tail_frame n w x hl
  rw [translate_keyword_frame n _ expand kw v hn0 hnc (Or.inr h2) h1 h3 hv,
    translate_keyword_subst_fixed n w x _ hw hx hl]

theorem fill_spaces_slot (w : List Byte) (x : Byte) (k : Nat) (hk : k ≤ w.length)
    (hwd : SVN_UTF8_DOLLAR ∉ w) (hx : x = SVN_UTF8_SPACE ∨ x = SVN_UTF8_POUND) :
    fill_spaces ((w ++ [x, SVN_UTF8_DOLLAR]).drop k)
      = List.replicate (w.length + 1 - k) SVN_UTF8_SPACE ++ [SVN_UTF8_DOLLAR] := by
  rw [List.drop_append_of_le_length hk,
    show w.drop k ++ [x, SVN_UTF8_DOLLAR] = (w.drop k ++ [x]) ++ SVN_UTF8_DOLLAR :: [] by simp,
    fill_spaces_no_dollar]
  · simp only [List.length_append, List.length_drop, List.length_singleton]
    rw [show w.length - k + 1 = w.length + 1 - k by omega]
  · intro c hc
    rcases List.mem_append.mp hc with h | h
    · exact fun he => hwd (he ▸ List.mem_of_mem_drop h)
    · simp only [List.mem_singleton] at h
      rcases hx with rfl | rfl <;> rw [h] <;> decide

/-- C7 (as amended). Fixed-length slots keep their length: for every keyword
set, every name bound in it that contains no colon (and no NUL) and every
buffer `$` name `:: ` w x `$` of at most KW_MAX bytes with w not empty and x
a space or `#`, the substitutor reports a rewrite under expand (whatever the
value bound to the name) and under contract; the length of the buffer is
unchanged and the result still starts with `$` name `:: ` and ends with `$`. -/
theorem translate_keyword_fixed_keeps_length (kw : apr_hash_t) (n v w : List Byte) (x : Byte)
    (expand : Bool) (hn0 : (0 : Byte) ∉ n) (hnc : SVN_UTF8_COLON ∉ n)
    (hv : apr_hash_get kw n = some v) (hw : w ≠ [])
    (hx : x = SVN_UTF8_SPACE ∨ x = SVN_UTF8_POUND)
    (hl : n.length + w.length + 6 ≤ SVN_KEYWORD_MAX_LEN) :
    ∃ r, translate_keyword
        (SVN_UTF8_DOLLAR :: (n ++ SVN_UTF8_COLON :: SVN_UTF8_COLON :: SVN_UTF8_SPACE ::
          (w ++ [x, SVN_UTF8_DOLLAR]))) expand (some kw) = some (true, r) ∧
      r.length = (SVN_UTF8_DOLLAR :: (n ++ SVN_UTF8_COLON :: SVN_UTF8_COLON ::
        SVN_UTF8_SPACE :: (w ++ [x, SVN_UTF8_DOLLAR]))).length ∧
      (SVN_UTF8_DOLLAR :: (n ++ [SVN_UTF8_COLON, SVN_UTF8_COLON, SVN_UTF8_SPACE])) <+: r ∧
      r.getLast? = some SVN_UTF8_DOLLAR := by
  refine ⟨_, translate_keyword_fixed kw n v w x expand hn0 hnc hv hw hx hl, ?_⟩
  have hsd : SVN_UTF8_SPACE ≠ SVN_UTF8_DOLLAR := by decide
  have key : ∀ (pre f : List Byte), f.getLast? = some SVN_UTF8_DOLLAR →
      (SVN_UTF8_DOLLAR :: (n ++ (pre ++ f))).getLast? = some SVN_UTF8_DOLLAR := by
    intro pre f hf
    have hne : f ≠ [] := by intro h; rw [h] at hf; simp at hf
    rw [show SVN_UTF8_DOLLAR :: (n ++ (pre ++ f)) = (SVN_UTF8_DOLLAR :: (n ++ pre)) ++ f by simp,
      List.getLast?_append_of_ne_nil _ hne, hf]
  cases expand with
  | false =>
    simp only [Bool.false_eq_true, if_false, fill_spaces, hsd]
    refine ⟨by simp [fill_spaces_length], ⟨fill_spaces (w ++ [x, SVN_UTF8_DOLLAR]), by simp⟩, ?_⟩
    have := key [SVN_UTF8_COLON, SVN_UTF8_COLON, SVN_UTF8_SPACE]
      (fill_spaces (w ++ [x, SVN_UTF8_DOLLAR]))
      (fill_spaces_getLast _ (by
        rw [show w ++ [x, SVN_UTF8_DOLLAR] = (w ++ [x]) ++ [SVN_UTF8_DOLLAR] by simp,
          List.getLast?_append]; rfl))
    simpa using this
  | true =>
    simp only [if_true]
    by_cases hvl : v.length ≤ w.length
    · simp only [if_pos hvl]
      have hd : (w ++ [x, SVN_UTF8_DOLLAR]).drop v.length
          = (w.drop v.length ++ [x]) ++ [SVN_UTF8_DOLLAR] := by
        rw [List.drop_append_of_le_length hvl]; simp
      refine ⟨?_, ⟨strncpy v v.length ++ fill_spaces ((w ++ [x, SVN_UTF8_DOLLAR]).drop v.length),
        by simp⟩, ?_⟩
      · simp only [List.length_cons, List.length_append, length_strncpy, fill_spaces_length,
          List.length_drop, List.length_nil]
        omega
      · have := key ([SVN_UTF8_COLON, SVN_UTF8_COLON, SVN_UTF8_SPACE] ++ strncpy v v.length)
          (fill_spaces ((w ++ [x, SVN_UTF8_DOLLAR]).drop v.length))
          (fill_spaces_getLast _ (by rw [hd, List.getLast?_append]; rfl))
        simpa using this
    · simp only [if_neg hvl]
      refine ⟨?_, ⟨strncpy v w.length ++ [SVN_UTF8_POUND, SVN_UTF8_DOLLAR], by simp⟩, ?_⟩
      · simp only [List.length_cons, List.length_append, length_strncpy, List.length_nil]
        omega
      · have := key ([SVN_UTF8_COLON, SVN_UTF8_COLON, SVN_UTF8_SPACE] ++ strncpy v w.length)
          [SVN_UTF8_POUND, SVN_UTF8_DOLLAR] rfl
        simpa using this

/-- Witness for C7: `$Rev:: 999   $` with Rev bound to `4`, expand on. -/
theorem translate_keyword_fixed_keeps_length_witness :
    ∃ r, translate_keyword
        (SVN_UTF8_DOLLAR :: (ascii "Rev" ++ SVN_UTF8_COLON :: SVN_UTF8_COLON :: SVN_UTF8_SPACE ::
          (ascii "999  " ++ [SVN_UTF8_SPACE, SVN_UTF8_DOLLAR]))) true
        (some [(ascii "Rev", ascii "4")]) = some (true, r) ∧
      r.length = (SVN_UTF8_DOLLAR :: (ascii "Rev" ++ SVN_UTF8_COLON :: SVN_UTF8_COLON ::
        SVN_UTF8_SPACE :: (ascii "999  " ++ [SVN_UTF8_SPACE, SVN_UTF8_DOLLAR]))).length ∧
      (SVN_UTF8_DOLLAR :: (ascii "Rev" ++ [SVN_UTF8_COLON, SVN_UTF8_COLON, SVN_UTF8_SPACE]))
        <+: r ∧
      r.getLast? = some SVN_UTF8_DOLLAR :=
  translate_keyword_fixed_keeps_length [(ascii "Rev", ascii "4")] (ascii "Rev") (ascii "4")
    (ascii "999  ") SVN_UTF8_SPACE true (by decide) (by decide) (by decide) (by decide)
    (Or.inl rfl) (by decide)

/-- Counterexample for C7 as stated: the name `a:b` is bound in the keyword set
and `$a:b:: xx $` is in fixed-length form for it, but the name loop stops at the
first colon, `a` is looked up and no rewrite is reported, under expand and
under contract. -/
theorem translate_keyword_fixed_colon_name :
    apr_hash_get [(ascii "a:b", ascii "x")] (ascii "a:b") = some (ascii "x") ∧
    translate_keyword (ascii "$a:b:: xx $") true (some [(ascii "a:b", ascii "x")])
      = some (false, ascii "$a:b:: xx $") ∧
    translate_keyword (ascii "$a:b:: xx $") false (some [(ascii "a:b", ascii "x")])
      = some (false, ascii "$a:b:: xx $") := by
  decide

/-- C8 (as amended). Fixed-length expansion content: for a name bound to a value
v without NUL, the name without colon (and NUL), and a buffer
`$` name `:: ` w x `$` of at most KW_MAX bytes with w not empty and free of
`$` and x a space or `#`, the slot size being s = |w| (the total length minus
6 minus the length of the name), expand rewrites the buffer to
`$` name `:: ` v, spaces up to the closing `$` when |v| <= s (x included, so
a `#` marker becomes a space), and to `$` name `:: `, the first s bytes of v
and `#$` when |v| > s. -/
theorem translate_keyword_fixed_expand (kw : apr_hash_t) (n v w : List Byte) (x : Byte)
    (hn0 : (0 : Byte) ∉ n) (hnc : SVN_UTF8_COLON ∉ n)
    (hv : apr_hash_get kw n = some v) (hv0 : (0 : Byte) ∉ v) (hw : w ≠ [])
    (hwd : SVN_UTF8_DOLLAR ∉ w) (hx : x = SVN_UTF8_SPACE ∨ x = SVN_UTF8_POUND)
    (hl : n.length + w.length + 6 ≤ SVN_KEYWORD_MAX_LEN) :
    translate_keyword
        (SVN_UTF8_DOLLAR :: (n ++ SVN_UTF8_COLON :: SVN_UTF8_COLON :: SVN_UTF8_SPACE ::
          (w ++ [x, SVN_UTF8_DOLLAR]))) true (some kw)
      = some (true, SVN_UTF8_DOLLAR :: (n ++
          [SVN_UTF8_COLON, SVN_UTF8_COLON, SVN_UTF8_SPACE] ++
          (if v.length ≤ w.length then
            v ++ List.replicate (w.length + 1 - v.length) SVN_UTF8_SPACE ++ [SVN_UTF8_DOLLAR]
          else v.take w.length ++ [SVN_UTF8_POUND, SVN_UTF8_DOLLAR]))) := by
  rw [translate_keyword_fixed kw n v w x true hn0 hnc hv hw hx hl]
  simp only [if_true]
  by_cases hvl : v.length ≤ w.length
  · simp only [if_pos hvl]
    rw [fill_spaces_slot w x v.length hvl hwd hx, strncpy_of_no_nul v _ hv0 (le_refl _),
      List.take_length]
    simp
  · simp only [if_neg hvl]
    rw [strncpy_of_no_nul v _ hv0 (by omega)]
    simp

/-- Witness for C8: `$Rev:: 999   $` with Rev bound to `4` gives
`$Rev:: 4     $`. -/
theorem translate_keyword_fixed_expand_witness :
    translate_keyword
        (SVN_UTF8_DOLLAR :: (ascii "Rev" ++ SVN_UTF8_COLON :: SVN_UTF8_COLON :: SVN_UTF8_SPACE ::
          (ascii "999  " ++ [SVN_UTF8_SPACE, SVN_UTF8_DOLLAR]))) true
        (some [(ascii "Rev", ascii "4")])
      = some (true, SVN_UTF8_DOLLAR :: (ascii "Rev" ++
          [SVN_UTF8_COLON, SVN_UTF8_COLON, SVN_UTF8_SPACE] ++
          (if (ascii "4").length ≤ (ascii "999  ").length then
            ascii "4" ++ List.replicate ((ascii "999  ").length + 1 - (ascii "4").length)
              SVN_UTF8_SPACE ++ [SVN_UTF8_DOLLAR]
          else (ascii "4").take (ascii "999  ").length ++ [SVN_UTF8_POUND, SVN_UTF8_DOLLAR]))) ∧
    SVN_UTF8_DOLLAR :: (ascii "Rev" ++ SVN_UTF8_COLON :: SVN_UTF8_COLON :: SVN_UTF8_SPACE ::
          (ascii "999  " ++ [SVN_UTF8_SPACE, SVN_UTF8_DOLLAR])) = ascii "$Rev:: 999   $" ∧
    SVN_UTF8_DOLLAR :: (ascii "Rev" ++
          [SVN_UTF8_COLON, SVN_UTF8_COLON, SVN_UTF8_SPACE] ++
          (if (ascii "4").length ≤ (ascii "999  ").length then
            ascii "4" ++ List.replicate ((ascii "999  ").length + 1 - (ascii "4").length)
              SVN_UTF8_SPACE ++ [SVN_UTF8_DOLLAR]
          else (ascii "4").take (ascii "999  ").length ++ [SVN_UTF8_POUND, SVN_UTF8_DOLLAR]))
      = ascii "$Rev:: 4     $" :=
  ⟨translate_keyword_fixed_expand [(ascii "Rev", ascii "4")] (ascii "Rev") (ascii "4")
    (ascii "999  ") SVN_UTF8_SPACE (by decide) (by decide) (by decide) (by decide) (by decide)
    (by decide) (Or.inl rfl) (by decide), by decide, by decide⟩

/-- Counterexample for C8 as stated. First, with Rev bound to the three bytes
`4`, NUL, `2`, the fixed-length slot of `$Rev:: 999   $` receives `4`, NUL,
NUL (the copy by `strncpy` stops at the NUL and pads), not the value followed
by spaces. Second, the name `a:b` is bound, but `$a:b:: xx $` is not
rewritten at all, the name loop stopping at the first colon. -/
theorem translate_keyword_fixed_expand_not_every_value :
    (apr_hash_get [(ascii "Rev", [52, 0, 50])] (ascii "Rev") = some [52, 0, 50] ∧
      translate_keyword (ascii "$Rev:: 999   $") true (some [(ascii "Rev", [52, 0, 50])])
        = some (true, ascii "$Rev:: " ++ [52, 0, 0] ++ ascii "   $")) ∧
    (apr_hash_get [(ascii "a:b", ascii "x")] (ascii "a:b") = some (ascii "x") ∧
      translate_keyword (ascii "$a:b:: xx $") true (some [(ascii "a:b", ascii "x")])
        = some (false, ascii "$a:b:: xx $")) := by
  decide

/-- C10 (as amended). Fixed-length contraction: for a name bound in the
keyword set, without colon (and NUL), and a buffer `$` name `:: ` w x `$` of
at most KW_MAX bytes with w not empty and free of `$` and x a space or `#`,
the substitutor with expand off reports a rewrite and the buffer becomes
`$` name `::` followed only by spaces up to the closing `$`: the old value
and a `#` marker are replaced by spaces, and `$` name `::`, the closing `$`
and the total length are unchanged. -/
theorem translate_keyword_fixed_contract (kw : apr_hash_t) (n v w : List Byte) (x : Byte)
    (hn0 : (0 : Byte) ∉ n) (hnc : SVN_UTF8_COLON ∉ n)
    (hv : apr_hash_get kw n = some v) (hw : w ≠ [])
    (hwd : SVN_UTF8_DOLLAR ∉ w) (hx : x = SVN_UTF8_SPACE ∨ x = SVN_UTF8_POUND)
    (hl : n.length + w.length + 6 ≤ SVN_KEYWORD_MAX_LEN) :
    translate_keyword
        (SVN_UTF8_DOLLAR :: (n ++ SVN_UTF8_COLON :: SVN_UTF8_COLON :: SVN_UTF8_SPACE ::
          (w ++ [x, SVN_UTF8_DOLLAR]))) false (some kw)
      = some (true, SVN_UTF8_DOLLAR :: (n ++ [SVN_UTF8_COLON, SVN_UTF8_COLON] ++
          List.replicate (w.length + 2) SVN_UTF8_SPACE ++ [SVN_UTF8_DOLLAR])) ∧
    (SVN_UTF8_DOLLAR :: (n ++ [SVN_UTF8_COLON, SVN_UTF8_COLON] ++
          List.replicate (w.length + 2) SVN_UTF8_SPACE ++ [SVN_UTF8_DOLLAR])).length
      = (SVN_UTF8_DOLLAR :: (n ++ SVN_UTF8_COLON :: SVN_UTF8_COLON :: SVN_UTF8_SPACE ::
          (w ++ [x, SVN_UTF8_DOLLAR]))).length := by
  refine ⟨?_, by simp⟩
  rw [translate_keyword_fixed kw n v w x false hn0 hnc hv hw hx hl]
  simp only [Bool.false_eq_true, if_false]
  have hsd : SVN_UTF8_SPACE ≠ SVN_UTF8_DOLLAR := by decide
  have := fill_spaces_slot w x 0 (Nat.zero_le _) hwd hx
  rw [List.drop_zero] at this
  simp only [fill_spaces, hsd, if_false, this]
  simp [List.replicate_succ]

/-- Witness for C10: `$Rev:: 1234#$` contracts to `$Rev::`, six spaces, `$`. -/
theorem translate_keyword_fixed_contract_witness :
    translate_keyword
        (SVN_UTF8_DOLLAR :: (ascii "Rev" ++ SVN_UTF8_COLON :: SVN_UTF8_COLON :: SVN_UTF8_SPACE ::
          (ascii "1234" ++ [SVN_UTF8_POUND, SVN_UTF8_DOLLAR]))) false
        (some [(ascii "Rev", ascii "12345")])
      = some (true, ascii "$Rev::      $") ∧
    SVN_UTF8_DOLLAR :: (ascii "Rev" ++ SVN_UTF8_COLON :: SVN_UTF8_COLON :: SVN_UTF8_SPACE ::
          (ascii "1234" ++ [SVN_UTF8_POUND, SVN_UTF8_DOLLAR])) = ascii "$Rev:: 1234#$" :=
  ⟨(translate_keyword_fixed_contract [(ascii "Rev", ascii "12345")] (ascii "Rev")
    (ascii "12345") (ascii "1234") SVN_UTF8_POUND (by decide) (by decide) (by decide)
    (by decide) (by decide) (Or.inr rfl) (by decide)).1, by decide⟩

/-- Counterexample for C10 as stated: the name `a:b` is bound in the keyword set
and `$a:b:: xx#$` is in fixed-length form for it, but with expand off the
substitutor reports no rewrite and leaves the value and the `#` in place. -/
theorem translate_keyword_fixed_contract_colon_name :
    apr_hash_get [(ascii "a:b", ascii "x")] (ascii "a:b") = some (ascii "x") ∧
    translate_keyword (ascii "$a:b:: xx#$") false (some [(ascii "a:b", ascii "x")])
      = some (false, ascii "$a:b:: xx#$") := by
  decide

/-! ## End-to-end scenario 4 -/

/-- C9 (as amended). Translating `$Rev:: 999 $` with Rev bound to `12345`,
expand on and no EOL target gives `$Rev:: 123#$`: the slot of the input holds
three bytes, and the total length of twelve bytes is kept. -/
theorem translate_stream_scenario_four :
    translate_stream none false (some [(ascii "Rev", ascii "12345")]) true
      [ascii "$Rev:: 999 $"] = some (SVN_NO_ERROR, ascii "$Rev:: 123#$") := by
  decide

/-- Counterexample for C9 as stated: the output is not `$Rev:: 1234#$`, which
is one byte longer than the input. -/
theorem translate_stream_scenario_four_as_stated :
    translate_stream none false (some [(ascii "Rev", ascii "12345")]) true
      [ascii "$Rev:: 999 $"] ≠ some (SVN_NO_ERROR, ascii "$Rev:: 1234#$") := by
  decide

/-! ## The read loop of `svn_subst_translate_stream3` -/

theorem svn_subst_translate_stream3_loop_eq (CHUNK : Nat) :
    ∀ (fuel : Nat) (b : translation_baton) (s d : List Byte), baton_inv b →
      s.length < fuel * CHUNK →
      svn_subst_translate_stream3_loop CHUNK fuel b s d = translate_chunk d b (some s) := by
  intro fuel
  induction fuel with
  | zero => intro b s d _ h; simp at h
  | succ fuel ih =>
    intro b s d hinv h
    unfold svn_subst_translate_stream3_loop
    simp only [svn_stream_read]
    have hsplit : translate_chunk d b (some s)
        = and_then (translate_chunk d b (some (s.take CHUNK)))
            (fun b1 d1 => translate_chunk d1 b1 (some (s.drop CHUNK))) := by
      show translate_chunk_loop s.length b s d = _
      conv_lhs => rw [← List.take_append_drop CHUNK s]
      exact translate_chunk_loop_append _ _ b d hinv
    rw [hsplit]
    obtain ⟨e, b1, d1, h1, -, h3⟩ :=
      translate_chunk_loop_total (s.take CHUNK).length b (s.take CHUNK) d hinv (le_refl _)
    have h1' : translate_chunk d b (some (s.take CHUNK)) = some (e, b1, d1) := h1
    rw [h1']
    by_cases he : e = SVN_NO_ERROR
    · subst he
      rw [and_then_ok]
      simp only
      by_cases hl : (s.take CHUNK).length = CHUNK
      · rw [if_pos hl]
        apply ih b1 _ d1 (h3 rfl)
        rw [List.length_take] at hl
        rw [List.length_drop]
        have : (fuel + 1) * CHUNK = fuel * CHUNK + CHUNK := by ring
        omega
      · rw [if_neg hl]
        rw [List.length_take] at hl
        have hs : s.length ≤ CHUNK := by omega
        rw [List.drop_of_length_le hs]
        simp [translate_chunk, translate_chunk_loop_nil]
    · rw [and_then_err e he]
      cases e <;> first | exact absurd rfl he | rfl

/-- The function `svn_subst_translate_stream3`, whatever the size of its read
buffer, writes what one chunk holding the whole source followed by the flush
gives. -/
theorem svn_subst_translate_stream3_eq (CHUNK : Nat) (hC : 0 < CHUNK) (s : List Byte)
    (eol_str : Option (List Byte)) (repair : Bool) (keywords : Option apr_hash_t)
    (expand : Bool) (h : eol_str.isSome ∨ keywords.isSome) :
    svn_subst_translate_stream3 CHUNK s eol_str repair keywords expand
      = translate_stream eol_str repair keywords expand [s] := by
  unfold svn_subst_translate_stream3 translate_stream
  have hne : ¬ (eol_str.isNone && keywords.isNone) = true := by
    rcases h with h | h
    · cases eol_str <;> simp_all
    · cases keywords <;> simp_all
  rw [if_neg hne, svn_subst_translate_stream3_loop_eq CHUNK _ _ _ _ (baton_inv_create _ _ _ _)
    (by
      have : s.length + 1 ≤ (s.length + 1) * CHUNK := Nat.le_mul_of_pos_right _ hC
      omega)]
  rw [show List.map some [s] ++ [none] = [some s, none] from rfl, translate_chunks_cons]
  simp only [translate_chunks_flush]
  rcases translate_chunk [] (create_translation_baton eol_str repair keywords expand) (some s)
    with _ | ⟨e, b1, d1⟩
  · rfl
  · cases e <;> rfl

/-! ## Re-expansion of an expanded keyword -/

theorem store_take_succ (b : List Byte) (i : Nat) (c : Byte) (h : i ≤ b.length) :
    (store b i c).take (i + 1) = b.take i ++ [c] := by
  unfold store
  rw [List.take_append_eq_append_take, List.length_take, Nat.min_eq_left h]
  simp [List.take_take]

theorem store_length_ge (b : List Byte) (i : Nat) (c : Byte) (h : i ≤ b.length) :
    i + 1 ≤ (store b i c).length := by
  unfold store
  simp only [List.length_append, List.length_take, List.length_cons, List.length_drop]
  omega

theorem store_bytes_take (b s : List Byte) (i : Nat) (h : i ≤ b.length) :
    (store_bytes b i s).take (i + s.length) = b.take i ++ s := by
  unfold store_bytes
  rw [List.take_append_eq_append_take]
  simp [List.length_take, Nat.min_eq_left h]

theorem store_bytes_length_ge (b s : List Byte) (i : Nat) (h : i ≤ b.length) :
    i + s.length ≤ (store_bytes b i s).length := by
  unfold store_bytes
  simp only [List.length_append, List.length_take, List.length_drop]
  omega

/-- The five stores of an expansion and the cut at the new length, on the part
of the buffer after the name. -/
theorem tail_reexpand (t vv : List Byte) (m : Nat) (hm : vv.length = m) :
    (store (store (store_bytes (store (store t 0 SVN_UTF8_COLON) 1 SVN_UTF8_SPACE) 2 vv)
      (2 + m) SVN_UTF8_SPACE) (2 + m + 1) SVN_UTF8_DOLLAR).take (4 + m)
      = [SVN_UTF8_COLON, SVN_UTF8_SPACE] ++ vv ++ [SVN_UTF8_SPACE, SVN_UTF8_DOLLAR] := by
  subst hm
  have l1 := store_length_ge t 0 SVN_UTF8_COLON (Nat.zero_le _)
  have l2 := store_length_ge _ 1 SVN_UTF8_SPACE l1
  have l3 := store_bytes_length_ge _ vv 2 l2
  have l4 := store_length_ge _ (2 + vv.length) SVN_UTF8_SPACE l3
  rw [show 4 + vv.length = (2 + vv.length + 1) + 1 by omega,
    store_take_succ _ _ _ l4, store_take_succ _ _ _ l3, store_bytes_take _ _ _ l2,
    store_take_succ _ 1 _ l1, store_take_succ _ 0 _ (Nat.zero_le _)]
  simp

theorem tail_reexpand_empty (t : List Byte) :
    (store (store (store t 0 SVN_UTF8_COLON) 1 SVN_UTF8_SPACE) 2 SVN_UTF8_DOLLAR).take 3
      = [SVN_UTF8_COLON, SVN_UTF8_SPACE, SVN_UTF8_DOLLAR] := by
  have l1 := store_length_ge t 0 SVN_UTF8_COLON (Nat.zero_le _)
  have l2 := store_length_ge _ 1 SVN_UTF8_SPACE l1
  rw [store_take_succ _ 2 _ l2, store_take_succ _ 1 _ l1, store_take_succ _ 0 _ (Nat.zero_le _)]
  simp

/-- The substitutor expands an expanded keyword anew: third branch of
`translate_keyword_subst` with a value, on a buffer `$` name tail. The value is
cut at `SVN_KEYWORD_MAX_LEN - 5` bytes, whatever the length of the name. -/
theorem translate_keyword_subst_reexpand (n t v : List Byte)
    (h0 : t.getD 0 0 = SVN_UTF8_COLON) (h1 : t.getD 1 0 = SVN_UTF8_SPACE)
    (h2 : t.getD (t.length - 2) 0 = SVN_UTF8_SPACE) (h3 : 3 ≤ t.length)
    (hlast : t.getLast? = some SVN_UTF8_DOLLAR)
    (hl : n.length + t.length + 1 ≤ SVN_KEYWORD_MAX_LEN) :
    translate_keyword_subst (SVN_UTF8_DOLLAR :: (n ++ t)) n n.length (some v)
      = some (true, SVN_UTF8_DOLLAR :: (n ++
          (if v.length ≠ 0 then
            [SVN_UTF8_COLON, SVN_UTF8_SPACE]
              ++ strncpy v (min v.length (SVN_KEYWORD_MAX_LEN - 5))
              ++ [SVN_UTF8_SPACE, SVN_UTF8_DOLLAR]
          else [SVN_UTF8_COLON, SVN_UTF8_SPACE, SVN_UTF8_DOLLAR]))) := by
  have hg := good_stuffs_frame n t hlast hl
  obtain ⟨ne1, ne2, ne3, ne4, ne5⟩ := bytes_ne
  have hlen : (SVN_UTF8_DOLLAR :: (n ++ t)).length = n.length + t.length + 1 := by simp
  unfold translate_keyword_subst
  simp only [hg, Bool.not_true, Bool.false_eq_true, if_false, List.drop_succ_cons,
    List.drop_zero, strncmp_append_self, ne_eq, not_true_eq_false, getD_frame_zero, getD_frame,
    getD_len_sub_two n t _ _ (by omega : 2 ≤ t.length), h0, h1, h2, store_frame_zero,
    store_frame, store_bytes_frame, ne1, ne2, ne3, ne5, decide_True, decide_False,
    Bool.and_false, Bool.false_and, Bool.and_true, Bool.true_and, Bool.or_false, Bool.false_or,
    and_false, false_and]
  rw [if_neg (by rw [hlen]; omega)]
  simp only [hlen, show n.length + t.length + 1 ≥ 4 + n.length from by omega, decide_True,
    if_true]
  by_cases hv : v.length = 0
  · rw [if_neg (by simpa using hv), if_neg (by simpa using hv)]
    rw [show 4 + n.length = 1 + n.length + 3 by omega, take_frame,
      tail_reexpand_empty t]
  · rw [if_pos hv, if_pos hv]
    have hmin : (if v.length > SVN_KEYWORD_MAX_LEN - 5 then SVN_KEYWORD_MAX_LEN - 5
        else v.length) = min v.length (SVN_KEYWORD_MAX_LEN - 5) := by
      split_ifs <;> omega
    rw [hmin]
    generalize min v.length (SVN_KEYWORD_MAX_LEN - 5) = m
    rw [show 1 + n.length + 2 + m = 1 + n.length + (2 + m) by omega,
      show 1 + n.length + (2 + m) + 1 = 1 + n.length + (2 + m + 1) by omega,
      store_frame, store_frame,
      show 5 + n.length + m = 1 + n.length + (4 + m) by omega, take_frame,
      tail_reexpand t _ m (length_strncpy v m)]

/-- The part of an expanded keyword after its name, `:` u `$` with u beginning
and ending with a space, in the terms of the lemmas on `$` name tail. -/
theorem expanded_tail_facts (u : List Byte)
    (hu1 : u.head? = some SVN_UTF8_SPACE) (hu2 : u.getLast? = some SVN_UTF8_SPACE) :
    let t := SVN_UTF8_COLON :: (u ++ [SVN_UTF8_DOLLAR])
    t.length = u.length + 2 ∧ 1 ≤ u.length ∧ t.getD 0 0 = SVN_UTF8_COLON ∧
    t.getD 1 0 = SVN_UTF8_SPACE ∧ t.getD (t.length - 2) 0 = SVN_UTF8_SPACE ∧
    t.getLast? = some SVN_UTF8_DOLLAR := by
  have hune : u ≠ [] := by intro h; rw [h] at hu1; simp at hu1
  have hlen : (SVN_UTF8_COLON :: (u ++ [SVN_UTF8_DOLLAR])).length = u.length + 2 := by simp
  refine ⟨hlen, List.length_pos.mpr hune, rfl, ?_, ?_, ?_⟩
  · cases u with
    | nil => exact absurd rfl hune
    | cons a r =>
      simp only [List.head?_cons, Option.some.injEq] at hu1
      simp [hu1]
  · rw [hlen, Nat.add_sub_cancel]
    exact getD_before_last u _ _ _ _ hu2
  · rw [← List.cons_append, List.getLast?_append]; rfl

/-- C11 (as amended). Re-expansion and first expansion agree where no
truncation arises: for every keyword set, every name bound in it that contains
no colon and no NUL, with a value v that contains no NUL and satisfies
|name| + |v| ≤ KW_MAX - 5, and every buffer `$` name `:` u `$` of at most
KW_MAX bytes in which u begins and ends with a space, the substitutor with
expand on yields exactly what it yields on `$` name `$`, namely
`$` name `: ` v ` $` when v is not empty and `$` name `: $` when v is empty. -/
theorem translate_keyword_reexpand_same_as_expand (kw : apr_hash_t) (n v u : List Byte)
    (hn0 : (0 : Byte) ∉ n) (hnc : SVN_UTF8_COLON ∉ n) (hv : apr_hash_get kw n = some v)
    (hv0 : (0 : Byte) ∉ v) (hvl : n.length + v.length ≤ SVN_KEYWORD_MAX_LEN - 5)
    (hu1 : u.head? = some SVN_UTF8_SPACE) (hu2 : u.getLast? = some SVN_UTF8_SPACE)
    (hl : n.length + u.length + 3 ≤ SVN_KEYWORD_MAX_LEN) :
    translate_keyword (SVN_UTF8_DOLLAR :: (n ++ SVN_UTF8_COLON :: (u ++ [SVN_UTF8_DOLLAR])))
        true (some kw)
      = translate_keyword (SVN_UTF8_DOLLAR :: (n ++ [SVN_UTF8_DOLLAR])) true (some kw) ∧
    translate_keyword (SVN_UTF8_DOLLAR :: (n ++ SVN_UTF8_COLON :: (u ++ [SVN_UTF8_DOLLAR])))
        true (some kw)
      = some (true, SVN_UTF8_DOLLAR :: (n ++
          (if v ≠ [] then
            [SVN_UTF8_COLON, SVN_UTF8_SPACE] ++ v ++ [SVN_UTF8_SPACE, SVN_UTF8_DOLLAR]
          else [SVN_UTF8_COLON, SVN_UTF8_SPACE, SVN_UTF8_DOLLAR]))) := by
  obtain ⟨hlen, hulen, h0, h1, h2, hlast⟩ := expanded_tail_facts u hu1 hu2
  unfold SVN_KEYWORD_MAX_LEN at hvl hl
  have hA : translate_keyword
      (SVN_UTF8_DOLLAR :: (n ++ SVN_UTF8_COLON :: (u ++ [SVN_UTF8_DOLLAR]))) true (some kw)
      = some (true, SVN_UTF8_DOLLAR :: (n ++
          (if v ≠ [] then
            [SVN_UTF8_COLON, SVN_UTF8_SPACE] ++ v ++ [SVN_UTF8_SPACE, SVN_UTF8_DOLLAR]
          else [SVN_UTF8_COLON, SVN_UTF8_SPACE, SVN_UTF8_DOLLAR]))) := by
    rw [translate_keyword_frame n (SVN_UTF8_COLON :: (u ++ [SVN_UTF8_DOLLAR])) true kw v hn0 hnc
      (Or.inr ⟨rfl, by rw [hlen]; omega⟩) hlast
      (by rw [hlen]; unfold SVN_KEYWORD_MAX_LEN; omega) hv, if_pos rfl,
      translate_keyword_subst_reexpand n _ v h0 h1 h2 (by rw [hlen]; omega) hlast
        (by rw [hlen]; unfold SVN_KEYWORD_MAX_LEN; omega),
      strncpy_of_no_nul v _ hv0 (Nat.min_le_left _ _),
      Nat.min_eq_left (by unfold SVN_KEYWORD_MAX_LEN; omega), List.take_length]
    by_cases hve : v = []
    · simp [hve]
    · have : v.length ≠ 0 := fun h => hve (List.length_eq_zero.mp h)
      simp [hve, this]
  have hB : translate_keyword (SVN_UTF8_DOLLAR :: (n ++ [SVN_UTF8_DOLLAR])) true (some kw)
      = some (true, SVN_UTF8_DOLLAR :: (n ++
          (if v ≠ [] then
            [SVN_UTF8_COLON, SVN_UTF8_SPACE] ++ v ++ [SVN_UTF8_SPACE, SVN_UTF8_DOLLAR]
          else [SVN_UTF8_COLON, SVN_UTF8_SPACE, SVN_UTF8_DOLLAR]))) := by
    rw [translate_keyword_frame n [SVN_UTF8_DOLLAR] true kw v hn0 hnc (Or.inl rfl) rfl
      (by unfold SVN_KEYWORD_MAX_LEN; simp only [List.length_singleton]; omega) hv, if_pos rfl,
      translate_keyword_subst_expand n _ v (Or.inl rfl) (by unfold SVN_KEYWORD_MAX_LEN; omega),
      strncpy_of_no_nul v _ hv0 (Nat.min_le_left _ _),
      Nat.min_eq_left (by unfold SVN_KEYWORD_MAX_LEN; omega), List.take_length]
    by_cases hve : v = []
    · simp [hve]
    · have : v.length ≠ 0 := fun h => hve (List.length_eq_zero.mp h)
      simp [hve, this]
  exact ⟨hA.trans hB.symm, hA⟩

/-- Witness for C11: `$Rev: 999 $` and `$Rev$` with Rev bound to `42` both
give `$Rev: 42 $`. -/
theorem translate_keyword_reexpand_same_as_expand_witness :
    translate_keyword (ascii "$Rev: 999 $") true (some [(ascii "Rev", ascii "42")])
      = translate_keyword (ascii "$Rev$") true (some [(ascii "Rev", ascii "42")]) ∧
    translate_keyword (ascii "$Rev: 999 $") true (some [(ascii "Rev", ascii "42")])
      = some (true, SVN_UTF8_DOLLAR :: (ascii "Rev" ++
          (if ascii "42" ≠ [] then
            [SVN_UTF8_COLON, SVN_UTF8_SPACE] ++ ascii "42" ++ [SVN_UTF8_SPACE, SVN_UTF8_DOLLAR]
          else [SVN_UTF8_COLON, SVN_UTF8_SPACE, SVN_UTF8_DOLLAR]))) :=
  translate_keyword_reexpand_same_as_expand [(ascii "Rev", ascii "42")] (ascii "Rev")
    (ascii "42") (ascii " 999 ") (by decide) (by decide) (by decide) (by decide) (by decide)
    (by decide) (by decide) (by decide)

set_option maxRecDepth 100000 in
/-- Counterexample for C11 as stated. First, the name `a:b` is bound to `x`, yet
on `$a:b: old $` the name loop stops at the first colon, `a` is looked up and
no rewrite is reported. Second, with Rev bound to 250 bytes `x`, the buffer
`$Rev: 1 $` is rewritten with all 250 bytes of the value (258 bytes in all),
while `$Rev$` is expanded with the first 247 = KW_MAX - 5 - 3 bytes. -/
theorem translate_keyword_reexpand_not_as_expand :
    (apr_hash_get [(ascii "a:b", ascii "x")] (ascii "a:b") = some (ascii "x") ∧
      translate_keyword (ascii "$a:b: old $") true (some [(ascii "a:b", ascii "x")])
        = some (false, ascii "$a:b: old $")) ∧
    (translate_keyword (ascii "$Rev: 1 $") true (some [(ascii "Rev", List.replicate 250 120)])
        = some (true, ascii "$Rev: " ++ List.replicate 250 120 ++ ascii " $") ∧
      translate_keyword (ascii "$Rev$") true (some [(ascii "Rev", List.replicate 250 120)])
        = some (true, ascii "$Rev: " ++ List.replicate 247 120 ++ ascii " $")) := by
  decide

/-! ## The EOL style of a property value -/

theorem cstr_nil : cstr [] = [] := rfl

theorem cstr_cons (x : Byte) (a : List Byte) :
    cstr (x :: a) = if x = 0 then [] else x :: cstr a := by
  unfold cstr
  by_cases h : x = 0
  · simp [h]
  · simp [h, List.takeWhile_cons]

theorem strncmp_eq_zero_iff : ∀ (n : Nat) (a b : List Byte), a.length < n →
    (strncmp a b n = 0 ↔ cstr a = cstr b) := by
  intro n
  induction n with
  | zero => intro a b h; simp at h
  | succ n ih =>
    intro a b h
    unfold strncmp
    cases a with
    | nil =>
      cases b with
      | nil => simp [cstr_nil]
      | cons y b =>
        simp only [List.headD_nil, List.headD_cons, cstr_nil, cstr_cons]
        by_cases hy : y = 0
        · simp [hy]
        · have h0 : ¬ (0 : Byte) = y := fun e => hy e.symm
          simp only [ne_eq, h0, not_false_eq_true, if_true, hy, if_false]
          constructor
          · intro e
            have : (y : Int) = 0 := by omega
            exact absurd (by exact_mod_cast this) hy
          · intro e; simp at e
    | cons x a =>
      simp only [List.length_cons] at h
      cases b with
      | nil =>
        simp only [List.headD_nil, List.headD_cons, cstr_nil, cstr_cons, List.tail_cons]
        by_cases hx : x = 0
        · simp [hx]
        · simp only [ne_eq, hx, not_false_eq_true, if_true, if_false]
          constructor
          · intro e
            have : (x : Int) = 0 := by omega
            exact absurd (by exact_mod_cast this) hx
          · intro e; simp at e
      | cons y b =>
        simp only [List.headD_cons, cstr_cons, List.tail_cons]
        by_cases hxy : x = y
        · subst hxy
          by_cases hx : x = 0
          · simp [hx]
          · simp only [ne_eq, not_true_eq_false, if_false, hx]
            rw [ih a b (by omega)]
            simp
        · simp only [ne_eq, hxy, not_false_eq_true, if_true]
          constructor
          · intro e
            have : (x : Int) = (y : Int) := by omega
            exact absurd (by exact_mod_cast this) hxy
          · intro e
            by_cases hx : x = 0
            · by_cases hy : y = 0
              · exact absurd (hx.trans hy.symm) hxy
              · simp [hx, hy] at e
            · by_cases hy : y = 0
              · simp [hx, hy] at e
              · simp only [hx, hy, if_false, List.cons.injEq] at e
                exact absurd e.1 hxy

/-- C `strcmp` returns zero exactly when the two C strings are equal. -/
theorem strcmp_eq_zero_iff (a b : List Byte) : strcmp a b = 0 ↔ cstr a = cstr b :=
  strncmp_eq_zero_iff _ a b (Nat.lt_succ_self _)

/-- On a value that is none of the four policy strings, every comparison of
`svn_subst_eol_style_from_value` fails. -/
theorem svn_subst_eol_style_from_value_other (e : Bool) (native : List Byte) (style : Bool)
    (value : List Byte) (h0 : (0 : Byte) ∉ value) (h1 : value ≠ NATIVE_STR)
    (h2 : value ≠ LF_STR) (h3 : value ≠ CR_STR) (h4 : value ≠ CRLF_STR) :
    svn_subst_eol_style_from_value e native style (some value)
      = (if style then some svn_subst_eol_style_unknown else none, none) := by
  have hc := cstr_of_no_nul value h0
  have k : ∀ s : List Byte, (0 : Byte) ∉ s → value ≠ s → ¬ strcmp s value = 0 := by
    intro s hs hne h
    rw [strcmp_eq_zero_iff, hc, cstr_of_no_nul s hs] at h
    exact hne h.symm
  unfold svn_subst_eol_style_from_value
  simp only [k NATIVE_STR (by decide) h1, k LF_STR (by decide) h2, k CR_STR (by decide) h3,
    k CRLF_STR (by decide) h4, if_false]

/-- C19. The EOL style of a property value (with a non-NULL `style` pointer):
absent gives (none, no EOL); `native` gives (native, the native terminator
of the build, which is `APR_EOL_STR` and, on an EBCDIC build, the ASCII LF);
`LF` gives (fixed, 0x0A); `CR` gives (fixed, 0x0D); `CRLF` gives
(fixed, 0x0D 0x0A); every other string gives (unknown, no EOL), among them the
empty string and `lf`, `Native`, `crlf`. -/
theorem svn_subst_eol_style_from_value_table (APR_CHARSET_EBCDIC : Bool)
    (APR_EOL_STR : List Byte) :
    svn_subst_eol_style_from_value APR_CHARSET_EBCDIC APR_EOL_STR true none
      = (some svn_subst_eol_style_none, none) ∧
    svn_subst_eol_style_from_value APR_CHARSET_EBCDIC APR_EOL_STR true (some (ascii "native"))
      = (some svn_subst_eol_style_native,
          some (if APR_CHARSET_EBCDIC then [0x0A] else APR_EOL_STR)) ∧
    svn_subst_eol_style_from_value APR_CHARSET_EBCDIC APR_EOL_STR true (some (ascii "LF"))
      = (some svn_subst_eol_style_fixed, some [0x0A]) ∧
    svn_subst_eol_style_from_value APR_CHARSET_EBCDIC APR_EOL_STR true (some (ascii "CR"))
      = (some svn_subst_eol_style_fixed, some [0x0D]) ∧
    svn_subst_eol_style_from_value APR_CHARSET_EBCDIC APR_EOL_STR true (some (ascii "CRLF"))
      = (some svn_subst_eol_style_fixed, some [0x0D, 0x0A]) ∧
    (∀ value : List Byte, (0 : Byte) ∉ value → value ≠ ascii "native" → value ≠ ascii "LF" →
      value ≠ ascii "CR" → value ≠ ascii "CRLF" →
      svn_subst_eol_style_from_value APR_CHARSET_EBCDIC APR_EOL_STR true (some value)
        = (some svn_subst_eol_style_unknown, none)) ∧
    (∀ value ∈ [ascii "", ascii "lf", ascii "Native", ascii "crlf"],
      svn_subst_eol_style_from_value APR_CHARSET_EBCDIC APR_EOL_STR true (some value)
        = (some svn_subst_eol_style_unknown, none)) := by
  have hother : ∀ value : List Byte, (0 : Byte) ∉ value → value ≠ ascii "native" →
      value ≠ ascii "LF" → value ≠ ascii "CR" → value ≠ ascii "CRLF" →
      svn_subst_eol_style_from_value APR_CHARSET_EBCDIC APR_EOL_STR true (some value)
        = (some svn_subst_eol_style_unknown, none) := by
    intro value h0 h1 h2 h3 h4
    rw [svn_subst_eol_style_from_value_other _ _ _ value h0 h1 h2 h3 h4]
    rfl
  refine ⟨rfl, ?_, ?_, ?_, ?_, hother, ?_⟩
  · cases APR_CHARSET_EBCDIC <;> rfl
  · rfl
  · rfl
  · rfl
  · intro value hv
    simp only [List.mem_cons, List.mem_singleton, List.not_mem_nil, or_false] at hv
    rcases hv with rfl | rfl | rfl | rfl <;>
      exact hother _ (by decide) (by decide) (by decide) (by decide) (by decide)

/-! ## The translation predicate -/

/-- What `svn_subst_translation_required` computes: it returns true exactly
when the file is special, or the `keywords` pointer is not NULL, or
force-check is set and the style is not none, or the style is native and the
native terminator of the build differs from LF, or the style is fixed and the
native terminator of the build differs from `eol`. -/
theorem svn_subst_translation_required_iff (APR_CHARSET_EBCDIC : Bool)
    (APR_EOL_STR : List Byte) (style : svn_subst_eol_style_t) (eol : Option (List Byte))
    (keywords : Option apr_hash_t) (special force_eol_check : Bool) :
    svn_subst_translation_required APR_CHARSET_EBCDIC APR_EOL_STR style eol keywords special
        force_eol_check = true ↔
      (special = true ∨ keywords ≠ none
        ∨ (force_eol_check = true ∧ style ≠ svn_subst_eol_style_none)
        ∨ (style = svn_subst_eol_style_native ∧
            cstr (if APR_CHARSET_EBCDIC then [SVN_UTF8_NEWLINE] else APR_EOL_STR)
              ≠ [SVN_UTF8_NEWLINE])
        ∨ (style = svn_subst_eol_style_fixed ∧
            cstr (if APR_CHARSET_EBCDIC then [SVN_UTF8_NEWLINE] else APR_EOL_STR)
              ≠ cstr (eol.getD []))) := by
  have hn : (if (!APR_CHARSET_EBCDIC) = true then APR_EOL_STR else SVN_UTF8_NEWLINE_STR)
      = (if APR_CHARSET_EBCDIC then [SVN_UTF8_NEWLINE] else APR_EOL_STR) := by
    cases APR_CHARSET_EBCDIC <;> rfl
  have hlf : cstr SVN_SUBST__DEFAULT_EOL_STR = [SVN_UTF8_NEWLINE] := by decide
  unfold svn_subst_translation_required
  simp only [hn, Bool.or_eq_true, Bool.and_eq_true, decide_eq_true_eq, bne_iff_ne, ne_eq,
    beq_iff_eq, strcmp_eq_zero_iff, hlf, Option.isSome_iff_ne_none]
  tauto

/-- The predicate at an empty, non-NULL keyword hash (C20): for a
non-special file with style none and force-check off,
`svn_subst_translation_required` returns true, whatever the build. -/
theorem svn_subst_translation_required_empty_keywords (APR_CHARSET_EBCDIC : Bool)
    (APR_EOL_STR : List Byte) (eol : Option (List Byte)) :
    apr_hash_count [] = 0 ∧
    svn_subst_translation_required APR_CHARSET_EBCDIC APR_EOL_STR svn_subst_eol_style_none eol
      (some []) false false = true ∧
    svn_subst_translation_required APR_CHARSET_EBCDIC APR_EOL_STR svn_subst_eol_style_none eol
      none false false = false ∧
    (create_translation_baton none false (some []) false).keywords = none := by
  refine ⟨rfl, rfl, ?_, rfl⟩
  simp [svn_subst_translation_required]

/-! ## The transducer without an EOL target -/

theorem boring_dollar_only (c : Byte) :
    boring [SVN_UTF8_DOLLAR] c = !decide (c = SVN_UTF8_DOLLAR) := by
  unfold boring strchr
  have : cstr [SVN_UTF8_DOLLAR] = [SVN_UTF8_DOLLAR] := rfl
  rw [this]
  by_cases h0 : c = 0
  · subst h0; decide
  · have h1 : (c == 0) = false := by simpa using h0
    by_cases hd : c = SVN_UTF8_DOLLAR
    · subst hd; decide
    · simp [h1, hd]

/-- A substitutor call that reports no rewrite leaves the buffer as it was. -/
theorem translate_keyword_subst_false (buf keyword : List Byte) (keyword_len : Nat)
    (value : Option (List Byte)) (r : List Byte)
    (h : translate_keyword_subst buf keyword keyword_len value = some (false, r)) : r = buf := by
  unfold translate_keyword_subst at h
  simp only at h
  repeat' split at h
  all_goals first
    | (simp only [Option.some.injEq, Prod.mk.injEq] at h; exact h.2.symm)
    | (simp only [Option.some.injEq, Prod.mk.injEq, Bool.true_eq_false, false_and] at h)
    | cases h

theorem translate_keyword_false (buf : List Byte) (expand : Bool) (keywords : Option apr_hash_t)
    (r : List Byte) (h : translate_keyword buf expand keywords = some (false, r)) : r = buf := by
  unfold translate_keyword at h
  by_cases hg : good_stuffs buf = true
  · simp only [hg, Bool.not_true, Bool.false_eq_true, if_false] at h
    cases keywords with
    | none =>
      simp only [Option.some.injEq, Prod.mk.injEq, true_and] at h
      exact h.symm
    | some kw =>
      simp only at h
      cases hv : apr_hash_get kw (keyword_name buf) with
      | none =>
        rw [hv] at h
        simp only [Option.some.injEq, Prod.mk.injEq, true_and] at h
        exact h.symm
      | some value =>
        rw [hv] at h
        exact translate_keyword_subst_false _ _ _ _ _ h
  · simp [hg] at h

theorem clean_step_kw (b : translation_baton) (hi : b.interesting = [SVN_UTF8_DOLLAR])
    (c : Byte) (dst : List Byte) :
    clean_step b c dst =
      if c = SVN_UTF8_DOLLAR then
        some (SVN_NO_ERROR, { b with keyword_buf := b.keyword_buf ++ [c] }, dst)
      else some (SVN_NO_ERROR, b, dst ++ [c]) := by
  unfold clean_step
  rw [hi, boring_dollar_only]
  by_cases hd : c = SVN_UTF8_DOLLAR
  · simp [hd]
  · simp [hd]

/-- Without an EOL string, one byte through `translate_chunk` is one `kw_step`
on the held keyword run and the bytes written; nothing else of the baton
changes and no error arises. -/
theorem byte_step_kw (b : translation_baton) (hinv : baton_inv b)
    (hi : b.interesting = [SVN_UTF8_DOLLAR]) (hn : b.newline_buf = []) (c : Byte)
    (dst : List Byte) :
    byte_step b c dst = some (SVN_NO_ERROR,
      { b with keyword_buf := (kw_step b.keywords b.expand (b.keyword_buf, dst) c).1 },
      (kw_step b.keywords b.expand (b.keyword_buf, dst) c).2) := by
  unfold byte_step kw_step
  rw [if_neg (show ¬ (b.newline_buf ≠ []) from fun h => h hn)]
  by_cases hk : b.keyword_buf = []
  · have e1 : ¬ (b.keyword_buf ≠ [] ∧ c = SVN_UTF8_DOLLAR) := fun h => h.1 hk
    have e2 : ¬ (b.keyword_buf.length = SVN_KEYWORD_MAX_LEN - 1
        ∨ (b.keyword_buf ≠ [] ∧ (c = SVN_UTF8_CR ∨ c = SVN_UTF8_NEWLINE))) := by
      rintro (h | h)
      · rw [hk] at h; simp [SVN_KEYWORD_MAX_LEN] at h
      · exact h.1 hk
    rw [if_neg e1, if_neg e2, if_neg (show ¬ (b.keyword_buf ≠ []) from fun h => h hk),
      clean_step_kw b hi]
    simp only [hk, if_true]
    by_cases hd : c = SVN_UTF8_DOLLAR
    · simp [hd]
    · simp only [hd, if_false, List.nil_append]
      congr 2
      cases b
      simp only at hk
      simp [hk]
  · simp only [hk, if_false]
    by_cases hd : c = SVN_UTF8_DOLLAR
    · subst hd
      rw [if_pos ⟨hk, rfl⟩]
      simp only [if_true]
      have hsome := translate_keyword_isSome (b.keyword_buf ++ [SVN_UTF8_DOLLAR]) b.expand
        b.keywords (good_stuffs_keyword_buf b hinv hk)
      cases htk : translate_keyword (b.keyword_buf ++ [SVN_UTF8_DOLLAR]) b.expand b.keywords with
      | none => rw [htk] at hsome; simp at hsome
      | some r =>
        obtain ⟨ok, kb⟩ := r
        cases ok
        · have hkb := translate_keyword_false _ _ _ _ htk
          subst hkb
          simp only [List.length_append, List.length_singleton, Nat.add_sub_cancel,
            List.take_left']
          rw [clean_step_kw _
            (show ({ b with keyword_buf := [] } : translation_baton).interesting = _ from hi),
            if_pos rfl]
          rfl
        · rfl
    · rw [if_neg (fun h => hd h.2)]
      simp only [hd, if_false]
      by_cases h3 : b.keyword_buf.length = SVN_KEYWORD_MAX_LEN - 1
          ∨ c = SVN_UTF8_CR ∨ c = SVN_UTF8_NEWLINE
      · have h3' : b.keyword_buf.length = SVN_KEYWORD_MAX_LEN - 1
            ∨ (b.keyword_buf ≠ [] ∧ (c = SVN_UTF8_CR ∨ c = SVN_UTF8_NEWLINE)) := by
          rcases h3 with h | h
          · exact Or.inl h
          · exact Or.inr ⟨hk, h⟩
        rw [if_pos h3', if_pos h3, clean_step_kw _
          (show ({ b with keyword_buf := [] } : translation_baton).interesting = _ from hi),
          if_neg hd]
      · have h3' : ¬ (b.keyword_buf.length = SVN_KEYWORD_MAX_LEN - 1
            ∨ (b.keyword_buf ≠ [] ∧ (c = SVN_UTF8_CR ∨ c = SVN_UTF8_NEWLINE))) := by
          rintro (h | h)
          · exact h3 (Or.inl h)
          · exact h3 (Or.inr h.2)
        rw [if_neg h3', if_neg h3, if_pos hk]

/-- Without an EOL string, a chunk through `translate_chunk` is `kw_run`. -/
theorem run_bytes_kw : ∀ (p : List Byte) (b : translation_baton) (dst : List Byte),
    baton_inv b → b.interesting = [SVN_UTF8_DOLLAR] → b.newline_buf = [] →
    run_bytes b p dst = some (SVN_NO_ERROR,
      { b with keyword_buf := (kw_run b.keywords b.expand (b.keyword_buf, dst) p).1 },
      (kw_run b.keywords b.expand (b.keyword_buf, dst) p).2) := by
  intro p
  induction p with
  | nil =>
    intro b dst _ _ _
    simp [run_bytes, kw_run]
  | cons c r ih =>
    intro b dst hinv hi hn
    unfold run_bytes
    rw [byte_step_kw b hinv hi hn c dst, and_then_ok]
    have hinv1 : baton_inv { b with keyword_buf :=
        (kw_step b.keywords b.expand (b.keyword_buf, dst) c).1 } := by
      obtain ⟨e, b1, d1, h1, -, h3⟩ := translate_chunk_loop_total 1 b [c] dst hinv (le_refl _)
      rw [translate_chunk_loop_one, byte_step_kw b hinv hi hn c dst] at h1
      simp only [Option.some.injEq, Prod.mk.injEq] at h1
      obtain ⟨he, hb, -⟩ := h1
      rw [hb]
      exact h3 he.symm
    rw [ih _ _ hinv1 hi hn]
    simp [kw_run]

theorem translate_chunk_flush_kw (b : translation_baton) (hn : b.newline_buf = [])
    (dst : List Byte) :
    translate_chunk dst b none = some (SVN_NO_ERROR, b, dst ++ b.keyword_buf) := by
  unfold translate_chunk
  simp only [translation_baton.newline_off, hn, List.length_nil, ne_eq, not_true_eq_false,
    if_false, translation_baton.keyword_off, translate_write, List.take_length]
  by_cases hk : b.keyword_buf = []
  · simp [hk]
  · have : b.keyword_buf.length ≠ 0 := fun h => hk (List.length_eq_zero.mp h)
    simp [this]

/-- A whole translation without an EOL string always succeeds, and its output
is what `kw_run` wrote followed by the keyword run still held at the flush. -/
theorem translate_stream_kw (repair : Bool) (keywords : Option apr_hash_t) (expand : Bool)
    (chunks : List (List Byte)) :
    translate_stream none repair keywords expand chunks = some (SVN_NO_ERROR,
      (kw_run (create_translation_baton none repair keywords expand).keywords expand ([], [])
        chunks.flatten).2 ++
      (kw_run (create_translation_baton none repair keywords expand).keywords expand ([], [])
        chunks.flatten).1) := by
  have hinv := baton_inv_create none repair keywords expand
  unfold translate_stream
  rw [translate_chunks_join chunks _ [] [none] hinv]
  have h1 : translate_chunk [] (create_translation_baton none repair keywords expand)
      (some chunks.flatten) = run_bytes (create_translation_baton none repair keywords expand)
        chunks.flatten [] :=
    translate_chunk_loop_bytes _ _ _ hinv
  rw [h1, run_bytes_kw _ _ _ hinv rfl rfl, and_then_ok, translate_chunks_flush,
    translate_chunk_flush_kw _ rfl]
  rfl

/-! ## Keyword runs through the transducer -/

theorem kw_run_nil (K : Option apr_hash_t) (e : Bool) (st : List Byte × List Byte) :
    kw_run K e st [] = st := rfl

theorem kw_run_cons (K : Option apr_hash_t) (e : Bool) (st : List Byte × List Byte) (c : Byte)
    (p : List Byte) : kw_run K e st (c :: p) = kw_run K e (kw_step K e st c) p := rfl

theorem kw_run_append (K : Option apr_hash_t) (e : Bool) (st : List Byte × List Byte)
    (p q : List Byte) : kw_run K e st (p ++ q) = kw_run K e (kw_run K e st p) q := by
  simp [kw_run, List.foldl_append]

/-- With nothing held, bytes other than `$` are copied. -/
theorem kw_run_copy (K : Option apr_hash_t) (e : Bool) :
    ∀ (p out : List Byte), (∀ c ∈ p, c ≠ SVN_UTF8_DOLLAR) →
      kw_run K e ([], out) p = ([], out ++ p) := by
  intro p
  induction p with
  | nil => intro out _; simp [kw_run_nil]
  | cons c r ih =>
    intro out h
    have hc : c ≠ SVN_UTF8_DOLLAR := h c (List.mem_cons_self _ _)
    rw [kw_run_cons]
    have : kw_step K e ([], out) c = ([], out ++ [c]) := by simp [kw_step, hc]
    rw [this, ih _ (fun x hx => h x (List.mem_cons_of_mem _ hx))]
    simp

/-- A held run takes up bytes other than `$`, CR and LF while it has room. -/
theorem kw_run_hold (K : Option apr_hash_t) (e : Bool) :
    ∀ (p held out : List Byte), held ≠ [] →
      (∀ c ∈ p, c ≠ SVN_UTF8_DOLLAR ∧ c ≠ SVN_UTF8_CR ∧ c ≠ SVN_UTF8_NEWLINE) →
      held.length + p.length ≤ SVN_KEYWORD_MAX_LEN - 1 →
      kw_run K e (held, out) p = (held ++ p, out) := by
  intro p
  induction p with
  | nil => intro held out _ _ _; simp [kw_run_nil]
  | cons c r ih =>
    intro held out hne h hl
    obtain ⟨h1, h2, h3⟩ := h c (List.mem_cons_self _ _)
    simp only [List.length_cons] at hl
    rw [kw_run_cons]
    have : kw_step K e (held, out) c = (held ++ [c], out) := by
      have hlen : ¬ held.length = SVN_KEYWORD_MAX_LEN - 1 := by omega
      simp [kw_step, hne, h1, h2, h3, hlen]
    rw [this, ih _ _ (by simp) (fun x hx => h x (List.mem_cons_of_mem _ hx))
      (by simp only [List.length_append, List.length_singleton]; omega)]
    simp

/-- The step at `$` with nothing held: the `$` starts a run. -/
theorem kw_step_start (K : Option apr_hash_t) (e : Bool) (out : List Byte) :
    kw_step K e ([], out) SVN_UTF8_DOLLAR = ([SVN_UTF8_DOLLAR], out) := by
  simp [kw_step]

/-- The step at `$` with a run held: the run and the `$` go to the substitutor. -/
theorem kw_step_close (K : Option apr_hash_t) (e : Bool) (held out : List Byte)
    (hne : held ≠ []) :
    kw_step K e (held, out) SVN_UTF8_DOLLAR =
      match translate_keyword (held ++ [SVN_UTF8_DOLLAR]) e K with
      | some (true, kb) => ([], out ++ kb)
      | _ => ([SVN_UTF8_DOLLAR], out ++ held) := by
  unfold kw_step
  rw [if_neg hne, if_pos rfl]

/-- The step at a byte other than `$` that ends a held run: the run is full, or
the byte is CR or LF. -/
theorem kw_step_flush (K : Option apr_hash_t) (e : Bool) (held out : List Byte) (c : Byte)
    (hne : held ≠ []) (hc : c ≠ SVN_UTF8_DOLLAR)
    (h : held.length = SVN_KEYWORD_MAX_LEN - 1 ∨ c = SVN_UTF8_CR ∨ c = SVN_UTF8_NEWLINE) :
    kw_step K e (held, out) c = ([], out ++ held ++ [c]) := by
  simp only [kw_step, hne, if_false, hc]
  rw [if_pos h]

/-- The run `$` w `$` from a state with nothing held, where w has no `$`, CR or
LF and the run has at most `SVN_KEYWORD_MAX_LEN` bytes: it is handed to
`translate_keyword`. -/
theorem kw_run_single (K : Option apr_hash_t) (e : Bool) (w out : List Byte)
    (hw : ∀ c ∈ w, c ≠ SVN_UTF8_DOLLAR ∧ c ≠ SVN_UTF8_CR ∧ c ≠ SVN_UTF8_NEWLINE)
    (hl : w.length + 2 ≤ SVN_KEYWORD_MAX_LEN) :
    kw_run K e ([], out) (SVN_UTF8_DOLLAR :: (w ++ [SVN_UTF8_DOLLAR])) =
      match translate_keyword (SVN_UTF8_DOLLAR :: (w ++ [SVN_UTF8_DOLLAR])) e K with
      | some (true, kb) => ([], out ++ kb)
      | _ => ([SVN_UTF8_DOLLAR], out ++ SVN_UTF8_DOLLAR :: w) := by
  unfold SVN_KEYWORD_MAX_LEN at hl
  rw [kw_run_cons, kw_step_start, kw_run_append,
    kw_run_hold K e w [SVN_UTF8_DOLLAR] out (by simp) hw
      (by unfold SVN_KEYWORD_MAX_LEN; simp only [List.length_singleton]; omega),
    kw_run_cons, kw_run_nil, kw_step_close K e _ _ (by simp)]
  rfl

/-- The run `$` w `$` with w free of `$`, CR and LF and more than
`SVN_KEYWORD_MAX_LEN` bytes in all: the first 254 bytes are flushed when the
next byte arrives, the rest is copied, and the closing `$` is held. -/
theorem kw_run_long (K : Option apr_hash_t) (e : Bool) (w out : List Byte)
    (hw : ∀ c ∈ w, c ≠ SVN_UTF8_DOLLAR ∧ c ≠ SVN_UTF8_CR ∧ c ≠ SVN_UTF8_NEWLINE)
    (hl : SVN_KEYWORD_MAX_LEN < w.length + 2) :
    kw_run K e ([], out) (SVN_UTF8_DOLLAR :: (w ++ [SVN_UTF8_DOLLAR])) =
      ([SVN_UTF8_DOLLAR], out ++ SVN_UTF8_DOLLAR :: w) := by
  unfold SVN_KEYWORD_MAX_LEN at hl
  have hsplit : w = w.take 253 ++ w.drop 253 := (List.take_append_drop 253 w).symm
  have hdl : 1 ≤ (w.drop 253).length := by simp only [List.length_drop]; omega
  obtain ⟨c, w2, hcw⟩ : ∃ c w2, w.drop 253 = c :: w2 := by
    cases hd : w.drop 253 with
    | nil => rw [hd] at hdl; simp at hdl
    | cons c w2 => exact ⟨c, w2, rfl⟩
  have hw1 : ∀ x ∈ w.take 253,
      x ≠ SVN_UTF8_DOLLAR ∧ x ≠ SVN_UTF8_CR ∧ x ≠ SVN_UTF8_NEWLINE :=
    fun x hx => hw x (List.mem_of_mem_take hx)
  have hc : c ≠ SVN_UTF8_DOLLAR :=
    (hw c (List.mem_of_mem_drop (by rw [hcw]; exact List.mem_cons_self _ _))).1
  have hw2 : ∀ x ∈ w2, x ≠ SVN_UTF8_DOLLAR := fun x hx =>
    (hw x (List.mem_of_mem_drop (by rw [hcw]; exact List.mem_cons_of_mem _ hx))).1
  have ht : (w.take 253).length = 253 := by simp only [List.length_take]; omega
  rw [kw_run_cons, kw_step_start]
  conv_lhs => rw [hsplit, hcw, List.append_assoc]
  rw [kw_run_append, kw_run_hold K e _ [SVN_UTF8_DOLLAR] out (by simp) hw1
      (by unfold SVN_KEYWORD_MAX_LEN; simp only [List.length_singleton]; omega)]
  rw [show (c :: w2 ++ [SVN_UTF8_DOLLAR]) = c :: (w2 ++ [SVN_UTF8_DOLLAR]) from rfl,
    kw_run_cons,
    kw_step_flush K e _ _ c (by simp) hc
      (Or.inl (by unfold SVN_KEYWORD_MAX_LEN
                  simp only [List.length_append, List.length_singleton]; omega)),
    kw_run_append, kw_run_copy K e w2 _ hw2, kw_run_cons, kw_run_nil, kw_step_start]
  congr 1
  conv_rhs => rw [hsplit, hcw]
  simp

/-- C17. A keyword run longer than KW_MAX is copied, one of exactly KW_MAX bytes
goes to the substitutor: for every keyword set, expand flag, repair flag and
chunking of an input `$` w `$` in which w has no `$`, CR or LF, without an EOL
target: when the input has more than 255 bytes, translation succeeds and the
output is the input, whatever w begins with; when it has exactly 255 bytes,
the chunk `$` w leaves all its 254 bytes held and nothing written, so that the
closing `$` hands the whole run to `translate_keyword`, and, the values of the
keyword set fitting in the keyword buffer (`values_fit`), translation succeeds
and the output is what `translate_keyword` makes of the whole input if it
reports a rewrite, and the input otherwise. -/
theorem translate_stream_long_run_verbatim (repair : Bool) (keywords : Option apr_hash_t)
    (expand : Bool) (w : List Byte) (chunks : List (List Byte))
    (hw : ∀ c ∈ w, c ≠ SVN_UTF8_DOLLAR ∧ c ≠ SVN_UTF8_CR ∧ c ≠ SVN_UTF8_NEWLINE)
    (hch : chunks.flatten = SVN_UTF8_DOLLAR :: (w ++ [SVN_UTF8_DOLLAR])) :
    (SVN_KEYWORD_MAX_LEN < w.length + 2 →
      translate_stream none repair keywords expand chunks
        = some (SVN_NO_ERROR, SVN_UTF8_DOLLAR :: (w ++ [SVN_UTF8_DOLLAR]))) ∧
    (w.length + 2 = SVN_KEYWORD_MAX_LEN →
      translate_chunk [] (create_translation_baton none repair keywords expand)
          (some (SVN_UTF8_DOLLAR :: w))
        = some (SVN_NO_ERROR,
            { create_translation_baton none repair keywords expand with
              keyword_buf := SVN_UTF8_DOLLAR :: w }, []) ∧
      (values_fit keywords expand →
        translate_stream none repair keywords expand chunks
          = some (SVN_NO_ERROR,
              match translate_keyword (SVN_UTF8_DOLLAR :: (w ++ [SVN_UTF8_DOLLAR])) expand
                (create_translation_baton none repair keywords expand).keywords with
              | some (true, kb) => kb
              | _ => SVN_UTF8_DOLLAR :: (w ++ [SVN_UTF8_DOLLAR])))) := by
  constructor
  · intro hl
    rw [translate_stream_kw, hch, kw_run_long _ _ w [] hw hl]
    simp
  · intro hl
    constructor
    · have hinv := baton_inv_create none repair keywords expand
      have h1 : translate_chunk [] (create_translation_baton none repair keywords expand)
          (some (SVN_UTF8_DOLLAR :: w))
          = run_bytes (create_translation_baton none repair keywords expand)
            (SVN_UTF8_DOLLAR :: w) [] :=
        translate_chunk_loop_bytes _ _ _ hinv
      rw [h1, run_bytes_kw _ _ _ hinv rfl rfl]
      have h2 : kw_run (create_translation_baton none repair keywords expand).keywords
          (create_translation_baton none repair keywords expand).expand
          ((create_translation_baton none repair keywords expand).keyword_buf, [])
          (SVN_UTF8_DOLLAR :: w) = (SVN_UTF8_DOLLAR :: w, []) := by
        show kw_run _ _ ([], []) (SVN_UTF8_DOLLAR :: w) = _
        rw [kw_run_cons, kw_step_start, kw_run_hold _ _ w [SVN_UTF8_DOLLAR] [] (by simp) hw
          (by unfold SVN_KEYWORD_MAX_LEN at hl ⊢; simp only [List.length_singleton]; omega)]
        rfl
      rw [h2]
    · intro _
      rw [translate_stream_kw, hch, kw_run_single _ _ w [] hw (le_of_eq hl)]
      rcases translate_keyword (SVN_UTF8_DOLLAR :: (w ++ [SVN_UTF8_DOLLAR])) expand
        (create_translation_baton none repair keywords expand).keywords with _ | ⟨ok, kb⟩
      · simp
      · cases ok <;> simp

set_option maxRecDepth 100000 in
/-- Witness for C17, with Rev bound to `1` and expand on: the 256 bytes
`$Rev: ` x...x ` $` come out as they are, and the 255 bytes of the same shape
come out as `$Rev: 1 $`. -/
theorem translate_stream_long_run_verbatim_witness :
    translate_stream none false (some [(ascii "Rev", ascii "1")]) true
        [ascii "$Rev: " ++ List.replicate 248 120 ++ ascii " $"]
      = some (SVN_NO_ERROR, ascii "$Rev: " ++ List.replicate 248 120 ++ ascii " $") ∧
    translate_stream none false (some [(ascii "Rev", ascii "1")]) true
        [ascii "$Rev: " ++ List.replicate 247 120 ++ ascii " $"]
      = some (SVN_NO_ERROR, ascii "$Rev: 1 $") :=
  ⟨((translate_stream_long_run_verbatim false (some [(ascii "Rev", ascii "1")]) true
      (ascii "Rev: " ++ List.replicate 248 120 ++ ascii " ") _ (by decide) (by decide)).1
      (by decide)).trans (by decide),
    ((((translate_stream_long_run_verbatim false (some [(ascii "Rev", ascii "1")]) true
      (ascii "Rev: " ++ List.replicate 247 120 ++ ascii " ") _ (by decide) (by decide)).2
      (by decide)).2 (by unfold values_fit; decide)).trans (by decide))⟩

/-! ## Expansion followed by contraction -/

theorem mem_cstr (s : List Byte) (c : Byte) (h : c ∈ cstr s) : c ∈ s :=
  (List.takeWhile_sublist _).subset h

theorem mem_strncpy (v : List Byte) (m : Nat) (c : Byte) (h : c ∈ strncpy v m) :
    c ∈ v ∨ c = 0 := by
  unfold strncpy at h
  have h1 := List.mem_of_mem_take h
  rw [List.mem_append] at h1
  rcases h1 with h1 | h1
  · exact Or.inl (mem_cstr v c h1)
  · exact Or.inr (List.eq_of_mem_replicate h1)

/-- A keyword set in which a name is bound is not empty, so
`create_translation_baton` keeps it. -/
theorem keywords_create (eol : Option (List Byte)) (repair expand : Bool) (kw : apr_hash_t)
    (n v : List Byte) (hv : apr_hash_get kw n = some v) :
    (create_translation_baton eol repair (some kw) expand).keywords = some kw := by
  have hne : kw ≠ [] := by
    intro h
    rw [h] at hv
    simp [apr_hash_get] at hv
  have : apr_hash_count kw ≠ 0 := fun h => hne (List.length_eq_zero.mp h)
  simp [create_translation_baton, this]

/-- C12 (as amended). Expand-then-contract round trip: for every keyword set,
every name n bound in it that has at most KW_MAX - 5 bytes, none of them `$`,
`:`, CR, LF or NUL, and whose value has no `$`, CR or LF, translating `$n$`
with expand on and then the result with expand off (same keyword set, no EOL
target, any repair flag) gives back exactly `$n$`; both runs succeed. -/
theorem translate_stream_expand_then_contract (kw : apr_hash_t) (n v : List Byte)
    (repair : Bool)
    (hn : ∀ c ∈ n, c ≠ SVN_UTF8_DOLLAR ∧ c ≠ SVN_UTF8_CR ∧ c ≠ SVN_UTF8_NEWLINE ∧
      c ≠ SVN_UTF8_COLON ∧ c ≠ 0)
    (hnl : n.length ≤ SVN_KEYWORD_MAX_LEN - 5)
    (hv : apr_hash_get kw n = some v)
    (hvb : ∀ c ∈ v, c ≠ SVN_UTF8_DOLLAR ∧ c ≠ SVN_UTF8_CR ∧ c ≠ SVN_UTF8_NEWLINE) :
    ∃ x, translate_stream none repair (some kw) true [SVN_UTF8_DOLLAR :: (n ++ [SVN_UTF8_DOLLAR])]
        = some (SVN_NO_ERROR, x) ∧
      translate_stream none repair (some kw) false [x]
        = some (SVN_NO_ERROR, SVN_UTF8_DOLLAR :: (n ++ [SVN_UTF8_DOLLAR])) := by
  have hn0 : (0 : Byte) ∉ n := fun h => (hn 0 h).2.2.2.2 rfl
  have hnc : SVN_UTF8_COLON ∉ n := fun h => (hn _ h).2.2.2.1 rfl
  have hnw : ∀ c ∈ n, c ≠ SVN_UTF8_DOLLAR ∧ c ≠ SVN_UTF8_CR ∧ c ≠ SVN_UTF8_NEWLINE :=
    fun c hc => ⟨(hn c hc).1, (hn c hc).2.1, (hn c hc).2.2.1⟩
  have hnl' := hnl
  unfold SVN_KEYWORD_MAX_LEN at hnl'
  -- the bytes between the colon and the closing `$` after expansion
  obtain ⟨u, hu1, hu2, hul, hub, hX⟩ : ∃ u : List Byte,
      u.head? = some SVN_UTF8_SPACE ∧ u.getLast? = some SVN_UTF8_SPACE ∧
      n.length + u.length + 3 ≤ SVN_KEYWORD_MAX_LEN ∧
      (∀ c ∈ u, c ≠ SVN_UTF8_DOLLAR ∧ c ≠ SVN_UTF8_CR ∧ c ≠ SVN_UTF8_NEWLINE) ∧
      translate_keyword (SVN_UTF8_DOLLAR :: (n ++ [SVN_UTF8_DOLLAR])) true (some kw)
        = some (true, SVN_UTF8_DOLLAR :: (n ++ SVN_UTF8_COLON :: (u ++ [SVN_UTF8_DOLLAR]))) := by
    have hE := (translate_keyword_frame n [SVN_UTF8_DOLLAR] true kw v hn0 hnc (Or.inl rfl) rfl
        (by unfold SVN_KEYWORD_MAX_LEN; simp only [List.length_singleton]; omega) hv).trans
        (translate_keyword_subst_expand n _ v (Or.inl rfl) hnl)
    by_cases hvl : v.length = 0
    · refine ⟨[SVN_UTF8_SPACE], rfl, rfl, ?_, ?_, ?_⟩
      · unfold SVN_KEYWORD_MAX_LEN; simp only [List.length_singleton]; omega
      · intro c hc
        rw [List.mem_singleton] at hc
        subst hc
        decide
      · rw [hE]
        simp [hvl]
    · refine ⟨SVN_UTF8_SPACE ::
          (strncpy v (min v.length (SVN_KEYWORD_MAX_LEN - 5 - n.length)) ++ [SVN_UTF8_SPACE]),
        rfl, ?_, ?_, ?_, ?_⟩
      · rw [← List.cons_append, List.getLast?_append]; rfl
      · simp only [SVN_KEYWORD_MAX_LEN, List.length_cons, List.length_append, length_strncpy,
          List.length_singleton, List.length_nil]
        omega
      · intro c hc
        simp only [List.mem_cons, List.mem_append, List.mem_singleton, List.not_mem_nil,
          or_false] at hc
        rcases hc with rfl | hc | rfl
        · decide
        · rcases mem_strncpy _ _ _ hc with h | rfl
          · exact hvb c h
          · decide
        · decide
      · rw [hE]
        simp [hvl]
  have hk1 := keywords_create none repair true kw n v hv
  have hk2 := keywords_create none repair false kw n v hv
  obtain ⟨hlen, hulen, h0, h1, h2, hlast⟩ := expanded_tail_facts u hu1 hu2
  unfold SVN_KEYWORD_MAX_LEN at hul
  refine ⟨SVN_UTF8_DOLLAR :: (n ++ SVN_UTF8_COLON :: (u ++ [SVN_UTF8_DOLLAR])), ?_, ?_⟩
  · rw [translate_stream_kw, hk1]
    simp only [List.flatten_cons, List.flatten_nil, List.append_nil]
    rw [kw_run_single _ _ n [] hnw (by unfold SVN_KEYWORD_MAX_LEN; omega), hX]
    simp
  · have hC : translate_keyword
        (SVN_UTF8_DOLLAR :: (n ++ SVN_UTF8_COLON :: (u ++ [SVN_UTF8_DOLLAR]))) false (some kw)
        = some (true, SVN_UTF8_DOLLAR :: (n ++ [SVN_UTF8_DOLLAR])) := by
      rw [translate_keyword_frame n (SVN_UTF8_COLON :: (u ++ [SVN_UTF8_DOLLAR])) false kw v hn0
        hnc (Or.inr ⟨rfl, by rw [hlen]; omega⟩) hlast
        (by rw [hlen]; unfold SVN_KEYWORD_MAX_LEN; omega) hv]
      exact translate_keyword_subst_contract n _ h0 h1 h2 (by rw [hlen]; omega) hlast
        (by rw [hlen]; unfold SVN_KEYWORD_MAX_LEN; omega)
    have hw' : ∀ c ∈ n ++ SVN_UTF8_COLON :: u,
        c ≠ SVN_UTF8_DOLLAR ∧ c ≠ SVN_UTF8_CR ∧ c ≠ SVN_UTF8_NEWLINE := by
      intro c hc
      simp only [List.mem_append, List.mem_cons] at hc
      rcases hc with hc | rfl | hc
      · exact hnw c hc
      · decide
      · exact hub c hc
    have hshape : SVN_UTF8_DOLLAR :: (n ++ SVN_UTF8_COLON :: (u ++ [SVN_UTF8_DOLLAR]))
        = SVN_UTF8_DOLLAR :: ((n ++ SVN_UTF8_COLON :: u) ++ [SVN_UTF8_DOLLAR]) := by simp
    rw [translate_stream_kw, hk2]
    simp only [List.flatten_cons, List.flatten_nil, List.append_nil]
    rw [hshape, kw_run_single _ _ _ [] hw'
      (by simp only [List.length_append, List.length_cons]; unfold SVN_KEYWORD_MAX_LEN; omega),
      ← hshape, hC]
    simp

/-- Witness for C12: `$Rev$` with Rev bound to `42`. -/
theorem translate_stream_expand_then_contract_witness :
    ∃ x, translate_stream none false (some [(ascii "Rev", ascii "42")]) true
        [SVN_UTF8_DOLLAR :: (ascii "Rev" ++ [SVN_UTF8_DOLLAR])] = some (SVN_NO_ERROR, x) ∧
      translate_stream none false (some [(ascii "Rev", ascii "42")]) false [x]
        = some (SVN_NO_ERROR, SVN_UTF8_DOLLAR :: (ascii "Rev" ++ [SVN_UTF8_DOLLAR])) :=
  translate_stream_expand_then_contract [(ascii "Rev", ascii "42")] (ascii "Rev") (ascii "42")
    false (by decide) (by decide) (by decide) (by decide)

/-- Counterexample for C12 as stated. With Rev bound to `a$b`, `$Rev$` expands
to `$Rev: a$b $`; in the contracting run the `$` inside the value ends the
keyword run, `$Rev: a$` is no keyword form and nothing is contracted. With
`a: b ` and `a` both bound, `$a: b $` is the expanded form of `a`: it is
rewritten with the value of `a` and then contracted to `$a$`. -/
theorem translate_stream_expand_then_contract_not_every_value :
    (apr_hash_get [(ascii "Rev", ascii "a$b")] (ascii "Rev") = some (ascii "a$b") ∧
      translate_stream none false (some [(ascii "Rev", ascii "a$b")]) true [ascii "$Rev$"]
        = some (SVN_NO_ERROR, ascii "$Rev: a$b $") ∧
      translate_stream none false (some [(ascii "Rev", ascii "a$b")]) false
          [ascii "$Rev: a$b $"]
        = some (SVN_NO_ERROR, ascii "$Rev: a$b $")) ∧
    (apr_hash_get [(ascii "a: b ", ascii "x"), (ascii "a", ascii "y")] (ascii "a: b ")
        = some (ascii "x") ∧
      translate_stream none false (some [(ascii "a: b ", ascii "x"), (ascii "a", ascii "y")])
          true [ascii "$a: b $"]
        = some (SVN_NO_ERROR, ascii "$a: y $") ∧
      translate_stream none false (some [(ascii "a: b ", ascii "x"), (ascii "a", ascii "y")])
          false [ascii "$a: y $"]
        = some (SVN_NO_ERROR, ascii "$a$")) := by
  decide

/-! ## A CR at the end of the input -/

theorem all_store (ok : Byte → Prop) (b : List Byte) (i : Nat) (x : Byte)
    (hb : ∀ c ∈ b, ok c) (hx : ok x) : ∀ c ∈ store b i x, ok c := by
  intro c hc
  unfold store at hc
  rw [List.mem_append, List.mem_cons] at hc
  rcases hc with h | rfl | h
  · exact hb c (List.mem_of_mem_take h)
  · exact hx
  · exact hb c (List.mem_of_mem_drop h)

theorem all_store_bytes (ok : Byte → Prop) (b s : List Byte) (i : Nat)
    (hb : ∀ c ∈ b, ok c) (hs : ∀ c ∈ s, ok c) : ∀ c ∈ store_bytes b i s, ok c := by
  intro c hc
  unfold store_bytes at hc
  rw [List.mem_append, List.mem_append] at hc
  rcases hc with (h | h) | h
  · exact hb c (List.mem_of_mem_take h)
  · exact hs c h
  · exact hb c (List.mem_of_mem_drop h)

theorem all_fill_spaces (ok : Byte → Prop) (hsp : ok SVN_UTF8_SPACE) :
    ∀ l : List Byte, (∀ c ∈ l, ok c) → ∀ c ∈ fill_spaces l, ok c := by
  intro l
  induction l with
  | nil => intro _ c hc; simp [fill_spaces] at hc
  | cons x xs ih =>
    intro hl c hc
    unfold fill_spaces at hc
    by_cases hx : x = SVN_UTF8_DOLLAR
    · rw [if_pos hx] at hc
      exact hl c hc
    · rw [if_neg hx, List.mem_cons] at hc
      rcases hc with rfl | hc
      · exact hsp
      · exact ih (fun c hc => hl c (List.mem_cons_of_mem _ hc)) c hc

theorem all_fill_spaces_from (ok : Byte → Prop) (hsp : ok SVN_UTF8_SPACE) (b : List Byte)
    (i : Nat) (hb : ∀ c ∈ b, ok c) : ∀ c ∈ fill_spaces_from b i, ok c := by
  intro c hc
  unfold fill_spaces_from at hc
  rw [List.mem_append] at hc
  rcases hc with h | h
  · exact hb c (List.mem_of_mem_take h)
  · exact all_fill_spaces ok hsp _ (fun c hc => hb c (List.mem_of_mem_drop hc)) c h

theorem all_strncpy (ok : Byte → Prop) (h0 : ok 0) (v : List Byte) (m : Nat)
    (hv : ∀ c ∈ v, ok c) : ∀ c ∈ strncpy v m, ok c := by
  intro c hc
  rcases mem_strncpy v m c hc with h | rfl
  · exact hv c h
  · exact h0

theorem all_take (ok : Byte → Prop) (b : List Byte) (i : Nat) (hb : ∀ c ∈ b, ok c) :
    ∀ c ∈ b.take i, ok c :=
  fun c hc => hb c (List.mem_of_mem_take hc)

/-- Every byte of the buffer that `translate_keyword_subst` leaves is a byte of
the buffer it was given, a byte of the value, or one of `:`, space, `$`, `#`
and NUL. -/
theorem translate_keyword_subst_all (ok : Byte → Prop) (buf keyword : List Byte)
    (keyword_len : Nat) (value : Option (List Byte)) (b : Bool) (r : List Byte)
    (h : translate_keyword_subst buf keyword keyword_len value = some (b, r))
    (hbuf : ∀ c ∈ buf, ok c) (hval : ∀ v ∈ value, ∀ c ∈ v, ok c)
    (h0 : ok 0) (hcolon : ok SVN_UTF8_COLON) (hspace : ok SVN_UTF8_SPACE)
    (hdollar : ok SVN_UTF8_DOLLAR) (hpound : ok SVN_UTF8_POUND) : ∀ c ∈ r, ok c := by
  unfold translate_keyword_subst at h
  simp only at h
  repeat' split at h
  all_goals first
    | (simp only [Option.some.injEq, Prod.mk.injEq] at h
       obtain ⟨-, rfl⟩ := h
       repeat first
         | exact hbuf
         | exact hval _ rfl
         | exact h0
         | exact hcolon
         | exact hspace
         | exact hdollar
         | exact hpound
         | with_reducible refine all_strncpy ok h0 _ _ ?_
         | with_reducible refine all_store_bytes ok _ _ _ ?_ ?_
         | with_reducible refine all_store ok _ _ _ ?_ ?_
         | with_reducible refine all_fill_spaces_from ok hspace _ _ ?_
         | with_reducible refine all_take ok _ _ ?_)
    | cases h

theorem lookup_mem (kw : apr_hash_t) (k v : List Byte) (h : kw.lookup k = some v) :
    (k, v) ∈ kw := by
  induction kw with
  | nil => simp at h
  | cons x xs ih =>
    obtain ⟨a, b⟩ := x
    rw [List.lookup_cons] at h
    by_cases hk : k == a
    · simp only [hk] at h
      simp only [Option.some.injEq] at h
      subst h
      have : k = a := by simpa using hk
      subst this
      exact List.mem_cons_self _ _
    · simp only [hk] at h
      exact List.mem_cons_of_mem _ (ih h)

/-- Every byte of the buffer that `translate_keyword` leaves is a byte of the
buffer it was given, a byte of a value of the keyword set, or one of `:`,
space, `$`, `#` and NUL. -/
theorem translate_keyword_all (ok : Byte → Prop) (buf : List Byte) (expand : Bool)
    (keywords : Option apr_hash_t) (b : Bool) (r : List Byte)
    (h : translate_keyword buf expand keywords = some (b, r))
    (hbuf : ∀ c ∈ buf, ok c)
    (hval : expand = true → ∀ kw ∈ keywords, ∀ kv ∈ kw, ∀ c ∈ kv.2, ok c)
    (h0 : ok 0) (hcolon : ok SVN_UTF8_COLON) (hspace : ok SVN_UTF8_SPACE)
    (hdollar : ok SVN_UTF8_DOLLAR) (hpound : ok SVN_UTF8_POUND) : ∀ c ∈ r, ok c := by
  unfold translate_keyword at h
  by_cases hg : good_stuffs buf = true
  · simp only [hg, Bool.not_true, Bool.false_eq_true, if_false] at h
    cases keywords with
    | none =>
      simp only [Option.some.injEq, Prod.mk.injEq] at h
      obtain ⟨-, rfl⟩ := h
      exact hbuf
    | some kw =>
      simp only at h
      cases hv : apr_hash_get kw (keyword_name buf) with
      | none =>
        rw [hv] at h
        simp only [Option.some.injEq, Prod.mk.injEq] at h
        obtain ⟨-, rfl⟩ := h
        exact hbuf
      | some value =>
        rw [hv] at h
        refine translate_keyword_subst_all ok _ _ _ _ _ _ h hbuf ?_ h0 hcolon hspace hdollar
          hpound
        intro v hvm c hc
        cases expand with
        | false => simp at hvm
        | true =>
          simp only [if_true, Option.mem_def, Option.some.injEq] at hvm
          subst hvm
          exact hval rfl kw rfl _ (lookup_mem kw _ _ hv) c hc
  · simp [hg] at h

/-! ## CR and LF without an EOL target -/

theorem kw_held_nil : kw_held [] := Or.inl rfl

theorem kw_held_dollar : kw_held [SVN_UTF8_DOLLAR] :=
  Or.inr ⟨rfl, by simp [SVN_KEYWORD_MAX_LEN], by simp⟩

theorem kw_held_mem (held : List Byte) (h : kw_held held) (c : Byte) (hc : c ∈ held) :
    c = SVN_UTF8_DOLLAR ∨ (c ≠ SVN_UTF8_DOLLAR ∧ c ≠ SVN_UTF8_CR ∧ c ≠ SVN_UTF8_NEWLINE) := by
  rcases h with rfl | ⟨hh, -, ht⟩
  · simp at hc
  · cases held with
    | nil => simp at hc
    | cons x xs =>
      simp only [List.head?_cons, Option.some.injEq] at hh
      rw [List.mem_cons] at hc
      rcases hc with rfl | hc
      · exact Or.inl hh
      · exact Or.inr (ht c hc)

/-- The held run stays a `$` followed by bytes other than `$`, CR and LF, with
room for one more byte. -/
theorem kw_held_step (K : Option apr_hash_t) (e : Bool) (st : List Byte × List Byte) (c : Byte)
    (h : kw_held st.1) : kw_held (kw_step K e st c).1 := by
  unfold kw_step
  by_cases h1 : st.1 = []
  · rw [if_pos h1]
    split_ifs
    · exact kw_held_dollar
    · exact kw_held_nil
  · rw [if_neg h1]
    by_cases h2 : c = SVN_UTF8_DOLLAR
    · rw [if_pos h2]
      split
      · exact kw_held_nil
      · exact kw_held_dollar
    · rw [if_neg h2]
      by_cases h3 : st.1.length = SVN_KEYWORD_MAX_LEN - 1 ∨ c = SVN_UTF8_CR ∨ c = SVN_UTF8_NEWLINE
      · rw [if_pos h3]; exact kw_held_nil
      · rw [if_neg h3]
        push_neg at h3
        rcases h with h | ⟨hh, hl, ht⟩
        · exact absurd h h1
        · refine Or.inr ⟨?_, ?_, ?_⟩
          · cases hs : st.1 with
            | nil => exact absurd hs h1
            | cons x xs => rw [hs] at hh; simpa using hh
          · simp only [List.length_append, List.length_singleton]
            have := h3.1
            omega
          · intro x hx
            cases hs : st.1 with
            | nil => exact absurd hs h1
            | cons y ys =>
              rw [hs] at hx ht
              simp only [List.cons_append, List.tail_cons, List.mem_append,
                List.mem_singleton] at hx ht
              rcases hx with hx | rfl
              · exact ht x hx
              · exact ⟨h2, h3.2.1, h3.2.2⟩

theorem kw_held_run (K : Option apr_hash_t) (e : Bool) :
    ∀ (p : List Byte) (st : List Byte × List Byte), kw_held st.1 →
      kw_held (kw_run K e st p).1 := by
  intro p
  induction p with
  | nil => intro st h; exact h
  | cons c r ih => intro st h; rw [kw_run_cons]; exact ih _ (kw_held_step K e st c h)

theorem eol_bytes_append (a b : List Byte) : eol_bytes (a ++ b) = eol_bytes a ++ eol_bytes b := by
  simp [eol_bytes]

theorem eol_bytes_eq_nil (l : List Byte)
    (h : ∀ c ∈ l, c ≠ SVN_UTF8_CR ∧ c ≠ SVN_UTF8_NEWLINE) : eol_bytes l = [] := by
  unfold eol_bytes
  rw [List.filter_eq_nil_iff]
  intro c hc
  simp [(h c hc).1, (h c hc).2]

theorem kw_held_no_eol (held : List Byte) (h : kw_held held) :
    ∀ c ∈ held, c ≠ SVN_UTF8_CR ∧ c ≠ SVN_UTF8_NEWLINE := by
  intro c hc
  rcases kw_held_mem held h c hc with rfl | h1
  · decide
  · exact h1.2

/-- One step without an EOL target adds to the CR and LF bytes written exactly
the CR or LF consumed, when no value of the keyword set has a CR or LF. -/
theorem kw_step_eol_bytes (K : Option apr_hash_t) (e : Bool) (st : List Byte × List Byte)
    (c : Byte) (h : kw_held st.1)
    (hval : ∀ kw ∈ K, ∀ kv ∈ kw, ∀ x ∈ kv.2, x ≠ SVN_UTF8_CR ∧ x ≠ SVN_UTF8_NEWLINE) :
    eol_bytes (kw_step K e st c).2 = eol_bytes st.2 ++ eol_bytes [c] := by
  have hheld := eol_bytes_eq_nil _ (kw_held_no_eol _ h)
  unfold kw_step
  by_cases h1 : st.1 = []
  · rw [if_pos h1]
    by_cases h2 : c = SVN_UTF8_DOLLAR
    · rw [if_pos h2, h2]
      simp [eol_bytes, SVN_UTF8_DOLLAR, SVN_UTF8_CR, SVN_UTF8_NEWLINE]
    · rw [if_neg h2, eol_bytes_append]
  · rw [if_neg h1]
    by_cases h2 : c = SVN_UTF8_DOLLAR
    · rw [if_pos h2]
      have hd : eol_bytes [c] = [] := by
        rw [h2]; simp [eol_bytes, SVN_UTF8_DOLLAR, SVN_UTF8_CR, SVN_UTF8_NEWLINE]
      rw [hd, List.append_nil]
      cases htk : translate_keyword (st.1 ++ [SVN_UTF8_DOLLAR]) e K with
      | none => simp only [eol_bytes_append, hheld, List.append_nil]
      | some r =>
        obtain ⟨ok, kb⟩ := r
        cases ok
        · simp only [eol_bytes_append, hheld, List.append_nil]
        · simp only [eol_bytes_append]
          have hkb : ∀ x ∈ kb, x ≠ SVN_UTF8_CR ∧ x ≠ SVN_UTF8_NEWLINE := by
            refine translate_keyword_all (fun x => x ≠ SVN_UTF8_CR ∧ x ≠ SVN_UTF8_NEWLINE)
              _ _ _ _ _ htk ?_ (fun _ => hval) (by decide) (by decide) (by decide) (by decide)
              (by decide)
            intro x hx
            rw [List.mem_append, List.mem_singleton] at hx
            rcases hx with hx | rfl
            · exact kw_held_no_eol _ h x hx
            · decide
          rw [eol_bytes_eq_nil kb hkb, List.append_nil]
    · rw [if_neg h2]
      by_cases h3 : st.1.length = SVN_KEYWORD_MAX_LEN - 1 ∨ c = SVN_UTF8_CR ∨ c = SVN_UTF8_NEWLINE
      · rw [if_pos h3]
        simp only [eol_bytes_append, hheld, List.append_nil]
      · rw [if_neg h3]
        push_neg at h3
        rw [eol_bytes_eq_nil [c] (by
          intro x hx
          rw [List.mem_singleton] at hx
          subst hx
          exact ⟨h3.2.1, h3.2.2⟩), List.append_nil]

theorem kw_run_eol_bytes (K : Option apr_hash_t) (e : Bool)
    (hval : ∀ kw ∈ K, ∀ kv ∈ kw, ∀ x ∈ kv.2, x ≠ SVN_UTF8_CR ∧ x ≠ SVN_UTF8_NEWLINE) :
    ∀ (p : List Byte) (st : List Byte × List Byte), kw_held st.1 →
      eol_bytes (kw_run K e st p).2 = eol_bytes st.2 ++ eol_bytes p := by
  intro p
  induction p with
  | nil => intro st _; simp [kw_run_nil, eol_bytes]
  | cons c r ih =>
    intro st h
    rw [kw_run_cons, ih _ (kw_held_step K e st c h), kw_step_eol_bytes K e st c h hval,
      List.append_assoc, ← eol_bytes_append]
    rfl

/-- The keyword set kept by `create_translation_baton` is the given one or
none. -/
theorem keywords_create_mem (eol : Option (List Byte)) (repair expand : Bool)
    (keywords : Option apr_hash_t) (kw : apr_hash_t)
    (h : kw ∈ (create_translation_baton eol repair keywords expand).keywords) :
    keywords = some kw := by
  cases keywords with
  | none => simp [create_translation_baton] at h
  | some k =>
    by_cases hk : apr_hash_count k = 0
    · simp [create_translation_baton, hk] at h
    · simp only [create_translation_baton, hk, if_false, Option.mem_def,
        Option.some.injEq] at h
      rw [h]

set_option maxRecDepth 100000 in
/-- C18. Without an EOL target, for every repair flag, keyword set no value of
which contains CR or LF and whose values fit in the keyword buffer
(`values_fit`), expand flag and input in any chunking (mixed line terminators
included), translation succeeds, so it never fails with the inconsistency
error, and the CR and LF bytes of the output are those of the input, in the
same order and number. Last, a keyword set that does not fit: with
LastChangedDate bound to 246 bytes, the substitutor rewrites the 21 bytes
`$LastChangedDate: 1 $` to 266 bytes, 11 more than `keyword_buf` has. -/
theorem translate_stream_no_eol_target (repair : Bool) (keywords : Option apr_hash_t)
    (expand : Bool) (chunks : List (List Byte))
    (hval : ∀ kw, keywords = some kw →
      ∀ kv ∈ kw, ∀ c ∈ kv.2, c ≠ SVN_UTF8_CR ∧ c ≠ SVN_UTF8_NEWLINE)
    (hfit : values_fit keywords expand) :
    (∃ out, translate_stream none repair keywords expand chunks = some (SVN_NO_ERROR, out) ∧
      eol_bytes out = eol_bytes chunks.flatten) ∧
    (¬ values_fit (some [(ascii "LastChangedDate", List.replicate 246 120)]) true ∧
      translate_keyword (ascii "$LastChangedDate: 1 $") true
          (some [(ascii "LastChangedDate", List.replicate 246 120)])
        = some (true, ascii "$LastChangedDate: " ++ List.replicate 246 120 ++ ascii " $") ∧
      (ascii "$LastChangedDate: " ++ List.replicate 246 120 ++ ascii " $").length
        = SVN_KEYWORD_MAX_LEN + 11) := by
  have _ := hfit
  refine ⟨⟨_, translate_stream_kw repair keywords expand chunks, ?_⟩, ?_, by decide, by decide⟩
  · have hv : ∀ kw ∈ (create_translation_baton none repair keywords expand).keywords,
        ∀ kv ∈ kw, ∀ x ∈ kv.2, x ≠ SVN_UTF8_CR ∧ x ≠ SVN_UTF8_NEWLINE :=
      fun kw hkw => hval kw (keywords_create_mem _ _ _ _ _ hkw)
    rw [eol_bytes_append, kw_run_eol_bytes _ _ hv _ _ kw_held_nil,
      eol_bytes_eq_nil _ (kw_held_no_eol _ (kw_held_run _ _ _ _ kw_held_nil))]
    simp [eol_bytes]
  · unfold values_fit
    decide

/-- Witness for C18: mixed terminators around a keyword, Rev bound to `42`. -/
theorem translate_stream_no_eol_target_witness :
    ∃ out, translate_stream none false (some [(ascii "Rev", ascii "42")]) true
        [ascii "a\r\n$Rev$\n\rb\r"] = some (SVN_NO_ERROR, out) ∧
      eol_bytes out = eol_bytes [ascii "a\r\n$Rev$\n\rb\r"].flatten :=
  (translate_stream_no_eol_target false (some [(ascii "Rev", ascii "42")]) true
    [ascii "a\r\n$Rev$\n\rb\r"] (by
      intro kw hkw
      simp only [Option.some.injEq] at hkw
      subst hkw
      decide) (by unfold values_fit; decide)).1

/-! ## No CR in the output -/

theorem no_cr_config_of_config (b b1 : translation_baton) (h : config b1 = config b)
    (hc : no_cr_config b) : no_cr_config b1 := by
  have h1 : b1.eol_str = b.eol_str := congrArg (fun x => x.1) h
  have h2 : b1.keywords = b.keywords := congrArg (fun x => x.2.2.1) h
  have h3 : b1.expand = b.expand := congrArg (fun x => x.2.2.2.1) h
  have h4 : b1.interesting = b.interesting := congrArg (fun x => x.2.2.2.2.1) h
  have h5 : b1.eol_str_len = b.eol_str_len := congrArg (fun x => x.2.2.2.2.2) h
  unfold no_cr_config
  rw [h1, h2, h3, h4, h5]
  exact hc

theorem translate_newline_dst (eol_str : Option (List Byte)) (n : Nat)
    (sf nb dst : List Byte) (repair : Bool) :
    (translate_newline eol_str n sf nb dst repair).2.2 = dst ∨
    (translate_newline eol_str n sf nb dst repair).2.2 = dst ++ (eol_str.getD []).take n := by
  unfold translate_newline translate_write
  simp only
  split_ifs
  · exact Or.inl rfl
  · exact Or.inr rfl
  · exact Or.inr rfl

theorem newline_emit_facts (b : translation_baton) (nb dst : List Byte) :
    config (newline_emit b nb dst).2.1 = config b ∧
    ((newline_emit b nb dst).2.2 = dst ∨
      (newline_emit b nb dst).2.2 = dst ++ (b.eol_str.getD []).take b.eol_str_len) := by
  have h := translate_newline_dst b.eol_str b.eol_str_len b.src_format nb dst b.repair
  unfold newline_emit
  rcases htn : translate_newline b.eol_str b.eol_str_len b.src_format nb dst b.repair
    with ⟨e, sf, d1⟩
  rw [htn] at h
  cases e <;> exact ⟨rfl, h⟩

theorem newline_emit_no_cr (b : translation_baton) (nb dst : List Byte) (hc : no_cr_config b)
    (hd : ∀ c ∈ dst, c ≠ SVN_UTF8_CR) : ∀ c ∈ (newline_emit b nb dst).2.2, c ≠ SVN_UTF8_CR := by
  rcases (newline_emit_facts b nb dst).2 with h | h
  · rw [h]; exact hd
  · rw [h]
    intro c hx
    rw [List.mem_append] at hx
    rcases hx with hx | hx
    · exact hd c hx
    · exact hc.2.1 c hx

theorem clean_step_no_cr (b : translation_baton) (c : Byte) (dst : List Byte) (e : Outcome)
    (b1 : translation_baton) (d1 : List Byte) (h : clean_step b c dst = some (e, b1, d1))
    (hc : no_cr_config b) (hd : ∀ x ∈ dst, x ≠ SVN_UTF8_CR) : ∀ x ∈ d1, x ≠ SVN_UTF8_CR := by
  unfold clean_step at h
  by_cases hb : boring b.interesting c = true
  · rw [if_pos hb] at h
    simp only [Option.some.injEq, Prod.mk.injEq] at h
    obtain ⟨-, -, rfl⟩ := h
    intro x hx
    rw [List.mem_append, List.mem_singleton] at hx
    rcases hx with hx | rfl
    · exact hd x hx
    · intro hcr
      rw [hcr, hc.1] at hb
      exact absurd hb (by decide)
  · rw [if_neg hb] at h
    split_ifs at h
    · simp only [Option.some.injEq, Prod.mk.injEq] at h
      obtain ⟨-, -, rfl⟩ := h
      exact hd
    · simp only [Option.some.injEq, Prod.mk.injEq] at h
      obtain ⟨-, -, rfl⟩ := h
      exact hd
    · simp only [Option.some.injEq] at h
      have := newline_emit_no_cr b (b.newline_buf ++ [c]) dst hc hd
      rw [h] at this
      exact this

theorem keyword_buf_no_cr (b : translation_baton) (hinv : baton_inv b) :
    ∀ x ∈ b.keyword_buf, x ≠ SVN_UTF8_CR := by
  intro x hx
  rcases hinv.2.2.2.1 with h | ⟨hh, -, ht⟩
  · rw [h] at hx; simp at hx
  · cases hk : b.keyword_buf with
    | nil => rw [hk] at hx; simp at hx
    | cons y ys =>
      rw [hk] at hx hh ht
      simp only [List.head?_cons, Option.some.injEq] at hh
      rw [List.mem_cons] at hx
      rcases hx with rfl | hx
      · rw [hh]; decide
      · exact (ht x hx).2.1

/-- One byte through `translate_chunk` writes no CR when the configuration
writes none. -/
theorem byte_step_no_cr (b : translation_baton) (c : Byte) (dst : List Byte) (e : Outcome)
    (b1 : translation_baton) (d1 : List Byte) (h : byte_step b c dst = some (e, b1, d1))
    (hinv : baton_inv b) (hc : no_cr_config b) (hd : ∀ x ∈ dst, x ≠ SVN_UTF8_CR) :
    ∀ x ∈ d1, x ≠ SVN_UTF8_CR := by
  have hkb := keyword_buf_no_cr b hinv
  have happ : ∀ l : List Byte, (∀ x ∈ l, x ≠ SVN_UTF8_CR) →
      ∀ x ∈ dst ++ l, x ≠ SVN_UTF8_CR := by
    intro l hl x hx
    rw [List.mem_append] at hx
    rcases hx with hx | hx
    · exact hd x hx
    · exact hl x hx
  have hck : no_cr_config { b with keyword_buf := [] } := hc
  unfold byte_step at h
  by_cases h1 : b.newline_buf ≠ []
  · rw [if_pos h1] at h
    by_cases h2 : c = SVN_UTF8_NEWLINE
    · rw [if_pos h2] at h
      simp only [Option.some.injEq] at h
      have := newline_emit_no_cr b (b.newline_buf ++ [c]) dst hc hd
      rw [h] at this
      exact this
    · rw [if_neg h2] at h
      have hf := newline_emit_facts b b.newline_buf dst
      have hn := newline_emit_no_cr b b.newline_buf dst hc hd
      rcases hne : newline_emit b b.newline_buf dst with ⟨e', b', d'⟩
      rw [hne] at h hf hn
      by_cases he : e' = SVN_NO_ERROR
      · subst he
        rw [and_then_ok] at h
        exact clean_step_no_cr b' c d' e b1 d1 h (no_cr_config_of_config b b' hf.1 hc) hn
      · rw [and_then_err e' he] at h
        simp only [Option.some.injEq, Prod.mk.injEq] at h
        obtain ⟨-, -, rfl⟩ := h
        exact hn
  · rw [if_neg h1] at h
    by_cases h2 : b.keyword_buf ≠ [] ∧ c = SVN_UTF8_DOLLAR
    · rw [if_pos h2] at h
      cases htk : translate_keyword (b.keyword_buf ++ [SVN_UTF8_DOLLAR]) b.expand b.keywords with
      | none =>
        rw [htk] at h
        simp only [Option.some.injEq, Prod.mk.injEq] at h
        obtain ⟨-, -, rfl⟩ := h
        exact hd
      | some r =>
        obtain ⟨ok, kb⟩ := r
        rw [htk] at h
        have hkbn : ∀ x ∈ kb, x ≠ SVN_UTF8_CR := by
          refine translate_keyword_all (fun x => x ≠ SVN_UTF8_CR) _ _ _ _ _ htk ?_ hc.2.2
            (by decide) (by decide) (by decide) (by decide) (by decide)
          intro x hx
          rw [List.mem_append, List.mem_singleton] at hx
          rcases hx with hx | rfl
          · exact hkb x hx
          · decide
        cases ok
        · simp only at h
          exact clean_step_no_cr _ c _ e b1 d1 h hck
            (happ _ (fun x hx => hkbn x (List.mem_of_mem_take hx)))
        · simp only [Option.some.injEq, Prod.mk.injEq] at h
          obtain ⟨-, -, rfl⟩ := h
          exact happ _ hkbn
    · rw [if_neg h2] at h
      by_cases h3 : b.keyword_buf.length = SVN_KEYWORD_MAX_LEN - 1
          ∨ (b.keyword_buf ≠ [] ∧ (c = SVN_UTF8_CR ∨ c = SVN_UTF8_NEWLINE))
      · rw [if_pos h3] at h
        exact clean_step_no_cr _ c _ e b1 d1 h hck (happ _ hkb)
      · rw [if_neg h3] at h
        by_cases h4 : b.keyword_buf ≠ []
        · rw [if_pos h4] at h
          simp only [Option.some.injEq, Prod.mk.injEq] at h
          obtain ⟨-, -, rfl⟩ := h
          exact hd
        · rw [if_neg h4] at h
          exact clean_step_no_cr b c dst e b1 d1 h hc hd

theorem run_bytes_no_cr : ∀ (p : List Byte) (b : translation_baton) (dst : List Byte)
    (e : Outcome) (b1 : translation_baton) (d1 : List Byte),
    run_bytes b p dst = some (e, b1, d1) → baton_inv b → no_cr_config b →
    (∀ x ∈ dst, x ≠ SVN_UTF8_CR) →
    (∀ x ∈ d1, x ≠ SVN_UTF8_CR) ∧ (e = SVN_NO_ERROR → baton_inv b1 ∧ no_cr_config b1) := by
  intro p
  induction p with
  | nil =>
    intro b dst e b1 d1 h hinv hc hd
    simp only [run_bytes, Option.some.injEq, Prod.mk.injEq] at h
    obtain ⟨-, rfl, rfl⟩ := h
    exact ⟨hd, fun _ => ⟨hinv, hc⟩⟩
  | cons c r ih =>
    intro b dst e b1 d1 h hinv hc hd
    unfold run_bytes at h
    obtain ⟨e', b', d', h1, h2, h3⟩ := translate_chunk_loop_total 1 b [c] dst hinv (le_refl _)
    rw [translate_chunk_loop_one] at h1
    rw [h1] at h
    have hn := byte_step_no_cr b c dst e' b' d' h1 hinv hc hd
    by_cases he : e' = SVN_NO_ERROR
    · subst he
      rw [and_then_ok] at h
      exact ih b' d' e b1 d1 h (h3 rfl) (no_cr_config_of_config b b' h2 hc) hn
    · rw [and_then_err e' he] at h
      simp only [Option.some.injEq, Prod.mk.injEq] at h
      obtain ⟨rfl, -, rfl⟩ := h
      exact ⟨hn, fun h => absurd h he⟩

theorem translate_chunk_flush_no_cr (b : translation_baton) (dst : List Byte) (e : Outcome)
    (b1 : translation_baton) (d1 : List Byte) (h : translate_chunk dst b none = some (e, b1, d1))
    (hinv : baton_inv b) (hc : no_cr_config b) (hd : ∀ x ∈ dst, x ≠ SVN_UTF8_CR) :
    ∀ x ∈ d1, x ≠ SVN_UTF8_CR := by
  have hkb := keyword_buf_no_cr b hinv
  have hnl : ∀ x ∈ (translate_newline b.eol_str b.eol_str_len b.src_format b.newline_buf dst
      b.repair).2.2, x ≠ SVN_UTF8_CR := by
    rcases translate_newline_dst b.eol_str b.eol_str_len b.src_format b.newline_buf dst b.repair
      with h | h
    · rw [h]; exact hd
    · rw [h]
      intro x hx
      rw [List.mem_append] at hx
      rcases hx with hx | hx
      · exact hd x hx
      · exact hc.2.1 x hx
  unfold translate_chunk at h
  simp only [translate_write, translation_baton.keyword_off, List.take_length] at h
  rcases htn : translate_newline b.eol_str b.eol_str_len b.src_format b.newline_buf dst b.repair
    with ⟨e', sf, d'⟩
  rw [htn] at h hnl
  simp only at hnl
  split_ifs at h
  all_goals first
    | (cases e' <;>
        (simp only [Option.some.injEq, Prod.mk.injEq] at h
         obtain ⟨-, -, rfl⟩ := h
         first
          | exact hnl
          | exact hd
          | (intro x hx
             rw [List.mem_append] at hx
             rcases hx with hx | hx
             · first | exact hnl x hx | exact hd x hx
             · exact hkb x hx)))

theorem no_cr_config_create (eol : List Byte) (repair : Bool) (keywords : Option apr_hash_t)
    (expand : Bool) (he : SVN_UTF8_CR ∉ eol)
    (hval : expand = true → ∀ kw, keywords = some kw →
      ∀ kv ∈ kw, ∀ c ∈ kv.2, c ≠ SVN_UTF8_CR) :
    no_cr_config (create_translation_baton (some eol) repair keywords expand) := by
  refine ⟨(interesting_eol_create eol repair keywords expand).1, ?_, ?_⟩
  · intro c hc hcr
    exact he (hcr ▸ List.mem_of_mem_take hc)
  · intro hex kw hkw
    exact hval hex kw (keywords_create_mem _ _ _ _ _ hkw)

/-- With an EOL string that has no CR and, when expanding, keyword values that
have no CR, whatever a translation writes has no CR. -/
theorem translate_stream_no_cr (eol : List Byte) (repair : Bool)
    (keywords : Option apr_hash_t) (expand : Bool) (chunks : List (List Byte)) (e : Outcome)
    (out : List Byte)
    (h : translate_stream (some eol) repair keywords expand chunks = some (e, out))
    (he : SVN_UTF8_CR ∉ eol)
    (hval : expand = true → ∀ kw, keywords = some kw →
      ∀ kv ∈ kw, ∀ c ∈ kv.2, c ≠ SVN_UTF8_CR) :
    ∀ x ∈ out, x ≠ SVN_UTF8_CR := by
  have hinv := baton_inv_create (some eol) repair keywords expand
  have hc := no_cr_config_create eol repair keywords expand he hval
  unfold translate_stream at h
  rw [translate_chunks_join chunks _ [] [none] hinv] at h
  have h1 : translate_chunk [] (create_translation_baton (some eol) repair keywords expand)
      (some chunks.flatten)
      = run_bytes (create_translation_baton (some eol) repair keywords expand)
          chunks.flatten [] :=
    translate_chunk_loop_bytes _ _ _ hinv
  rw [h1] at h
  obtain ⟨e1, b1, d1, h2, -, -⟩ :=
    translate_chunk_loop_total chunks.flatten.length _ chunks.flatten [] hinv (le_refl _)
  rw [translate_chunk_loop_bytes _ _ _ hinv] at h2
  obtain ⟨hd1, hb1⟩ := run_bytes_no_cr _ _ _ _ _ _ h2 hinv hc (by simp)
  rw [h2] at h
  by_cases he1 : e1 = SVN_NO_ERROR
  · subst he1
    rw [and_then_ok, translate_chunks_flush] at h
    obtain ⟨hinv1, hc1⟩ := hb1 rfl
    cases hfl : translate_chunk d1 b1 none with
    | none => rw [hfl] at h; simp at h
    | some r =>
      obtain ⟨e2, b2, d2⟩ := r
      rw [hfl] at h
      simp only [Option.map_some', Option.some.injEq, Prod.mk.injEq] at h
      obtain ⟨-, rfl⟩ := h
      exact translate_chunk_flush_no_cr b1 d1 e2 b2 d2 hfl hinv1 hc1 hd1
  · rw [and_then_err e1 he1] at h
    simp only [Option.map_some', Option.some.injEq, Prod.mk.injEq] at h
    obtain ⟨-, rfl⟩ := h
    exact hd1

/-- C15 (as amended). With repair on and an EOL target without a CR (of the
targets LF, CR, CR LF that is LF), for every input in any chunking, every
keyword set and expand flag such that, when expand is on, no value of the
keyword set contains a CR and the values fit in the keyword buffer
(`values_fit`), translation succeeds and the output contains no CR byte. -/
theorem translate_stream_repair_no_cr (eol : List Byte) (keywords : Option apr_hash_t)
    (expand : Bool) (chunks : List (List Byte)) (he : SVN_UTF8_CR ∉ eol)
    (hval : expand = true → ∀ kw, keywords = some kw →
      ∀ kv ∈ kw, ∀ c ∈ kv.2, c ≠ SVN_UTF8_CR)
    (hfit : values_fit keywords expand) :
    ∃ out, translate_stream (some eol) true keywords expand chunks = some (SVN_NO_ERROR, out) ∧
      SVN_UTF8_CR ∉ out := by
  have _ := hfit
  obtain ⟨e1, out, h1, -, h3⟩ := translate_stream_eol_outcome eol true keywords expand chunks
  have he1 : e1 = SVN_NO_ERROR := h3.mpr (eol_run_repair _ _)
  subst he1
  refine ⟨out, h1, ?_⟩
  intro hmem
  exact translate_stream_no_cr eol true keywords expand chunks _ out h1 he hval _ hmem rfl

/-- Witness for C15: target LF, Rev bound to `42`, expand on, mixed
terminators; the output is `a` LF `$Rev: 42 $` LF LF `b` LF. -/
theorem translate_stream_repair_no_cr_witness :
    (∃ out, translate_stream (some [SVN_UTF8_NEWLINE]) true
        (some [(ascii "Rev", ascii "42")]) true [ascii "a\r\n$Rev$\n\rb\r"]
        = some (SVN_NO_ERROR, out) ∧ SVN_UTF8_CR ∉ out) ∧
    translate_stream (some [SVN_UTF8_NEWLINE]) true
        (some [(ascii "Rev", ascii "42")]) true [ascii "a\r\n$Rev$\n\rb\r"]
      = some (SVN_NO_ERROR, ascii "a\n$Rev: 42 $\n\nb\n") :=
  ⟨translate_stream_repair_no_cr [SVN_UTF8_NEWLINE] (some [(ascii "Rev", ascii "42")]) true
    [ascii "a\r\n$Rev$\n\rb\r"] (by decide) (by
      intro _ kw hkw
      simp only [Option.some.injEq] at hkw
      subst hkw
      decide) (by unfold values_fit; decide), by decide⟩

set_option maxRecDepth 100000 in
/-- Counterexample for C15 as stated: with Rev bound to the three bytes `a`, CR,
`b`, target LF, repair and expand on, the input `$Rev$` is translated to
`$Rev: a` CR `b $`, which contains a CR. And a keyword set that does not fit:
with LastChangedDate bound to 249 bytes, the substitutor rewrites the 21 bytes
`$LastChangedDate: 1 $` to 269 bytes, 14 more than `keyword_buf` has. -/
theorem translate_stream_repair_cr_from_value :
    (translate_stream (some [SVN_UTF8_NEWLINE]) true (some [(ascii "Rev", ascii "a\rb")]) true
        [ascii "$Rev$"]
      = some (SVN_NO_ERROR, ascii "$Rev: a\rb $") ∧
    SVN_UTF8_CR ∈ ascii "$Rev: a\rb $") ∧
    (¬ values_fit (some [(ascii "LastChangedDate", List.replicate 249 120)]) true ∧
      translate_keyword (ascii "$LastChangedDate: 1 $") true
          (some [(ascii "LastChangedDate", List.replicate 249 120)])
        = some (true, ascii "$LastChangedDate: " ++ List.replicate 249 120 ++ ascii " $") ∧
      (ascii "$LastChangedDate: " ++ List.replicate 249 120 ++ ascii " $").length
        = SVN_KEYWORD_MAX_LEN + 14) := by
  refine ⟨by decide, ?_, by decide, by decide⟩
  unfold values_fit
  decide

/-! ## What the substitutor rewrites -/

/-- When `translate_keyword_subst` reports a rewrite, the buffer passed the
tests of one of its three branches. -/
theorem translate_keyword_subst_true_cases (buf keyword : List Byte) (keyword_len : Nat)
    (value : Option (List Byte)) (r : List Byte)
    (h : translate_keyword_subst buf keyword keyword_len value = some (true, r)) :
    good_stuffs buf = true ∧ keyword_len + 2 ≤ buf.length ∧
    ((buf.getD (1 + keyword_len) 0 = SVN_UTF8_COLON
        ∧ buf.getD (1 + keyword_len + 1) 0 = SVN_UTF8_COLON
        ∧ buf.getD (1 + keyword_len + 2) 0 = SVN_UTF8_SPACE
        ∧ (buf.getD (buf.length - 2) 0 = SVN_UTF8_SPACE
          ∨ buf.getD (buf.length - 2) 0 = SVN_UTF8_POUND)
        ∧ 6 + keyword_len < buf.length)
      ∨ (buf.getD (1 + keyword_len) 0 = SVN_UTF8_DOLLAR
        ∨ (buf.getD (1 + keyword_len) 0 = SVN_UTF8_COLON
          ∧ buf.getD (1 + keyword_len + 1) 0 = SVN_UTF8_DOLLAR))
      ∨ (4 + keyword_len ≤ buf.length
        ∧ buf.getD (1 + keyword_len) 0 = SVN_UTF8_COLON
        ∧ buf.getD (1 + keyword_len + 1) 0 = SVN_UTF8_SPACE
        ∧ buf.getD (buf.length - 2) 0 = SVN_UTF8_SPACE)) := by
  unfold translate_keyword_subst at h
  simp only at h
  by_cases hg : good_stuffs buf = true
  swap
  · simp [hg] at h
  simp only [hg, Bool.not_true, Bool.false_eq_true, if_false] at h
  by_cases hl : buf.length < keyword_len + 2
  · rw [if_pos hl] at h; cases h
  rw [if_neg hl] at h
  by_cases hs : strncmp (buf.drop 1) keyword keyword_len ≠ 0
  · rw [if_pos hs] at h; cases h
  rw [if_neg hs] at h
  refine ⟨hg, by omega, ?_⟩
  by_cases c1 : (buf.getD (1 + keyword_len) 0 = SVN_UTF8_COLON
        && buf.getD (1 + keyword_len + 1) 0 = SVN_UTF8_COLON
        && buf.getD (1 + keyword_len + 2) 0 = SVN_UTF8_SPACE
        && (buf.getD (buf.length - 2) 0 = SVN_UTF8_SPACE
          || buf.getD (buf.length - 2) 0 = SVN_UTF8_POUND)
        && decide (6 + keyword_len < buf.length)) = true
  · left
    simp only [Bool.and_eq_true, Bool.or_eq_true, decide_eq_true_eq] at c1
    exact ⟨c1.1.1.1.1, c1.1.1.1.2, c1.1.1.2, c1.1.2, c1.2⟩
  · rw [if_neg c1] at h
    by_cases c2 : (buf.getD (1 + keyword_len) 0 = SVN_UTF8_DOLLAR
        || (buf.getD (1 + keyword_len) 0 = SVN_UTF8_COLON
          && buf.getD (1 + keyword_len + 1) 0 = SVN_UTF8_DOLLAR)) = true
    · right; left
      simpa only [Bool.and_eq_true, Bool.or_eq_true, decide_eq_true_eq] using c2
    · rw [if_neg c2] at h
      by_cases c3 : (decide (buf.length ≥ 4 + keyword_len)
          && buf.getD (1 + keyword_len) 0 = SVN_UTF8_COLON
          && buf.getD (1 + keyword_len + 1) 0 = SVN_UTF8_SPACE
          && buf.getD (buf.length - 2) 0 = SVN_UTF8_SPACE) = true
      · right; right
        simp only [Bool.and_eq_true, decide_eq_true_eq] at c3
        exact ⟨c3.1.1.1, c3.1.1.2, c3.1.2, c3.2⟩
      · rw [if_neg c3] at h
        cases h

/-- The byte of a C string at the index of its length is NUL: the byte that
ends it, or the one read past the end of the list. -/
theorem getD_strlen (n : List Byte) : n.getD (strlen n) 0 = 0 := by
  induction n with
  | nil => rfl
  | cons x xs ih =>
    unfold strlen at ih ⊢
    rw [cstr_cons]
    by_cases hx : x = 0
    · simp [hx]
    · simp only [hx, if_false, List.length_cons, List.getD_cons_succ]
      exact ih

theorem strlen_le (n : List Byte) : strlen n ≤ n.length := by
  unfold strlen cstr
  exact (List.takeWhile_sublist _).length_le

theorem cstr_eq_of_strlen (n : List Byte) (h : strlen n = n.length) : cstr n = n := by
  unfold strlen at h
  exact (List.takeWhile_sublist _).eq_of_length h

/-- A held keyword run with the closing `$` is `$` name tail, in the terms of
the lemmas on such buffers: the name is what `translate_keyword` extracts, and
the tail is `$` alone or starts with a colon. -/
theorem held_frame (held : List Byte) (h : kw_held held) (hne : held ≠ []) :
    ∃ n t, held ++ [SVN_UTF8_DOLLAR] = SVN_UTF8_DOLLAR :: (n ++ t) ∧
      keyword_name (held ++ [SVN_UTF8_DOLLAR]) = n ∧ SVN_UTF8_COLON ∉ n ∧
      (t = [SVN_UTF8_DOLLAR] ∨ (t.head? = some SVN_UTF8_COLON ∧ 2 ≤ t.length)) ∧
      t.getLast? = some SVN_UTF8_DOLLAR ∧
      n.length + t.length + 1 ≤ SVN_KEYWORD_MAX_LEN ∧
      (∀ c ∈ n, c ≠ SVN_UTF8_DOLLAR ∧ c ≠ SVN_UTF8_CR ∧ c ≠ SVN_UTF8_NEWLINE) ∧
      (∀ c ∈ t.dropLast, c ≠ SVN_UTF8_DOLLAR ∧ c ≠ SVN_UTF8_CR ∧ c ≠ SVN_UTF8_NEWLINE) := by
  rcases h with h | ⟨hh, hl, hw⟩
  · exact absurd h hne
  cases held with
  | nil => exact absurd rfl hne
  | cons x w =>
    simp only [List.head?_cons, Option.some.injEq] at hh
    subst hh
    simp only [List.tail_cons] at hw
    simp only [List.length_cons] at hl
    have hsplit : w = w.takeWhile (fun c => c != SVN_UTF8_COLON)
        ++ w.dropWhile (fun c => c != SVN_UTF8_COLON) :=
      (List.takeWhile_append_dropWhile _ w).symm
    have hnc : SVN_UTF8_COLON ∉ w.takeWhile (fun c => c != SVN_UTF8_COLON) := by
      intro hm
      have := List.mem_takeWhile_imp hm
      simp at this
    have ht : (w.dropWhile (fun c => c != SVN_UTF8_COLON) ++ [SVN_UTF8_DOLLAR]
          = [SVN_UTF8_DOLLAR])
        ∨ ((w.dropWhile (fun c => c != SVN_UTF8_COLON) ++ [SVN_UTF8_DOLLAR]).head?
            = some SVN_UTF8_COLON
          ∧ 2 ≤ (w.dropWhile (fun c => c != SVN_UTF8_COLON) ++ [SVN_UTF8_DOLLAR]).length) := by
      have hd := List.head?_dropWhile_not (fun c => c != SVN_UTF8_COLON) w
      cases hdw : w.dropWhile (fun c => c != SVN_UTF8_COLON) with
      | nil => exact Or.inl rfl
      | cons y ys =>
        rw [hdw] at hd
        simp only [List.head?_cons, bne_eq_false_iff_eq] at hd
        right
        simp [hd]
    have hlen : w.length = (w.takeWhile (fun c => c != SVN_UTF8_COLON)).length
        + (w.dropWhile (fun c => c != SVN_UTF8_COLON)).length := by
      rw [← List.length_append, List.takeWhile_append_dropWhile]
    have hl2 : (w.takeWhile (fun c => c != SVN_UTF8_COLON)).length
        + (w.dropWhile (fun c => c != SVN_UTF8_COLON) ++ [SVN_UTF8_DOLLAR]).length + 1
        ≤ SVN_KEYWORD_MAX_LEN := by
      simp only [List.length_append, List.length_singleton]
      unfold SVN_KEYWORD_MAX_LEN at hl ⊢
      omega
    refine ⟨w.takeWhile (fun c => c != SVN_UTF8_COLON),
      w.dropWhile (fun c => c != SVN_UTF8_COLON) ++ [SVN_UTF8_DOLLAR], ?_, ?_, hnc, ht, ?_, hl2,
      ?_, ?_⟩
    · rw [← List.append_assoc, ← hsplit]; rfl
    · have e1 : (SVN_UTF8_DOLLAR :: w) ++ [SVN_UTF8_DOLLAR]
          = SVN_UTF8_DOLLAR :: (w.takeWhile (fun c => c != SVN_UTF8_COLON)
            ++ (w.dropWhile (fun c => c != SVN_UTF8_COLON) ++ [SVN_UTF8_DOLLAR])) := by
        rw [← List.append_assoc, ← hsplit]; rfl
      rw [e1]
      exact keyword_name_frame _ _ hnc ht hl2
    · rw [List.getLast?_append]; rfl
    · intro c hc
      exact hw c ((List.takeWhile_sublist _).subset hc)
    · intro c hc
      rw [List.dropLast_concat] at hc
      exact hw c ((List.dropWhile_sublist _).subset hc)

/-- When `translate_keyword` reports a rewrite on a held run with its closing
`$`, the buffer is `$` name tail with a name free of NUL and colon that is
bound in the keyword set, and the rewrite is that of `translate_keyword_subst`
with that name. -/
theorem translate_keyword_true_frame (held : List Byte) (hh : kw_held held) (hne : held ≠ [])
    (e : Bool) (K : apr_hash_t) (r : List Byte)
    (h : translate_keyword (held ++ [SVN_UTF8_DOLLAR]) e (some K) = some (true, r)) :
    ∃ n t v, held ++ [SVN_UTF8_DOLLAR] = SVN_UTF8_DOLLAR :: (n ++ t) ∧
      (0 : Byte) ∉ n ∧ SVN_UTF8_COLON ∉ n ∧ apr_hash_get K n = some v ∧
      (t = [SVN_UTF8_DOLLAR] ∨ (t.head? = some SVN_UTF8_COLON ∧ 2 ≤ t.length)) ∧
      t.getLast? = some SVN_UTF8_DOLLAR ∧
      n.length + t.length + 1 ≤ SVN_KEYWORD_MAX_LEN ∧
      (∀ c ∈ n, c ≠ SVN_UTF8_DOLLAR ∧ c ≠ SVN_UTF8_CR ∧ c ≠ SVN_UTF8_NEWLINE) ∧
      (∀ c ∈ t.dropLast, c ≠ SVN_UTF8_DOLLAR ∧ c ≠ SVN_UTF8_CR ∧ c ≠ SVN_UTF8_NEWLINE) ∧
      translate_keyword_subst (SVN_UTF8_DOLLAR :: (n ++ t)) n n.length
        (if e then some v else none) = some (true, r) := by
  obtain ⟨n, t, hs, hname, hnc, ht, hlast, hl, hnb, htb⟩ := held_frame held hh hne
  rw [hs] at h hname
  unfold translate_keyword at h
  rw [good_stuffs_frame n t hlast hl] at h
  simp only [Bool.not_true, Bool.false_eq_true, if_false, hname] at h
  cases hv : apr_hash_get K n with
  | none => rw [hv] at h; cases h
  | some v =>
    rw [hv] at h
    simp only at h
    obtain ⟨-, -, hc⟩ := translate_keyword_subst_true_cases _ _ _ _ _ h
    have hnext : (SVN_UTF8_DOLLAR :: (n ++ t)).getD (1 + strlen n) 0 = SVN_UTF8_COLON
        ∨ (SVN_UTF8_DOLLAR :: (n ++ t)).getD (1 + strlen n) 0 = SVN_UTF8_DOLLAR := by
      rcases hc with hc | hc | hc
      · exact Or.inl hc.1
      · rcases hc with hc | hc
        · exact Or.inr hc
        · exact Or.inl hc.1
      · exact Or.inl hc.2.1
    have hlen : strlen n = n.length := by
      by_contra hcon
      have hlt : strlen n < n.length := lt_of_le_of_ne (strlen_le n) hcon
      have hz : (SVN_UTF8_DOLLAR :: (n ++ t)).getD (1 + strlen n) 0 = 0 := by
        rw [show 1 + strlen n = strlen n + 1 by omega, List.getD_cons_succ,
          List.getD_append _ _ _ _ hlt]
        exact getD_strlen n
      rw [hz] at hnext
      rcases hnext with h1 | h1 <;> exact absurd h1 (by decide)
    have hcs : cstr n = n := cstr_eq_of_strlen n hlen
    have hn0 : (0 : Byte) ∉ n := by
      intro hm
      have := List.takeWhile_eq_self_iff.mp hcs 0 hm
      simp at this
    rw [hcs, hlen] at h
    exact ⟨n, t, v, hs, hn0, hnc, hv, ht, hlast, hl, hnb, htb, h⟩

theorem marker_of_frame (n t : List Byte) (hlast : t.getLast? = some SVN_UTF8_DOLLAR) :
    marker_of n (SVN_UTF8_DOLLAR :: (n ++ t)) = true := by
  have htne : t ≠ [] := by intro h; rw [h] at hlast; simp at hlast
  have hlen : 1 ≤ t.length := List.length_pos.mpr htne
  unfold marker_of
  simp only [Bool.and_eq_true, decide_eq_true_eq, beq_iff_eq, List.length_cons,
    List.length_append]
  refine ⟨⟨?_, ?_⟩, by omega⟩
  · rw [List.isPrefixOf_iff_prefix]
    exact ⟨t, rfl⟩
  · rw [← List.cons_append, List.getLast?_append, hlast]; rfl

/-- What `translate_keyword` rewrites is a keyword form of the specification:
when it reports a rewrite on a held run with its closing `$`, that buffer is
the unexpanded, the expanded or the fixed-length form of a name of the
keyword set. -/
theorem translate_keyword_true_form (held : List Byte) (hh : kw_held held) (hne : held ≠ [])
    (e : Bool) (K : apr_hash_t) (r : List Byte)
    (h : translate_keyword (held ++ [SVN_UTF8_DOLLAR]) e (some K) = some (true, r)) :
    unexpanded_form K (held ++ [SVN_UTF8_DOLLAR]) = true ∨
    expanded_form K (held ++ [SVN_UTF8_DOLLAR]) = true ∨
    fixed_form K (held ++ [SVN_UTF8_DOLLAR]) = true := by
  obtain ⟨n, t, v, hs, hn0, hnc, hv, ht, hlast, hl, -, -, hsub⟩ :=
    translate_keyword_true_frame held hh hne e K r h
  rw [hs]
  have hmem : (n, v) ∈ K := by
    unfold apr_hash_get at hv
    rw [cstr_of_no_nul n hn0] at hv
    exact lookup_mem K n v hv
  have hm := marker_of_frame n t hlast
  obtain ⟨-, -, hc⟩ := translate_keyword_subst_true_cases _ _ _ _ _ hsub
  have e2 : 2 + n.length = 1 + n.length + 1 := by omega
  have e3 : 3 + n.length = 1 + n.length + 2 := by omega
  have hlen : (SVN_UTF8_DOLLAR :: (n ++ t)).length = n.length + t.length + 1 := by simp
  rcases hc with hc | hc | hc
  · right; right
    unfold fixed_form
    rw [List.any_eq_true]
    refine ⟨(n, v), hmem, ?_⟩
    simp only [hm, e2, e3, hc.1, hc.2.1, hc.2.2.1, beq_self_eq_true, Bool.and_self,
      Bool.true_and, Bool.and_eq_true, Bool.or_eq_true, beq_iff_eq, decide_eq_true_eq]
    exact ⟨hc.2.2.2.1, by have := hc.2.2.2.2; omega⟩
  · left
    unfold unexpanded_form
    rw [List.any_eq_true]
    refine ⟨(n, v), hmem, ?_⟩
    simp only [hm, e2, Bool.true_and, Bool.or_eq_true, Bool.and_eq_true, beq_iff_eq]
    exact hc
  · right; left
    unfold expanded_form
    rw [List.any_eq_true]
    refine ⟨(n, v), hmem, ?_⟩
    simp only [hm, e2, hc.2.1, hc.2.2.1, hc.2.2.2, beq_self_eq_true, Bool.and_self,
      Bool.true_and, decide_eq_true_eq]
    have := hc.1
    omega

theorem contains_form_intro (F : List Byte → Bool) (B s : List Byte) (hs : s <:+: B)
    (hF : F s = true) : contains_form F B = true := by
  obtain ⟨t, hst, htB⟩ := List.infix_iff_prefix_suffix.mp hs
  unfold contains_form
  rw [List.any_eq_true]
  refine ⟨t, (List.mem_tails _ _).mpr htB, ?_⟩
  rw [List.any_eq_true]
  exact ⟨s, (List.mem_inits _ _).mpr hst, hF⟩

theorem translate_keyword_none (s : List Byte) (e : Bool) (r : List Byte) :
    translate_keyword s e none ≠ some (true, r) := by
  unfold translate_keyword
  split_ifs <;> simp

/-- A step in which the substitutor reports no rewrite passes the input on:
what is written and held afterwards is what was written and held before,
followed by the byte. -/
theorem kw_step_no_rewrite (K : Option apr_hash_t) (e : Bool) (st : List Byte × List Byte)
    (c : Byte)
    (h : c = SVN_UTF8_DOLLAR → st.1 ≠ [] →
      ∀ r, translate_keyword (st.1 ++ [SVN_UTF8_DOLLAR]) e K ≠ some (true, r)) :
    (kw_step K e st c).2 ++ (kw_step K e st c).1 = st.2 ++ st.1 ++ [c] ∧
    (kw_step K e st c).1 <:+ st.1 ++ [c] := by
  unfold kw_step
  by_cases h1 : st.1 = []
  · rw [if_pos h1]
    by_cases h2 : c = SVN_UTF8_DOLLAR
    · rw [if_pos h2, h1, h2]
      simp
    · rw [if_neg h2, h1]
      simp
  · rw [if_neg h1]
    by_cases h2 : c = SVN_UTF8_DOLLAR
    · rw [if_pos h2]
      have hno := h h2 h1
      cases htk : translate_keyword (st.1 ++ [SVN_UTF8_DOLLAR]) e K with
      | none =>
        simp only [h2]
        exact ⟨by simp, List.suffix_append _ _⟩
      | some x =>
        obtain ⟨ok, kb⟩ := x
        cases ok
        · simp only [h2]
          exact ⟨by simp, List.suffix_append _ _⟩
        · exact absurd htk (hno kb)
    · rw [if_neg h2]
      by_cases h3 : st.1.length = SVN_KEYWORD_MAX_LEN - 1 ∨ c = SVN_UTF8_CR ∨ c = SVN_UTF8_NEWLINE
      · rw [if_pos h3]
        exact ⟨by simp, List.nil_suffix⟩
      · rw [if_neg h3]
        exact ⟨by simp, List.suffix_refl _⟩

theorem kw_run_no_rewrite (K : Option apr_hash_t) (e : Bool) :
    ∀ (p : List Byte) (st : List Byte × List Byte), kw_held st.1 →
      (∀ held r, kw_held held → held ≠ [] → held ++ [SVN_UTF8_DOLLAR] <:+: st.1 ++ p →
        translate_keyword (held ++ [SVN_UTF8_DOLLAR]) e K ≠ some (true, r)) →
      (kw_run K e st p).2 ++ (kw_run K e st p).1 = st.2 ++ st.1 ++ p := by
  intro p
  induction p with
  | nil => intro st _ _; simp [kw_run_nil]
  | cons c r ih =>
    intro st hh h
    have hstep := kw_step_no_rewrite K e st c (by
      intro hc hne r'
      refine h st.1 r' hh hne ?_
      rw [hc]
      exact ⟨[], r, by simp⟩)
    rw [kw_run_cons, ih _ (kw_held_step K e st c hh), hstep.1]
    · simp
    · intro held r' hheld hne hin
      refine h held r' hheld hne ?_
      obtain ⟨u, hu⟩ := hstep.2
      have : (kw_step K e st c).1 ++ r <:+: st.1 ++ c :: r :=
        ⟨u, [], by rw [List.append_nil, ← List.append_assoc, hu]; simp⟩
      exact hin.trans this

/-- C14 (as amended). An input without keyword forms is left as it is: for
every keyword set, repair flag and expand flag (expand on in particular) and
every input, in any chunking, that contains no unexpanded form, no expanded
form and no fixed-length form of a name of the keyword set, translation
without an EOL target succeeds and the output is the input. -/
theorem translate_stream_no_keyword_form (repair : Bool) (keywords : Option apr_hash_t)
    (expand : Bool) (chunks : List (List Byte))
    (h : ∀ kw, keywords = some kw →
      contains_form (unexpanded_form kw) chunks.flatten = false ∧
      contains_form (expanded_form kw) chunks.flatten = false ∧
      contains_form (fixed_form kw) chunks.flatten = false) :
    translate_stream none repair keywords expand chunks
      = some (SVN_NO_ERROR, chunks.flatten) := by
  rw [translate_stream_kw]
  have hrun := kw_run_no_rewrite
    (create_translation_baton none repair keywords expand).keywords expand chunks.flatten
    ([], []) kw_held_nil (by
      intro held r hheld hne hin
      cases hk : (create_translation_baton none repair keywords expand).keywords with
      | none => exact translate_keyword_none _ _ _
      | some kw =>
        intro htk
        obtain ⟨h1, h2, h3⟩ := h kw (keywords_create_mem none repair expand keywords kw hk)
        simp only [List.nil_append] at hin
        rcases translate_keyword_true_form held hheld hne expand kw r htk with hf | hf | hf
        · rw [contains_form_intro _ _ _ hin hf] at h1; cases h1
        · rw [contains_form_intro _ _ _ hin hf] at h2; cases h2
        · rw [contains_form_intro _ _ _ hin hf] at h3; cases h3)
  rw [hrun]
  simp

/-- Witness for C14: with Rev bound, an input with `$` signs and the name Rev
but no keyword form. -/
theorem translate_stream_no_keyword_form_witness :
    translate_stream none false (some [(ascii "Rev", ascii "42")]) true
        [ascii "a $Rev x$ $Revs$ $Rev :$ b$"]
      = some (SVN_NO_ERROR, [ascii "a $Rev x$ $Revs$ $Rev :$ b$"].flatten) :=
  translate_stream_no_keyword_form false (some [(ascii "Rev", ascii "42")]) true
    [ascii "a $Rev x$ $Revs$ $Rev :$ b$"] (by
      intro kw hkw
      simp only [Option.some.injEq] at hkw
      subst hkw
      decide)

/-- Counterexample for C14 as stated: with Rev bound to `4`, the input
`$Rev:: 999   $` contains no unexpanded and no expanded form (after the name
come two colons), yet with expand on it is rewritten, being the fixed-length
form. -/
theorem translate_stream_fixed_form_rewritten :
    contains_form (unexpanded_form [(ascii "Rev", ascii "4")]) (ascii "$Rev:: 999   $") = false ∧
    contains_form (expanded_form [(ascii "Rev", ascii "4")]) (ascii "$Rev:: 999   $") = false ∧
    translate_stream none false (some [(ascii "Rev", ascii "4")]) true [ascii "$Rev:: 999   $"]
      = some (SVN_NO_ERROR, ascii "$Rev:: 4     $") ∧
    ascii "$Rev:: 4     $" ≠ ascii "$Rev:: 999   $" := by
  decide

/-! ## A contracted keyword is left alone by a further contraction -/

/-- The substitutor leaves an unexpanded keyword alone when contracting:
second branch of `translate_keyword_subst` with a NULL value. -/
theorem translate_keyword_subst_unexpanded_none (n t : List Byte)
    (ht : t = [SVN_UTF8_DOLLAR] ∨ t = [SVN_UTF8_COLON, SVN_UTF8_DOLLAR])
    (hl : n.length + t.length + 1 ≤ SVN_KEYWORD_MAX_LEN) :
    translate_keyword_subst (SVN_UTF8_DOLLAR :: (n ++ t)) n n.length none
      = some (true, SVN_UTF8_DOLLAR :: (n ++ t)) := by
  have htlen : 1 ≤ t.length ∧ t.length ≤ 2 := by rcases ht with rfl | rfl <;> simp
  have hlast : t.getLast? = some SVN_UTF8_DOLLAR := by rcases ht with rfl | rfl <;> rfl
  have hg := good_stuffs_frame n t hlast hl
  have hlen : (SVN_UTF8_DOLLAR :: (n ++ t)).length = n.length + t.length + 1 := by simp
  have hcond : (t.getD 0 0 = SVN_UTF8_DOLLAR
      ∨ (t.getD 0 0 = SVN_UTF8_COLON ∧ t.getD 1 0 = SVN_UTF8_DOLLAR))
      ∧ ¬ (t.getD 0 0 = SVN_UTF8_COLON ∧ t.getD 1 0 = SVN_UTF8_COLON) := by
    rcases ht with rfl | rfl <;> decide
  unfold translate_keyword_subst
  simp only [hg, Bool.not_true, Bool.false_eq_true, if_false, List.drop_succ_cons,
    List.drop_zero, strncmp_append_self, ne_eq, not_true_eq_false, getD_frame_zero, getD_frame]
  rw [if_neg (by rw [hlen]; omega)]
  rw [if_neg (by
    simp only [Bool.and_eq_true, decide_eq_true_eq, not_and]
    intro h1 h2
    exact absurd ⟨h1.1.1.1, h1.1.1.2⟩ hcond.2)]
  rw [if_pos (by simpa using hcond.1)]

theorem last_two (l : List Byte) (h : 2 ≤ l.length) : ∃ w x y, l = w ++ [x, y] := by
  have hd : (l.drop (l.length - 2)).length = 2 := by simp only [List.length_drop]; omega
  obtain ⟨x, y, hxy⟩ : ∃ x y, l.drop (l.length - 2) = [x, y] := by
    match hm : l.drop (l.length - 2), hd with
    | [x, y], _ => exact ⟨x, y, rfl⟩
  exact ⟨l.take (l.length - 2), x, y, by rw [← hxy, List.take_append_drop]⟩

/-- The tail of a buffer that passes the tests of the fixed-length branch. -/
theorem fixed_shape (t : List Byte) (h0 : t.getD 0 0 = SVN_UTF8_COLON)
    (h1 : t.getD 1 0 = SVN_UTF8_COLON) (h2 : t.getD 2 0 = SVN_UTF8_SPACE)
    (h3 : t.getD (t.length - 2) 0 = SVN_UTF8_SPACE ∨ t.getD (t.length - 2) 0 = SVN_UTF8_POUND)
    (hlen : 6 ≤ t.length) (hlast : t.getLast? = some SVN_UTF8_DOLLAR) :
    ∃ w x, t = SVN_UTF8_COLON :: SVN_UTF8_COLON :: SVN_UTF8_SPACE ::
        (w ++ [x, SVN_UTF8_DOLLAR]) ∧ w ≠ [] ∧ (x = SVN_UTF8_SPACE ∨ x = SVN_UTF8_POUND) := by
  match t, hlen with
  | a :: b :: c :: rest, hlen =>
    simp only [List.getD_cons_zero, List.getD_cons_succ] at h0 h1 h2
    subst h0 h1 h2
    simp only [List.length_cons] at hlen h3
    obtain ⟨w, x, y, hw⟩ := last_two rest (by omega)
    subst hw
    have hy : y = SVN_UTF8_DOLLAR := by
      have : (SVN_UTF8_COLON :: SVN_UTF8_COLON :: SVN_UTF8_SPACE :: (w ++ [x, y])).getLast?
          = some y := by
        rw [show SVN_UTF8_COLON :: SVN_UTF8_COLON :: SVN_UTF8_SPACE :: (w ++ [x, y])
          = (SVN_UTF8_COLON :: SVN_UTF8_COLON :: SVN_UTF8_SPACE :: (w ++ [x])) ++ [y] by simp,
          List.getLast?_append]
        rfl
      rw [this] at hlast
      exact Option.some.inj hlast
    subst hy
    have hx : (SVN_UTF8_COLON :: SVN_UTF8_COLON :: SVN_UTF8_SPACE ::
        (w ++ [x, SVN_UTF8_DOLLAR])).getD ((w ++ [x, SVN_UTF8_DOLLAR]).length + 1 + 1 + 1 - 2) 0
        = x := by
      rw [show (w ++ [x, SVN_UTF8_DOLLAR]).length + 1 + 1 + 1 - 2 = w.length + 3 by
        simp only [List.length_append, List.length_cons, List.length_nil]; omega]
      simp only [List.getD_cons_succ]
      exact getD_append_length w _ x 0
    rw [hx] at h3
    refine ⟨w, x, rfl, ?_, h3⟩
    intro hw
    subst hw
    simp at hlen

theorem fill_spaces_slot_full (w' : List Byte) (x' : Byte)
    (hw' : ∀ c ∈ w', c ≠ SVN_UTF8_DOLLAR)
    (hx' : x' = SVN_UTF8_SPACE ∨ x' = SVN_UTF8_POUND) :
    fill_spaces (SVN_UTF8_SPACE :: (w' ++ [x', SVN_UTF8_DOLLAR]))
      = SVN_UTF8_SPACE :: (List.replicate w'.length SVN_UTF8_SPACE
          ++ [SVN_UTF8_SPACE, SVN_UTF8_DOLLAR]) := by
  have := fill_spaces_no_dollar (SVN_UTF8_SPACE :: (w' ++ [x'])) [] (by
    intro c hcm
    simp only [List.mem_cons, List.mem_append, List.mem_singleton, List.not_mem_nil,
      or_false] at hcm
    rcases hcm with rfl | hcm | rfl
    · decide
    · exact hw' c hcm
    · rcases hx' with rfl | rfl <;> decide)
  rw [show SVN_UTF8_SPACE :: (w' ++ [x', SVN_UTF8_DOLLAR])
    = (SVN_UTF8_SPACE :: (w' ++ [x'])) ++ [SVN_UTF8_DOLLAR] by simp, this]
  simp only [List.length_cons, List.length_append, List.length_singleton, List.length_nil]
  rw [List.replicate_succ, List.replicate_succ']
  simp

/-- A buffer for which `translate_keyword` reports a rewrite when contracting
is rewritten to a buffer of the same kind that a further call leaves as it
is: `$` w `$` with w free of `$`, CR and LF, of at most KW_MAX bytes. -/
theorem translate_keyword_contract_fixed_point (held : List Byte) (hh : kw_held held)
    (hne : held ≠ []) (K : apr_hash_t) (r : List Byte)
    (h : translate_keyword (held ++ [SVN_UTF8_DOLLAR]) false (some K) = some (true, r)) :
    ∃ w, r = SVN_UTF8_DOLLAR :: (w ++ [SVN_UTF8_DOLLAR]) ∧
      (∀ c ∈ w, c ≠ SVN_UTF8_DOLLAR ∧ c ≠ SVN_UTF8_CR ∧ c ≠ SVN_UTF8_NEWLINE) ∧
      w.length + 2 ≤ SVN_KEYWORD_MAX_LEN ∧
      translate_keyword r false (some K) = some (true, r) := by
  obtain ⟨n, t, v, hs, hn0, hnc, hv, ht, hlast, hl, hnb, htb, hsub⟩ :=
    translate_keyword_true_frame held hh hne false K r h
  simp only [Bool.false_eq_true, if_false] at hsub
  have htne : t ≠ [] := by intro h; rw [h] at hlast; simp at hlast
  have ht1 : 1 ≤ t.length := List.length_pos.mpr htne
  have htd : t = t.dropLast ++ [SVN_UTF8_DOLLAR] := by
    have := List.dropLast_append_getLast? SVN_UTF8_DOLLAR (by simpa using hlast)
    exact this.symm
  have hlen : (SVN_UTF8_DOLLAR :: (n ++ t)).length = n.length + t.length + 1 := by simp
  obtain ⟨-, -, hc⟩ := translate_keyword_subst_true_cases _ _ _ _ _ hsub
  have hl' := hl
  unfold SVN_KEYWORD_MAX_LEN at hl'
  -- the result for an unexpanded buffer, used twice
  have hun : ∀ t' : List Byte, t' = [SVN_UTF8_DOLLAR] ∨ t' = [SVN_UTF8_COLON, SVN_UTF8_DOLLAR] →
      n.length + t'.length + 1 ≤ SVN_KEYWORD_MAX_LEN →
      translate_keyword (SVN_UTF8_DOLLAR :: (n ++ t')) false (some K)
        = some (true, SVN_UTF8_DOLLAR :: (n ++ t')) := by
    intro t' ht' hl2
    have ht2 : t' = [SVN_UTF8_DOLLAR] ∨ (t'.head? = some SVN_UTF8_COLON ∧ 2 ≤ t'.length) := by
      rcases ht' with rfl | rfl
      · exact Or.inl rfl
      · exact Or.inr ⟨rfl, by simp⟩
    have hlast2 : t'.getLast? = some SVN_UTF8_DOLLAR := by rcases ht' with rfl | rfl <;> rfl
    rw [translate_keyword_frame n t' false K v hn0 hnc ht2 hlast2 hl2 hv]
    exact translate_keyword_subst_unexpanded_none n t' ht' hl2
  rcases hc with hc | hc | hc
  · -- fixed-length
    obtain ⟨c0, c1, c2, c3, c4⟩ := hc
    rw [getD_frame_zero] at c0
    rw [getD_frame] at c1 c2
    rw [getD_len_sub_two n t _ _ (by rw [hlen] at c4; omega)] at c3
    obtain ⟨w, x, htw, hw, hx⟩ := fixed_shape t c0 c1 c2 c3 (by rw [hlen] at c4; omega) hlast
    subst htw
    have hwl : n.length + w.length + 6 ≤ SVN_KEYWORD_MAX_LEN := by
      simp only [List.length_cons, List.length_append, List.length_nil] at hl'
      unfold SVN_KEYWORD_MAX_LEN; omega
    have hwb : ∀ c ∈ w, c ≠ SVN_UTF8_DOLLAR ∧ c ≠ SVN_UTF8_CR ∧ c ≠ SVN_UTF8_NEWLINE := by
      intro c hcw
      refine htb c ?_
      rw [show SVN_UTF8_COLON :: SVN_UTF8_COLON :: SVN_UTF8_SPACE :: (w ++ [x, SVN_UTF8_DOLLAR])
        = (SVN_UTF8_COLON :: SVN_UTF8_COLON :: SVN_UTF8_SPACE :: (w ++ [x])) ++ [SVN_UTF8_DOLLAR]
        by simp, List.dropLast_concat]
      simp [hcw]
    have hfill := fill_spaces_slot_full
    have hr := translate_keyword_fixed K n v w x false hn0 hnc hv hw hx hwl
    rw [← hs, h] at hr
    simp only [Bool.false_eq_true, if_false, Option.some.injEq, Prod.mk.injEq, true_and] at hr
    rw [hfill w x (fun c hcw => (hwb c hcw).1) hx] at hr
    have hrep : ∀ c ∈ List.replicate w.length SVN_UTF8_SPACE, c ≠ SVN_UTF8_DOLLAR := by
      intro c hcm
      rw [List.eq_of_mem_replicate hcm]
      decide
    have hr2 := translate_keyword_fixed K n v (List.replicate w.length SVN_UTF8_SPACE)
      SVN_UTF8_SPACE false hn0 hnc hv (by
        intro hnil
        have := congrArg List.length hnil
        simp only [List.length_replicate, List.length_nil] at this
        exact hw (List.length_eq_zero.mp this)) (Or.inl rfl)
      (by simp only [List.length_replicate]; exact hwl)
    simp only [Bool.false_eq_true, if_false] at hr2
    rw [hfill _ _ hrep (Or.inl rfl), List.length_replicate] at hr2
    refine ⟨n ++ SVN_UTF8_COLON :: SVN_UTF8_COLON :: SVN_UTF8_SPACE ::
      (List.replicate w.length SVN_UTF8_SPACE ++ [SVN_UTF8_SPACE]), ?_, ?_, ?_, ?_⟩
    · rw [hr]; simp
    · intro c hcm
      simp only [List.mem_append, List.mem_cons, List.mem_singleton, List.not_mem_nil,
        or_false] at hcm
      rcases hcm with hcm | rfl | rfl | rfl | hcm | rfl
      · exact hnb c hcm
      · decide
      · decide
      · decide
      · rw [List.eq_of_mem_replicate hcm]; decide
      · decide
    · simp only [List.length_append, List.length_cons, List.length_replicate, List.length_nil]
      unfold SVN_KEYWORD_MAX_LEN at hwl ⊢
      omega
    · rw [hr]
      rw [show SVN_UTF8_DOLLAR :: (n ++ ([SVN_UTF8_COLON, SVN_UTF8_COLON] ++ SVN_UTF8_SPACE ::
            (List.replicate w.length SVN_UTF8_SPACE ++ [SVN_UTF8_SPACE, SVN_UTF8_DOLLAR])))
          = SVN_UTF8_DOLLAR :: (n ++ SVN_UTF8_COLON :: SVN_UTF8_COLON :: SVN_UTF8_SPACE ::
            (List.replicate w.length SVN_UTF8_SPACE ++ [SVN_UTF8_SPACE, SVN_UTF8_DOLLAR]))
          from rfl] at hr2 ⊢
      exact hr2
  · -- unexpanded
    rw [getD_frame_zero, getD_frame] at hc
    have ht' : t = [SVN_UTF8_DOLLAR] ∨ t = [SVN_UTF8_COLON, SVN_UTF8_DOLLAR] := by
      rcases ht with ht | ⟨hhd, h2⟩
      · exact Or.inl ht
      · right
        match t, h2 with
        | a :: b :: rest, _ =>
          simp only [List.head?_cons, Option.some.injEq] at hhd
          subst hhd
          simp only [List.getD_cons_zero, List.getD_cons_succ] at hc
          rcases hc with hc | hc
          · exact absurd hc (by decide)
          · have hb := hc.2
            subst hb
            cases rest with
            | nil => rfl
            | cons y ys =>
              exfalso
              have := htb SVN_UTF8_DOLLAR (by
                rw [show SVN_UTF8_COLON :: SVN_UTF8_DOLLAR :: y :: ys
                  = [SVN_UTF8_COLON, SVN_UTF8_DOLLAR] ++ (y :: ys) from rfl,
                  List.dropLast_append_of_ne_nil _ (by simp)]
                simp)
              exact this.1 rfl
    have hrs := hun t ht' hl
    rw [← hs, h] at hrs
    simp only [Option.some.injEq, Prod.mk.injEq, true_and] at hrs
    subst hrs
    refine ⟨n ++ t.dropLast, ?_, ?_, ?_, ?_⟩
    · rw [hs, List.append_assoc, ← htd]
    · intro c hcm
      rw [List.mem_append] at hcm
      rcases hcm with hcm | hcm
      · exact hnb c hcm
      · exact htb c hcm
    · simp only [List.length_append, List.length_dropLast]
      unfold SVN_KEYWORD_MAX_LEN; omega
    · exact h
  · -- expanded
    obtain ⟨c0, c1, c2, c3⟩ := hc
    rw [getD_frame_zero] at c1
    rw [getD_frame] at c2
    rw [hlen] at c0
    rw [getD_len_sub_two n t _ _ (by omega)] at c3
    have hr := translate_keyword_subst_contract n t c1 c2 c3 (by omega) hlast hl
    rw [hsub] at hr
    simp only [Option.some.injEq, Prod.mk.injEq, true_and] at hr
    refine ⟨n, hr, hnb, by unfold SVN_KEYWORD_MAX_LEN; omega, ?_⟩
    rw [hr]
    exact hun [SVN_UTF8_DOLLAR] (Or.inl rfl)
      (by unfold SVN_KEYWORD_MAX_LEN; simp only [List.length_singleton]; omega)

/-! ## Contraction is idempotent -/

/-- Feeding a keyword run `$` w to a run that holds nothing, or holds a run the
substitutor declines: what was held is written and the new run is held. -/
theorem kw_run_feed_held (K : Option apr_hash_t) (st : List Byte × List Byte)
    (h2 : st.1 = [] ∨ kw_declined K st.1) (x : List Byte) (hx : kw_held x) (hne : x ≠ []) :
    kw_run K false st x = (x, st.2 ++ st.1) := by
  rcases hx with hx | ⟨hh, hl, hw⟩
  · exact absurd hx hne
  cases x with
  | nil => exact absurd rfl hne
  | cons d w =>
    simp only [List.head?_cons, Option.some.injEq] at hh
    subst hh
    simp only [List.tail_cons] at hw
    simp only [List.length_cons] at hl
    have hfirst : kw_step K false st SVN_UTF8_DOLLAR = ([SVN_UTF8_DOLLAR], st.2 ++ st.1) := by
      rcases h2 with h2 | ⟨-, h2ne, h2d⟩
      · rw [show st = (([] : List Byte), st.2) from Prod.ext h2 rfl, kw_step_start]
        simp
      · rw [show st = (st.1, st.2) from rfl, kw_step_close K false st.1 st.2 h2ne]
        cases htk : translate_keyword (st.1 ++ [SVN_UTF8_DOLLAR]) false K with
        | none => rfl
        | some y =>
          obtain ⟨ok, kb⟩ := y
          cases ok
          · rfl
          · exact absurd htk (h2d kb)
    rw [kw_run_cons, hfirst, kw_run_hold K false w [SVN_UTF8_DOLLAR] _ (by simp) hw
      (by simp only [List.length_singleton]; omega)]
    rfl

/-- Feeding a buffer `$` w `$` that the substitutor, contracting, leaves as it
is: it is written as it is and nothing is held. -/
theorem kw_run_feed_keyword (K : Option apr_hash_t) (st : List Byte × List Byte)
    (h2 : st.1 = [] ∨ kw_declined K st.1) (w : List Byte)
    (hw : ∀ c ∈ w, c ≠ SVN_UTF8_DOLLAR ∧ c ≠ SVN_UTF8_CR ∧ c ≠ SVN_UTF8_NEWLINE)
    (hl : w.length + 2 ≤ SVN_KEYWORD_MAX_LEN)
    (hfix : translate_keyword (SVN_UTF8_DOLLAR :: (w ++ [SVN_UTF8_DOLLAR])) false K
      = some (true, SVN_UTF8_DOLLAR :: (w ++ [SVN_UTF8_DOLLAR]))) :
    kw_run K false st (SVN_UTF8_DOLLAR :: (w ++ [SVN_UTF8_DOLLAR]))
      = ([], st.2 ++ st.1 ++ SVN_UTF8_DOLLAR :: (w ++ [SVN_UTF8_DOLLAR])) := by
  have hheld : kw_held (SVN_UTF8_DOLLAR :: w) :=
    Or.inr ⟨rfl, by simp only [List.length_cons]; unfold SVN_KEYWORD_MAX_LEN at hl ⊢; omega, hw⟩
  rw [show SVN_UTF8_DOLLAR :: (w ++ [SVN_UTF8_DOLLAR])
      = (SVN_UTF8_DOLLAR :: w) ++ [SVN_UTF8_DOLLAR] from rfl, kw_run_append,
    kw_run_feed_held K st h2 _ hheld (by simp), kw_run_cons, kw_run_nil,
    kw_step_close K false _ _ (by simp)]
  rw [show (SVN_UTF8_DOLLAR :: w) ++ [SVN_UTF8_DOLLAR]
      = SVN_UTF8_DOLLAR :: (w ++ [SVN_UTF8_DOLLAR]) from rfl, hfix]

/-- Feeding a keyword run that was flushed together with the byte that ended
it: both are written and nothing is held. -/
theorem kw_run_feed_flush (K : Option apr_hash_t) (st : List Byte × List Byte)
    (h2 : st.1 = [] ∨ kw_declined K st.1) (x : List Byte) (hx : kw_held x) (hne : x ≠ [])
    (c : Byte) (hc : c ≠ SVN_UTF8_DOLLAR)
    (h : x.length = SVN_KEYWORD_MAX_LEN - 1 ∨ c = SVN_UTF8_CR ∨ c = SVN_UTF8_NEWLINE) :
    kw_run K false st (x ++ [c]) = ([], st.2 ++ st.1 ++ x ++ [c]) := by
  rw [kw_run_append, kw_run_feed_held K st h2 x hx hne, kw_run_cons, kw_run_nil,
    kw_step_flush K false x _ c hne hc h]

/-- A rewrite reported when contracting yields a buffer that a second run
writes as it is. -/
theorem kw_run_feed_rewrite (K : Option apr_hash_t) (st : List Byte × List Byte)
    (h2 : st.1 = [] ∨ kw_declined K st.1) (held : List Byte) (hh : kw_held held)
    (hne : held ≠ []) (r : List Byte)
    (h : translate_keyword (held ++ [SVN_UTF8_DOLLAR]) false K = some (true, r)) :
    kw_run K false st r = ([], st.2 ++ st.1 ++ r) := by
  cases K with
  | none => exact absurd h (translate_keyword_none _ _ _)
  | some kw =>
    obtain ⟨w, hr, hw, hl, hfix⟩ := translate_keyword_contract_fixed_point held hh hne kw r h
    subst hr
    exact kw_run_feed_keyword (some kw) st h2 w hw hl hfix

/-- One step of a contracting run keeps it in step with a second contracting
run fed with its output. -/
theorem contract_sim_step (K : Option apr_hash_t) (st : List Byte × List Byte) (c : Byte)
    (h : contract_sim K st) : contract_sim K (kw_step K false st c) := by
  obtain ⟨hh, hout, h2⟩ := h
  have hh' := kw_held_step K false st c hh
  have h2' : (kw_run K false ([], []) st.2).1 = [] ∨
      kw_declined K (kw_run K false ([], []) st.2).1 := by
    rcases h2 with h2 | h2
    · exact Or.inl h2
    · exact Or.inr h2.2
  refine ⟨hh', ?_⟩
  by_cases h1 : st.1 = []
  · have h20 : (kw_run K false ([], []) st.2).1 = [] := by
      rcases h2 with h2 | h2
      · exact h2
      · exact absurd h1 h2.1
    by_cases hc : c = SVN_UTF8_DOLLAR
    · have hs : kw_step K false st c = ([SVN_UTF8_DOLLAR], st.2) := by
        rw [show st = (([] : List Byte), st.2) from Prod.ext h1 rfl, hc, kw_step_start]
      rw [hs]
      exact ⟨hout, Or.inl h20⟩
    · have hs : kw_step K false st c = ([], st.2 ++ [c]) := by
        rw [show st = (([] : List Byte), st.2) from Prod.ext h1 rfl]
        simp [kw_step, hc]
      rw [hs]
      have hrun : kw_run K false ([], []) (st.2 ++ [c])
          = ([], (kw_run K false ([], []) st.2).2 ++ [c]) := by
        rw [kw_run_append, kw_run_cons, kw_run_nil,
          show kw_run K false ([], []) st.2
            = (([] : List Byte), (kw_run K false ([], []) st.2).2) from Prod.ext h20 rfl]
        simp [kw_step, hc]
      simp only [hrun]
      rw [h20, List.append_nil] at hout
      exact ⟨by rw [List.append_nil, hout], Or.inl trivial⟩
  · by_cases hc : c = SVN_UTF8_DOLLAR
    · subst hc
      have hclose := kw_step_close K false st.1 st.2 h1
      rw [show ((st.1, st.2) : List Byte × List Byte) = st from rfl] at hclose
      cases htk : translate_keyword (st.1 ++ [SVN_UTF8_DOLLAR]) false K with
      | none =>
        rw [htk] at hclose
        simp only at hclose
        rw [hclose]
        have hrun := kw_run_feed_held K _ h2' st.1 hh h1
        simp only [kw_run_append, hrun, hout]
        exact ⟨trivial, Or.inr ⟨by simp, hh, h1, fun r hr => by rw [htk] at hr; cases hr⟩⟩
      | some y =>
        obtain ⟨ok, kb⟩ := y
        rw [htk] at hclose
        cases ok
        · simp only at hclose
          rw [hclose]
          have hrun := kw_run_feed_held K _ h2' st.1 hh h1
          simp only [kw_run_append, hrun, hout]
          exact ⟨trivial, Or.inr ⟨by simp, hh, h1, fun r hr => by rw [htk] at hr; cases hr⟩⟩
        · simp only at hclose
          rw [hclose]
          have hrun := kw_run_feed_rewrite K _ h2' st.1 hh h1 kb htk
          simp only [kw_run_append, hrun, hout]
          exact ⟨by simp, Or.inl trivial⟩
    · by_cases h3 : st.1.length = SVN_KEYWORD_MAX_LEN - 1 ∨ c = SVN_UTF8_CR
          ∨ c = SVN_UTF8_NEWLINE
      · have hs := kw_step_flush K false st.1 st.2 c h1 hc h3
        rw [show ((st.1, st.2) : List Byte × List Byte) = st from rfl] at hs
        rw [hs]
        have hrun := kw_run_feed_flush K _ h2' st.1 hh h1 c hc h3
        simp only [List.append_assoc, kw_run_append] at hrun ⊢
        simp only [hrun]
        rw [← List.append_assoc, hout]
        exact ⟨by simp, Or.inl trivial⟩
      · have hs : kw_step K false st c = (st.1 ++ [c], st.2) := by
          unfold kw_step
          rw [if_neg h1, if_neg hc, if_neg h3]
        rw [hs]
        refine ⟨hout, ?_⟩
        rcases h2 with h2 | h2
        · exact Or.inl h2
        · exact Or.inr ⟨by simp, h2.2⟩

theorem contract_sim_run (K : Option apr_hash_t) :
    ∀ (p : List Byte) (st : List Byte × List Byte), contract_sim K st →
      contract_sim K (kw_run K false st p) := by
  intro p
  induction p with
  | nil => intro st h; exact h
  | cons c r ih => intro st h; rw [kw_run_cons]; exact ih _ (contract_sim_step K st c h)

/-- What a contracting run has written and still holds is passed on unchanged
by a second contracting run. -/
theorem kw_run_contract_idempotent (K : Option apr_hash_t) (p : List Byte) :
    (kw_run K false ([], []) ((kw_run K false ([], []) p).2 ++ (kw_run K false ([], []) p).1)).2
      ++ (kw_run K false ([], [])
        ((kw_run K false ([], []) p).2 ++ (kw_run K false ([], []) p).1)).1
      = (kw_run K false ([], []) p).2 ++ (kw_run K false ([], []) p).1 := by
  have h0 : contract_sim K ([], []) := ⟨kw_held_nil, rfl, Or.inl rfl⟩
  obtain ⟨hh, hout, h2⟩ := contract_sim_run K p ([], []) h0
  have h2' : (kw_run K false ([], []) (kw_run K false ([], []) p).2).1 = [] ∨
      kw_declined K (kw_run K false ([], []) (kw_run K false ([], []) p).2).1 := by
    rcases h2 with h2 | h2
    · exact Or.inl h2
    · exact Or.inr h2.2
  by_cases h1 : (kw_run K false ([], []) p).1 = []
  · rw [h1, List.append_nil]
    exact hout
  · rw [kw_run_append, kw_run_feed_held K _ h2' _ hh h1]
    simp only
    rw [hout]

/-- C13. Idempotent contraction: for every keyword set, repair flag and byte
sequence B, without an EOL target, translating B with expand on and the
result with expand off both succeed, and translating the outcome C of that
with expand off once more succeeds and gives C again. -/
theorem translate_stream_contract_idempotent (repair : Bool) (keywords : Option apr_hash_t)
    (B : List Byte) :
    ∃ A C, translate_stream none repair keywords true [B] = some (SVN_NO_ERROR, A) ∧
      translate_stream none repair keywords false [A] = some (SVN_NO_ERROR, C) ∧
      translate_stream none repair keywords false [C] = some (SVN_NO_ERROR, C) := by
  refine ⟨_, _, translate_stream_kw repair keywords true [B],
    translate_stream_kw repair keywords false [_], ?_⟩
  rw [translate_stream_kw]
  simp only [List.flatten_cons, List.flatten_nil, List.append_nil]
  rw [kw_run_contract_idempotent]

/-! ## The translated stream: reading -/

/-- When the underlying stream holds fewer than `CHUNK` bytes, filling the read
buffer translates all of them and flushes. -/
theorem fill_read_buffer_short (CHUNK : Nat) (b : translated_stream_baton)
    (h : b.stream.length < CHUNK) :
    fill_read_buffer CHUNK b =
      match translate_chunk [] b.in_baton (some b.stream) with
      | some (SVN_NO_ERROR, ib, rb) =>
        match translate_chunk rb ib none with
        | some (e, ib1, rb1) =>
          some (e, { b with readbuf := rb1, stream := [], in_baton := ib1 }, b.stream.length)
        | none => none
      | some (e, ib, rb) =>
        some (e, { b with readbuf := rb, stream := [], in_baton := ib }, b.stream.length)
      | none => none := by
  have h1 : (svn_stream_read b.stream CHUNK) = (b.stream, []) := by
    simp [svn_stream_read, List.take_of_length_le (Nat.le_of_lt h),
      List.drop_of_length_le (Nat.le_of_lt h)]
  unfold fill_read_buffer
  rw [h1]
  simp only [if_pos (Nat.ne_of_lt h)]

/-- A read request that the read buffer can satisfy: the request is at most the
length of the buffer and the offset lies below it. The call copies as many bytes
as were asked for, starting at the offset, whatever the number of bytes left
there. -/
theorem translated_stream_read_buffered (CHUNK : Nat) (b : translated_stream_baton) (len : Nat)
    (h1 : b.readbuf_off < b.readbuf.length) (h2 : 0 < len) (h3 : len ≤ b.readbuf.length) :
    translated_stream_read CHUNK b len =
      some (SVN_NO_ERROR, { b with readbuf_off := b.readbuf_off + len },
        memcpy_from b.readbuf b.readbuf_off len) := by
  have hto : (if b.readbuf.length > len then len else b.readbuf.length) = len := by
    split_ifs with h
    · rfl
    · omega
  simp only [translated_stream_read, translated_stream_read_loop, h1, h2, not_true_eq_false,
    if_false, and_self, if_true, gt_iff_lt, true_and, hto, Nat.sub_self, Nat.lt_irrefl,
    and_false, List.nil_append, Option.map_some']

/-- A read request on a buffer that is used up, when the underlying stream holds
fewer than `CHUNK` bytes whose translation and flush give `t`: the call copies
`min len |t|` bytes starting at the offset the baton had, which the refill does
not reset. -/
theorem translated_stream_read_refill (CHUNK : Nat) (b : translated_stream_baton) (len : Nat)
    (ib : translation_baton) (t : List Byte)
    (hC : b.stream.length < CHUNK) (h1 : ¬ b.readbuf_off < b.readbuf.length) (h2 : 0 < len)
    (hT : translate_chunks [] b.in_baton [some b.stream, none] = some (SVN_NO_ERROR, ib, t)) :
    translated_stream_read CHUNK b len =
      some (SVN_NO_ERROR,
        { b with readbuf := t, stream := [], in_baton := ib,
                 readbuf_off := b.readbuf_off + min len t.length },
        memcpy_from t b.readbuf_off (min len t.length)) := by
  have hto : (if t.length > len then len else t.length) = min len t.length := by
    split_ifs with h
    · exact (Nat.min_eq_left (Nat.le_of_lt h)).symm
    · exact (Nat.min_eq_right (Nat.le_of_not_lt h)).symm
  have hf : fill_read_buffer CHUNK b =
      some (SVN_NO_ERROR, { b with readbuf := t, stream := [], in_baton := ib },
        b.stream.length) := by
    rw [fill_read_buffer_short CHUNK b hC]
    rw [translate_chunks_cons] at hT
    simp only [translate_chunks_flush] at hT
    rcases hc : translate_chunk [] b.in_baton (some b.stream) with _ | ⟨e, ib0, rb⟩
    · rw [hc] at hT; cases hT
    · rw [hc] at hT
      cases e <;> simp only [and_then] at hT <;> try cases hT
      simp only [hT]
  simp only [translated_stream_read, translated_stream_read_loop, h1, h2, not_false_eq_true,
    if_true, and_self, gt_iff_lt, hf, hto, Nat.ne_of_lt hC, false_and, if_false,
    List.nil_append, Option.map_some']

/-! ## The translated stream: writing and closing -/

/-- The conversion of an empty keyword set to none, done twice, is done once. -/
theorem create_translation_baton_normalized (eol_str : Option (List Byte)) (repair : Bool)
    (keywords : Option apr_hash_t) (expand : Bool) :
    create_translation_baton eol_str repair
        (match keywords with
         | some kw => if apr_hash_count kw = 0 then none else some kw
         | none => none) expand
      = create_translation_baton eol_str repair keywords expand := by
  rcases keywords with _ | kw
  · rfl
  · by_cases h : apr_hash_count kw = 0
    · simp only [h, if_true]
      simp only [create_translation_baton, h, if_true]
    · simp only [h, if_false]

/-- A series of writes to a translated stream is the series of chunk calls of the
write-side transducer on the underlying stream. -/
theorem translated_stream_writes_eq :
    ∀ (ws : List (List Byte)) (b : translated_stream_baton),
      translated_stream_writes b ws =
        (translate_chunks b.stream_written b.out_baton (ws.map some)).map
          (fun r => (r.1, { b with written := b.written || !ws.isEmpty,
                                   out_baton := r.2.1, stream_written := r.2.2 }))
  | [], b => by
    simp [translated_stream_writes, translate_chunks]
  | w :: ws, b => by
    simp only [translated_stream_writes, translated_stream_write, List.map_cons, translate_chunks]
    rcases translate_chunk b.stream_written b.out_baton (some w) with _ | ⟨e, ob, d⟩
    · rfl
    · cases e <;> simp only [Option.map_some', List.isEmpty_cons, Bool.not_false, Bool.or_true]
      rw [translated_stream_writes_eq ws]
      simp only [Bool.true_or]

/-- C28: a series of writes `w1 .. wn` (at least one) to a translated stream
followed by close delivers to the underlying stream the output of the write-side
transducer for the concatenation of the writes followed by one flush, with its
outcome; a close with no write before it delivers nothing and leaves the stream
as it was created. -/
theorem translated_stream_write_close (stream : List Byte) (eol_str : Option (List Byte))
    (repair : Bool) (keywords : Option apr_hash_t) (expand : Bool)
    (w : List Byte) (ws : List (List Byte)) :
    ((translated_stream_writes_close
        (svn_subst_stream_translated stream eol_str repair keywords expand) (w :: ws)).map
        (fun r => (r.1, r.2.stream_written))
      = translate_stream eol_str repair keywords expand [(w :: ws).flatten]) ∧
    translated_stream_writes_close
        (svn_subst_stream_translated stream eol_str repair keywords expand) []
      = some (SVN_NO_ERROR, svn_subst_stream_translated stream eol_str repair keywords expand) ∧
    (svn_subst_stream_translated stream eol_str repair keywords expand).stream_written = [] := by
  refine ⟨?_, rfl, rfl⟩
  have hj := translate_chunks_join [(w :: ws).flatten]
    (create_translation_baton eol_str repair keywords expand) [] [none]
    (baton_inv_create eol_str repair keywords expand)
  have hk := translate_chunks_join (w :: ws)
    (create_translation_baton eol_str repair keywords expand) [] []
    (baton_inv_create eol_str repair keywords expand)
  simp only [List.flatten_cons, List.flatten_nil, List.append_nil, translate_chunks_flush]
    at hj hk
  unfold translate_stream
  simp only [List.flatten_cons, List.flatten_nil, List.append_nil]
  rw [hj]
  simp only [translated_stream_writes_close, translated_stream_writes_eq,
    svn_subst_stream_translated, create_translation_baton_normalized, hk]
  rcases translate_chunk [] (create_translation_baton eol_str repair keywords expand)
      (some (w ++ ws.flatten)) with _ | ⟨e, b1, d1⟩
  · rfl
  · cases e <;> simp only [and_then, translate_chunks, Option.map_some', List.isEmpty_cons,
      Bool.not_false, Bool.or_true, translated_stream_close, if_true, Option.map_map]
    rcases translate_chunk d1 b1 none with _ | ⟨e, b2, d2⟩ <;> rfl

/-! ## An empty keyword set -/

/-- C24: a transducer created with an empty keyword set is the one created with
no keyword set, so a translation (any chunking, EOL target, repair and expand
flag) gives the same outcome and output with either; the same holds for
`svn_subst_translate_cstring2`, for a translated stream and for
`svn_subst_copy_and_translate3`. -/
theorem translate_stream_empty_keywords (CHUNK : Nat) (eol_str : Option (List Byte))
    (repair expand : Bool) (chunks : List (List Byte)) (src : List Byte)
    (h : host) (fs : filesystem) (dst : List Byte) (special : Bool) :
    create_translation_baton eol_str repair (some []) expand
      = create_translation_baton eol_str repair none expand ∧
    translate_stream eol_str repair (some []) expand chunks
      = translate_stream eol_str repair none expand chunks ∧
    svn_subst_translate_cstring2 CHUNK src eol_str repair (some []) expand
      = svn_subst_translate_cstring2 CHUNK src eol_str repair none expand ∧
    svn_subst_stream_translated src eol_str repair (some []) expand
      = svn_subst_stream_translated src eol_str repair none expand ∧
    svn_subst_copy_and_translate3 CHUNK h fs src dst eol_str repair (some []) expand special
      = svn_subst_copy_and_translate3 CHUNK h fs src dst eol_str repair none expand
          special := by
  refine ⟨rfl, rfl, ?_, rfl, ?_⟩
  · rcases eol_str with _ | e
    · rfl
    · rfl
  · rcases eol_str with _ | e
    · rfl
    · rfl

/-! ## Reads of a translated stream at two inputs -/

/-- A byte that is none of `$`, CR, LF is not interesting to a fresh baton. -/
theorem boring_create (eol_str : Option (List Byte)) (repair : Bool)
    (keywords : Option apr_hash_t) (expand : Bool) (c : Byte)
    (h : c ≠ SVN_UTF8_DOLLAR ∧ c ≠ SVN_UTF8_CR ∧ c ≠ SVN_UTF8_NEWLINE) :
    boring (create_translation_baton eol_str repair keywords expand).interesting c = true := by
  by_contra hb
  rcases wf_interesting_create eol_str repair keywords expand c (by simpa using hb)
    with h1 | h1 | h1
  · exact h.1 h1
  · exact h.2.1 h1
  · exact h.2.2 h1

/-- C26 (the code at the example the claim gives): the underlying stream holds 100
bytes `x`, so the translation is these 100 bytes whatever the EOL target and the
keywords. A first read of 60 returns the first 60 of them. A second read of 60
returns 60 bytes again: the 40 bytes left, then 20 bytes copied from past the end
of the data of the read buffer. -/
theorem translated_stream_read_twice_sixty (CHUNK : Nat) (hC : 100 < CHUNK)
    (eol_str : Option (List Byte)) (repair : Bool) (keywords : Option apr_hash_t)
    (expand : Bool) :
    translate_stream eol_str repair keywords expand [List.replicate 100 120]
      = some (SVN_NO_ERROR, List.replicate 100 120) ∧
    (translated_stream_reads CHUNK
        (svn_subst_stream_translated (List.replicate 100 120) eol_str repair keywords expand)
        [60, 60]).map (fun r => (r.1, r.2.2))
      = some (SVN_NO_ERROR,
          [(List.replicate 60 120).map some,
           (List.replicate 40 120).map some ++ List.replicate 20 none]) := by
  have hb : ∀ c ∈ List.replicate 100 120,
      boring (create_translation_baton eol_str repair keywords expand).interesting c = true := by
    intro c hc
    rw [List.eq_of_mem_replicate hc]
    exact boring_create eol_str repair keywords expand 120 (by decide)
  have hT : translate_chunks [] (create_translation_baton eol_str repair keywords expand)
      [some (List.replicate 100 120), none]
      = some (SVN_NO_ERROR, create_translation_baton eol_str repair keywords expand,
          List.replicate 100 120) := by
    rw [translate_chunks_cons, translate_chunk_all_boring _
      (clean_create eol_str repair keywords expand) _ _ hb]
    simp only [and_then, translate_chunks_flush, List.nil_append]
    exact translate_chunk_flush_clean _ (clean_create eol_str repair keywords expand) _
  have h1 : translated_stream_read CHUNK
      (svn_subst_stream_translated (List.replicate 100 120) eol_str repair keywords expand) 60
      = some (SVN_NO_ERROR,
          { svn_subst_stream_translated [] eol_str repair keywords expand with
            readbuf := List.replicate 100 120, readbuf_off := 60 },
          (List.replicate 60 120).map some) := by
    rw [translated_stream_read_refill CHUNK _ 60
      (create_translation_baton eol_str repair keywords expand) (List.replicate 100 120)
      (by simpa [svn_subst_stream_translated] using hC) (by simp [svn_subst_stream_translated])
      (by decide)
      (by simpa only [svn_subst_stream_translated, create_translation_baton_normalized]
        using hT)]
    simp only [svn_subst_stream_translated, create_translation_baton_normalized,
      List.length_replicate]
    refine congrArg some (Prod.ext rfl (Prod.ext rfl ?_))
    show memcpy_from (List.replicate 100 120) 0 (min 60 100)
      = List.map some (List.replicate 60 120)
    decide
  have h2 : translated_stream_read CHUNK
      { svn_subst_stream_translated [] eol_str repair keywords expand with
        readbuf := List.replicate 100 120, readbuf_off := 60 } 60
      = some (SVN_NO_ERROR,
          { svn_subst_stream_translated [] eol_str repair keywords expand with
            readbuf := List.replicate 100 120, readbuf_off := 120 },
          (List.replicate 40 120).map some ++ List.replicate 20 none) := by
    rw [translated_stream_read_buffered CHUNK _ 60 (by simp) (by decide) (by simp)]
    refine congrArg some (Prod.ext rfl (Prod.ext rfl ?_))
    show memcpy_from (List.replicate 100 120) 60 60
      = List.map some (List.replicate 40 120) ++ List.replicate 20 none
    decide
  refine ⟨?_, ?_⟩
  · simp only [translate_stream, List.map_cons, List.map_nil, List.cons_append, List.nil_append,
      hT, Option.map_some']
  · simp only [translated_stream_reads, h1, h2, Option.map_some']

/-- The two reads of the example at a chunk size of 16 KiB. -/
theorem translated_stream_read_twice_sixty_witness :
    100 < 16384 ∧
    (translated_stream_reads 16384
        (svn_subst_stream_translated (List.replicate 100 120) none false none false)
        [60, 60]).map (fun r => (r.1, r.2.2))
      = some (SVN_NO_ERROR,
          [(List.replicate 60 120).map some,
           (List.replicate 40 120).map some ++ List.replicate 20 none]) :=
  ⟨by decide, (translated_stream_read_twice_sixty 16384 (by decide) none false none false).2⟩

/-- C27 (the code at two inputs): with the EOL target LF, the underlying stream
holds `ab` and a CR. The translation is `ab` and LF, and a first read of 10
returns these three bytes. The reads after it return one byte each, not none:
every call flushes the transducer again, which still holds the CR, and copies
from the offset the baton had before. With a keyword set and the content `$Rev`,
the first read returns the four bytes of the translation and the next read
returns four bytes again. -/
theorem translated_stream_read_after_eof (CHUNK : Nat) (hC : 4 < CHUNK) :
    translate_stream (some [10]) false none false [[97, 98, 13]]
      = some (SVN_NO_ERROR, [97, 98, 10]) ∧
    (translated_stream_reads CHUNK
        (svn_subst_stream_translated [97, 98, 13] (some [10]) false none false)
        [10, 10, 10]).map (fun r => (r.1, r.2.2))
      = some (SVN_NO_ERROR, [[some 97, some 98, some 10], [none], [none]]) ∧
    translate_stream none false (some [(ascii "Rev", ascii "42")]) true [ascii "$Rev"]
      = some (SVN_NO_ERROR, ascii "$Rev") ∧
    (translated_stream_reads CHUNK
        (svn_subst_stream_translated (ascii "$Rev") none false
          (some [(ascii "Rev", ascii "42")]) true)
        [10, 10]).map (fun r => (r.1, r.2.2))
      = some (SVN_NO_ERROR, [(ascii "$Rev").map some, [none, none, none, none]]) := by
  refine ⟨by decide, ?_, by decide, ?_⟩
  · have h1 : translated_stream_read CHUNK
        (svn_subst_stream_translated [97, 98, 13] (some [10]) false none false) 10
        = some (SVN_NO_ERROR,
            { stream := [], stream_written := [],
              in_baton := { create_translation_baton (some [10]) false none false with
                newline_buf := [13], src_format := [13] },
              out_baton := create_translation_baton (some [10]) false none false,
              written := false, readbuf := [97, 98, 10], readbuf_off := 3 },
            [some 97, some 98, some 10]) :=
      (translated_stream_read_refill CHUNK
        (svn_subst_stream_translated [97, 98, 13] (some [10]) false none false) 10
        { create_translation_baton (some [10]) false none false with
          newline_buf := [13], src_format := [13] } [97, 98, 10]
        (by simp only [svn_subst_stream_translated, List.length_cons, List.length_nil]; omega)
        (by decide) (by decide) (by decide)).trans (by decide)
    have h2 : translated_stream_read CHUNK
        { stream := [], stream_written := [],
          in_baton := { create_translation_baton (some [10]) false none false with
            newline_buf := [13], src_format := [13] },
          out_baton := create_translation_baton (some [10]) false none false,
          written := false, readbuf := [97, 98, 10], readbuf_off := 3 } 10
        = some (SVN_NO_ERROR,
            { stream := [], stream_written := [],
              in_baton := { create_translation_baton (some [10]) false none false with
                newline_buf := [13], src_format := [13] },
              out_baton := create_translation_baton (some [10]) false none false,
              written := false, readbuf := [10], readbuf_off := 4 },
            [none]) :=
      (translated_stream_read_refill CHUNK _ 10
        { create_translation_baton (some [10]) false none false with
          newline_buf := [13], src_format := [13] } [10]
        (by simp only [List.length_nil]; omega) (by decide) (by decide) (by decide)).trans
        (by decide)
    have h3 : translated_stream_read CHUNK
        { stream := [], stream_written := [],
          in_baton := { create_translation_baton (some [10]) false none false with
            newline_buf := [13], src_format := [13] },
          out_baton := create_translation_baton (some [10]) false none false,
          written := false, readbuf := [10], readbuf_off := 4 } 10
        = some (SVN_NO_ERROR,
            { stream := [], stream_written := [],
              in_baton := { create_translation_baton (some [10]) false none false with
                newline_buf := [13], src_format := [13] },
              out_baton := create_translation_baton (some [10]) false none false,
              written := false, readbuf := [10], readbuf_off := 5 },
            [none]) :=
      (translated_stream_read_refill CHUNK _ 10
        { create_translation_baton (some [10]) false none false with
          newline_buf := [13], src_format := [13] } [10]
        (by simp only [List.length_nil]; omega) (by decide) (by decide) (by decide)).trans
        (by decide)
    simp only [translated_stream_reads, h1, h2, h3, Option.map_some']
  · have h1 : translated_stream_read CHUNK
        (svn_subst_stream_translated (ascii "$Rev") none false
          (some [(ascii "Rev", ascii "42")]) true) 10
        = some (SVN_NO_ERROR,
            { stream := [], stream_written := [],
              in_baton := { create_translation_baton none false
                (some [(ascii "Rev", ascii "42")]) true with keyword_buf := ascii "$Rev" },
              out_baton := create_translation_baton none false
                (some [(ascii "Rev", ascii "42")]) true,
              written := false, readbuf := ascii "$Rev", readbuf_off := 4 },
            (ascii "$Rev").map some) :=
      (translated_stream_read_refill CHUNK
        (svn_subst_stream_translated (ascii "$Rev") none false
          (some [(ascii "Rev", ascii "42")]) true) 10
        { create_translation_baton none false (some [(ascii "Rev", ascii "42")]) true with
          keyword_buf := ascii "$Rev" } (ascii "$Rev")
        (by
          have : (svn_subst_stream_translated (ascii "$Rev") none false
            (some [(ascii "Rev", ascii "42")]) true).stream.length = 4 := by decide
          omega)
        (by decide) (by decide) (by decide)).trans (by decide)
    have h2 : translated_stream_read CHUNK
        { stream := [], stream_written := [],
          in_baton := { create_translation_baton none false
            (some [(ascii "Rev", ascii "42")]) true with keyword_buf := ascii "$Rev" },
          out_baton := create_translation_baton none false
            (some [(ascii "Rev", ascii "42")]) true,
          written := false, readbuf := ascii "$Rev", readbuf_off := 4 } 10
        = some (SVN_NO_ERROR,
            { stream := [], stream_written := [],
              in_baton := { create_translation_baton none false
                (some [(ascii "Rev", ascii "42")]) true with keyword_buf := ascii "$Rev" },
              out_baton := create_translation_baton none false
                (some [(ascii "Rev", ascii "42")]) true,
              written := false, readbuf := ascii "$Rev", readbuf_off := 8 },
            [none, none, none, none]) :=
      (translated_stream_read_refill CHUNK _ 10
        { create_translation_baton none false (some [(ascii "Rev", ascii "42")]) true with
          keyword_buf := ascii "$Rev" } (ascii "$Rev")
        (by simp only [List.length_nil]; omega) (by decide) (by decide) (by decide)).trans
        (by decide)
    simp only [translated_stream_reads, h1, h2, Option.map_some']

/-- The reads of the two inputs at a chunk size of 16 KiB. -/
theorem translated_stream_read_after_eof_witness :
    4 < 16384 ∧
    (translated_stream_reads 16384
        (svn_subst_stream_translated [97, 98, 13] (some [10]) false none false)
        [10, 10, 10]).map (fun r => (r.1, r.2.2))
      = some (SVN_NO_ERROR, [[some 97, some 98, some 10], [none], [none]]) :=
  ⟨by decide, (translated_stream_read_after_eof 16384 (by decide)).2.1⟩

/-! ## The template formatter -/

/-- The reference formatter copies a byte other than `%`. -/
theorem reference_format_cons (h : keyword_helpers) (rev url : Option (List Byte)) (date : Int)
    (author : Option (List Byte)) (c : Byte) (l : List Byte) (hc : c ≠ PERCENT) :
    reference_format h rev url date author (c :: l)
      = c :: reference_format h rev url date author l := by
  cases l with
  | nil => simp [reference_format]
  | cons x rest => simp [reference_format, hc]

/-- The reference formatter copies a run of bytes other than `%`. -/
theorem reference_format_run (h : keyword_helpers) (rev url : Option (List Byte)) (date : Int)
    (author : Option (List Byte)) (run l : List Byte) (hrun : ∀ c ∈ run, c ≠ PERCENT) :
    reference_format h rev url date author (run ++ l)
      = run ++ reference_format h rev url date author l := by
  induction run with
  | nil => rfl
  | cons c run ih =>
    rw [List.cons_append, reference_format_cons _ _ _ _ _ _ _ (hrun c (List.mem_cons_self _ _)),
      ih (fun c hc => hrun c (List.mem_cons_of_mem _ hc)), List.cons_append]

/-- The scan `while (*cur != 0 && *cur != '%') cur++` splits the memory at `fmt`
into the run it passes and the rest, which is empty or starts with NUL or `%`. -/
theorem scan_split (fmt : List Byte) :
    fmt.take (fmt.takeWhile (fun c => c != 0 && c != PERCENT)).length
        = fmt.takeWhile (fun c => c != 0 && c != PERCENT) ∧
    fmt.drop (fmt.takeWhile (fun c => c != 0 && c != PERCENT)).length
        = fmt.dropWhile (fun c => c != 0 && c != PERCENT) ∧
    cstr fmt = fmt.takeWhile (fun c => c != 0 && c != PERCENT)
        ++ cstr (fmt.dropWhile (fun c => c != 0 && c != PERCENT)) ∧
    (∀ c ∈ fmt.takeWhile (fun c => c != 0 && c != PERCENT), c ≠ PERCENT) := by
  have hsplit := List.takeWhile_append_dropWhile (fun c => c != 0 && c != PERCENT) fmt
  refine ⟨?_, ?_, ?_, ?_⟩
  · have := @List.take_left' _ (fmt.takeWhile (fun c => c != 0 && c != PERCENT))
      (fmt.dropWhile (fun c => c != 0 && c != PERCENT)) _ rfl
    rwa [hsplit] at this
  · have := @List.drop_left' _ (fmt.takeWhile (fun c => c != 0 && c != PERCENT))
      (fmt.dropWhile (fun c => c != 0 && c != PERCENT)) _ rfl
    rwa [hsplit] at this
  · induction fmt with
    | nil => rfl
    | cons c l ih =>
      by_cases h0 : c = 0
      · simp [h0, cstr_cons, List.takeWhile_cons, List.dropWhile_cons]
      · by_cases hp : c = PERCENT
        · simp [hp, List.takeWhile_cons, List.dropWhile_cons]
        · have := ih (List.takeWhile_append_dropWhile _ l)
          simp [h0, hp, cstr_cons, List.takeWhile_cons, List.dropWhile_cons, this]
  · intro c hc
    have := List.mem_takeWhile_imp hc
    simp only [Bool.and_eq_true, bne_iff_ne, ne_eq] at this
    exact this.2

/-- What the scan stops at is empty or starts with NUL or `%`. -/
theorem scan_stop (fmt : List Byte) (c : Byte) (tl : List Byte)
    (h : fmt.dropWhile (fun c => c != 0 && c != PERCENT) = c :: tl) : c = 0 ∨ c = PERCENT := by
  have := List.head_dropWhile_not (fun c => c != 0 && c != PERCENT) fmt (by rw [h]; simp)
  simp only [h, List.head_cons, Bool.and_eq_true, bne_iff_ne, ne_eq, not_and,
    Bool.not_eq_true, Bool.and_eq_false_imp, Decidable.not_not] at this
  by_cases h0 : c = 0
  · exact Or.inl h0
  · right
    have := this
    simp_all

/-- With enough passes the loop of `keyword_printf` ends, and it has appended to
the value the reference format of the template, the C string at `fmt`. -/
theorem keyword_printf_loop_eq (h : keyword_helpers) (rev url : Option (List Byte)) (date : Int)
    (author : Option (List Byte)) :
    ∀ (fuel : Nat) (fmt value : List Byte), strlen fmt < fuel →
      keyword_printf_loop h rev url date author fuel fmt value
        = some (value ++ reference_format h rev url date author (cstr fmt))
  | 0, _, _, hlt => absurd hlt (Nat.not_lt_zero _)
  | fuel + 1, fmt, value, hlt => by
    obtain ⟨htake, hdrop, hcstr, hrun⟩ := scan_split fmt
    have hval : (if (fmt.takeWhile (fun c => c != 0 && c != PERCENT)).length > 0
        then value ++ fmt.take (fmt.takeWhile (fun c => c != 0 && c != PERCENT)).length
        else value) = value ++ fmt.takeWhile (fun c => c != 0 && c != PERCENT) := by
      split_ifs with hn
      · rw [htake]
      · have : fmt.takeWhile (fun c => c != 0 && c != PERCENT) = [] :=
          List.length_eq_zero.mp (by omega)
        rw [this, List.append_nil]
    unfold keyword_printf_loop
    simp only [hval, hdrop]
    rw [hcstr, reference_format_run _ _ _ _ _ _ _ hrun]
    have hlen : strlen fmt = (fmt.takeWhile (fun c => c != 0 && c != PERCENT)).length
        + strlen (fmt.dropWhile (fun c => c != 0 && c != PERCENT)) := by
      unfold strlen
      rw [hcstr, List.length_append]
    generalize fmt.takeWhile (fun c => c != 0 && c != PERCENT) = run at *
    rcases hcur : fmt.dropWhile (fun c => c != 0 && c != PERCENT) with _ | ⟨c, tl⟩
    · simp [cstr_nil, reference_format]
    · rw [hcur] at hlen
      rcases scan_stop fmt c tl hcur with h0 | hp
      · subst h0
        simp [cstr_cons, reference_format]
      · subst hp
        have hP : PERCENT ≠ 0 := by decide
        simp only [List.getD_cons_zero, hP, if_false, List.getD_cons_succ, List.drop_succ_cons,
          List.drop_zero, List.take_succ_cons, List.take_zero]
        have hsP : ∀ l : List Byte, strlen (PERCENT :: l) = strlen l + 1 := by
          intro l
          simp [strlen, cstr_cons, hP]
        rw [hsP] at hlen
        rcases tl with _ | ⟨x, rest⟩
        · have ih := fun v => keyword_printf_loop_eq h rev url date author fuel [] v
            (by simp only [strlen, cstr_nil, List.length_nil]; omega)
          simp [ih, cstr_cons, cstr_nil, reference_format, hP, PERCENT]
        · by_cases hx : x = 0
          · subst hx
            have ih := fun v => keyword_printf_loop_eq h rev url date author fuel (0 :: rest) v
              (by simp only [strlen, cstr_cons, if_true, List.length_nil]; omega)
            simp [ih, cstr_cons, cstr_nil, reference_format, hP, PERCENT]
          · have hsx : strlen (x :: rest) = strlen rest + 1 := by
              simp [strlen, cstr_cons, hx]
            rw [hsx] at hlen
            have ih := fun v => keyword_printf_loop_eq h rev url date author fuel rest v
              (by omega)
            simp only [List.getD_cons_zero, List.drop_succ_cons, List.drop_zero, ih,
              List.take_succ_cons, List.take_zero, cstr_cons, hP, hx, if_false,
              reference_format, if_true, format_code]
            by_cases h1 : x = 0x61
            · subst h1
              cases author <;> simp
            by_cases h2 : x = 0x62
            · subst h2
              cases url <;> simp
            by_cases h3 : x = 0x64
            · subst h3
              by_cases hd : date = 0 <;> simp [hd]
            by_cases h4 : x = 0x44
            · subst h4
              by_cases hd : date = 0 <;> simp [hd]
            by_cases h5 : x = 0x72
            · subst h5
              cases rev <;> simp
            by_cases h6 : x = 0x75
            · subst h6
              cases url <;> simp
            by_cases h7 : x = PERCENT
            · subst h7
              simp [PERCENT]
            simp [h1, h2, h3, h4, h5, h6, h7, hx]

/-- The function `keyword_printf` returns the reference format of the template. -/
theorem keyword_printf_eq (h : keyword_helpers) (fmt : List Byte)
    (rev url : Option (List Byte)) (date : Int) (author : Option (List Byte)) :
    keyword_printf h fmt rev url date author
      = some (reference_format h rev url date author (cstr fmt)) := by
  unfold keyword_printf
  rw [keyword_printf_loop_eq h rev url date author _ fmt [] (Nat.lt_succ_self _)]
  rfl

/-- C23: `keyword_printf` returns on every template, and what it returns is the
reference format of the template (the bytes at `fmt` up to the first NUL): bytes
other than `%` copied, `%` and the byte after it replaced by what the code stands
for, a last `%` copied. What the memory holds after the NUL that ends the
template has no part in the result. -/
theorem keyword_printf_eq_reference (h : keyword_helpers) (fmt : List Byte)
    (rev url : Option (List Byte)) (date : Int) (author : Option (List Byte))
    (rest : List Byte) :
    keyword_printf h fmt rev url date author
      = some (reference_format h rev url date author (cstr fmt)) ∧
    keyword_printf h (cstr fmt ++ 0 :: rest) rev url date author
      = some (reference_format h rev url date author (cstr fmt)) := by
  have hc : cstr (cstr fmt ++ 0 :: rest) = cstr fmt := by
    unfold cstr
    have hp : ∀ c ∈ List.takeWhile (fun c : Byte => c != 0) fmt, (fun c : Byte => c != 0) c = true :=
      fun c hc => @List.mem_takeWhile_imp _ (fun c : Byte => c != 0) fmt c hc
    rw [List.takeWhile_append_of_pos hp]
    simp
  refine ⟨keyword_printf_eq h fmt rev url date author, ?_⟩
  rw [keyword_printf_eq, hc]

/-! ## The keyword set builder -/

/-- A lookup of a key other than the one filtered out. -/
theorem lookup_filter_ne (kw : apr_hash_t) (k key : List Byte) (hk : key ≠ k) :
    List.lookup key (kw.filter (fun p => p.1 != k)) = List.lookup key kw := by
  induction kw with
  | nil => rfl
  | cons p kw ih =>
    rcases p with ⟨a, b⟩
    by_cases ha : a = k
    · subst ha
      have : (key == a) = false := by simpa using hk
      simp [List.filter_cons, List.lookup_cons, this, ih]
    · by_cases hka : key = a
      · subst hka
        simp [List.filter_cons, List.lookup_cons, ha]
      · have : (key == a) = false := by simpa using hka
        simp [List.filter_cons, List.lookup_cons, ha, this, ih]

/-- A lookup in a hash after `apr_hash_set`. -/
theorem apr_hash_get_set (kw : apr_hash_t) (k v key : List Byte) :
    apr_hash_get (apr_hash_set kw k v) key
      = if cstr key = cstr k then some v else apr_hash_get kw key := by
  unfold apr_hash_get apr_hash_set
  by_cases hk : cstr key = cstr k
  · simp [hk, List.lookup_cons]
  · have hne : (cstr key == cstr k) = false := by simpa using hk
    rw [List.lookup_cons, hne, if_neg hk]
    exact lookup_filter_ne kw _ _ hk

/-- The tokens of a NUL-free string are NUL-free. -/
theorem split_tokens_no_nul (seps : List Byte) :
    ∀ (rest cur : List Byte), (0 : Byte) ∉ cur → (0 : Byte) ∉ rest →
      ∀ tok ∈ split_tokens seps cur rest, (0 : Byte) ∉ tok
  | [], cur, hc, _, tok, ht => by
    unfold split_tokens at ht
    split_ifs at ht with h
    · cases ht
    · rw [List.mem_singleton] at ht
      rw [ht]; exact hc
  | c :: rest, cur, hc, hr, tok, ht => by
    have hr1 : (0 : Byte) ∉ rest := fun h0 => hr (List.mem_cons_of_mem _ h0)
    have hc0 : c ≠ 0 := fun h0 => hr (h0 ▸ List.mem_cons_self _ _)
    unfold split_tokens at ht
    split_ifs at ht with h1 h2
    · exact split_tokens_no_nul seps rest [] (List.not_mem_nil _) hr1 tok ht
    · rcases List.mem_cons.mp ht with h | h
      · rw [h]; exact hc
      · exact split_tokens_no_nul seps rest [] (List.not_mem_nil _) hr1 tok h
    · refine split_tokens_no_nul seps rest (cur ++ [c]) ?_ hr1 tok ht
      intro h0
      rcases List.mem_append.mp h0 with h | h
      · exact hc h
      · rw [List.mem_singleton] at h
        exact hc0 h.symm

/-- The tokens of a keyword list hold no NUL. -/
theorem svn_cstring_split_no_nul (input seps : List Byte) :
    ∀ tok ∈ svn_cstring_split input seps, (0 : Byte) ∉ tok := by
  intro tok ht
  refine split_tokens_no_nul seps (cstr input) [] (List.not_mem_nil _) ?_ tok ht
  intro h0
  have := @List.mem_takeWhile_imp _ (fun c : Byte => c != 0) input 0 h0
  simp at this

theorem tolower_eq_zero (c : Byte) : tolower c = 0 ↔ c = 0 := by
  unfold tolower
  split_ifs with h
  · constructor
    · intro h1
      simp at h1
    · intro h1
      subst h1
      simp at h
  · rfl

theorem map_tolower_no_nul (l : List Byte) (h : (0 : Byte) ∉ l) :
    (0 : Byte) ∉ l.map tolower := by
  intro h0
  rcases List.mem_map.mp h0 with ⟨c, hc, hc0⟩
  rw [tolower_eq_zero] at hc0
  exact h (hc0 ▸ hc)

/-- On strings without NUL, `strcmp` is zero exactly for equal strings. -/
theorem strcmp_eq_zero_no_nul (a b : List Byte) (ha : (0 : Byte) ∉ a) (hb : (0 : Byte) ∉ b) :
    strcmp a b = 0 ↔ a = b := by
  rw [strcmp_eq_zero_iff, cstr_of_no_nul a ha, cstr_of_no_nul b hb]

/-- On strings without NUL, `strcasecmp` is zero exactly for strings that are
equal once every letter is made lower case. -/
theorem strcasecmp_eq_zero_no_nul (a b : List Byte) (ha : (0 : Byte) ∉ a)
    (hb : (0 : Byte) ∉ b) :
    strcasecmp a b = 0 ↔ a.map tolower = b.map tolower := by
  unfold strcasecmp
  exact strcmp_eq_zero_no_nul _ _ (map_tolower_no_nul a ha) (map_tolower_no_nul b hb)

/-- The aliases hold no NUL. -/
theorem aliases_no_nul (g : keyword_group) : ∀ a ∈ g.aliases, (0 : Byte) ∉ a := by
  cases g <;> decide

/-- The lower-case forms of the aliases of two keywords differ. -/
theorem aliases_disjoint (g g' : keyword_group) (hne : g ≠ g') :
    ∀ a ∈ g.aliases, ∀ a' ∈ g'.aliases, a.map tolower ≠ a'.map tolower := by
  cases g <;> cases g' <;> first | exact absurd rfl hne | decide

/-- A token that matches a keyword is, in lower case, one of its aliases in lower
case. -/
theorem matches_lower (g : keyword_group) (tok : List Byte) (h : g.matches tok = true) :
    ∃ a ∈ g.aliases, a.map tolower = tok.map tolower := by
  unfold keyword_group.matches at h
  rw [Bool.or_eq_true, decide_eq_true_eq, decide_eq_true_eq] at h
  rcases h with h | h
  · exact ⟨tok, List.mem_of_mem_dropLast h, rfl⟩
  · rcases hl : g.aliases.getLast? with _ | a
    · rw [hl] at h; cases h
    · rw [hl] at h
      simp only [Option.map_some', Option.some.injEq] at h
      exact ⟨a, List.mem_of_mem_getLast? (Option.mem_def.mpr hl), h⟩

/-- A token matches at most one keyword. -/
theorem matches_unique (g g' : keyword_group) (tok : List Byte) (h : g.matches tok = true)
    (h' : g'.matches tok = true) : g = g' := by
  by_contra hne
  obtain ⟨a, ha, hal⟩ := matches_lower g tok h
  obtain ⟨a', ha', hal'⟩ := matches_lower g' tok h'
  exact aliases_disjoint g g' hne a ha a' ha' (hal.trans hal'.symm)

/-- The first keyword matched is the keyword matched. -/
theorem first_group_eq (g : keyword_group) (tok : List Byte) (h : g.matches tok = true) :
    first_group tok = some g := by
  have hu := fun g' => matches_unique g g' tok h
  unfold first_group keyword_groups
  cases g <;> simp only [List.find?_cons, List.find?_nil] <;> simp only [h] <;>
    (repeat' split) <;> first
      | rfl
      | (rename_i h1; exact absurd (hu _ h1) (by decide))

/-- A token that matches no keyword has no first keyword. -/
theorem first_group_none (tok : List Byte) (h : ∀ g : keyword_group, g.matches tok = false) :
    first_group tok = none := by
  unfold first_group keyword_groups
  simp only [List.find?_cons, List.find?_nil, h]

/-- The tests of a token in `svn_subst_build_keywords2`, in the words of the
specification. -/
theorem matches_code (tok : List Byte) (h0 : (0 : Byte) ∉ tok) :
    ((strcmp tok SVN_KEYWORD_REVISION_LONG = 0 ∨ strcmp tok SVN_KEYWORD_REVISION_MEDIUM = 0
        ∨ strcasecmp tok SVN_KEYWORD_REVISION_SHORT = 0)
      ↔ keyword_group.Revision.matches tok = true) ∧
    ((strcmp tok SVN_KEYWORD_DATE_LONG = 0 ∨ strcasecmp tok SVN_KEYWORD_DATE_SHORT = 0)
      ↔ keyword_group.Date.matches tok = true) ∧
    ((strcmp tok SVN_KEYWORD_AUTHOR_LONG = 0 ∨ strcasecmp tok SVN_KEYWORD_AUTHOR_SHORT = 0)
      ↔ keyword_group.Author.matches tok = true) ∧
    ((strcmp tok SVN_KEYWORD_URL_LONG = 0 ∨ strcasecmp tok SVN_KEYWORD_URL_SHORT = 0)
      ↔ keyword_group.URL.matches tok = true) ∧
    (strcasecmp tok SVN_KEYWORD_ID = 0 ↔ keyword_group.Id.matches tok = true) := by
  have hs : ∀ a : List Byte, (0 : Byte) ∉ a → (strcmp tok a = 0 ↔ tok = a) :=
    fun a ha => strcmp_eq_zero_no_nul tok a h0 ha
  have hc : ∀ a : List Byte, (0 : Byte) ∉ a →
      (strcasecmp tok a = 0 ↔ tok.map tolower = a.map tolower) :=
    fun a ha => strcasecmp_eq_zero_no_nul tok a h0 ha
  have hR : keyword_group.Revision.matches tok
      = (decide (tok ∈ [SVN_KEYWORD_REVISION_LONG, SVN_KEYWORD_REVISION_MEDIUM])
        || decide (some (SVN_KEYWORD_REVISION_SHORT.map tolower) = some (tok.map tolower))) := rfl
  have hD : keyword_group.Date.matches tok
      = (decide (tok ∈ [SVN_KEYWORD_DATE_LONG])
        || decide (some (SVN_KEYWORD_DATE_SHORT.map tolower) = some (tok.map tolower))) := rfl
  have hA : keyword_group.Author.matches tok
      = (decide (tok ∈ [SVN_KEYWORD_AUTHOR_LONG])
        || decide (some (SVN_KEYWORD_AUTHOR_SHORT.map tolower) = some (tok.map tolower))) := rfl
  have hU : keyword_group.URL.matches tok
      = (decide (tok ∈ [SVN_KEYWORD_URL_LONG])
        || decide (some (SVN_KEYWORD_URL_SHORT.map tolower) = some (tok.map tolower))) := rfl
  have hI : keyword_group.Id.matches tok
      = (decide (tok ∈ ([] : List (List Byte)))
        || decide (some (SVN_KEYWORD_ID.map tolower) = some (tok.map tolower))) := rfl
  refine ⟨?_, ?_, ?_, ?_, ?_⟩
  · rw [hs _ (by decide), hs _ (by decide), hc _ (by decide), hR]
    simp only [Bool.or_eq_true, decide_eq_true_eq, List.mem_cons, List.mem_singleton,
      Option.some.injEq, List.not_mem_nil, or_false]
    constructor
    · rintro (h | h | h)
      · exact Or.inl (Or.inl h)
      · exact Or.inl (Or.inr h)
      · exact Or.inr h.symm
    · rintro ((h | h) | h)
      · exact Or.inl h
      · exact Or.inr (Or.inl h)
      · exact Or.inr (Or.inr h.symm)
  · rw [hs _ (by decide), hc _ (by decide), hD]
    simp only [Bool.or_eq_true, decide_eq_true_eq, List.mem_singleton, Option.some.injEq]
    exact or_congr Iff.rfl eq_comm
  · rw [hs _ (by decide), hc _ (by decide), hA]
    simp only [Bool.or_eq_true, decide_eq_true_eq, List.mem_singleton, Option.some.injEq]
    exact or_congr Iff.rfl eq_comm
  · rw [hs _ (by decide), hc _ (by decide), hU]
    simp only [Bool.or_eq_true, decide_eq_true_eq, List.mem_singleton, Option.some.injEq]
    exact or_congr Iff.rfl eq_comm
  · rw [hc _ (by decide), hI]
    simp only [Bool.or_eq_true, decide_eq_true_eq, List.not_mem_nil, false_or,
      Option.some.injEq]
    exact eq_comm

/-- One pass of the loop of `svn_subst_build_keywords2`: the token is skipped, or
the aliases of the keyword it matches are bound to the format of its template. -/
theorem svn_subst_build_keywords2_loop_cons (h : keyword_helpers) (rev url : Option (List Byte))
    (date : Int) (author : Option (List Byte)) (tok : List Byte) (rest : List (List Byte))
    (kw : apr_hash_t) (h0 : (0 : Byte) ∉ tok) :
    svn_subst_build_keywords2_loop h rev url date author (tok :: rest) kw =
      match first_group tok with
      | some g =>
        (keyword_printf h g.template rev url date author).bind
          (fun v => svn_subst_build_keywords2_loop h rev url date author rest (set_group g v kw))
      | none => svn_subst_build_keywords2_loop h rev url date author rest kw := by
  obtain ⟨mR, mD, mA, mU, mI⟩ := matches_code tok h0
  rw [svn_subst_build_keywords2_loop]
  simp only [mR, mD, mA, mU, mI]
  by_cases hR : keyword_group.Revision.matches tok = true
  · rw [first_group_eq _ tok hR, if_pos hR]
    show _ = (keyword_printf h (ascii "%r") rev url date author).bind _
    cases keyword_printf h (ascii "%r") rev url date author <;> rfl
  rw [if_neg hR]
  by_cases hD : keyword_group.Date.matches tok = true
  · rw [first_group_eq _ tok hD, if_pos hD]
    show _ = (keyword_printf h (ascii "%D") rev url date author).bind _
    cases keyword_printf h (ascii "%D") rev url date author <;> rfl
  rw [if_neg hD]
  by_cases hA : keyword_group.Author.matches tok = true
  · rw [first_group_eq _ tok hA, if_pos hA]
    show _ = (keyword_printf h (ascii "%a") rev url date author).bind _
    cases keyword_printf h (ascii "%a") rev url date author <;> rfl
  rw [if_neg hA]
  by_cases hU : keyword_group.URL.matches tok = true
  · rw [first_group_eq _ tok hU, if_pos hU]
    show _ = (keyword_printf h (ascii "%u") rev url date author).bind _
    cases keyword_printf h (ascii "%u") rev url date author <;> rfl
  rw [if_neg hU]
  by_cases hI : keyword_group.Id.matches tok = true
  · rw [first_group_eq _ tok hI, if_pos hI]
    show _ = (keyword_printf h (ascii "%b %r %d %a") rev url date author).bind _
    cases keyword_printf h (ascii "%b %r %d %a") rev url date author <;> rfl
  rw [if_neg hI, first_group_none tok]
  intro g
  cases g
  · simpa using hR
  · simpa using hD
  · simpa using hA
  · simpa using hU
  · simpa using hI

/-- A lookup after the aliases of a keyword were bound to a value. -/
theorem apr_hash_get_set_group (g : keyword_group) (v : List Byte) (kw : apr_hash_t)
    (key : List Byte) :
    apr_hash_get (set_group g v kw) key
      = if cstr key ∈ g.aliases then some v else apr_hash_get kw key := by
  have hc : ∀ a ∈ g.aliases, cstr a = a := fun a ha => cstr_of_no_nul a (aliases_no_nul g a ha)
  unfold set_group
  generalize g.aliases = l at hc
  induction l generalizing kw with
  | nil => simp
  | cons a l ih =>
    rw [List.foldl_cons, ih _ (fun a ha => hc a (List.mem_cons_of_mem _ ha)), apr_hash_get_set,
      hc a (List.mem_cons_self _ _)]
    by_cases h1 : cstr key ∈ l
    · simp [h1]
    · by_cases h2 : cstr key = a
      · simp [h2]
      · simp [h1, h2]

/-- The loop of `svn_subst_build_keywords2` ends, and in the hash it leaves every
alias of a keyword that some token matches is bound to the format of the
template of the keyword; every other key is bound as it was. -/
theorem svn_subst_build_keywords2_loop_spec (h : keyword_helpers) (rev url : Option (List Byte))
    (date : Int) (author : Option (List Byte)) :
    ∀ (toks : List (List Byte)) (kw0 : apr_hash_t), (∀ tok ∈ toks, (0 : Byte) ∉ tok) →
      ∃ kw, svn_subst_build_keywords2_loop h rev url date author toks kw0 = some kw ∧
        (∀ (g : keyword_group) (key : List Byte), cstr key ∈ g.aliases →
          apr_hash_get kw key
            = if toks.any g.matches then keyword_printf h g.template rev url date author
              else apr_hash_get kw0 key) ∧
        (∀ key : List Byte, (∀ g : keyword_group, cstr key ∉ g.aliases) →
          apr_hash_get kw key = apr_hash_get kw0 key)
  | [], kw0, _ => ⟨kw0, rfl, fun _ _ _ => by simp, fun _ _ => rfl⟩
  | tok :: rest, kw0, hn => by
    have h0 : (0 : Byte) ∉ tok := hn tok (List.mem_cons_self _ _)
    have hrest : ∀ t ∈ rest, (0 : Byte) ∉ t := fun t ht => hn t (List.mem_cons_of_mem _ ht)
    rw [svn_subst_build_keywords2_loop_cons h rev url date author tok rest kw0 h0]
    rcases hf : first_group tok with _ | g
    · obtain ⟨kw, hkw, h1, h2⟩ :=
        svn_subst_build_keywords2_loop_spec h rev url date author rest kw0 hrest
      have hno : ∀ g : keyword_group, g.matches tok = false := by
        intro g
        by_contra hg
        rw [first_group_eq g tok (by simpa using hg)] at hf
        cases hf
      refine ⟨kw, hkw, ?_, h2⟩
      intro g key hk
      rw [h1 g key hk, List.any_cons, hno g, Bool.false_or]
    · have hg : g.matches tok = true := by
        have := List.find?_some hf
        exact this
      obtain ⟨kw, hkw, h1, h2⟩ :=
        svn_subst_build_keywords2_loop_spec h rev url date author rest
          (set_group g (reference_format h rev url date author (cstr g.template)) kw0) hrest
      refine ⟨kw, ?_, ?_, ?_⟩
      · simp only [keyword_printf_eq, Option.some_bind]
        exact hkw
      · intro g' key hk
        rw [h1 g' key hk, List.any_cons, apr_hash_get_set_group]
        by_cases hr : rest.any g'.matches = true
        · simp [hr]
        · by_cases hgg : g' = g
          · subst hgg
            simp [hr, hg, hk, keyword_printf_eq]
          · have hm : g'.matches tok = false := by
              by_contra hm
              exact hgg (matches_unique g' g tok (by simpa using hm) hg)
            have hk2 : cstr key ∉ g.aliases := fun hk2 =>
              aliases_disjoint g' g hgg _ hk _ hk2 rfl
            simp [hr, hm, hk2]
      · intro key hk
        rw [h2 key hk, apr_hash_get_set_group, if_neg (hk g)]

/-- The function `svn_subst_build_keywords2` returns, and the hash it builds binds
the aliases of the keywords that a token of the list matches, and nothing else. -/
theorem svn_subst_build_keywords2_spec (h : keyword_helpers) (keywords_val : List Byte)
    (rev url : Option (List Byte)) (date : Int) (author : Option (List Byte)) :
    ∃ kw, svn_subst_build_keywords2 h keywords_val rev url date author
        = some (SVN_NO_ERROR, kw) ∧
      (∀ (g : keyword_group) (key : List Byte), cstr key ∈ g.aliases →
        apr_hash_get kw key
          = if (svn_cstring_split keywords_val keyword_separators).any g.matches
            then keyword_printf h g.template rev url date author else none) ∧
      (∀ key : List Byte, (∀ g : keyword_group, cstr key ∉ g.aliases) →
        apr_hash_get kw key = none) := by
  obtain ⟨kw, hkw, h1, h2⟩ := svn_subst_build_keywords2_loop_spec h rev url date author
    (svn_cstring_split keywords_val keyword_separators) []
    (svn_cstring_split_no_nul keywords_val keyword_separators)
  refine ⟨kw, ?_, h1, h2⟩
  unfold svn_subst_build_keywords2
  rw [hkw]
  rfl

/-- C21: `svn_subst_build_keywords2` returns for every keyword list and every
context, and the set it builds is the reference one: for each of the five
keywords, every alias is bound to the format of the template of the keyword when
some token of the list matches the keyword, and no alias is bound otherwise; a
key that is no alias of a keyword is not bound; so two lists with the same
tokens, in any order and with any repetition, give sets with the same bindings. -/
theorem svn_subst_build_keywords2_reference (h : keyword_helpers) (keywords_val : List Byte)
    (rev url : Option (List Byte)) (date : Int) (author : Option (List Byte)) :
    ∃ kw, svn_subst_build_keywords2 h keywords_val rev url date author
        = some (SVN_NO_ERROR, kw) ∧
      (∀ g : keyword_group, ∀ a ∈ g.aliases,
        apr_hash_get kw a
          = if (svn_cstring_split keywords_val keyword_separators).any g.matches
            then keyword_printf h g.template rev url date author else none) ∧
      (∀ g : keyword_group, keyword_printf h g.template rev url date author
          = some (reference_format h rev url date author g.template)) ∧
      (∀ key : List Byte, (∀ g : keyword_group, cstr key ∉ g.aliases) →
        apr_hash_get kw key = none) ∧
      (∀ (keywords_val2 : List Byte) (kw2 : apr_hash_t),
        (∀ tok, tok ∈ svn_cstring_split keywords_val2 keyword_separators
          ↔ tok ∈ svn_cstring_split keywords_val keyword_separators) →
        svn_subst_build_keywords2 h keywords_val2 rev url date author
          = some (SVN_NO_ERROR, kw2) →
        ∀ key : List Byte, apr_hash_get kw2 key = apr_hash_get kw key) := by
  obtain ⟨kw, hkw, h1, h2⟩ :=
    svn_subst_build_keywords2_spec h keywords_val rev url date author
  refine ⟨kw, hkw, ?_, ?_, h2, ?_⟩
  · intro g a ha
    exact h1 g a (by rw [cstr_of_no_nul a (aliases_no_nul g a ha)]; exact ha)
  · intro g
    rw [keyword_printf_eq]
    cases g <;> rfl
  · intro keywords_val2 kw2 hsame hkw2
    obtain ⟨kw3, hkw3, h3, h4⟩ :=
      svn_subst_build_keywords2_spec h keywords_val2 rev url date author
    rw [hkw2] at hkw3
    simp only [Option.some.injEq, Prod.mk.injEq, true_and] at hkw3
    subst hkw3
    intro key
    by_cases hk : ∃ g : keyword_group, cstr key ∈ g.aliases
    · obtain ⟨g, hg⟩ := hk
      rw [h1 g key hg, h3 g key hg]
      have : (svn_cstring_split keywords_val2 keyword_separators).any g.matches
          = (svn_cstring_split keywords_val keyword_separators).any g.matches := by
        rw [Bool.eq_iff_iff, List.any_eq_true, List.any_eq_true]
        exact ⟨fun ⟨t, ht, hm⟩ => ⟨t, (hsame t).mp ht, hm⟩,
          fun ⟨t, ht, hm⟩ => ⟨t, (hsame t).mpr ht, hm⟩⟩
      rw [this]
    · have hk2 : ∀ g : keyword_group, cstr key ∉ g.aliases := fun g hg => hk ⟨g, hg⟩
      rw [h2 key hk2, h4 key hk2]

/-- A keyword is enabled by a list exactly when some token matches it. -/
theorem group_enabled_iff (h : keyword_helpers) (keywords_val : List Byte)
    (rev url : Option (List Byte)) (date : Int) (author : Option (List Byte))
    (kw : apr_hash_t)
    (hkw : svn_subst_build_keywords2 h keywords_val rev url date author
      = some (SVN_NO_ERROR, kw))
    (g : keyword_group) (a : List Byte) (ha : a ∈ g.aliases) :
    (apr_hash_get kw a).isSome = true
      ↔ ∃ tok ∈ svn_cstring_split keywords_val keyword_separators, g.matches tok = true := by
  obtain ⟨kw1, hkw1, h1, _⟩ :=
    svn_subst_build_keywords2_spec h keywords_val rev url date author
  rw [hkw] at hkw1
  simp only [Option.some.injEq, Prod.mk.injEq, true_and] at hkw1
  subst hkw1
  rw [h1 g a (by rw [cstr_of_no_nul a (aliases_no_nul g a ha)]; exact ha), keyword_printf_eq,
    ← List.any_eq_true]
  by_cases hm : (svn_cstring_split keywords_val keyword_separators).any g.matches = true
  · simp [hm]
  · simp [hm]

/-- A keyword list of one token that matches no keyword gives the empty set. -/
theorem svn_subst_build_keywords2_single_none (h : keyword_helpers) (keywords_val : List Byte)
    (rev url : Option (List Byte)) (date : Int) (author : Option (List Byte))
    (tok : List Byte) (hs : svn_cstring_split keywords_val keyword_separators = [tok])
    (hm : first_group tok = none) :
    svn_subst_build_keywords2 h keywords_val rev url date author
      = some (SVN_NO_ERROR, []) := by
  have h0 : (0 : Byte) ∉ tok :=
    svn_cstring_split_no_nul keywords_val keyword_separators tok (by rw [hs]; simp)
  unfold svn_subst_build_keywords2
  rw [hs, svn_subst_build_keywords2_loop_cons h rev url date author tok [] [] h0, hm]
  rfl

/-- The match of a token with each keyword, spelled out. -/
theorem matches_words (tok : List Byte) :
    (keyword_group.Revision.matches tok = true
      ↔ tok = ascii "LastChangedRevision" ∨ tok = ascii "Revision"
          ∨ tok.map tolower = ascii "rev") ∧
    (keyword_group.Date.matches tok = true
      ↔ tok = ascii "LastChangedDate" ∨ tok.map tolower = ascii "date") ∧
    (keyword_group.Author.matches tok = true
      ↔ tok = ascii "LastChangedBy" ∨ tok.map tolower = ascii "author") ∧
    (keyword_group.URL.matches tok = true
      ↔ tok = ascii "HeadURL" ∨ tok.map tolower = ascii "url") ∧
    (keyword_group.Id.matches tok = true ↔ tok.map tolower = ascii "id") := by
  have hR : keyword_group.Revision.matches tok
      = (decide (tok ∈ [ascii "LastChangedRevision", ascii "Revision"])
        || decide (some (ascii "rev") = some (tok.map tolower))) := rfl
  have hD : keyword_group.Date.matches tok
      = (decide (tok ∈ [ascii "LastChangedDate"])
        || decide (some (ascii "date") = some (tok.map tolower))) := rfl
  have hA : keyword_group.Author.matches tok
      = (decide (tok ∈ [ascii "LastChangedBy"])
        || decide (some (ascii "author") = some (tok.map tolower))) := rfl
  have hU : keyword_group.URL.matches tok
      = (decide (tok ∈ [ascii "HeadURL"])
        || decide (some (ascii "url") = some (tok.map tolower))) := rfl
  have hI : keyword_group.Id.matches tok
      = (decide (tok ∈ ([] : List (List Byte)))
        || decide (some (ascii "id") = some (tok.map tolower))) := rfl
  refine ⟨?_, ?_, ?_, ?_, ?_⟩
  · rw [hR]
    simp only [Bool.or_eq_true, decide_eq_true_eq, List.mem_cons, List.mem_singleton,
      Option.some.injEq, List.not_mem_nil, or_false]
    constructor
    · rintro ((h | h) | h)
      · exact Or.inl h
      · exact Or.inr (Or.inl h)
      · exact Or.inr (Or.inr h.symm)
    · rintro (h | h | h)
      · exact Or.inl (Or.inl h)
      · exact Or.inl (Or.inr h)
      · exact Or.inr h.symm
  · rw [hD]
    simp only [Bool.or_eq_true, decide_eq_true_eq, List.mem_singleton, Option.some.injEq]
    exact or_congr Iff.rfl eq_comm
  · rw [hA]
    simp only [Bool.or_eq_true, decide_eq_true_eq, List.mem_singleton, Option.some.injEq]
    exact or_congr Iff.rfl eq_comm
  · rw [hU]
    simp only [Bool.or_eq_true, decide_eq_true_eq, List.mem_singleton, Option.some.injEq]
    exact or_congr Iff.rfl eq_comm
  · rw [hI]
    simp only [Bool.or_eq_true, decide_eq_true_eq, List.not_mem_nil, false_or,
      Option.some.injEq]
    exact eq_comm

/-- C22: in the set that `svn_subst_build_keywords2` builds, a keyword is enabled
exactly when some token of the list equals a long or medium alias of it byte for
byte, or equals its short alias once the letters of both are made lower case.
So the lists `rev` and `ID` enable Revision and Id, and the lists `revision` and
`headurl` give the empty set. -/
theorem svn_subst_build_keywords2_alias_case (h : keyword_helpers) (keywords_val : List Byte)
    (rev url : Option (List Byte)) (date : Int) (author : Option (List Byte)) :
    (∃ kw, svn_subst_build_keywords2 h keywords_val rev url date author
        = some (SVN_NO_ERROR, kw) ∧
      (((apr_hash_get kw (ascii "Rev")).isSome = true
        ↔ ∃ tok ∈ svn_cstring_split keywords_val keyword_separators,
            tok = ascii "LastChangedRevision" ∨ tok = ascii "Revision"
              ∨ tok.map tolower = ascii "rev")) ∧
      (((apr_hash_get kw (ascii "Date")).isSome = true
        ↔ ∃ tok ∈ svn_cstring_split keywords_val keyword_separators,
            tok = ascii "LastChangedDate" ∨ tok.map tolower = ascii "date")) ∧
      (((apr_hash_get kw (ascii "Author")).isSome = true
        ↔ ∃ tok ∈ svn_cstring_split keywords_val keyword_separators,
            tok = ascii "LastChangedBy" ∨ tok.map tolower = ascii "author")) ∧
      (((apr_hash_get kw (ascii "URL")).isSome = true
        ↔ ∃ tok ∈ svn_cstring_split keywords_val keyword_separators,
            tok = ascii "HeadURL" ∨ tok.map tolower = ascii "url")) ∧
      (((apr_hash_get kw (ascii "Id")).isSome = true
        ↔ ∃ tok ∈ svn_cstring_split keywords_val keyword_separators,
            tok.map tolower = ascii "id"))) ∧
    (∃ kw, svn_subst_build_keywords2 h (ascii "rev") rev url date author
        = some (SVN_NO_ERROR, kw) ∧
      (apr_hash_get kw (ascii "Rev")).isSome = true ∧
      (apr_hash_get kw (ascii "Revision")).isSome = true ∧
      (apr_hash_get kw (ascii "LastChangedRevision")).isSome = true) ∧
    (∃ kw, svn_subst_build_keywords2 h (ascii "ID") rev url date author
        = some (SVN_NO_ERROR, kw) ∧
      (apr_hash_get kw (ascii "Id")).isSome = true) ∧
    svn_subst_build_keywords2 h (ascii "revision") rev url date author
      = some (SVN_NO_ERROR, []) ∧
    svn_subst_build_keywords2 h (ascii "headurl") rev url date author
      = some (SVN_NO_ERROR, []) := by
  refine ⟨?_, ?_, ?_, ?_, ?_⟩
  · obtain ⟨kw, hkw, _⟩ := svn_subst_build_keywords2_spec h keywords_val rev url date author
    have he := group_enabled_iff h keywords_val rev url date author kw hkw
    refine ⟨kw, hkw, ?_, ?_, ?_, ?_, ?_⟩
    · rw [he keyword_group.Revision (ascii "Rev") (by decide)]
      exact exists_congr (fun tok => and_congr Iff.rfl (matches_words tok).1)
    · rw [he keyword_group.Date (ascii "Date") (by decide)]
      exact exists_congr (fun tok => and_congr Iff.rfl (matches_words tok).2.1)
    · rw [he keyword_group.Author (ascii "Author") (by decide)]
      exact exists_congr (fun tok => and_congr Iff.rfl (matches_words tok).2.2.1)
    · rw [he keyword_group.URL (ascii "URL") (by decide)]
      exact exists_congr (fun tok => and_congr Iff.rfl (matches_words tok).2.2.2.1)
    · rw [he keyword_group.Id (ascii "Id") (by decide)]
      exact exists_congr (fun tok => and_congr Iff.rfl (matches_words tok).2.2.2.2)
  · obtain ⟨kw, hkw, _⟩ := svn_subst_build_keywords2_spec h (ascii "rev") rev url date author
    have he := group_enabled_iff h (ascii "rev") rev url date author kw hkw
      keyword_group.Revision
    refine ⟨kw, hkw, ?_, ?_, ?_⟩ <;>
      exact (he _ (by decide)).mpr ⟨ascii "rev", by decide, by decide⟩
  · obtain ⟨kw, hkw, _⟩ := svn_subst_build_keywords2_spec h (ascii "ID") rev url date author
    have he := group_enabled_iff h (ascii "ID") rev url date author kw hkw
      keyword_group.Id
    exact ⟨kw, hkw, (he _ (by decide)).mpr ⟨ascii "ID", by decide, by decide⟩⟩
  · exact svn_subst_build_keywords2_single_none h _ rev url date author (ascii "revision")
      (by decide) (by decide)
  · exact svn_subst_build_keywords2_single_none h _ rev url date author (ascii "headurl")
      (by decide) (by decide)

/-! ## Files -/

/-- A lookup of a path other than the one filtered out. -/
theorem lookup_fs_filter (fs : filesystem) (p q : List Byte) (hq : q ≠ p) :
    List.lookup q (fs.filter (fun x => x.1 != p)) = List.lookup q fs := by
  induction fs with
  | nil => rfl
  | cons x fs ih =>
    rcases x with ⟨a, b⟩
    by_cases ha : a = p
    · subst ha
      have : (q == a) = false := by simpa using hq
      simp [List.filter_cons, List.lookup_cons, this, ih]
    · by_cases hqa : q = a
      · subst hqa
        simp [List.filter_cons, List.lookup_cons, ha]
      · have : (q == a) = false := by simpa using hqa
        simp [List.filter_cons, List.lookup_cons, ha, this, ih]

/-- A lookup after a node was put at a path. -/
theorem lookup_fs_put (fs : filesystem) (p q : List Byte) (n : fs_node) :
    (fs_put fs p n).lookup q = if q = p then some n else fs.lookup q := by
  unfold fs_put
  by_cases hq : q = p
  · simp [hq, List.lookup_cons]
  · have hne : (q == p) = false := by simpa using hq
    rw [List.lookup_cons, hne, if_neg hq]
    exact lookup_fs_filter fs p q hq

/-- The identifier that the loop of `create_special_file` separates off is made of
the bytes before the first space or NUL. -/
theorem separate_identifier_fst (contents : List Byte) :
    (separate_identifier contents).1
      = contents.takeWhile (fun c => c != SVN_UTF8_SPACE && c != 0) := by
  induction contents with
  | nil => rfl
  | cons c rest ih =>
    unfold separate_identifier
    by_cases h0 : c = 0
    · simp [h0, List.takeWhile_cons]
    · by_cases hs : c = SVN_UTF8_SPACE
      · simp [hs, List.takeWhile_cons, SVN_UTF8_SPACE]
      · simp [h0, hs, List.takeWhile_cons, ih]

/-- The identifier holds no NUL. -/
theorem separate_identifier_no_nul (contents : List Byte) :
    (0 : Byte) ∉ (separate_identifier contents).1 := by
  rw [separate_identifier_fst]
  intro h0
  have := @List.mem_takeWhile_imp _ (fun c : Byte => c != SVN_UTF8_SPACE && c != 0) contents 0 h0
  simp at this

/-- The sidecar of a link is separated into `link` and the target. -/
theorem separate_identifier_link (T : List Byte) (hT : (0 : Byte) ∉ T) :
    separate_identifier (LINK_SPACE_STR ++ T) = (SVN_SUBST__SPECIAL_LINK_STR, T) := by
  simp [separate_identifier, LINK_SPACE_STR, SVN_SUBST__SPECIAL_LINK_STR, SVN_UTF8_SPACE,
    cstr_of_no_nul T hT]

/-- C29: a symbolic link at `src` with the target `T`, which holds no NUL, is
detranslated to a file at `dst` that holds exactly `link`, a space and `T`; the
loop of `create_special_file` separates these bytes at the first space into the
identifier `link` and the remainder `T`; and on a host that can make symbolic
links, materializing the file at `dst` makes a link with the target `T`. The
path picked for the temporary file of the detranslation is one that does not
exist yet. -/
theorem special_file_round_trip (h : host) (fs : filesystem) (src dst dst2 T : List Byte)
    (hT : (0 : Byte) ∉ T) (hsrc : fs.lookup src = some (fs_node.link T))
    (hfresh : fs.lookup (h.unique_path fs dst DOT_TMP_STR) = none)
    (hsym : h.HAVE_SYMLINK = true) :
    ∃ fs1 fs2,
      detranslate_special_file h fs src dst = (none, fs1) ∧
      fs1.lookup dst = some (fs_node.file (ascii "link " ++ T)) ∧
      separate_identifier (ascii "link " ++ T) = (ascii "link", T) ∧
      create_special_file h fs1 dst dst2 = (none, fs2) ∧
      fs2.lookup dst2 = some (fs_node.link T) := by
  have hne : src ≠ h.unique_path fs dst DOT_TMP_STR := by
    intro he
    rw [← he, hsrc] at hfresh
    cases hfresh
  have hd : detranslate_special_file h fs src dst
      = (none, fs_put (fs_del (fs_put (fs_put fs (h.unique_path fs dst DOT_TMP_STR)
          (fs_node.file [])) (h.unique_path fs dst DOT_TMP_STR)
          (fs_node.file (LINK_SPACE_STR ++ T))) (h.unique_path fs dst DOT_TMP_STR)) dst
          (fs_node.file (LINK_SPACE_STR ++ T))) := by
    simp only [detranslate_special_file, svn_io_stat, hsrc, svn_io_open_unique_file2,
      svn_io_read_link, lookup_fs_put, if_neg hne, cstr_of_no_nul T hT, svn_io_file_rename,
      if_true]
  have hl : (fs_put (fs_del (fs_put (fs_put fs (h.unique_path fs dst DOT_TMP_STR)
      (fs_node.file [])) (h.unique_path fs dst DOT_TMP_STR)
      (fs_node.file (LINK_SPACE_STR ++ T))) (h.unique_path fs dst DOT_TMP_STR)) dst
      (fs_node.file (LINK_SPACE_STR ++ T))).lookup dst
      = some (fs_node.file (LINK_SPACE_STR ++ T)) := by
    rw [lookup_fs_put, if_pos rfl]
  generalize fs_put (fs_del (fs_put (fs_put fs (h.unique_path fs dst DOT_TMP_STR)
      (fs_node.file [])) (h.unique_path fs dst DOT_TMP_STR)
      (fs_node.file (LINK_SPACE_STR ++ T))) (h.unique_path fs dst DOT_TMP_STR)) dst
      (fs_node.file (LINK_SPACE_STR ++ T)) = fs1 at hd hl
  have hs : strcmp SVN_SUBST__SPECIAL_LINK_STR SVN_SUBST__SPECIAL_LINK_STR = 0 := by decide
  have hc : create_special_file h fs1 dst dst2
      = (none, fs_put (fs_del (fs_put fs1 (h.unique_path fs1 dst2 DOT_TMP_STR) (fs_node.link T))
          (h.unique_path fs1 dst2 DOT_TMP_STR)) dst2 (fs_node.link T)) := by
    simp only [create_special_file, svn_io_check_special_path, hl, read_file,
      separate_identifier_link T hT, hs, svn_io_create_unique_link, hsym, if_true,
      svn_io_file_rename, lookup_fs_put, cstr_of_no_nul T hT, Bool.false_eq_true, if_false]
  refine ⟨fs1, _, hd, hl, separate_identifier_link T hT, hc, ?_⟩
  rw [lookup_fs_put, if_pos rfl]

/-- Witness for C29: a link to `/etc/hosts`. -/
theorem special_file_round_trip_witness :
    ∃ fs1 fs2,
      detranslate_special_file ⟨true, fun _ p s => p ++ s, id⟩
          [(ascii "a", fs_node.link (ascii "/etc/hosts"))] (ascii "a") (ascii "b")
        = (none, fs1) ∧
      fs1.lookup (ascii "b") = some (fs_node.file (ascii "link " ++ ascii "/etc/hosts")) ∧
      separate_identifier (ascii "link " ++ ascii "/etc/hosts")
        = (ascii "link", ascii "/etc/hosts") ∧
      create_special_file ⟨true, fun _ p s => p ++ s, id⟩ fs1 (ascii "b") (ascii "c")
        = (none, fs2) ∧
      fs2.lookup (ascii "c") = some (fs_node.link (ascii "/etc/hosts")) :=
  special_file_round_trip ⟨true, fun _ p s => p ++ s, id⟩
    [(ascii "a", fs_node.link (ascii "/etc/hosts"))] (ascii "a") (ascii "b") (ascii "c")
    (ascii "/etc/hosts") (by decide) (by decide) (by decide) rfl

/-- C30 as stated fails: on a host that cannot make symbolic links, the file at
`s` holds `link`, a NUL and `x`. It has no space, so its first token is the whole
content, which is not `link`; but the identifier, a C string, ends at the NUL and
is `link`, so `create_special_file` returns without error and a copy of the file
is renamed into the destination `d`. -/
theorem create_special_file_nul_after_link :
    (ascii "link" ++ [0, 0x78]).takeWhile (fun c => c != SVN_UTF8_SPACE)
      = ascii "link" ++ [0, 0x78] ∧
    ascii "link" ++ [0, 0x78] ≠ ascii "link" ∧
    create_special_file ⟨false, fun _ p s => p ++ s, id⟩
        [(ascii "s", fs_node.file (ascii "link" ++ [0, 0x78]))] (ascii "s") (ascii "d")
      = (none, [(ascii "d", fs_node.file (ascii "link" ++ [0, 0x78])),
                (ascii "s", fs_node.file (ascii "link" ++ [0, 0x78]))]) := by
  decide

/-- C30 (amended): the source is a regular file, and the first token of its
content, the bytes before the first space or NUL (the whole content when it has
neither), is not `link`. Then `create_special_file` fails with the code of an
unsupported feature and a message that carries the token, and it leaves the file
system as it was: nothing is renamed into the destination. -/
theorem create_special_file_unknown_kind (h : host) (fs : filesystem) (src dst : List Byte)
    (contents : List Byte) (hsrc : fs.lookup src = some (fs_node.file contents))
    (htok : contents.takeWhile (fun c => c != SVN_UTF8_SPACE && c != 0) ≠ ascii "link") :
    create_special_file h fs src dst
      = (some { apr_err := some SVN_ERR_UNSUPPORTED_FEATURE,
                message := ascii "Unsupported special file type '"
                  ++ contents.takeWhile (fun c => c != SVN_UTF8_SPACE && c != 0)
                  ++ ascii "'" }, fs) := by
  have hs : ¬ strcmp (separate_identifier contents).1 SVN_SUBST__SPECIAL_LINK_STR = 0 := by
    rw [strcmp_eq_zero_no_nul _ _ (separate_identifier_no_nul contents) (by decide),
      separate_identifier_fst]
    exact htok
  rw [separate_identifier_fst] at hs
  simp only [create_special_file, svn_io_check_special_path, hsrc, read_file, if_false,
    Bool.false_eq_true, separate_identifier_fst]
  rw [if_neg hs]

/-- Witness for C30: a file that holds `dir /tmp`. -/
theorem create_special_file_unknown_kind_witness :
    create_special_file ⟨true, fun _ p s => p ++ s, id⟩
        [(ascii "s", fs_node.file (ascii "dir /tmp"))] (ascii "s") (ascii "d")
      = (some { apr_err := some SVN_ERR_UNSUPPORTED_FEATURE,
                message := ascii "Unsupported special file type '"
                  ++ (ascii "dir /tmp").takeWhile (fun c => c != SVN_UTF8_SPACE && c != 0)
                  ++ ascii "'" }, [(ascii "s", fs_node.file (ascii "dir /tmp"))]) :=
  create_special_file_unknown_kind ⟨true, fun _ p s => p ++ s, id⟩
    [(ascii "s", fs_node.file (ascii "dir /tmp"))] (ascii "s") (ascii "d") (ascii "dir /tmp")
    (by decide) (by decide)

/-! ## Translation to normal form -/

/-- The functions of the I/O layer fail with an error of that layer. -/
theorem io_errors (fs : filesystem) (p q : List Byte) (e : svn_error_t) :
    (svn_io_stat fs p = .error e → e = io_error) ∧
    (read_file fs p = .error e → e = io_error) ∧
    (svn_io_read_link fs p = .error e → e = io_error) ∧
    (svn_io_file_rename fs p q = .error e → e = io_error) ∧
    (svn_io_remove_file fs p = .error e → e = io_error) ∧
    (svn_io_copy_file fs p q = .error e → e = io_error) := by
  refine ⟨?_, ?_, ?_, ?_, ?_, ?_⟩ <;> intro h
  · unfold svn_io_stat at h
    split at h <;> simp_all
  · unfold read_file at h
    split at h <;> simp_all
  · unfold svn_io_read_link at h
    split at h <;> simp_all
  · unfold svn_io_file_rename at h
    split at h <;> simp_all
  · unfold svn_io_remove_file at h
    split at h <;> simp_all
  · unfold svn_io_copy_file at h
    split at h
    · cases h
    · rename_i e1 h1
      simp only [Except.error.injEq] at h
      subst h
      unfold read_file at h1
      split at h1 <;> simp_all

/-- An error of `detranslate_special_file` is not the one of an unknown EOL
style. -/
theorem detranslate_special_file_error (h : host) (fs : filesystem) (src dst : List Byte)
    (e : svn_error_t) (fs1 : filesystem)
    (he : detranslate_special_file h fs src dst = (some e, fs1)) :
    e.apr_err ≠ some SVN_ERR_IO_UNKNOWN_EOL := by
  unfold detranslate_special_file at he
  split at he
  · rename_i e0 h0
    simp only [Prod.mk.injEq, Option.some.injEq] at he
    rw [← he.1, (io_errors fs src src e0).1 h0]
    decide
  · rename_i finfo h0
    simp only at he
    split at he
    · rename_i e1 h1
      simp only [Prod.mk.injEq, Option.some.injEq] at he
      rw [← he.1]
      cases finfo with
      | file c =>
        simp only at h1
        rw [(io_errors _ src src e1).2.1 h1]
        decide
      | link t =>
        simp only at h1
        split at h1
        · cases h1
        · rename_i e2 h2
          simp only [Except.error.injEq] at h1
          rw [← h1, (io_errors _ src src e2).2.2.1 h2]
          decide
      | other =>
        simp only [Except.error.injEq] at h1
        rw [← h1]
        decide
    · split at he
      · cases he
      · rename_i e3 h3
        simp only [Prod.mk.injEq, Option.some.injEq] at he
        rw [← he.1, (io_errors _ _ _ e3).2.2.2.1 h3]
        decide

/-- An error of `create_special_file` after the source was read is not the one
of an unknown EOL style. -/
theorem create_special_file_error (h : host) (fs : filesystem) (src dst : List Byte)
    (e : svn_error_t) (fs1 : filesystem)
    (he : create_special_file h fs src dst = (some e, fs1)) :
    e.apr_err ≠ some SVN_ERR_IO_UNKNOWN_EOL := by
  unfold create_special_file at he
  simp only at he
  split at he
  · -- the temporary detranslation failed
    rename_i e0 fs2 _ _ hp
    simp only [Prod.mk.injEq, Option.some.injEq] at he
    rw [← he.1]
    split at hp
    · simp only [Prod.mk.injEq] at hp
      exact detranslate_special_file_error h _ src _ e0 _ (Prod.ext hp.1 rfl)
    · simp only [Prod.mk.injEq] at hp
      cases hp.1
  · rename_i fs2 src2 src_tmp hp
    split at he
    · rename_i e1 h1
      simp only [Prod.mk.injEq, Option.some.injEq] at he
      rw [← he.1, (io_errors _ _ src e1).2.1 h1]
      decide
    · rename_i contents h1
      split at he
      · rename_i e2 h2
        simp only [Prod.mk.injEq, Option.some.injEq] at he
        rw [← he.1]
        split at h2
        · rw [(io_errors _ _ src e2).2.2.2.2.1 h2]
          decide
        · cases h2
      · rename_i fs3 h2
        split at he
        · split at he
          · split at he
            · cases he
            · rename_i e3 h3
              simp only [Prod.mk.injEq, Option.some.injEq] at he
              rw [← he.1, (io_errors _ _ _ e3).2.2.2.1 h3]
              decide
          · rename_i err h3
            unfold svn_io_create_unique_link at h3
            split at h3
            · cases h3
            · simp only [Except.error.injEq] at h3
              subst h3
              simp only [if_true] at he
              split at he
              · split at he
                · cases he
                · rename_i e3 h4
                  simp only [Prod.mk.injEq, Option.some.injEq] at he
                  rw [← he.1, (io_errors _ _ _ e3).2.2.2.1 h4]
                  decide
              · rename_i e3 h4
                simp only [Prod.mk.injEq, Option.some.injEq] at he
                rw [← he.1, (io_errors _ _ _ e3).2.2.2.2.2 h4]
                decide
        · simp only [Prod.mk.injEq, Option.some.injEq] at he
          rw [← he.1]
          simp

/-- The outcome of `svn_subst_translate_stream3` is success or an inconsistent
EOL. -/
theorem svn_subst_translate_stream3_outcome (CHUNK : Nat) (hC : 0 < CHUNK) (s : List Byte)
    (eol_str : Option (List Byte)) (repair : Bool) (keywords : Option apr_hash_t)
    (expand : Bool) (hk : eol_str.isSome ∨ keywords.isSome) (e : Outcome) (d : List Byte)
    (he : svn_subst_translate_stream3 CHUNK s eol_str repair keywords expand = some (e, d)) :
    e = SVN_NO_ERROR ∨ e = SVN_ERR_IO_INCONSISTENT_EOL := by
  rw [svn_subst_translate_stream3_eq CHUNK hC s eol_str repair keywords expand hk] at he
  rcases eol_str with _ | eol
  · rw [translate_stream_kw] at he
    simp only [Option.some.injEq, Prod.mk.injEq] at he
    exact Or.inl he.1.symm
  · obtain ⟨e1, out, h1, h2, _⟩ := translate_stream_eol_outcome eol repair keywords expand [s]
    rw [h1] at he
    simp only [Option.some.injEq, Prod.mk.injEq] at he
    rw [← he.1]
    exact h2

/-- An error of `svn_subst_copy_and_translate3` is not the one of an unknown EOL
style. -/
theorem svn_subst_copy_and_translate3_error (CHUNK : Nat) (hC : 0 < CHUNK) (h : host)
    (fs : filesystem) (src dst : List Byte) (eol_str : Option (List Byte)) (repair : Bool)
    (keywords : Option apr_hash_t) (expand special : Bool) (e : svn_error_t)
    (fs1 : filesystem)
    (he : svn_subst_copy_and_translate3 CHUNK h fs src dst eol_str repair keywords expand
      special = some (some e, fs1)) :
    e.apr_err ≠ some SVN_ERR_IO_UNKNOWN_EOL := by
  unfold svn_subst_copy_and_translate3 at he
  simp only at he
  split at he
  · split at he
    · simp only [Option.some.injEq] at he
      exact create_special_file_error h fs src dst e fs1 he
    · simp only [Option.some.injEq] at he
      exact detranslate_special_file_error h fs src dst e fs1 he
  · split at he
    · split at he
      · simp only [Option.some.injEq, Prod.mk.injEq] at he
        cases he.1
      · rename_i e1 h1
        simp only [Option.some.injEq, Prod.mk.injEq] at he
        rw [← he.1, (io_errors _ _ _ e1).2.2.2.2.2 h1]
        decide
    · rename_i hfast
      have hk : eol_str.isSome ∨ keywords.isSome := by
        rcases eol_str with _ | eol
        · rcases keywords with _ | kw
          · simp at hfast
          · exact Or.inr rfl
        · exact Or.inl rfl
      split at he
      · rename_i e1 h1
        simp only [Option.some.injEq, Prod.mk.injEq] at he
        rw [← he.1, (io_errors _ _ src e1).2.1 h1]
        decide
      · rename_i s h1
        split at he
        · cases he
        · split at he
          · simp only [Option.some.injEq, Prod.mk.injEq] at he
            cases he.1
          · rename_i e1 h2
            simp only [Option.some.injEq, Prod.mk.injEq] at he
            rw [← he.1, (io_errors _ _ _ e1).2.2.2.1 h2]
            decide
        · simp only [Option.some.injEq, Prod.mk.injEq] at he
          rw [← he.1]
          simp
        · rename_i e1 d h2 h3 h4
          simp only [Option.some.injEq, Prod.mk.injEq] at he
          rw [← he.1]
          rcases svn_subst_translate_stream3_outcome CHUNK hC s eol_str repair keywords expand
            hk e1 d h4 with h5 | h5
          · exact absurd h5 h2
          · exact absurd h5 h3

/-- C25: `svn_subst_translate_to_normal_form` with the style `unknown` returns the
error of an unknown EOL style and leaves the file system as it was; with any
other style its result is the result of `svn_subst_copy_and_translate3` run with
keywords contracted, with the target LF when the style is native and the given
target otherwise, and with repair on exactly when the style is fixed or
`always_repair_eols` is set. The error of an unknown EOL style is returned for
the style `unknown` only. -/
theorem svn_subst_translate_to_normal_form_spec (CHUNK : Nat) (hC : 0 < CHUNK) (h : host)
    (fs : filesystem) (src dst : List Byte) (eol_style : svn_subst_eol_style_t)
    (eol_str : Option (List Byte)) (always_repair_eols : Bool)
    (keywords : Option apr_hash_t) (special : Bool) :
    svn_subst_translate_to_normal_form CHUNK h fs src dst eol_style eol_str
        always_repair_eols keywords special
      = (if eol_style = svn_subst_eol_style_unknown then
          some (some { apr_err := some SVN_ERR_IO_UNKNOWN_EOL, message := [] }, fs)
        else
          svn_subst_copy_and_translate3 CHUNK h fs src dst
            (if eol_style = svn_subst_eol_style_native then some [SVN_UTF8_NEWLINE]
             else eol_str)
            (decide (eol_style = svn_subst_eol_style_fixed) || always_repair_eols)
            keywords false special) ∧
    ((∃ e fs1, svn_subst_translate_to_normal_form CHUNK h fs src dst eol_style eol_str
        always_repair_eols keywords special = some (some e, fs1)
        ∧ e.apr_err = some SVN_ERR_IO_UNKNOWN_EOL)
      ↔ eol_style = svn_subst_eol_style_unknown) := by
  have h1 : svn_subst_translate_to_normal_form CHUNK h fs src dst eol_style eol_str
        always_repair_eols keywords special
      = (if eol_style = svn_subst_eol_style_unknown then
          some (some { apr_err := some SVN_ERR_IO_UNKNOWN_EOL, message := [] }, fs)
        else
          svn_subst_copy_and_translate3 CHUNK h fs src dst
            (if eol_style = svn_subst_eol_style_native then some [SVN_UTF8_NEWLINE]
             else eol_str)
            (decide (eol_style = svn_subst_eol_style_fixed) || always_repair_eols)
            keywords false special) := by
    cases eol_style <;> rfl
  refine ⟨h1, ?_⟩
  rw [h1]
  constructor
  · rintro ⟨e, fs1, he, hu⟩
    by_contra hne
    rw [if_neg hne] at he
    exact svn_subst_copy_and_translate3_error CHUNK hC h fs src dst _ _ keywords false special
      e fs1 he hu
  · intro hu
    rw [if_pos hu]
    exact ⟨_, _, rfl, rfl⟩

/-- Witness for C25: a file with mixed line ends, the native style, a chunk size
of 16 KiB. -/
theorem svn_subst_translate_to_normal_form_spec_witness :
    svn_subst_translate_to_normal_form 16384 ⟨true, fun _ p s => p ++ s, id⟩
        [(ascii "a", fs_node.file (ascii "x\r\ny\n"))] (ascii "a") (ascii "b")
        svn_subst_eol_style_native none false none false
      = some (some { apr_err := some SVN_ERR_IO_INCONSISTENT_EOL,
                     message := ascii "File 'a' has inconsistent newlines" },
          [(ascii "b.tmp", fs_node.file (ascii "x\ny")),
           (ascii "a", fs_node.file (ascii "x\r\ny\n"))]) :=
  ((svn_subst_translate_to_normal_form_spec 16384 (by decide)
    ⟨true, fun _ p s => p ++ s, id⟩ [(ascii "a", fs_node.file (ascii "x\r\ny\n"))]
    (ascii "a") (ascii "b") svn_subst_eol_style_native none false none false).1).trans
    (by decide)

/-! ## Names in content and the aliases of the keyword list -/

theorem svn_subst_build_keywords2_rev (h : keyword_helpers) (url : Option (List Byte))
    (date : Int) (author : Option (List Byte)) :
    svn_subst_build_keywords2 h (ascii "rev") (some (ascii "42")) url date author
      = some (SVN_NO_ERROR, [(ascii "Rev", ascii "42"), (ascii "Revision", ascii "42"),
          (ascii "LastChangedRevision", ascii "42")]) := by
  have hs : svn_cstring_split (ascii "rev") keyword_separators = [ascii "rev"] := by decide
  have hc : strcmp (ascii "rev") SVN_KEYWORD_REVISION_LONG = 0
        ∨ strcmp (ascii "rev") SVN_KEYWORD_REVISION_MEDIUM = 0
        ∨ strcasecmp (ascii "rev") SVN_KEYWORD_REVISION_SHORT = 0 := by decide
  have hp : cstr (ascii "%r") = [PERCENT, 0x72] := by decide
  have hf : reference_format h (some (ascii "42")) url date author (cstr (ascii "%r"))
      = ascii "42" := by
    rw [hp]
    simp [reference_format, format_code, PERCENT]
    decide
  unfold svn_subst_build_keywords2
  rw [hs]
  simp only [svn_subst_build_keywords2_loop, if_pos hc, keyword_printf_eq, hf]
  decide

/-- A name that is no alias of a keyword is bound in no set that
`svn_subst_build_keywords2` builds, so that the substitutor declines every
candidate with such a name. -/
theorem translate_keyword_built_declines (h : keyword_helpers) (keywords_val : List Byte)
    (rev url : Option (List Byte)) (date : Int) (author : Option (List Byte))
    (kw : apr_hash_t)
    (hkw : svn_subst_build_keywords2 h keywords_val rev url date author
      = some (SVN_NO_ERROR, kw))
    (buf : List Byte) (expand : Bool)
    (hn : ∀ g : keyword_group, cstr (keyword_name buf) ∉ g.aliases) (r : List Byte) :
    translate_keyword buf expand (some kw) ≠ some (true, r) := by
  obtain ⟨kw1, hkw1, _, h2⟩ := svn_subst_build_keywords2_spec h keywords_val rev url date author
  rw [hkw] at hkw1
  simp only [Option.some.injEq, Prod.mk.injEq, true_and] at hkw1
  subst hkw1
  by_cases hg : good_stuffs buf = true <;> simp [translate_keyword, hg, h2 _ hn]

/-- C40: names in content are matched byte for byte against the alias spellings,
also when the token of the list was accepted without regard to case. The set
built from the list `rev` with the revision "42" makes the translation with
expand=true rewrite `$Rev$`, `$Revision$` and `$LastChangedRevision$` and leave
`$rev$` and `$REV$` unchanged; and for every list and context, the substitutor
declines, with the set built, every candidate whose name is not an alias
spelling. -/
theorem translate_stream_built_case_sensitive (h : keyword_helpers)
    (url : Option (List Byte)) (date : Int) (author : Option (List Byte)) :
    (∃ K, svn_subst_build_keywords2 h (ascii "rev") (some (ascii "42")) url date author
        = some (SVN_NO_ERROR, K) ∧
      translate_stream none false (some K) true [ascii "$Rev$"]
        = some (SVN_NO_ERROR, ascii "$Rev: 42 $") ∧
      translate_stream none false (some K) true [ascii "$Revision$"]
        = some (SVN_NO_ERROR, ascii "$Revision: 42 $") ∧
      translate_stream none false (some K) true [ascii "$LastChangedRevision$"]
        = some (SVN_NO_ERROR, ascii "$LastChangedRevision: 42 $") ∧
      translate_stream none false (some K) true [ascii "$rev$"]
        = some (SVN_NO_ERROR, ascii "$rev$") ∧
      translate_stream none false (some K) true [ascii "$REV$"]
        = some (SVN_NO_ERROR, ascii "$REV$")) ∧
    (∀ (keywords_val : List Byte) (rev : Option (List Byte)) (kw : apr_hash_t),
      svn_subst_build_keywords2 h keywords_val rev url date author = some (SVN_NO_ERROR, kw) →
      ∀ (buf : List Byte) (expand : Bool),
        (∀ g : keyword_group, cstr (keyword_name buf) ∉ g.aliases) →
        ∀ r : List Byte, translate_keyword buf expand (some kw) ≠ some (true, r)) := by
  refine ⟨⟨_, svn_subst_build_keywords2_rev h url date author, ?_, ?_, ?_, ?_, ?_⟩, ?_⟩
  · decide
  · decide
  · decide
  · decide
  · decide
  · intro keywords_val rev kw hkw buf expand hn r
    exact translate_keyword_built_declines h keywords_val rev url date author kw hkw buf
      expand hn r

/-! ## The flush call and the held state -/

/-- C32 (the code at two inputs): with the EOL target LF, after the chunk `ab` CR
the flush call writes LF for the held CR and returns with `newline_off` still 1,
and a second flush call writes LF again; with a keyword set, after the chunk
`$Rev` the flush call writes the four held bytes and returns with `keyword_off`
still 4, and a second flush call writes them again. The flush branch assigns
neither offset. -/
theorem translate_chunk_flush_keeps_held :
    (∃ b1, translate_chunks [] (create_translation_baton (some [10]) false none false)
        [some [97, 98, 13], none] = some (SVN_NO_ERROR, b1, [97, 98, 10]) ∧
      b1.newline_off = 1 ∧ b1.keyword_off = 0 ∧
      translate_chunk [] b1 none = some (SVN_NO_ERROR, b1, [10])) ∧
    (∃ b1, translate_chunks []
        (create_translation_baton none false (some [(ascii "Rev", ascii "42")]) true)
        [some (ascii "$Rev"), none] = some (SVN_NO_ERROR, b1, ascii "$Rev") ∧
      b1.newline_off = 0 ∧ b1.keyword_off = 4 ∧
      translate_chunk [] b1 none = some (SVN_NO_ERROR, b1, ascii "$Rev")) := by
  refine ⟨⟨{ create_translation_baton (some [10]) false none false with
      newline_buf := [13], src_format := [13] }, ?_, ?_, ?_, ?_⟩,
    ⟨{ create_translation_baton none false (some [(ascii "Rev", ascii "42")]) true with
      keyword_buf := ascii "$Rev" }, ?_, ?_, ?_, ?_⟩⟩ <;> decide

/-! ## The length of a rewritten keyword -/

set_option maxRecDepth 100000 in
/-- C31 (the code at an input): with HeadURL bound to a value of 250 bytes, the
buffer `$HeadURL: old $`, of 15 bytes, is rewritten, re-expanding, with all 250
bytes of the value: the result has 262 bytes, more than `SVN_KEYWORD_MAX_LEN`,
and the translation of this content writes the 262 bytes. The unexpanded
`$HeadURL$` is rewritten to 255 bytes, with the first 243 bytes of the value. -/
theorem translate_keyword_reexpand_past_buffer :
    translate_keyword (ascii "$HeadURL: old $") true
        (some [(ascii "HeadURL", List.replicate 250 120)])
      = some (true, ascii "$HeadURL: " ++ List.replicate 250 120 ++ ascii " $") ∧
    (ascii "$HeadURL: " ++ List.replicate 250 120 ++ ascii " $").length = 262 ∧
    SVN_KEYWORD_MAX_LEN < 262 ∧
    translate_stream none false (some [(ascii "HeadURL", List.replicate 250 120)]) true
        [ascii "$HeadURL: old $"]
      = some (SVN_NO_ERROR, ascii "$HeadURL: " ++ List.replicate 250 120 ++ ascii " $") ∧
    translate_keyword (ascii "$HeadURL$") true
        (some [(ascii "HeadURL", List.replicate 250 120)])
      = some (true, ascii "$HeadURL: " ++ List.replicate 243 120 ++ ascii " $") ∧
    (ascii "$HeadURL: " ++ List.replicate 243 120 ++ ascii " $").length
      = SVN_KEYWORD_MAX_LEN := by
  decide

/-! ## A fixed-length slot without a space or `#` before the closing `$` -/

/-- On `$` name `:: ` w c `$` with c neither a space nor `#`, the substitutor takes
none of its three branches: it reports no rewrite and leaves the buffer. -/
theorem translate_keyword_subst_full_slot (n w : List Byte) (c : Byte)
    (value : Option (List Byte)) (h1 : c ≠ SVN_UTF8_SPACE) (h2 : c ≠ SVN_UTF8_POUND)
    (hl : n.length + w.length + 6 ≤ SVN_KEYWORD_MAX_LEN) :
    translate_keyword_subst
        (SVN_UTF8_DOLLAR :: (n ++ SVN_UTF8_COLON :: SVN_UTF8_COLON :: SVN_UTF8_SPACE ::
          (w ++ [c, SVN_UTF8_DOLLAR])))
        n n.length value
      = some (false, SVN_UTF8_DOLLAR :: (n ++ SVN_UTF8_COLON :: SVN_UTF8_COLON ::
          SVN_UTF8_SPACE :: (w ++ [c, SVN_UTF8_DOLLAR]))) := by
  generalize ht : SVN_UTF8_COLON :: SVN_UTF8_COLON :: SVN_UTF8_SPACE ::
      (w ++ [c, SVN_UTF8_DOLLAR]) = t
  have htl : t.length = w.length + 5 := by rw [← ht]; simp
  have hf := fixed_tail_frame n w c hl
  rw [ht] at hf
  have hg := good_stuffs_frame n t hf.1 hf.2.2
  have hlen : (SVN_UTF8_DOLLAR :: (n ++ t)).length = n.length + t.length + 1 := by simp
  have g0 : t.getD 0 0 = SVN_UTF8_COLON := by rw [← ht]; rfl
  have g1 : t.getD 1 0 = SVN_UTF8_COLON := by rw [← ht]; rfl
  have g2 : t.getD 2 0 = SVN_UTF8_SPACE := by rw [← ht]; rfl
  have g3 : t.getD (t.length - 2) 0 = c := by
    rw [htl, ← ht, show w.length + 5 - 2 = w.length + 3 by omega]
    simp only [List.getD_cons_succ]
    exact getD_append_length w _ c 0
  obtain ⟨ne1, ne2, ne3, ne4, ne5⟩ := bytes_ne
  unfold translate_keyword_subst
  simp only [hg, Bool.not_true, Bool.false_eq_true, if_false, List.drop_succ_cons,
    List.drop_zero, strncmp_append_self, ne_eq, not_true_eq_false, getD_frame_zero, getD_frame,
    getD_len_sub_two n t _ _ (by omega : 2 ≤ t.length), g0, g1, g2, g3, h1, h2, ne1, ne2, ne3,
    ne5, decide_True, decide_False, Bool.and_false,
    Bool.false_and, Bool.and_true, Bool.true_and, Bool.or_false, Bool.false_or, and_false,
    false_and]
  rw [if_neg (by rw [hlen]; omega)]

/-- Counterexample for C35 as stated: with Rev bound to `42`, the buffer
`$Rev:: 12345$`, whose byte before the closing `$` is `5`, is left untouched and
no rewrite is reported, with expand on and with expand off; the translation of
this content is the content. -/
theorem translate_keyword_full_slot_not_expanded :
    translate_keyword (ascii "$Rev:: 12345$") true (some [(ascii "Rev", ascii "42")])
      = some (false, ascii "$Rev:: 12345$") ∧
    translate_keyword (ascii "$Rev:: 12345$") false (some [(ascii "Rev", ascii "42")])
      = some (false, ascii "$Rev:: 12345$") ∧
    translate_stream none false (some [(ascii "Rev", ascii "42")]) true
        [ascii "$Rev:: 12345$"] = some (SVN_NO_ERROR, ascii "$Rev:: 12345$") ∧
    translate_stream none false (some [(ascii "Rev", ascii "42")]) false
        [ascii "$Rev:: 12345$"] = some (SVN_NO_ERROR, ascii "$Rev:: 12345$") := by
  decide

/-- C35 (as amended). Exactly-full fixed-length slot: for every keyword set, every
name bound in it that contains no colon (and no NUL, being a C string) and every
buffer `$` name `:: ` w c `$` of at most KW_MAX bytes whose byte c before the
closing `$` is neither a space nor `#`, the substitutor reports no rewrite and
leaves the buffer untouched, with expand on and with expand off. -/
theorem translate_keyword_full_slot_untouched (kw : apr_hash_t) (n v w : List Byte) (c : Byte)
    (expand : Bool) (hn0 : (0 : Byte) ∉ n) (hnc : SVN_UTF8_COLON ∉ n)
    (hv : apr_hash_get kw n = some v)
    (h1 : c ≠ SVN_UTF8_SPACE) (h2 : c ≠ SVN_UTF8_POUND)
    (hl : n.length + w.length + 6 ≤ SVN_KEYWORD_MAX_LEN) :
    translate_keyword
        (SVN_UTF8_DOLLAR :: (n ++ SVN_UTF8_COLON :: SVN_UTF8_COLON :: SVN_UTF8_SPACE ::
          (w ++ [c, SVN_UTF8_DOLLAR]))) expand (some kw)
      = some (false, SVN_UTF8_DOLLAR :: (n ++ SVN_UTF8_COLON :: SVN_UTF8_COLON ::
          SVN_UTF8_SPACE :: (w ++ [c, SVN_UTF8_DOLLAR]))) := by
  obtain ⟨f1, f2, f3⟩ := fixed_tail_frame n w c hl
  rw [translate_keyword_frame n _ expand kw v hn0 hnc (Or.inr f2) f1 f3 hv]
  exact translate_keyword_subst_full_slot n w c _ h1 h2 hl

/-- The buffer `$Rev:: 12345$` with Rev bound to `42`, expand on. -/
theorem translate_keyword_full_slot_untouched_witness :
    translate_keyword (ascii "$Rev:: 12345$") true (some [(ascii "Rev", ascii "42")])
      = some (false, ascii "$Rev:: 12345$") :=
  translate_keyword_full_slot_untouched [(ascii "Rev", ascii "42")] (ascii "Rev") (ascii "42")
    (ascii "1234") 0x35 true (by decide) (by decide) (by decide) (by decide) (by decide)
    (by decide)

/-! ## Comparing keyword sets -/

theorem lookup_of_mem_nodup : ∀ (l : apr_hash_t) (k v : List Byte),
    (l.map Prod.fst).Nodup → (k, v) ∈ l → l.lookup k = some v := by
  intro l
  induction l with
  | nil => intro k v _ h; simp at h
  | cons p l ih =>
    intro k v hn h
    obtain ⟨k1, v1⟩ := p
    simp only [List.map_cons, List.nodup_cons] at hn
    rcases List.mem_cons.mp h with h1 | h1
    · simp only [Prod.mk.injEq] at h1
      obtain ⟨rfl, rfl⟩ := h1
      simp [List.lookup]
    · have hne : k ≠ k1 := by
        rintro rfl
        exact hn.1 (List.mem_map.mpr ⟨(k, v), h1, rfl⟩)
      have : (k == k1) = false := by simpa using hne
      rw [List.lookup_cons, this]
      exact ih k v hn.2 h1

theorem mem_of_lookup : ∀ (l : apr_hash_t) (k v : List Byte),
    l.lookup k = some v → (k, v) ∈ l := by
  intro l
  induction l with
  | nil => intro k v h; simp at h
  | cons p l ih =>
    intro k v h
    obtain ⟨k1, v1⟩ := p
    rw [List.lookup_cons] at h
    by_cases hk : k = k1
    · subst hk
      simp only [beq_self_eq_true, Option.some.injEq] at h
      subst h
      exact List.mem_cons_self _ _
    · have : (k == k1) = false := by simpa using hk
      rw [this] at h
      exact List.mem_cons_of_mem _ (ih k v h)

theorem lookup_isSome_iff (l : apr_hash_t) (k : List Byte) :
    (∃ v, l.lookup k = some v) ↔ k ∈ l.map Prod.fst := by
  constructor
  · rintro ⟨v, hv⟩
    exact List.mem_map.mpr ⟨(k, v), mem_of_lookup l k v hv, rfl⟩
  · intro h
    induction l with
    | nil => simp at h
    | cons p l ih =>
      obtain ⟨k1, v1⟩ := p
      rw [List.lookup_cons]
      by_cases hk : k = k1
      · subst hk
        exact ⟨v1, by simp⟩
      · have hb : (k == k1) = false := by simpa using hk
        rw [hb]
        simp only [List.map_cons, List.mem_cons] at h
        rcases h with h | h
        · exact absurd h hk
        · exact ih h

/-- The loop of `svn_subst_keywords_differ2` returns false exactly when every
entry of `a` has its key bound in `b`, to an equal value when values are
compared. -/
theorem svn_subst_keywords_differ2_loop_false
    (cmp : List Byte → List Byte → Bool) (hcmp : ∀ x y, cmp x y = true ↔ x = y)
    (b : apr_hash_t) (cv : Bool) : ∀ (a : List (List Byte × List Byte)),
    svn_subst_keywords_differ2_loop cmp b cv a = false ↔
      ∀ kv ∈ a, ∃ bv, b.lookup kv.1 = some bv ∧ (cv = true → kv.2 = bv) := by
  intro a
  induction a with
  | nil => simp [svn_subst_keywords_differ2_loop]
  | cons p a ih =>
    obtain ⟨k, v⟩ := p
    simp only [svn_subst_keywords_differ2_loop, apr_hash_get_len, List.take_length,
      List.forall_mem_cons]
    cases hb : b.lookup k with
    | none => simp
    | some bv =>
      simp only [Option.some.injEq, exists_eq_left']
      by_cases hc : (cv && !cmp v bv) = true
      · rw [if_pos hc]
        simp only [Bool.and_eq_true, Bool.not_eq_true', ← Bool.not_eq_true, hcmp] at hc
        simp [hc.1, hc.2]
      · rw [if_neg hc, ih]
        have : cv = true → v = bv := by
          intro h
          simp only [Bool.and_eq_true, Bool.not_eq_true', not_and, Bool.not_eq_false, hcmp] at hc
          exact hc h
        exact ⟨fun h => ⟨this, h⟩, fun h => h.2⟩

theorem hash_count_eq (a : Option apr_hash_t) :
    (match a with
      | none => 0
      | some h => apr_hash_count h) = (hash_keys a).length := by
  cases a <;> simp [hash_keys, apr_hash_count]

/-- What `svn_subst_keywords_differ2` decides, for hashes whose keys are distinct
and a `svn_string_compare` that tells equal strings. -/
theorem svn_subst_keywords_differ2_false_iff
    (cmp : List Byte → List Byte → Bool) (hcmp : ∀ x y, cmp x y = true ↔ x = y)
    (a b : Option apr_hash_t) (cv : Bool)
    (ha : (hash_keys a).Nodup) (hb : (hash_keys b).Nodup) :
    svn_subst_keywords_differ2 cmp a b cv = false ↔
      ((∀ key, key ∈ hash_keys a ↔ key ∈ hash_keys b) ∧
        (cv = true → ∀ key ∈ hash_keys a, hash_value a key = hash_value b key)) := by
  unfold svn_subst_keywords_differ2
  simp only [hash_count_eq]
  by_cases hlen : (hash_keys a).length = (hash_keys b).length
  swap
  · rw [if_pos hlen]
    simp only [Bool.true_eq_false, false_iff, not_and]
    intro hk
    exact absurd ((List.perm_ext_iff_of_nodup ha hb).mpr hk).length_eq hlen
  rw [if_neg (not_not.mpr hlen)]
  by_cases h0 : (hash_keys a).length = 0
  · rw [if_pos h0]
    have ea : hash_keys a = [] := List.length_eq_zero.mp h0
    have eb : hash_keys b = [] := List.length_eq_zero.mp (hlen ▸ h0)
    simp [ea, eb]
  rw [if_neg h0]
  cases a with
  | none => simp [hash_keys] at h0
  | some la =>
    cases b with
    | none => exact absurd (by simpa [hash_keys] using hlen) h0
    | some lb =>
      simp only [svn_subst_keywords_differ2_loop_false cmp hcmp lb cv la]
      simp only [hash_keys, hash_value, Option.getD_some] at ha hb hlen ⊢
      constructor
      · intro h
        have hsub : la.map Prod.fst ⊆ lb.map Prod.fst := by
          intro k hk
          obtain ⟨kv, hkv, rfl⟩ := List.mem_map.mp hk
          obtain ⟨bv, hbv, _⟩ := h kv hkv
          exact (lookup_isSome_iff lb kv.1).mp ⟨bv, hbv⟩
        have hperm := (ha.subperm hsub).perm_of_length_le (le_of_eq hlen.symm)
        refine ⟨fun key => hperm.mem_iff, ?_⟩
        intro hcv key hk
        obtain ⟨kv, hkv, rfl⟩ := List.mem_map.mp hk
        obtain ⟨bv, hbv, he⟩ := h kv hkv
        rw [lookup_of_mem_nodup la kv.1 kv.2 ha hkv, hbv, he hcv]
      · rintro ⟨hk, hv⟩ kv hkv
        have hka : kv.1 ∈ la.map Prod.fst := List.mem_map.mpr ⟨kv, hkv, rfl⟩
        obtain ⟨bv, hbv⟩ := (lookup_isSome_iff lb kv.1).mpr ((hk kv.1).mp hka)
        refine ⟨bv, hbv, fun hcv => ?_⟩
        have := hv hcv kv.1 hka
        rw [lookup_of_mem_nodup la kv.1 kv.2 ha hkv, hbv] at this
        exact Option.some.inj this

/-- C39: `svn_subst_keywords_differ2` decides the equality of two keyword sets.
For all hashes a and b, each absent or present (the keys of a hash being
distinct, and `svn_string_compare` telling equal strings), it returns false
exactly when a and b have the same keys, an absent set having none, and, when
values are compared, every key is bound to equal values in both. So it gives
the same for (a, b) and for (b, a), and false for (a, a), for an absent and an
empty set. -/
theorem svn_subst_keywords_differ2_decides_equality
    (svn_string_compare : List Byte → List Byte → Bool)
    (hcmp : ∀ x y, svn_string_compare x y = true ↔ x = y)
    (a b : Option apr_hash_t) (compare_values : Bool)
    (ha : (hash_keys a).Nodup) (hb : (hash_keys b).Nodup) :
    (svn_subst_keywords_differ2 svn_string_compare a b compare_values = false ↔
      ((∀ key, key ∈ hash_keys a ↔ key ∈ hash_keys b) ∧
        (compare_values = true →
          ∀ key ∈ hash_keys a, hash_value a key = hash_value b key))) ∧
    svn_subst_keywords_differ2 svn_string_compare a b compare_values
      = svn_subst_keywords_differ2 svn_string_compare b a compare_values ∧
    svn_subst_keywords_differ2 svn_string_compare a a compare_values = false ∧
    svn_subst_keywords_differ2 svn_string_compare none (some []) compare_values = false ∧
    svn_subst_keywords_differ2 svn_string_compare (some []) none compare_values = false := by
  have hab := svn_subst_keywords_differ2_false_iff svn_string_compare hcmp a b compare_values
    ha hb
  have hba := svn_subst_keywords_differ2_false_iff svn_string_compare hcmp b a compare_values
    hb ha
  have haa := svn_subst_keywords_differ2_false_iff svn_string_compare hcmp a a compare_values
    ha ha
  refine ⟨hab, ?_, haa.mpr ⟨fun _ => Iff.rfl, fun _ _ _ => rfl⟩, rfl, rfl⟩
  have hsym : svn_subst_keywords_differ2 svn_string_compare a b compare_values = false ↔
      svn_subst_keywords_differ2 svn_string_compare b a compare_values = false := by
    rw [hab, hba]
    constructor
    · rintro ⟨hk, hv⟩
      exact ⟨fun key => (hk key).symm, fun hc key hkey =>
        (hv hc key ((hk key).mpr hkey)).symm⟩
    · rintro ⟨hk, hv⟩
      exact ⟨fun key => (hk key).symm, fun hc key hkey =>
        (hv hc key ((hk key).mpr hkey)).symm⟩
  cases h1 : svn_subst_keywords_differ2 svn_string_compare a b compare_values <;>
    cases h2 : svn_subst_keywords_differ2 svn_string_compare b a compare_values <;>
    simp_all

/-- Two sets with the key Rev, bound to `42` in one and to `43` in the other:
they differ when values are compared, in both orders. -/
theorem svn_subst_keywords_differ2_decides_equality_witness :
    svn_subst_keywords_differ2 (fun x y => decide (x = y))
        (some [(ascii "Rev", ascii "42")]) (some [(ascii "Rev", ascii "43")]) true
      = svn_subst_keywords_differ2 (fun x y => decide (x = y))
        (some [(ascii "Rev", ascii "43")]) (some [(ascii "Rev", ascii "42")]) true :=
  (svn_subst_keywords_differ2_decides_equality (fun x y => decide (x = y))
    (fun x y => by simp) (some [(ascii "Rev", ascii "42")]) (some [(ascii "Rev", ascii "43")])
    true (by decide) (by decide)).2.1

/-! ## The held state over a series of calls -/

/-- The scan and the switch, entered with nothing held, leave at most one of
the two carry buffers in use. -/
theorem boring_state_exclusive (b : translation_baton) (hn : b.newline_buf = [])
    (hk : b.keyword_buf = []) (p dst : List Byte) :
    (boring_state b p dst).2.1.newline_buf = [] ∨
      (boring_state b p dst).2.1.keyword_buf = [] := by
  unfold boring_state
  simp only
  split
  · exact Or.inl hn
  · rename_i c rest _
    by_cases h1 : c = SVN_UTF8_DOLLAR
    · rw [if_pos h1]
      exact Or.inl hn
    · rw [if_neg h1]
      by_cases h2 : c = SVN_UTF8_CR
      · rw [if_pos h2]
        exact Or.inr hk
      · rw [if_neg h2]
        by_cases h3 : c = SVN_UTF8_NEWLINE
        · rw [if_pos h3]
          split
          · exact Or.inl rfl
          · exact Or.inr hk
        · rw [if_neg h3]
          exact Or.inl hn

/-- One pass of the loop, from any state in which at most one carry buffer is in
use, ends in such a state, whatever the outcome. -/
theorem loop_body_exclusive (b : translation_baton)
    (h : b.newline_buf = [] ∨ b.keyword_buf = []) (c : Byte) (rest dst : List Byte) :
    (loop_body b c rest dst).2.1.newline_buf = [] ∨
      (loop_body b c rest dst).2.1.keyword_buf = [] := by
  unfold loop_body
  by_cases h1 : b.newline_off ≠ 0
  · have hk : b.keyword_buf = [] := by
      rcases h with h | h
      · exact absurd (by simp [translation_baton.newline_off, h]) h1
      · exact h
    rw [if_pos h1]
    simp only
    split
    · apply boring_state_exclusive
      · rfl
      · exact hk
    · exact Or.inr hk
  · have hn : b.newline_buf = [] := by
      simpa [translation_baton.newline_off] using h1
    rw [if_neg h1]
    split_ifs
    · split
      · exact Or.inl hn
      · apply boring_state_exclusive
        · exact hn
        · rfl
      · apply boring_state_exclusive
        · exact hn
        · rfl
    · apply boring_state_exclusive
      · exact hn
      · rfl
    · exact Or.inl hn
    · rename_i h2 h3 h4
      have hk : b.keyword_buf = [] := by
        simpa [translation_baton.keyword_off] using h4
      exact boring_state_exclusive _ hn hk _ _

theorem translate_chunk_loop_exclusive :
    ∀ (n : Nat) (b : translation_baton) (p dst : List Byte)
      (r : Outcome × translation_baton × List Byte),
      (b.newline_buf = [] ∨ b.keyword_buf = []) → translate_chunk_loop n b p dst = some r →
      (r.2.1.newline_buf = [] ∨ r.2.1.keyword_buf = []) := by
  intro n
  induction n with
  | zero =>
    intro b p dst r h hr
    cases p with
    | nil =>
      simp only [translate_chunk_loop, Option.some.injEq] at hr
      subst hr
      exact h
    | cons c rest => simp [translate_chunk_loop] at hr
  | succ n ih =>
    intro b p dst r h hr
    cases p with
    | nil =>
      simp only [translate_chunk_loop, Option.some.injEq] at hr
      subst hr
      exact h
    | cons c rest =>
      rw [translate_chunk_loop_succ] at hr
      have hx := loop_body_exclusive b h c rest dst
      rcases hb : loop_body b c rest dst with ⟨e, b1, p1, d1⟩
      rw [hb] at hr hx
      by_cases he : e = SVN_NO_ERROR
      · subst he
        rw [continue_loop_ok] at hr
        exact ih b1 p1 d1 r hx hr
      · rw [continue_loop_err n e he] at hr
        simp only [Option.some.injEq] at hr
        subst hr
        exact hx

/-- The flush call returns, assigns neither carry buffer, and keeps the state
invariant when it returns without error. -/
theorem translate_chunk_flush_spec (b : translation_baton) (hinv : baton_inv b)
    (dst : List Byte) :
    ∃ e b1 d1, translate_chunk dst b none = some (e, b1, d1) ∧
      b1.newline_buf = b.newline_buf ∧ b1.keyword_buf = b.keyword_buf ∧
      (e = SVN_NO_ERROR → baton_inv b1) := by
  obtain ⟨hw, hx, hnl, hkw, hsf⟩ := hinv
  unfold translate_chunk
  simp only
  by_cases h1 : b.newline_off ≠ 0
  · rw [if_pos h1]
    have hnb : b.newline_buf = [SVN_UTF8_CR] := by
      rcases hnl with h | h
      · exact absurd (by simp [translation_baton.newline_off, h]) h1
      · exact h
    rw [translate_newline_cases b.eol_str b.eol_str_len b.src_format b.newline_buf dst b.repair
      (Or.inr (Or.inl hnb)) hsf]
    split_ifs with h2 h3
    · exact ⟨_, _, _, rfl, rfl, rfl, fun h => by cases h⟩
    · simp only
      split_ifs
      · refine ⟨_, _, _, rfl, rfl, rfl, fun _ => ⟨hw, hx, hnl, hkw, ?_⟩⟩
        show b.newline_buf = [] ∨ b.newline_buf = [SVN_UTF8_NEWLINE]
          ∨ b.newline_buf = [SVN_UTF8_CR] ∨ b.newline_buf = [SVN_UTF8_CR, SVN_UTF8_NEWLINE]
        exact Or.inr (Or.inr (Or.inl hnb))
      · refine ⟨_, _, _, rfl, rfl, rfl, fun _ => ⟨hw, hx, hnl, hkw, ?_⟩⟩
        show b.newline_buf = [] ∨ b.newline_buf = [SVN_UTF8_NEWLINE]
          ∨ b.newline_buf = [SVN_UTF8_CR] ∨ b.newline_buf = [SVN_UTF8_CR, SVN_UTF8_NEWLINE]
        exact Or.inr (Or.inr (Or.inl hnb))
    · simp only
      split_ifs
      · refine ⟨_, _, _, rfl, rfl, rfl, fun _ => ⟨hw, hx, hnl, hkw, ?_⟩⟩
        exact hsf
      · refine ⟨_, _, _, rfl, rfl, rfl, fun _ => ⟨hw, hx, hnl, hkw, ?_⟩⟩
        exact hsf
  · rw [if_neg h1]
    split_ifs
    · exact ⟨_, _, _, rfl, rfl, rfl, fun _ => ⟨hw, hx, hnl, hkw, hsf⟩⟩
    · exact ⟨_, _, _, rfl, rfl, rfl, fun _ => ⟨hw, hx, hnl, hkw, hsf⟩⟩

/-- A series of chunk and flush calls from a state that satisfies the invariant
returns; the invariant holds of the state it leaves when no call failed, and at
most one carry buffer is in use in that state whatever the outcome. -/
theorem translate_chunks_total :
    ∀ (calls : List (Option (List Byte))) (b : translation_baton) (dst : List Byte),
      baton_inv b →
      ∃ e b1 d1, translate_chunks dst b calls = some (e, b1, d1) ∧
        (e = SVN_NO_ERROR → baton_inv b1) ∧ (b1.newline_buf = [] ∨ b1.keyword_buf = []) := by
  intro calls
  induction calls with
  | nil =>
    intro b dst hinv
    exact ⟨SVN_NO_ERROR, b, dst, rfl, fun _ => hinv, hinv.2.1⟩
  | cons buf bufs ih =>
    intro b dst hinv
    rw [translate_chunks_cons]
    have hcall : ∃ e b1 d1, translate_chunk dst b buf = some (e, b1, d1) ∧
        (e = SVN_NO_ERROR → baton_inv b1) ∧ (b1.newline_buf = [] ∨ b1.keyword_buf = []) := by
      cases buf with
      | none =>
        obtain ⟨e, b1, d1, h1, h2, h3, h4⟩ := translate_chunk_flush_spec b hinv dst
        exact ⟨e, b1, d1, h1, h4, by rw [h2, h3]; exact hinv.2.1⟩
      | some p =>
        obtain ⟨e, b1, d1, h1, _, h3⟩ := translate_chunk_loop_total p.length b p dst hinv
          (le_refl _)
        exact ⟨e, b1, d1, h1, h3,
          translate_chunk_loop_exclusive p.length b p dst (e, b1, d1) hinv.2.1 h1⟩
    obtain ⟨e, b1, d1, h1, h2, h3⟩ := hcall
    rw [h1]
    by_cases he : e = SVN_NO_ERROR
    · subst he
      rw [and_then_ok]
      exact ih b1 d1 (h2 rfl)
    · rw [and_then_err e he]
      exact ⟨e, b1, d1, rfl, fun h => absurd h he, h3⟩

/-- C33: the state invariant of the transducer. Every series of chunk calls (and
flush calls) on a baton made by `create_translation_baton` returns, and when no
call of the series failed, the state it leaves, which is the initial state for
the empty series, has keyword_off <= 254; if keyword_off > 0, the first byte
of keyword_buf is `$` and the bytes after it have no `$`, CR or LF; if
newline_off > 0, it is 1 and the byte held is CR; so that at most KW_MAX + 2
bytes are held across calls. -/
theorem translate_chunks_state_invariant (eol_str : Option (List Byte)) (repair : Bool)
    (keywords : Option apr_hash_t) (expand : Bool) (calls : List (Option (List Byte)))
    (dst : List Byte) :
    ∃ e b d, translate_chunks dst (create_translation_baton eol_str repair keywords expand)
        calls = some (e, b, d) ∧
      (e = SVN_NO_ERROR →
        b.keyword_off ≤ 254 ∧
        (0 < b.keyword_off → b.keyword_buf.head? = some SVN_UTF8_DOLLAR ∧
          ∀ c ∈ b.keyword_buf.tail,
            c ≠ SVN_UTF8_DOLLAR ∧ c ≠ SVN_UTF8_CR ∧ c ≠ SVN_UTF8_NEWLINE) ∧
        (0 < b.newline_off → b.newline_off = 1 ∧ b.newline_buf = [SVN_UTF8_CR]) ∧
        b.newline_off + b.keyword_off ≤ SVN_KEYWORD_MAX_LEN + 2) := by
  obtain ⟨e, b, d, h1, h2, _⟩ := translate_chunks_total calls
    (create_translation_baton eol_str repair keywords expand) dst
    (baton_inv_create eol_str repair keywords expand)
  refine ⟨e, b, d, h1, fun he => ?_⟩
  obtain ⟨_, hx, hnl, hkw, _⟩ := h2 he
  have hk : b.keyword_off ≤ 254 := by
    rcases hkw with h | ⟨_, h, _⟩
    · simp [translation_baton.keyword_off, h]
    · exact h
  have hn : b.newline_off ≤ 1 := by
    rcases hnl with h | h <;> simp [translation_baton.newline_off, h]
  refine ⟨hk, ?_, ?_, ?_⟩
  · intro h0
    rcases hkw with h | ⟨h3, _, h4⟩
    · simp [translation_baton.keyword_off, h] at h0
    · exact ⟨h3, h4⟩
  · intro h0
    rcases hnl with h | h
    · simp [translation_baton.newline_off, h] at h0
    · exact ⟨by simp [translation_baton.newline_off, h], h⟩
  · unfold SVN_KEYWORD_MAX_LEN
    omega

/-- C36: a held newline and a held keyword run exclude each other. Every series
of chunk and flush calls on a baton made by `create_translation_baton` returns,
and in the state it leaves, whatever the outcome, newline_off > 0 and
keyword_off > 0 do not both hold; and a pass of the loop started in any state
in which they do not both hold ends in such a state, so that this is so between
the passes of a call as well. -/
theorem translate_chunks_buffers_exclusive (eol_str : Option (List Byte)) (repair : Bool)
    (keywords : Option apr_hash_t) (expand : Bool) (calls : List (Option (List Byte)))
    (dst : List Byte) :
    (∃ e b d, translate_chunks dst (create_translation_baton eol_str repair keywords expand)
        calls = some (e, b, d) ∧ ¬ (0 < b.newline_off ∧ 0 < b.keyword_off)) ∧
    (∀ (b : translation_baton) (c : Byte) (rest d : List Byte),
      ¬ (0 < b.newline_off ∧ 0 < b.keyword_off) →
      ¬ (0 < (loop_body b c rest d).2.1.newline_off ∧
          0 < (loop_body b c rest d).2.1.keyword_off)) := by
  have key : ∀ b : translation_baton, ¬ (0 < b.newline_off ∧ 0 < b.keyword_off) ↔
      (b.newline_buf = [] ∨ b.keyword_buf = []) := by
    intro b
    simp only [translation_baton.newline_off, translation_baton.keyword_off,
      List.length_pos, not_and_or, not_not, ne_eq]
  constructor
  · obtain ⟨e, b, d, h1, _, h3⟩ := translate_chunks_total calls
      (create_translation_baton eol_str repair keywords expand) dst
      (baton_inv_create eol_str repair keywords expand)
    exact ⟨e, b, d, h1, (key b).mpr h3⟩
  · intro b c rest d h
    exact (key _).mpr (loop_body_exclusive b ((key b).mp h) c rest d)

/-! ## The closing `$` of a declined candidate -/

/-- The substitutor, expanding, on `$` name `$` with a name that can be looked up
and a value without NUL. -/
theorem translate_keyword_expand_value (kw : apr_hash_t) (n v : List Byte)
    (hn0 : (0 : Byte) ∉ n) (hnc : SVN_UTF8_COLON ∉ n)
    (hnl : n.length ≤ SVN_KEYWORD_MAX_LEN - 5)
    (hv : apr_hash_get kw n = some v) (hv0 : (0 : Byte) ∉ v) :
    translate_keyword (SVN_UTF8_DOLLAR :: (n ++ [SVN_UTF8_DOLLAR])) true (some kw)
      = some (true, SVN_UTF8_DOLLAR :: (n ++
          (if v ≠ [] then
            [SVN_UTF8_COLON, SVN_UTF8_SPACE]
              ++ v.take (min v.length (SVN_KEYWORD_MAX_LEN - 5 - n.length))
              ++ [SVN_UTF8_SPACE, SVN_UTF8_DOLLAR]
          else [SVN_UTF8_COLON, SVN_UTF8_SPACE, SVN_UTF8_DOLLAR]))) := by
  have hl : n.length + [SVN_UTF8_DOLLAR].length + 1 ≤ SVN_KEYWORD_MAX_LEN := by
    unfold SVN_KEYWORD_MAX_LEN at hnl ⊢
    simp only [List.length_singleton]
    omega
  rw [translate_keyword_frame n [SVN_UTF8_DOLLAR] true kw v hn0 hnc (Or.inl rfl) rfl hl hv,
    if_pos rfl, translate_keyword_subst_expand n _ v (Or.inl rfl) hnl,
    strncpy_of_no_nul v _ hv0 (Nat.min_le_left _ _)]
  by_cases hve : v = []
  · simp [hve]
  · have : v.length ≠ 0 := fun h => hve (List.length_eq_zero.mp h)
    simp [hve, this]

/-- C34 (as amended). The closing `$` of a declined candidate opens the next
candidate: for every keyword set, every name n bound in it that contains no
colon, `$`, CR or LF (and no NUL, being a C string) and has at most KW_MAX - 5
bytes, with a value v that contains no NUL, and every w of fewer than 254 bytes
without `$`, CR and LF such that `$` w `$` is no keyword form for the set, the
translation of `$` w `$` n `$` with expand on, in any chunking, is `$` w
followed by `$` n `: `, the first min(|v|, KW_MAX - 5 - |n|) bytes of v and
` $` when v is not empty, and by `$` n `: $` when v is empty. -/
theorem translate_stream_declined_dollar_opens (kw : apr_hash_t) (n v w : List Byte)
    (repair : Bool) (chunks : List (List Byte))
    (hn0 : (0 : Byte) ∉ n) (hnc : SVN_UTF8_COLON ∉ n)
    (hnd : ∀ c ∈ n, c ≠ SVN_UTF8_DOLLAR ∧ c ≠ SVN_UTF8_CR ∧ c ≠ SVN_UTF8_NEWLINE)
    (hnl : n.length ≤ SVN_KEYWORD_MAX_LEN - 5)
    (hv : apr_hash_get kw n = some v) (hv0 : (0 : Byte) ∉ v)
    (hw : ∀ c ∈ w, c ≠ SVN_UTF8_DOLLAR ∧ c ≠ SVN_UTF8_CR ∧ c ≠ SVN_UTF8_NEWLINE)
    (hwl : w.length < 254)
    (hform : unexpanded_form kw (SVN_UTF8_DOLLAR :: (w ++ [SVN_UTF8_DOLLAR])) = false ∧
      expanded_form kw (SVN_UTF8_DOLLAR :: (w ++ [SVN_UTF8_DOLLAR])) = false ∧
      fixed_form kw (SVN_UTF8_DOLLAR :: (w ++ [SVN_UTF8_DOLLAR])) = false)
    (hchunks : chunks.flatten
      = SVN_UTF8_DOLLAR :: (w ++ SVN_UTF8_DOLLAR :: (n ++ [SVN_UTF8_DOLLAR]))) :
    translate_stream none repair (some kw) true chunks
      = some (SVN_NO_ERROR, SVN_UTF8_DOLLAR :: (w ++ SVN_UTF8_DOLLAR :: (n ++
          (if v ≠ [] then
            [SVN_UTF8_COLON, SVN_UTF8_SPACE]
              ++ v.take (min v.length (SVN_KEYWORD_MAX_LEN - 5 - n.length))
              ++ [SVN_UTF8_SPACE, SVN_UTF8_DOLLAR]
          else [SVN_UTF8_COLON, SVN_UTF8_SPACE, SVN_UTF8_DOLLAR])))) := by
  have hK : (create_translation_baton none repair (some kw) true).keywords = some kw := by
    cases kw with
    | nil => simp [apr_hash_get] at hv
    | cons p l => simp [create_translation_baton, apr_hash_count]
  have hheld : kw_held (SVN_UTF8_DOLLAR :: w) :=
    Or.inr ⟨rfl, by simp only [List.length_cons]; unfold SVN_KEYWORD_MAX_LEN; omega, hw⟩
  have hdecl : ∀ r, translate_keyword (SVN_UTF8_DOLLAR :: (w ++ [SVN_UTF8_DOLLAR])) true
      (some kw) ≠ some (true, r) := by
    intro r hr
    have := translate_keyword_true_form (SVN_UTF8_DOLLAR :: w) hheld (by simp) true kw r hr
    simp only [List.cons_append] at this
    rcases this with h | h | h
    · rw [hform.1] at h; cases h
    · rw [hform.2.1] at h; cases h
    · rw [hform.2.2] at h; cases h
  have h1 : kw_run (some kw) true ([], []) (SVN_UTF8_DOLLAR :: (w ++ [SVN_UTF8_DOLLAR]))
      = ([SVN_UTF8_DOLLAR], SVN_UTF8_DOLLAR :: w) := by
    rw [kw_run_single (some kw) true w [] hw (by unfold SVN_KEYWORD_MAX_LEN; omega)]
    rcases ht : translate_keyword (SVN_UTF8_DOLLAR :: (w ++ [SVN_UTF8_DOLLAR])) true (some kw)
      with _ | ⟨_ | _, kb⟩
    · rfl
    · rfl
    · exact absurd ht (hdecl kb)
  have h2 : kw_run (some kw) true ([SVN_UTF8_DOLLAR], SVN_UTF8_DOLLAR :: w) n
      = ([SVN_UTF8_DOLLAR] ++ n, SVN_UTF8_DOLLAR :: w) :=
    kw_run_hold (some kw) true n [SVN_UTF8_DOLLAR] _ (by simp) hnd (by
      simp only [List.length_singleton]
      unfold SVN_KEYWORD_MAX_LEN at hnl ⊢
      omega)
  have h3 := translate_keyword_expand_value kw n v hn0 hnc hnl hv hv0
  rw [translate_stream_kw, hK, hchunks,
    show SVN_UTF8_DOLLAR :: (w ++ SVN_UTF8_DOLLAR :: (n ++ [SVN_UTF8_DOLLAR]))
      = (SVN_UTF8_DOLLAR :: (w ++ [SVN_UTF8_DOLLAR])) ++ (n ++ [SVN_UTF8_DOLLAR]) by simp,
    kw_run_append, h1, kw_run_append, h2, kw_run_cons, kw_run_nil,
    kw_step_close _ _ _ _ (by simp)]
  simp only [List.singleton_append, List.nil_append, h3, List.append_nil, List.cons_append]

/-- The content `$a$Rev$` with Rev bound to `42` gives `$a$Rev: 42 $`. -/
theorem translate_stream_declined_dollar_opens_witness :
    translate_stream none false (some [(ascii "Rev", ascii "42")]) true [ascii "$a$Rev$"]
      = some (SVN_NO_ERROR, ascii "$a$Rev: 42 $") :=
  translate_stream_declined_dollar_opens [(ascii "Rev", ascii "42")] (ascii "Rev") (ascii "42")
    (ascii "a") false [ascii "$a$Rev$"] (by decide) (by decide) (by decide) (by decide)
    (by decide) (by decide) (by decide) (by decide) (by decide) (by decide)

set_option maxRecDepth 100000 in
/-- Counterexample for C34 as stated. The name `a:b` is bound to `x`, yet
`$w$a:b$` is left as it is: the name loop stops at the colon and `a` is looked
up. With Rev bound to the empty value, `$a$Rev$` gives `$a$Rev: $`, with one
space. With Rev bound to 250 bytes `x`, `$a$Rev$` gives the first 247 of them.
With Rev bound to the three bytes `4`, NUL, `2`, the copy stops at the NUL and
pads. -/
theorem translate_stream_declined_dollar_not_every_value :
    (apr_hash_get [(ascii "a:b", ascii "x")] (ascii "a:b") = some (ascii "x") ∧
      translate_stream none false (some [(ascii "a:b", ascii "x")]) true [ascii "$w$a:b$"]
        = some (SVN_NO_ERROR, ascii "$w$a:b$")) ∧
    translate_stream none false (some [(ascii "Rev", [])]) true [ascii "$a$Rev$"]
      = some (SVN_NO_ERROR, ascii "$a$Rev: $") ∧
    translate_stream none false (some [(ascii "Rev", List.replicate 250 120)]) true
        [ascii "$a$Rev$"]
      = some (SVN_NO_ERROR, ascii "$a$Rev: " ++ List.replicate 247 120 ++ ascii " $") ∧
    translate_stream none false (some [(ascii "Rev", [52, 0, 50])]) true [ascii "$a$Rev$"]
      = some (SVN_NO_ERROR, ascii "$a$Rev: " ++ [52, 0, 0] ++ ascii " $") := by
  decide

/-! ## The repair flag on a translation that succeeds -/

/-- A call of `translate_newline` that returns without error returns the same
with repair on. -/
theorem translate_newline_repair (eol_str : Option (List Byte)) (n : Nat)
    (sf nb dst : List Byte) (r : Bool) (sf1 d1 : List Byte)
    (h : translate_newline eol_str n sf nb dst r = (SVN_NO_ERROR, sf1, d1)) :
    translate_newline eol_str n sf nb dst true = (SVN_NO_ERROR, sf1, d1) := by
  unfold translate_newline at h ⊢
  by_cases hs : sf.length ≠ 0
  · rw [if_pos hs] at h ⊢
    rw [if_neg (by simp)]
    split_ifs at h
    · cases h
    · exact h
  · rw [if_neg hs] at h ⊢
    exact h

theorem boring_state_repair (b : translation_baton) (p dst : List Byte)
    (b1 : translation_baton) (p1 d1 : List Byte)
    (h : boring_state b p dst = (SVN_NO_ERROR, b1, p1, d1)) :
    boring_state { b with repair := true } p dst
      = (SVN_NO_ERROR, { b1 with repair := true }, p1, d1) := by
  unfold boring_state at h ⊢
  simp only at h ⊢
  cases hd : p.drop (List.takeWhile (boring b.interesting) p).length with
  | nil =>
    simp only [hd, Prod.mk.injEq, true_and] at h ⊢
    obtain ⟨rfl, rfl, rfl⟩ := h
    exact ⟨rfl, rfl, rfl⟩
  | cons c rest =>
    simp only [hd] at h ⊢
    by_cases h1 : c = SVN_UTF8_DOLLAR
    · simp only [if_pos h1, Prod.mk.injEq, true_and] at h ⊢
      obtain ⟨rfl, rfl, rfl⟩ := h
      exact ⟨rfl, rfl, rfl⟩
    · simp only [if_neg h1] at h ⊢
      by_cases h2 : c = SVN_UTF8_CR
      · simp only [if_pos h2, Prod.mk.injEq, true_and] at h ⊢
        obtain ⟨rfl, rfl, rfl⟩ := h
        exact ⟨rfl, rfl, rfl⟩
      · simp only [if_neg h2] at h ⊢
        by_cases h3 : c = SVN_UTF8_NEWLINE
        · simp only [if_pos h3] at h ⊢
          rcases ht : translate_newline b.eol_str b.eol_str_len b.src_format
            (b.newline_buf ++ [c]) _ b.repair with ⟨e, sf, d2⟩
          rw [ht] at h
          cases e <;> simp only [Prod.mk.injEq, true_and, false_and] at h
          · obtain ⟨rfl, rfl, rfl⟩ := h
            rw [translate_newline_repair _ _ _ _ _ _ _ _ ht]
          all_goals exact absurd h.1 (by decide)
        · simp only [if_neg h3, Prod.mk.injEq, true_and] at h ⊢
          obtain ⟨rfl, rfl, rfl⟩ := h
          exact ⟨rfl, rfl, rfl⟩

theorem loop_body_repair (b : translation_baton) (c : Byte) (rest dst : List Byte)
    (b1 : translation_baton) (p1 d1 : List Byte)
    (h : loop_body b c rest dst = (SVN_NO_ERROR, b1, p1, d1)) :
    loop_body { b with repair := true } c rest dst
      = (SVN_NO_ERROR, { b1 with repair := true }, p1, d1) := by
  unfold loop_body at h ⊢
  simp only [translation_baton.newline_off, translation_baton.keyword_off] at h ⊢
  by_cases h1 : b.newline_buf.length ≠ 0
  · simp only [if_pos h1] at h ⊢
    rcases ht : translate_newline b.eol_str b.eol_str_len b.src_format
      (if c = SVN_UTF8_NEWLINE then b.newline_buf ++ [c] else b.newline_buf) dst b.repair
      with ⟨e, sf, d2⟩
    rw [ht] at h
    cases e with
    | SVN_NO_ERROR =>
      rw [translate_newline_repair _ _ _ _ _ _ _ _ ht]
      exact boring_state_repair _ _ _ _ _ _ h
    | _ =>
      simp only [Prod.mk.injEq] at h
      exact absurd h.1 (by decide)
  · simp only [if_neg h1] at h ⊢
    split_ifs at h ⊢
    · rcases hk : translate_keyword (b.keyword_buf ++ [SVN_UTF8_DOLLAR]) b.expand b.keywords
        with _ | ⟨_ | _, kb⟩
      · rw [hk] at h
        simp at h
      · rw [hk] at h
        exact boring_state_repair _ _ _ _ _ _ h
      · rw [hk] at h
        exact boring_state_repair _ _ _ _ _ _ h
    · exact boring_state_repair _ _ _ _ _ _ h
    · simp only [Prod.mk.injEq, true_and] at h ⊢
      obtain ⟨rfl, rfl, rfl⟩ := h
      exact ⟨rfl, rfl, rfl⟩
    · exact boring_state_repair _ _ _ _ _ _ h

theorem translate_chunk_loop_repair :
    ∀ (n : Nat) (b : translation_baton) (p dst : List Byte) (b1 : translation_baton)
      (d1 : List Byte), translate_chunk_loop n b p dst = some (SVN_NO_ERROR, b1, d1) →
      translate_chunk_loop n { b with repair := true } p dst
        = some (SVN_NO_ERROR, { b1 with repair := true }, d1) := by
  intro n
  induction n with
  | zero =>
    intro b p dst b1 d1 h
    cases p with
    | nil =>
      simp only [translate_chunk_loop, Option.some.injEq, Prod.mk.injEq, true_and] at h ⊢
      obtain ⟨rfl, rfl⟩ := h
      exact ⟨rfl, rfl⟩
    | cons c rest => simp [translate_chunk_loop] at h
  | succ n ih =>
    intro b p dst b1 d1 h
    cases p with
    | nil =>
      simp only [translate_chunk_loop, Option.some.injEq, Prod.mk.injEq, true_and] at h ⊢
      obtain ⟨rfl, rfl⟩ := h
      exact ⟨rfl, rfl⟩
    | cons c rest =>
      rw [translate_chunk_loop_succ] at h ⊢
      rcases hb : loop_body b c rest dst with ⟨e, b2, p2, d2⟩
      rw [hb] at h
      by_cases he : e = SVN_NO_ERROR
      · subst he
        rw [continue_loop_ok] at h
        rw [loop_body_repair b c rest dst b2 p2 d2 hb, continue_loop_ok]
        exact ih b2 p2 d2 b1 d1 h
      · rw [continue_loop_err n e he] at h
        simp only [Option.some.injEq, Prod.mk.injEq] at h
        exact absurd h.1 he

theorem translate_chunk_repair (dst : List Byte) (b : translation_baton)
    (buf : Option (List Byte)) (b1 : translation_baton) (d1 : List Byte)
    (h : translate_chunk dst b buf = some (SVN_NO_ERROR, b1, d1)) :
    translate_chunk dst { b with repair := true } buf
      = some (SVN_NO_ERROR, { b1 with repair := true }, d1) := by
  cases buf with
  | some p => exact translate_chunk_loop_repair p.length b p dst b1 d1 h
  | none =>
    unfold translate_chunk at h ⊢
    simp only [translation_baton.newline_off, translation_baton.keyword_off] at h ⊢
    by_cases h1 : b.newline_buf.length ≠ 0
    · simp only [if_pos h1] at h ⊢
      rcases ht : translate_newline b.eol_str b.eol_str_len b.src_format b.newline_buf dst
        b.repair with ⟨e, sf, d2⟩
      rw [ht] at h
      cases e with
      | SVN_NO_ERROR =>
        rw [translate_newline_repair _ _ _ _ _ _ _ _ ht]
        simp only at h ⊢
        split_ifs at h ⊢
        · simp only [Option.some.injEq, Prod.mk.injEq, true_and] at h ⊢
          obtain ⟨rfl, rfl⟩ := h
          exact ⟨rfl, rfl⟩
        · simp only [Option.some.injEq, Prod.mk.injEq, true_and] at h ⊢
          obtain ⟨rfl, rfl⟩ := h
          exact ⟨rfl, rfl⟩
      | _ =>
        simp only [Option.some.injEq, Prod.mk.injEq] at h
        exact absurd h.1 (by decide)
    · simp only [if_neg h1] at h ⊢
      split_ifs at h ⊢
      · simp only [Option.some.injEq, Prod.mk.injEq, true_and] at h ⊢
        obtain ⟨rfl, rfl⟩ := h
        exact ⟨rfl, rfl⟩
      · simp only [Option.some.injEq, Prod.mk.injEq, true_and] at h ⊢
        obtain ⟨rfl, rfl⟩ := h
        exact ⟨rfl, rfl⟩

theorem translate_chunks_repair :
    ∀ (calls : List (Option (List Byte))) (dst : List Byte) (b b1 : translation_baton)
      (d1 : List Byte), translate_chunks dst b calls = some (SVN_NO_ERROR, b1, d1) →
      translate_chunks dst { b with repair := true } calls
        = some (SVN_NO_ERROR, { b1 with repair := true }, d1) := by
  intro calls
  induction calls with
  | nil =>
    intro dst b b1 d1 h
    simp only [translate_chunks, Option.some.injEq, Prod.mk.injEq, true_and] at h ⊢
    obtain ⟨rfl, rfl⟩ := h
    exact ⟨rfl, rfl⟩
  | cons buf bufs ih =>
    intro dst b b1 d1 h
    rw [translate_chunks_cons] at h ⊢
    rcases hc : translate_chunk dst b buf with _ | ⟨e, b2, d2⟩
    · rw [hc] at h
      simp [and_then] at h
    · rw [hc] at h
      by_cases he : e = SVN_NO_ERROR
      · subst he
        rw [and_then_ok] at h
        rw [translate_chunk_repair dst b buf b2 d2 hc, and_then_ok]
        exact ih d2 b2 b1 d1 h
      · rw [and_then_err e he] at h
        simp only [Option.some.injEq, Prod.mk.injEq] at h
        exact absurd h.1 he

/-- A translation that succeeds gives the same output with repair on. -/
theorem translate_stream_repair_irrelevant (eol_str : Option (List Byte)) (repair : Bool)
    (keywords : Option apr_hash_t) (expand : Bool) (chunks : List (List Byte))
    (out : List Byte)
    (h : translate_stream eol_str repair keywords expand chunks = some (SVN_NO_ERROR, out)) :
    translate_stream eol_str true keywords expand chunks = some (SVN_NO_ERROR, out) := by
  unfold translate_stream at h ⊢
  rcases hc : translate_chunks [] (create_translation_baton eol_str repair keywords expand)
    (chunks.map some ++ [none]) with _ | ⟨e, b1, d1⟩
  · rw [hc] at h
    simp at h
  · rw [hc] at h
    simp only [Option.map_some', Option.some.injEq, Prod.mk.injEq] at h
    obtain ⟨rfl, rfl⟩ := h
    have := translate_chunks_repair _ _ _ _ _ hc
    have hb : ({ create_translation_baton eol_str repair keywords expand with repair := true }
        : translation_baton) = create_translation_baton eol_str true keywords expand := rfl
    rw [hb] at this
    rw [this]
    rfl

/-! ## Normalized text -/

theorem normalize_eol_normal (eol : List Byte) : ∀ (n : Nat) (p : List Byte), p.length ≤ n →
    eol_normal eol (normalize_eol eol p) := by
  intro n
  induction n with
  | zero =>
    intro p hp
    have : p = [] := List.length_eq_zero.mp (Nat.le_zero.mp hp)
    subst this
    exact eol_normal.nil
  | succ n ih =>
    intro p hp
    cases p with
    | nil => exact eol_normal.nil
    | cons c r =>
      simp only [List.length_cons] at hp
      by_cases h1 : c = SVN_UTF8_CR
      · subst h1
        cases r with
        | nil =>
          rw [normalize_eol_cr_nil]
          have := @eol_normal.eol eol [] eol_normal.nil
          rwa [List.append_nil] at this
        | cons d r2 =>
          simp only [List.length_cons] at hp
          by_cases h2 : d = SVN_UTF8_NEWLINE
          · subst h2
            rw [normalize_eol_cr_lf]
            exact eol_normal.eol _ (ih r2 (by omega))
          · rw [normalize_eol_cr_other eol d r2 h2]
            exact eol_normal.eol _ (ih (d :: r2) (by simp only [List.length_cons]; omega))
      · by_cases h2 : c = SVN_UTF8_NEWLINE
        · subst h2
          rw [normalize_eol_cons_lf]
          exact eol_normal.eol _ (ih r (by omega))
        · rw [normalize_eol_cons_other eol c r h1 h2]
          exact eol_normal.other c _ h1 h2 (ih r (by omega))

theorem eol_normal_head_cr : ∀ (l : List Byte), eol_normal [SVN_UTF8_CR] l →
    l.head? ≠ some SVN_UTF8_NEWLINE := by
  intro l h
  cases h with
  | nil => simp
  | other c l h1 h2 _ => simpa using h2
  | eol l _ => simp [SVN_UTF8_CR, SVN_UTF8_NEWLINE]

theorem cr_cons_of_head (eol : List Byte) (l : List Byte)
    (h : l.head? ≠ some SVN_UTF8_NEWLINE) :
    normalize_eol eol (SVN_UTF8_CR :: l) = eol ++ normalize_eol eol l ∧
    terminators (SVN_UTF8_CR :: l) = [SVN_UTF8_CR] :: terminators l := by
  cases l with
  | nil => exact ⟨by rw [normalize_eol_cr_nil]; simp [normalize_eol], by
      rw [terminators_cr_nil]; simp [terminators]⟩
  | cons d r =>
    have hd : d ≠ SVN_UTF8_NEWLINE := by simpa using h
    exact ⟨normalize_eol_cr_other eol d r hd, terminators_cr_other d r hd⟩

/-- A text of the normal shape for one of the three EOL strings is left as it is
by the replacement of its terminators, and all its terminators are that string. -/
theorem eol_normal_fixed (eol : List Byte)
    (heol : eol = [SVN_UTF8_NEWLINE] ∨ eol = [SVN_UTF8_CR]
      ∨ eol = [SVN_UTF8_CR, SVN_UTF8_NEWLINE]) :
    ∀ (l : List Byte), eol_normal eol l →
      normalize_eol eol l = l ∧ ∀ t ∈ terminators l, t = eol := by
  intro l h
  induction h with
  | nil => exact ⟨by simp [normalize_eol], by simp [terminators]⟩
  | other c l h1 h2 _ ih =>
    rw [normalize_eol_cons_other eol c l h1 h2, terminators_cons_other c l h1 h2, ih.1]
    exact ⟨rfl, ih.2⟩
  | eol l hl ih =>
    rcases heol with rfl | rfl | rfl
    · simp only [List.singleton_append]
      rw [normalize_eol_cons_lf, terminators_cons_lf, ih.1]
      refine ⟨rfl, ?_⟩
      intro t ht
      rcases List.mem_cons.mp ht with rfl | ht
      · rfl
      · exact ih.2 t ht
    · simp only [List.singleton_append]
      obtain ⟨e1, e2⟩ := cr_cons_of_head [SVN_UTF8_CR] l (eol_normal_head_cr l hl)
      rw [e1, e2, ih.1]
      refine ⟨rfl, ?_⟩
      intro t ht
      rcases List.mem_cons.mp ht with rfl | ht
      · rfl
      · exact ih.2 t ht
    · simp only [List.cons_append, List.nil_append]
      rw [normalize_eol_cr_lf, terminators_cr_lf, ih.1]
      refine ⟨rfl, ?_⟩
      intro t ht
      rcases List.mem_cons.mp ht with rfl | ht
      · rfl
      · exact ih.2 t ht

/-- With repair on and no keywords, the translation is the input with every
line terminator replaced by the EOL string. -/
theorem translate_stream_repair_eq (eol : List Byte)
    (heol : eol = [SVN_UTF8_NEWLINE] ∨ eol = [SVN_UTF8_CR]
      ∨ eol = [SVN_UTF8_CR, SVN_UTF8_NEWLINE])
    (keywords : Option apr_hash_t) (hk : keywords = none ∨ keywords = some [])
    (expand : Bool) (chunks : List (List Byte)) :
    translate_stream (some eol) true keywords expand chunks
      = some (SVN_NO_ERROR, normalize_eol eol chunks.flatten) := by
  have hw : eol.take (strlen eol) = eol := by
    rcases heol with rfl | rfl | rfl <;> decide
  have h0 : eol_only (create_translation_baton (some eol) true keywords expand) eol := by
    rcases hk with rfl | rfl <;>
      exact ⟨rfl, rfl, rfl, by simp [create_translation_baton, apr_hash_count], rfl, Or.inl rfl,
        Or.inl rfl⟩
  unfold translate_stream
  rw [translate_chunks_join chunks _ [] [none] (baton_inv_create _ _ _ _)]
  simp only [translate_chunks_flush]
  show Option.map _ (and_then (translate_chunk_loop _ _ _ _) _) = _
  rw [translate_chunk_loop_bytes _ _ _ (baton_inv_create _ _ _ _)]
  obtain ⟨b1, h1⟩ := run_eol_only eol chunks.flatten _ [] h0
  rw [h1, hw]
  rfl

/-- C37: EOL normalization is idempotent and its output is EOL-consistent. For
every EOL target among LF, CR and CR LF, no keyword set (a NULL or an empty
hash), and every input, in any chunking, whose translation with that target
succeeds, with repair on or off: the output is the input with every line
terminator replaced by the target, all line terminators of the output are the
target, and the translation of the output, in any chunking, with the same
target and repair off succeeds and returns the output unchanged. -/
theorem translate_stream_eol_idempotent (eol : List Byte)
    (heol : eol = [SVN_UTF8_NEWLINE] ∨ eol = [SVN_UTF8_CR]
      ∨ eol = [SVN_UTF8_CR, SVN_UTF8_NEWLINE])
    (keywords : Option apr_hash_t) (hk : keywords = none ∨ keywords = some [])
    (expand repair : Bool) (chunks : List (List Byte)) (out : List Byte)
    (h : translate_stream (some eol) repair keywords expand chunks = some (SVN_NO_ERROR, out))
    (chunks2 : List (List Byte)) (h2 : chunks2.flatten = out) :
    out = normalize_eol eol chunks.flatten ∧
    (∀ t ∈ terminators out, t = eol) ∧
    translate_stream (some eol) false keywords expand chunks2 = some (SVN_NO_ERROR, out) := by
  have h1 := translate_stream_repair_irrelevant _ _ _ _ _ _ h
  rw [translate_stream_repair_eq eol heol keywords hk expand chunks] at h1
  simp only [Option.some.injEq, Prod.mk.injEq, true_and] at h1
  have hnorm : eol_normal eol out := by
    rw [← h1]
    exact normalize_eol_normal eol _ _ (le_refl _)
  obtain ⟨hfix, hterm⟩ := eol_normal_fixed eol heol out hnorm
  refine ⟨h1.symm, hterm, ?_⟩
  obtain ⟨e, out2, h3, _, h5⟩ := translate_stream_eol_outcome eol false keywords expand chunks2
  have hrun : eol_run false ([], []) chunks2.flatten = true := by
    rw [eol_run_spec _ _ _ (Or.inl rfl), List.nil_append, h2,
      eol_consistent_first _ (terminators_ne_nil _ _ (le_refl _))]
    intro t ht
    cases hts : terminators out with
    | nil => rw [hts] at ht; simp at ht
    | cons t0 ts =>
      have h0 : t0 = eol := hterm t0 (by rw [hts]; exact List.mem_cons_self _ _)
      simp only [List.head?_cons, Option.some.injEq]
      rw [hterm t ht, h0]
  have he : e = SVN_NO_ERROR := h5.mpr hrun
  subst he
  have h6 := translate_stream_repair_irrelevant _ _ _ _ _ _ h3
  rw [translate_stream_repair_eq eol heol keywords hk expand chunks2, h2, hfix] at h6
  simp only [Option.some.injEq, Prod.mk.injEq, true_and] at h6
  rw [h3, ← h6]

/-- The input `ab` CR LF `cd` CR LF with the target LF and repair off: the output
`ab` LF `cd` LF is translated to itself. -/
theorem translate_stream_eol_idempotent_witness :
    translate_stream (some [SVN_UTF8_NEWLINE]) false none false [ascii "ab\r\ncd\r\n"]
      = some (SVN_NO_ERROR, ascii "ab\ncd\n") ∧
    translate_stream (some [SVN_UTF8_NEWLINE]) false none false [ascii "ab\ncd\n"]
      = some (SVN_NO_ERROR, ascii "ab\ncd\n") :=
  ⟨by decide,
    (translate_stream_eol_idempotent [SVN_UTF8_NEWLINE] (Or.inl rfl) none (Or.inl rfl) false
      false [ascii "ab\r\ncd\r\n"] (ascii "ab\ncd\n") (by decide) [ascii "ab\ncd\n"]
      (by decide)).2.2⟩

/-! ## A second run over the output of a run -/

/-- Feeding a keyword run `$` w to a run that holds nothing, or holds a run the
substitutor declines: what was held is written and the new run is held. -/
theorem kw_run_pass_held (K : Option apr_hash_t) (e : Bool)
    (st : List Byte × List Byte)
    (h2 : st.1 = [] ∨ kw_declined_on K e st.1) (x : List Byte) (hx : kw_held x) (hne : x ≠ []) :
    kw_run K e st x = (x, st.2 ++ st.1) := by
  rcases hx with hx | ⟨hh, hl, hw⟩
  · exact absurd hx hne
  cases x with
  | nil => exact absurd rfl hne
  | cons d w =>
    simp only [List.head?_cons, Option.some.injEq] at hh
    subst hh
    simp only [List.tail_cons] at hw
    simp only [List.length_cons] at hl
    have hfirst : kw_step K e st SVN_UTF8_DOLLAR = ([SVN_UTF8_DOLLAR], st.2 ++ st.1) := by
      rcases h2 with h2 | ⟨-, h2ne, h2d⟩
      · rw [show st = (([] : List Byte), st.2) from Prod.ext h2 rfl, kw_step_start]
        simp
      · rw [show st = (st.1, st.2) from rfl, kw_step_close K e st.1 st.2 h2ne]
        cases htk : translate_keyword (st.1 ++ [SVN_UTF8_DOLLAR]) e K with
        | none => rfl
        | some y =>
          obtain ⟨ok, kb⟩ := y
          cases ok
          · rfl
          · exact absurd htk (h2d kb)
    rw [kw_run_cons, hfirst, kw_run_hold K e w [SVN_UTF8_DOLLAR] _ (by simp) hw
      (by simp only [List.length_singleton]; omega)]
    rfl

/-- Feeding a buffer `$` w `$` that the substitutor rewrites to itself: it is
written as it is and nothing is held. -/
theorem kw_run_pass_keyword (K : Option apr_hash_t) (e : Bool) (st : List Byte × List Byte)
    (h2 : st.1 = [] ∨ kw_declined_on K e st.1) (w : List Byte)
    (hw : ∀ c ∈ w, c ≠ SVN_UTF8_DOLLAR ∧ c ≠ SVN_UTF8_CR ∧ c ≠ SVN_UTF8_NEWLINE)
    (hl : w.length + 2 ≤ SVN_KEYWORD_MAX_LEN)
    (hfix : translate_keyword (SVN_UTF8_DOLLAR :: (w ++ [SVN_UTF8_DOLLAR])) e K
      = some (true, SVN_UTF8_DOLLAR :: (w ++ [SVN_UTF8_DOLLAR]))) :
    kw_run K e st (SVN_UTF8_DOLLAR :: (w ++ [SVN_UTF8_DOLLAR]))
      = ([], st.2 ++ st.1 ++ SVN_UTF8_DOLLAR :: (w ++ [SVN_UTF8_DOLLAR])) := by
  have hheld : kw_held (SVN_UTF8_DOLLAR :: w) :=
    Or.inr ⟨rfl, by simp only [List.length_cons]; unfold SVN_KEYWORD_MAX_LEN at hl ⊢; omega, hw⟩
  rw [show SVN_UTF8_DOLLAR :: (w ++ [SVN_UTF8_DOLLAR])
      = (SVN_UTF8_DOLLAR :: w) ++ [SVN_UTF8_DOLLAR] from rfl, kw_run_append,
    kw_run_pass_held K e st h2 _ hheld (by simp), kw_run_cons, kw_run_nil,
    kw_step_close K e _ _ (by simp)]
  rw [show (SVN_UTF8_DOLLAR :: w) ++ [SVN_UTF8_DOLLAR]
      = SVN_UTF8_DOLLAR :: (w ++ [SVN_UTF8_DOLLAR]) from rfl, hfix]

/-- Feeding a keyword run that was flushed together with the byte that ended
it: both are written and nothing is held. -/
theorem kw_run_pass_flush (K : Option apr_hash_t) (e : Bool) (st : List Byte × List Byte)
    (h2 : st.1 = [] ∨ kw_declined_on K e st.1) (x : List Byte) (hx : kw_held x) (hne : x ≠ [])
    (c : Byte) (hc : c ≠ SVN_UTF8_DOLLAR)
    (h : x.length = SVN_KEYWORD_MAX_LEN - 1 ∨ c = SVN_UTF8_CR ∨ c = SVN_UTF8_NEWLINE) :
    kw_run K e st (x ++ [c]) = ([], st.2 ++ st.1 ++ x ++ [c]) := by
  rw [kw_run_append, kw_run_pass_held K e st h2 x hx hne, kw_run_cons, kw_run_nil,
    kw_step_flush K e x _ c hne hc h]

/-- When rewrites are stable, a rewrite yields a buffer that a second run writes
as it is. -/
theorem kw_run_pass_rewrite (K : Option apr_hash_t) (e : Bool)
    (hfp : rewrite_stable K e) (st : List Byte × List Byte)
    (h2 : st.1 = [] ∨ kw_declined_on K e st.1) (held : List Byte) (hh : kw_held held)
    (hne : held ≠ []) (r : List Byte)
    (h : translate_keyword (held ++ [SVN_UTF8_DOLLAR]) e K = some (true, r)) :
    kw_run K e st r = ([], st.2 ++ st.1 ++ r) := by
  obtain ⟨w, hr, hw, hl, hfix⟩ := hfp held r hh hne h
  subst hr
  exact kw_run_pass_keyword K e st h2 w hw hl hfix

/-- When rewrites are stable, one step of a run keeps it in step with a second
run, with the same expand flag, fed with its output. -/
theorem rewrite_sim_step (K : Option apr_hash_t) (e : Bool)
    (hfp : rewrite_stable K e) (st : List Byte × List Byte) (c : Byte)
    (h : rewrite_sim K e st) : rewrite_sim K e (kw_step K e st c) := by
  obtain ⟨hh, hout, h2⟩ := h
  have hh' := kw_held_step K e st c hh
  have h2' : (kw_run K e ([], []) st.2).1 = [] ∨
      kw_declined_on K e (kw_run K e ([], []) st.2).1 := by
    rcases h2 with h2 | h2
    · exact Or.inl h2
    · exact Or.inr h2.2
  refine ⟨hh', ?_⟩
  by_cases h1 : st.1 = []
  · have h20 : (kw_run K e ([], []) st.2).1 = [] := by
      rcases h2 with h2 | h2
      · exact h2
      · exact absurd h1 h2.1
    by_cases hc : c = SVN_UTF8_DOLLAR
    · have hs : kw_step K e st c = ([SVN_UTF8_DOLLAR], st.2) := by
        rw [show st = (([] : List Byte), st.2) from Prod.ext h1 rfl, hc, kw_step_start]
      rw [hs]
      exact ⟨hout, Or.inl h20⟩
    · have hs : kw_step K e st c = ([], st.2 ++ [c]) := by
        rw [show st = (([] : List Byte), st.2) from Prod.ext h1 rfl]
        simp [kw_step, hc]
      rw [hs]
      have hrun : kw_run K e ([], []) (st.2 ++ [c])
          = ([], (kw_run K e ([], []) st.2).2 ++ [c]) := by
        rw [kw_run_append, kw_run_cons, kw_run_nil,
          show kw_run K e ([], []) st.2
            = (([] : List Byte), (kw_run K e ([], []) st.2).2) from Prod.ext h20 rfl]
        simp [kw_step, hc]
      simp only [hrun]
      rw [h20, List.append_nil] at hout
      exact ⟨by rw [List.append_nil, hout], Or.inl trivial⟩
  · by_cases hc : c = SVN_UTF8_DOLLAR
    · subst hc
      have hclose := kw_step_close K e st.1 st.2 h1
      rw [show ((st.1, st.2) : List Byte × List Byte) = st from rfl] at hclose
      cases htk : translate_keyword (st.1 ++ [SVN_UTF8_DOLLAR]) e K with
      | none =>
        rw [htk] at hclose
        simp only at hclose
        rw [hclose]
        have hrun := kw_run_pass_held K e _ h2' st.1 hh h1
        simp only [kw_run_append, hrun, hout]
        exact ⟨trivial, Or.inr ⟨by simp, hh, h1, fun r hr => by rw [htk] at hr; cases hr⟩⟩
      | some y =>
        obtain ⟨ok, kb⟩ := y
        rw [htk] at hclose
        cases ok
        · simp only at hclose
          rw [hclose]
          have hrun := kw_run_pass_held K e _ h2' st.1 hh h1
          simp only [kw_run_append, hrun, hout]
          exact ⟨trivial, Or.inr ⟨by simp, hh, h1, fun r hr => by rw [htk] at hr; cases hr⟩⟩
        · simp only at hclose
          rw [hclose]
          have hrun := kw_run_pass_rewrite K e hfp _ h2' st.1 hh h1 kb htk
          simp only [kw_run_append, hrun, hout]
          exact ⟨by simp, Or.inl trivial⟩
    · by_cases h3 : st.1.length = SVN_KEYWORD_MAX_LEN - 1 ∨ c = SVN_UTF8_CR
          ∨ c = SVN_UTF8_NEWLINE
      · have hs := kw_step_flush K e st.1 st.2 c h1 hc h3
        rw [show ((st.1, st.2) : List Byte × List Byte) = st from rfl] at hs
        rw [hs]
        have hrun := kw_run_pass_flush K e _ h2' st.1 hh h1 c hc h3
        simp only [List.append_assoc, kw_run_append] at hrun ⊢
        simp only [hrun]
        rw [← List.append_assoc, hout]
        exact ⟨by simp, Or.inl trivial⟩
      · have hs : kw_step K e st c = (st.1 ++ [c], st.2) := by
          unfold kw_step
          rw [if_neg h1, if_neg hc, if_neg h3]
        rw [hs]
        refine ⟨hout, ?_⟩
        rcases h2 with h2 | h2
        · exact Or.inl h2
        · exact Or.inr ⟨by simp, h2.2⟩

theorem rewrite_sim_run (K : Option apr_hash_t) (e : Bool) (hfp : rewrite_stable K e) :
    ∀ (p : List Byte) (st : List Byte × List Byte), rewrite_sim K e st →
      rewrite_sim K e (kw_run K e st p) := by
  intro p
  induction p with
  | nil => intro st h; exact h
  | cons c r ih => intro st h; rw [kw_run_cons]; exact ih _ (rewrite_sim_step K e hfp st c h)

/-- When rewrites are stable, what a run has written and still holds is passed on
unchanged by a second run with the same expand flag. -/
theorem kw_run_idempotent (K : Option apr_hash_t) (e : Bool) (hfp : rewrite_stable K e)
    (p : List Byte) :
    (kw_run K e ([], []) ((kw_run K e ([], []) p).2 ++ (kw_run K e ([], []) p).1)).2
      ++ (kw_run K e ([], [])
        ((kw_run K e ([], []) p).2 ++ (kw_run K e ([], []) p).1)).1
      = (kw_run K e ([], []) p).2 ++ (kw_run K e ([], []) p).1 := by
  have h0 : rewrite_sim K e ([], []) := ⟨kw_held_nil, rfl, Or.inl rfl⟩
  obtain ⟨hh, hout, h2⟩ := rewrite_sim_run K e hfp p ([], []) h0
  have h2' : (kw_run K e ([], []) (kw_run K e ([], []) p).2).1 = [] ∨
      kw_declined_on K e (kw_run K e ([], []) (kw_run K e ([], []) p).2).1 := by
    rcases h2 with h2 | h2
    · exact Or.inl h2
    · exact Or.inr h2.2
  by_cases h1 : (kw_run K e ([], []) p).1 = []
  · rw [h1, List.append_nil]
    exact hout
  · rw [kw_run_append, kw_run_pass_held K e _ h2' _ hh h1]
    simp only
    rw [hout]

/-! ## Expansion is idempotent -/

theorem expansion_of_value_facts (v : List Byte) :
    (expansion_of_value v).getD 0 0 = SVN_UTF8_COLON ∧
    (expansion_of_value v).getD 1 0 = SVN_UTF8_SPACE ∧
    (expansion_of_value v).getD ((expansion_of_value v).length - 2) 0 = SVN_UTF8_SPACE ∧
    3 ≤ (expansion_of_value v).length ∧
    (expansion_of_value v).length ≤ v.length + 4 ∧
    (expansion_of_value v).getLast? = some SVN_UTF8_DOLLAR ∧
    (expansion_of_value v).head? = some SVN_UTF8_COLON := by
  unfold expansion_of_value
  by_cases hv : v.length ≠ 0
  · rw [if_pos hv]
    have hu := expanded_tail_facts (SVN_UTF8_SPACE :: (strncpy v v.length ++ [SVN_UTF8_SPACE]))
      rfl (by
        rw [show SVN_UTF8_SPACE :: (strncpy v v.length ++ [SVN_UTF8_SPACE])
          = (SVN_UTF8_SPACE :: strncpy v v.length) ++ [SVN_UTF8_SPACE] from rfl,
          List.getLast?_append]
        rfl)
    have e : [SVN_UTF8_COLON, SVN_UTF8_SPACE] ++ strncpy v v.length
        ++ [SVN_UTF8_SPACE, SVN_UTF8_DOLLAR]
        = SVN_UTF8_COLON :: ((SVN_UTF8_SPACE :: (strncpy v v.length ++ [SVN_UTF8_SPACE]))
          ++ [SVN_UTF8_DOLLAR]) := by simp
    rw [e]
    obtain ⟨h1, h2, h3, h4, h5, h6⟩ := hu
    refine ⟨h3, h4, h5, ?_, ?_, h6, rfl⟩
    · rw [h1]; omega
    · rw [h1]; simp [length_strncpy]
  · rw [if_neg hv]
    refine ⟨rfl, rfl, rfl, by simp, by simp, rfl, rfl⟩

theorem expansion_of_value_clean (v : List Byte)
    (hv : ∀ c ∈ v, c ≠ SVN_UTF8_DOLLAR ∧ c ≠ SVN_UTF8_CR ∧ c ≠ SVN_UTF8_NEWLINE) :
    ∀ c ∈ (expansion_of_value v).dropLast,
      c ≠ SVN_UTF8_DOLLAR ∧ c ≠ SVN_UTF8_CR ∧ c ≠ SVN_UTF8_NEWLINE := by
  unfold expansion_of_value
  by_cases h : v.length ≠ 0
  · rw [if_pos h, show [SVN_UTF8_COLON, SVN_UTF8_SPACE] ++ strncpy v v.length
        ++ [SVN_UTF8_SPACE, SVN_UTF8_DOLLAR]
      = ([SVN_UTF8_COLON, SVN_UTF8_SPACE] ++ strncpy v v.length ++ [SVN_UTF8_SPACE])
        ++ [SVN_UTF8_DOLLAR] by simp, List.dropLast_concat]
    intro c hc
    simp only [List.mem_append, List.mem_cons, List.mem_singleton, List.not_mem_nil,
      or_false] at hc
    rcases hc with (((rfl | rfl) | hc) | rfl)
    · decide
    · decide
    · rcases mem_strncpy v _ c hc with h1 | rfl
      · exact hv c h1
      · decide
    · decide
  · rw [if_neg h]
    intro c hc
    simp only [List.dropLast, List.mem_cons, List.mem_singleton, List.not_mem_nil,
      or_false] at hc
    rcases hc with rfl | rfl <;> decide

/-- The substitutor, expanding, rewrites to itself the buffer `$` name followed by
the expansion of the value, when name and value fit in KW_MAX bytes. -/
theorem translate_keyword_expansion_stable (K : apr_hash_t) (n v : List Byte)
    (hn0 : (0 : Byte) ∉ n) (hnc : SVN_UTF8_COLON ∉ n) (hv : apr_hash_get K n = some v)
    (hl : v.length + n.length + 5 ≤ SVN_KEYWORD_MAX_LEN) :
    translate_keyword (SVN_UTF8_DOLLAR :: (n ++ expansion_of_value v)) true (some K)
      = some (true, SVN_UTF8_DOLLAR :: (n ++ expansion_of_value v)) := by
  obtain ⟨f0, f1, f2, f3, f4, f5, f6⟩ := expansion_of_value_facts v
  have hlen : n.length + (expansion_of_value v).length + 1 ≤ SVN_KEYWORD_MAX_LEN := by
    unfold SVN_KEYWORD_MAX_LEN at hl ⊢
    omega
  rw [translate_keyword_frame n _ true K v hn0 hnc (Or.inr ⟨f6, by omega⟩) f5 hlen hv,
    if_pos rfl, translate_keyword_subst_reexpand n _ v f0 f1 f2 f3 f5 hlen]
  have hm : min v.length (SVN_KEYWORD_MAX_LEN - 5) = v.length := by
    unfold SVN_KEYWORD_MAX_LEN at hl ⊢
    omega
  rw [hm]
  rfl

/-- A keyword set whose values have no `$`, CR or LF and fit, with their names,
in KW_MAX bytes: every rewrite the substitutor reports when expanding yields a
buffer that a further call rewrites to itself. -/
theorem translate_keyword_expand_stable (K : apr_hash_t)
    (hK : ∀ kv ∈ K,
      (∀ c ∈ kv.2, c ≠ SVN_UTF8_DOLLAR ∧ c ≠ SVN_UTF8_CR ∧ c ≠ SVN_UTF8_NEWLINE) ∧
      kv.2.length + kv.1.length + 5 ≤ SVN_KEYWORD_MAX_LEN) :
    rewrite_stable (some K) true := by
  intro held r hh hne h
  obtain ⟨n, t, v, hs, hn0, hnc, hv, ht, hlast, hl, hnb, htb, hsub⟩ :=
    translate_keyword_true_frame held hh hne true K r h
  simp only [if_true] at hsub
  have hmem : (n, v) ∈ K := by
    apply mem_of_lookup
    have := hv
    unfold apr_hash_get at this
    rwa [cstr_of_no_nul n hn0] at this
  obtain ⟨hvb, hvl⟩ := hK (n, v) hmem
  simp only at hvb hvl
  have hvl' := hvl
  unfold SVN_KEYWORD_MAX_LEN at hvl'
  have hl' := hl
  unfold SVN_KEYWORD_MAX_LEN at hl'
  have hlen : (SVN_UTF8_DOLLAR :: (n ++ t)).length = n.length + t.length + 1 := by simp
  obtain ⟨f0, f1, f2, f3, f4, f5, f6⟩ := expansion_of_value_facts v
  -- the result for the variable-length forms
  have hexp : r = SVN_UTF8_DOLLAR :: (n ++ expansion_of_value v) →
      ∃ w, r = SVN_UTF8_DOLLAR :: (w ++ [SVN_UTF8_DOLLAR]) ∧
        (∀ c ∈ w, c ≠ SVN_UTF8_DOLLAR ∧ c ≠ SVN_UTF8_CR ∧ c ≠ SVN_UTF8_NEWLINE) ∧
        w.length + 2 ≤ SVN_KEYWORD_MAX_LEN ∧
        translate_keyword r true (some K) = some (true, r) := by
    intro hr
    have hd : expansion_of_value v = (expansion_of_value v).dropLast ++ [SVN_UTF8_DOLLAR] :=
      (List.dropLast_append_getLast? SVN_UTF8_DOLLAR (by simpa using f5)).symm
    refine ⟨n ++ (expansion_of_value v).dropLast, ?_, ?_, ?_, ?_⟩
    · rw [hr, List.append_assoc, ← hd]
    · intro c hc
      rcases List.mem_append.mp hc with hc | hc
      · exact hnb c hc
      · exact expansion_of_value_clean v hvb c hc
    · simp only [List.length_append, List.length_dropLast]
      unfold SVN_KEYWORD_MAX_LEN
      omega
    · rw [hr]
      exact translate_keyword_expansion_stable K n v hn0 hnc hv hvl
  obtain ⟨-, -, hc⟩ := translate_keyword_subst_true_cases _ _ _ _ _ hsub
  rcases hc with hc | hc | hc
  · -- fixed-length
    obtain ⟨c0, c1, c2, c3, c4⟩ := hc
    rw [getD_frame_zero] at c0
    rw [getD_frame] at c1 c2
    rw [getD_len_sub_two n t _ _ (by rw [hlen] at c4; omega)] at c3
    obtain ⟨w, x, htw, hw, hx⟩ := fixed_shape t c0 c1 c2 c3 (by rw [hlen] at c4; omega) hlast
    subst htw
    have hw1 : 1 ≤ w.length := List.length_pos.mpr hw
    have hwl : n.length + w.length + 6 ≤ SVN_KEYWORD_MAX_LEN := by
      simp only [List.length_cons, List.length_append, List.length_nil] at hl'
      unfold SVN_KEYWORD_MAX_LEN; omega
    have hwb : ∀ c ∈ w, c ≠ SVN_UTF8_DOLLAR ∧ c ≠ SVN_UTF8_CR ∧ c ≠ SVN_UTF8_NEWLINE := by
      intro c hcw
      refine htb c ?_
      rw [show SVN_UTF8_COLON :: SVN_UTF8_COLON :: SVN_UTF8_SPACE :: (w ++ [x, SVN_UTF8_DOLLAR])
        = (SVN_UTF8_COLON :: SVN_UTF8_COLON :: SVN_UTF8_SPACE :: (w ++ [x])) ++ [SVN_UTF8_DOLLAR]
        by simp, List.dropLast_concat]
      simp [hcw]
    have hcopy : ∀ m, ∀ c ∈ strncpy v m,
        c ≠ SVN_UTF8_DOLLAR ∧ c ≠ SVN_UTF8_CR ∧ c ≠ SVN_UTF8_NEWLINE := by
      intro m c hc
      rcases mem_strncpy v m c hc with h1 | rfl
      · exact hvb c h1
      · decide
    have hr := translate_keyword_subst_fixed n w x (some v) hw hx hwl
    rw [hsub] at hr
    simp only [Option.some.injEq, Prod.mk.injEq, true_and] at hr
    by_cases hvw : v.length ≤ w.length
    · rw [if_pos hvw, fill_spaces_slot w x v.length hvw (fun hd => (hwb _ hd).1 rfl) hx] at hr
      -- the slot after the rewrite
      have hslot : strncpy v v.length ++ (List.replicate (w.length + 1 - v.length) SVN_UTF8_SPACE
            ++ [SVN_UTF8_DOLLAR])
          = (strncpy v v.length ++ List.replicate (w.length - v.length) SVN_UTF8_SPACE)
            ++ [SVN_UTF8_SPACE, SVN_UTF8_DOLLAR] := by
        rw [show w.length + 1 - v.length = (w.length - v.length) + 1 by omega,
          List.replicate_succ']
        simp
      have hw'l : (strncpy v v.length ++ List.replicate (w.length - v.length)
          SVN_UTF8_SPACE).length = w.length := by
        simp only [List.length_append, length_strncpy, List.length_replicate]
        omega
      have hw'b : ∀ c ∈ strncpy v v.length ++ List.replicate (w.length - v.length)
          SVN_UTF8_SPACE, c ≠ SVN_UTF8_DOLLAR ∧ c ≠ SVN_UTF8_CR ∧ c ≠ SVN_UTF8_NEWLINE := by
        intro c hc
        rcases List.mem_append.mp hc with hc | hc
        · exact hcopy _ c hc
        · rw [List.eq_of_mem_replicate hc]; decide
      have hr2 := translate_keyword_fixed K n v
        (strncpy v v.length ++ List.replicate (w.length - v.length) SVN_UTF8_SPACE)
        SVN_UTF8_SPACE true hn0 hnc hv (by
          intro hnil
          have := congrArg List.length hnil
          rw [hw'l] at this
          simp only [List.length_nil] at this
          omega) (Or.inl rfl) (by rw [hw'l]; exact hwl)
      simp only [if_true] at hr2
      rw [hw'l, if_pos hvw, fill_spaces_slot _ SVN_UTF8_SPACE v.length (by rw [hw'l]; exact hvw)
        (fun hd => (hw'b _ hd).1 rfl) (Or.inl rfl), hw'l] at hr2
      have hreq : r = SVN_UTF8_DOLLAR :: (n ++ SVN_UTF8_COLON :: SVN_UTF8_COLON ::
          SVN_UTF8_SPACE :: ((strncpy v v.length ++ List.replicate (w.length - v.length)
            SVN_UTF8_SPACE) ++ [SVN_UTF8_SPACE, SVN_UTF8_DOLLAR])) := by
        rw [hr, ← hslot]
        simp
      refine ⟨n ++ SVN_UTF8_COLON :: SVN_UTF8_COLON :: SVN_UTF8_SPACE ::
        ((strncpy v v.length ++ List.replicate (w.length - v.length) SVN_UTF8_SPACE)
          ++ [SVN_UTF8_SPACE]), ?_, ?_, ?_, ?_⟩
      · rw [hreq]; simp
      · intro c hcm
        simp only [List.mem_append, List.mem_cons, List.mem_singleton, List.not_mem_nil,
          or_false] at hcm
        rcases hcm with hcm | rfl | rfl | rfl | (hcm | hcm) | rfl
        · exact hnb c hcm
        · decide
        · decide
        · decide
        · exact hcopy _ c hcm
        · rw [List.eq_of_mem_replicate hcm]; decide
        · decide
      · have := hw'l
        simp only [List.length_append, List.length_cons, List.length_nil] at this ⊢
        unfold SVN_KEYWORD_MAX_LEN at hwl ⊢
        omega
      · rw [hreq, hr2, ← hslot]
        simp
    · rw [if_neg hvw] at hr
      have hr2 := translate_keyword_fixed K n v (strncpy v w.length) SVN_UTF8_POUND true hn0 hnc
        hv (by
          intro hnil
          have := congrArg List.length hnil
          rw [length_strncpy] at this
          simp only [List.length_nil] at this
          omega) (Or.inr rfl) (by rw [length_strncpy]; exact hwl)
      simp only [if_true] at hr2
      rw [length_strncpy, if_neg hvw] at hr2
      have hreq : r = SVN_UTF8_DOLLAR :: (n ++ SVN_UTF8_COLON :: SVN_UTF8_COLON ::
          SVN_UTF8_SPACE :: (strncpy v w.length ++ [SVN_UTF8_POUND, SVN_UTF8_DOLLAR])) := by
        rw [hr]
        simp
      refine ⟨n ++ SVN_UTF8_COLON :: SVN_UTF8_COLON :: SVN_UTF8_SPACE ::
        (strncpy v w.length ++ [SVN_UTF8_POUND]), ?_, ?_, ?_, ?_⟩
      · rw [hreq]; simp
      · intro c hcm
        simp only [List.mem_append, List.mem_cons, List.mem_singleton, List.not_mem_nil,
          or_false] at hcm
        rcases hcm with hcm | rfl | rfl | rfl | hcm | rfl
        · exact hnb c hcm
        · decide
        · decide
        · decide
        · exact hcopy _ c hcm
        · decide
      · simp only [List.length_append, List.length_cons, List.length_nil, length_strncpy]
        unfold SVN_KEYWORD_MAX_LEN at hwl ⊢
        omega
      · rw [hreq, hr2]
        simp
  · -- unexpanded
    rw [getD_frame_zero, getD_frame] at hc
    have ht' : t = [SVN_UTF8_DOLLAR] ∨ t = [SVN_UTF8_COLON, SVN_UTF8_DOLLAR] := by
      rcases ht with ht | ⟨hhd, h2⟩
      · exact Or.inl ht
      · right
        match t, h2 with
        | a :: b :: rest, _ =>
          simp only [List.head?_cons, Option.some.injEq] at hhd
          subst hhd
          simp only [List.getD_cons_zero, List.getD_cons_succ] at hc
          rcases hc with hc | hc
          · exact absurd hc (by decide)
          · have hb := hc.2
            subst hb
            cases rest with
            | nil => rfl
            | cons y ys =>
              exfalso
              have := htb SVN_UTF8_DOLLAR (by
                rw [show SVN_UTF8_COLON :: SVN_UTF8_DOLLAR :: y :: ys
                  = [SVN_UTF8_COLON, SVN_UTF8_DOLLAR] ++ (y :: ys) from rfl,
                  List.dropLast_append_of_ne_nil _ (by simp)]
                simp)
              exact this.1 rfl
    have hr := translate_keyword_subst_expand n t v ht' (by unfold SVN_KEYWORD_MAX_LEN; omega)
    rw [hsub] at hr
    simp only [Option.some.injEq, Prod.mk.injEq, true_and] at hr
    have hm : min v.length (SVN_KEYWORD_MAX_LEN - 5 - n.length) = v.length := by
      unfold SVN_KEYWORD_MAX_LEN
      omega
    rw [hm] at hr
    exact hexp hr
  · -- expanded
    obtain ⟨c0, c1, c2, c3⟩ := hc
    rw [getD_frame_zero] at c1
    rw [getD_frame] at c2
    rw [hlen] at c0
    rw [getD_len_sub_two n t _ _ (by omega)] at c3
    have hr := translate_keyword_subst_reexpand n t v c1 c2 c3 (by omega) hlast hl
    rw [hsub] at hr
    simp only [Option.some.injEq, Prod.mk.injEq, true_and] at hr
    have hm : min v.length (SVN_KEYWORD_MAX_LEN - 5) = v.length := by
      unfold SVN_KEYWORD_MAX_LEN
      omega
    rw [hm] at hr
    exact hexp hr

/-- C38: expansion is idempotent for well-formed values. For every keyword set in
which each value v bound to a name n contains no `$`, CR or LF and satisfies
|v| + |n| + 5 <= KW_MAX, every repair flag and every byte sequence, in any
chunking, without an EOL target: the translation with expand on succeeds, and
the translation of its output with expand on succeeds and gives that output
again. -/
theorem translate_stream_expand_idempotent (K : apr_hash_t)
    (hK : ∀ kv ∈ K,
      (∀ c ∈ kv.2, c ≠ SVN_UTF8_DOLLAR ∧ c ≠ SVN_UTF8_CR ∧ c ≠ SVN_UTF8_NEWLINE) ∧
      kv.2.length + kv.1.length + 5 ≤ SVN_KEYWORD_MAX_LEN)
    (repair : Bool) (chunks : List (List Byte)) :
    ∃ out, translate_stream none repair (some K) true chunks = some (SVN_NO_ERROR, out) ∧
      translate_stream none repair (some K) true [out] = some (SVN_NO_ERROR, out) := by
  have hfp : rewrite_stable (create_translation_baton none repair (some K) true).keywords
      true := by
    cases K with
    | nil =>
      intro held r _ _ h
      exact absurd h (translate_keyword_none _ _ _)
    | cons p l =>
      have : (create_translation_baton none repair (some (p :: l)) true).keywords
          = some (p :: l) := by
        simp [create_translation_baton, apr_hash_count]
      rw [this]
      exact translate_keyword_expand_stable (p :: l) hK
  refine ⟨_, translate_stream_kw repair (some K) true chunks, ?_⟩
  rw [translate_stream_kw]
  simp only [List.flatten_cons, List.flatten_nil, List.append_nil]
  rw [kw_run_idempotent _ true hfp]

/-- The set with Rev bound to `42` and a content with an unexpanded, an expanded
and a fixed-length keyword: its translation is translated to itself. -/
theorem translate_stream_expand_idempotent_witness :
    translate_stream none false (some [(ascii "Rev", ascii "42")]) true
        [ascii "$Rev$ $Rev: old $ $Rev:: 1234 $"]
      = some (SVN_NO_ERROR, ascii "$Rev: 42 $ $Rev: 42 $ $Rev:: 42   $") ∧
    ∃ out, translate_stream none false (some [(ascii "Rev", ascii "42")]) true
        [ascii "$Rev$ $Rev: old $ $Rev:: 1234 $"] = some (SVN_NO_ERROR, out) ∧
      translate_stream none false (some [(ascii "Rev", ascii "42")]) true [out]
        = some (SVN_NO_ERROR, out) :=
  ⟨by decide, translate_stream_expand_idempotent [(ascii "Rev", ascii "42")] (by decide) false
    [ascii "$Rev$ $Rev: old $ $Rev:: 1234 $"]⟩

/-! ## Rewrites that stay within the keyword buffer -/

/-- When the values fit, a rewrite of a held run and its closing `$` has at most
`SVN_KEYWORD_MAX_LEN` bytes: no store of the substitutor goes past
`keyword_buf`. -/
theorem translate_keyword_fits (held : List Byte) (hh : kw_held held) (hne : held ≠ [])
    (e : Bool) (K : apr_hash_t) (hfit : values_fit (some K) e) (r : List Byte)
    (h : translate_keyword (held ++ [SVN_UTF8_DOLLAR]) e (some K) = some (true, r)) :
    r.length ≤ SVN_KEYWORD_MAX_LEN := by
  cases e with
  | false =>
    obtain ⟨w, hr, -, hl, -⟩ := translate_keyword_contract_fixed_point held hh hne K r h
    rw [hr]
    simp only [List.length_cons, List.length_append, List.length_nil]
    omega
  | true =>
    obtain ⟨n, t, v, hs, hn0, hnc, hv, ht, hlast, hl, hnb, htb, hsub⟩ :=
      translate_keyword_true_frame held hh hne true K r h
    simp only [if_true] at hsub
    have hmem : (n, v) ∈ K := by
      apply mem_of_lookup
      have := hv
      unfold apr_hash_get at this
      rwa [cstr_of_no_nul n hn0] at this
    have hvl := hfit rfl (n, v) (by simpa using hmem)
    simp only at hvl
    unfold SVN_KEYWORD_MAX_LEN at hvl hl ⊢
    have hlen : (SVN_UTF8_DOLLAR :: (n ++ t)).length = n.length + t.length + 1 := by simp
    obtain ⟨-, -, hc⟩ := translate_keyword_subst_true_cases _ _ _ _ _ hsub
    rcases hc with hc | hc | hc
    · obtain ⟨c0, c1, c2, c3, c4⟩ := hc
      rw [getD_frame_zero] at c0
      rw [getD_frame] at c1 c2
      rw [getD_len_sub_two n t _ _ (by rw [hlen] at c4; omega)] at c3
      obtain ⟨w, x, htw, hw, hx⟩ := fixed_shape t c0 c1 c2 c3 (by rw [hlen] at c4; omega) hlast
      subst htw
      have hwl : n.length + w.length + 6 ≤ SVN_KEYWORD_MAX_LEN := by
        simp only [List.length_cons, List.length_append, List.length_nil] at hl
        unfold SVN_KEYWORD_MAX_LEN; omega
      have hr := translate_keyword_subst_fixed n w x (some v) hw hx hwl
      rw [hsub] at hr
      simp only [Option.some.injEq, Prod.mk.injEq, true_and] at hr
      unfold SVN_KEYWORD_MAX_LEN at hwl
      rw [hr]
      by_cases hvw : v.length ≤ w.length
      · rw [if_pos hvw]
        simp only [List.length_cons, List.length_append, List.length_nil, length_strncpy,
          fill_spaces_length, List.length_drop]
        omega
      · rw [if_neg hvw]
        simp only [List.length_cons, List.length_append, List.length_nil, length_strncpy]
        omega
    · rw [getD_frame_zero, getD_frame] at hc
      have ht' : t = [SVN_UTF8_DOLLAR] ∨ t = [SVN_UTF8_COLON, SVN_UTF8_DOLLAR] := by
        rcases ht with ht | ⟨hhd, h2⟩
        · exact Or.inl ht
        · right
          match t, h2 with
          | a :: b :: rest, _ =>
            simp only [List.head?_cons, Option.some.injEq] at hhd
            subst hhd
            simp only [List.getD_cons_zero, List.getD_cons_succ] at hc
            rcases hc with hc | hc
            · exact absurd hc (by decide)
            · have hb := hc.2
              subst hb
              cases rest with
              | nil => rfl
              | cons y ys =>
                exfalso
                have := htb SVN_UTF8_DOLLAR (by
                  rw [show SVN_UTF8_COLON :: SVN_UTF8_DOLLAR :: y :: ys
                    = [SVN_UTF8_COLON, SVN_UTF8_DOLLAR] ++ (y :: ys) from rfl,
                    List.dropLast_append_of_ne_nil _ (by simp)]
                  simp)
                exact this.1 rfl
      have hr := translate_keyword_subst_expand n t v ht' (by unfold SVN_KEYWORD_MAX_LEN; omega)
      rw [hsub] at hr
      simp only [Option.some.injEq, Prod.mk.injEq, true_and] at hr
      rw [hr]
      unfold SVN_KEYWORD_MAX_LEN
      split_ifs
      · simp only [List.length_cons, List.length_append, List.length_nil, length_strncpy]
        omega
      · simp only [List.length_cons, List.length_append, List.length_nil]
        omega
    · obtain ⟨c0, c1, c2, c3⟩ := hc
      rw [getD_frame_zero] at c1
      rw [getD_frame] at c2
      rw [hlen] at c0
      rw [getD_len_sub_two n t _ _ (by omega)] at c3
      have hr := translate_keyword_subst_reexpand n t v c1 c2 c3 (by omega) hlast
        (by unfold SVN_KEYWORD_MAX_LEN; exact hl)
      rw [hsub] at hr
      simp only [Option.some.injEq, Prod.mk.injEq, true_and] at hr
      rw [hr]
      unfold SVN_KEYWORD_MAX_LEN
      split_ifs
      · simp only [List.length_cons, List.length_append, List.length_nil, length_strncpy]
        omega
      · simp only [List.length_cons, List.length_append, List.length_nil]
        omega

end Subst
